import Mathlib

/-!
Hash table `ac::HashTbl`, dynamic array `sc::vector`, the searches and sorts of
namespace `sa` and the doubly linked list `sc::list`: a shallow embedding of
`hash-table/source/include/hashtbl.inl`, `vector/source/vector.h`,
`algoritmos-de-busca/code/src/searching.cpp`,
`algoritmos-de-ordenacao/source/lib/sorting.h` and
`list/source/include/list.h`, followed by the properties proved about them.

Modelling conventions, used throughout:

* `size_type` values and the `int` loop counters of the source are natural
  numbers.  The source agrees with this as long as no bucket array or buffer
  has `2^31` cells or more (the range of the `int` counters `auto i{0}`) and
  `find_next_prime` is not called with `46337² = 2147117569` or more, which a
  rehash does from `1073558785` buckets on: there `prime` forms a product
  `i * i` above `INT_MAX`.  `prime_checked`, `find_next_prime_checked`,
  `HashTbl.ctor_checked` and `rehash_checked` follow the `int` counter of
  `prime` past this bound, and `equal_loop` follows the `int` counter of the
  `operator==` of the vector.
* A C++ array `new X[n]` is a list of length `n`; a `std::forward_list` is a
  list whose head is the front of the chain.
* `KeyEqual` is equality of keys (`std::equal_to`, the default argument);
  `KeyHash` and the `float` arithmetic of the load factor are parameters.
  `float_params` gives the load test the arithmetic of the source: `float` is
  IEEE 754 binary32, an operation is rounded to the nearest value, a tie to
  the even one, and `m_count > m_size * m_max_load_factor` converts the two
  `size_type` operands to `float` and is evaluated in `float`.
* Arguments are values: a reference argument that designates a cell of the
  container it is passed to is outside the model.
* The operators `==` and `!=` of the element type of a vector are equality and
  its negation.
* The sorts work on an array given as a list, with pointers as offsets into
  it; a run ends with the array, with the position of a read or write outside
  the array, or with its rounds used up.  The `int` that `shell` and `merge`
  make of `last - first` has 32 bits.
* The nodes of the linked lists live in a heap, a list of cells addressed by
  position; a deleted node leaves its cell empty.
-/

set_option autoImplicit false

namespace ac

/-! ## Data model (hashtbl.h) -/

/-- One table entry: a key with its data (`struct HashEntry`, hashtbl.h:31-55). -/
structure HashEntry (K V : Type) where
  m_key : K
  m_data : V
  deriving DecidableEq

/-- The private members of `class HashTbl` (hashtbl.h:253-259).  `m_table` is
the array of collision lists; `F` stands for the type `float` of the load
factor. -/
structure HashTbl (K V F : Type) where
  m_size : Nat
  m_count : Nat
  m_max_load_factor : F
  m_table : List (List (HashEntry K V))

/-- What the class takes from outside: the functor `KeyHash`, the `float`
literal `1.0` and the `float` comparison `m_count > m_size * m_max_load_factor`
(`exceeds count size mlf`).  Nothing is assumed about the comparison. -/
structure Params (K F : Type) where
  hash : K → Nat
  one : F
  exceeds : Nat → Nat → F → Bool

/-- The collision list `m_table[i]`. -/
def bucket {E : Type} (tb : List (List E)) (i : Nat) : List E :=
  tb.getD i []

/-- The call `m_table[pos].push_front(e)`. -/
def push_front {E : Type} (tb : List (List E)) (pos : Nat) (e : E) : List (List E) :=
  tb.set pos (e :: bucket tb pos)

/-- All entries of the table, bucket after bucket. -/
def entries {K V F : Type} (t : HashTbl K V F) : List (HashEntry K V) :=
  t.m_table.flatten

/-- All keys of the table, bucket after bucket. -/
def keys {K V F : Type} (t : HashTbl K V F) : List K :=
  (entries t).map HashEntry.m_key

/-! ## Prime sizing (hashtbl.inl:236-270) -/

/-- The loop `for (auto i{5}; i * i <= n_; i += 6)` of `prime`.  The first
argument bounds the number of iterations; `prime` passes `n_`, which the loop
cannot use up since `i` grows at every round and stays below `n_`. -/
def prime_loop : Nat → Nat → Nat → Bool
  | 0, _, _ => true
  | fuel + 1, i, n_ =>
    if i * i ≤ n_ then
      if n_ % i = 0 ∨ n_ % (i + 2) = 0 then false
      else prime_loop fuel (i + 6) n_
    else true

/-- The function `HashTbl::prime` (hashtbl.inl:248-270). -/
def prime (n_ : Nat) : Bool :=
  if n_ ≤ 1 then false
  else if n_ ≤ 3 then true
  else if n_ % 2 = 0 ∨ n_ % 3 = 0 then false
  else prime_loop n_ 5 n_

/-- The loop `while (!prime(n_)) ++n_;` of `find_next_prime`, with a bound on
the number of increments. -/
def find_next_prime_loop : Nat → Nat → Nat
  | 0, n_ => n_
  | fuel + 1, n_ => if prime n_ then n_ else find_next_prime_loop fuel (n_ + 1)

/-- The function `HashTbl::find_next_prime` (hashtbl.inl:236-245).  The loop
is given `n_ + 2` increments: a prime lies in `[n_, 2 * n_]` for `n_ ≥ 1`, and
`2` follows `0` and `1`. -/
def find_next_prime (n_ : Nat) : Nat :=
  find_next_prime_loop (n_ + 2) n_

/-! ## Operations (hashtbl.inl) -/

/-- The regular constructor `HashTbl(size_type sz)` (hashtbl.inl:5-14). -/
def HashTbl.ctor {K V F : Type} (P : Params K F) (sz : Nat) : HashTbl K V F :=
  { m_size := find_next_prime sz
    m_count := 0
    m_table := List.replicate (find_next_prime sz) []
    m_max_load_factor := P.one }

/-- The setter `max_load_factor(float mlf)` (hashtbl.h:206). -/
def set_max_load_factor {K V F : Type} (t : HashTbl K V F) (mlf : F) : HashTbl K V F :=
  { t with m_max_load_factor := mlf }

/-- The scan shared by `retrieve`, `at` and `operator[]`: the data of the first
entry of the list whose key equals `key_`. -/
def find_data {K V : Type} [DecidableEq K] (key_ : K) : List (HashEntry K V) → Option V
  | [] => none
  | entry :: rest =>
    if entry.m_key = key_ then some entry.m_data else find_data key_ rest

/-- The scan of `insert` (hashtbl.inl:118-126): the data of the first entry
whose key equals `key_` is replaced; `none` when the loop ends without a
match. -/
def overwrite {K V : Type} [DecidableEq K] (key_ : K) (new_data_ : V) :
    List (HashEntry K V) → Option (List (HashEntry K V))
  | [] => none
  | entry :: rest =>
    if entry.m_key = key_ then some ({ entry with m_data := new_data_ } :: rest)
    else (overwrite key_ new_data_ rest).map (fun l => entry :: l)

/-- The scan of `erase` (hashtbl.inl:219-231): the first entry whose key equals
`key_` is unlinked (`erase_after(prev)`); `none` when the loop ends without a
match. -/
def erase_scan {K V : Type} [DecidableEq K] (key_ : K) :
    List (HashEntry K V) → Option (List (HashEntry K V))
  | [] => none
  | entry :: rest =>
    if entry.m_key = key_ then some rest
    else (erase_scan key_ rest).map (fun l => entry :: l)

/-- The two nested loops of `rehash` (hashtbl.inl:191-198): every entry of
every old bucket `0 .. m_size-1`, in order, is pushed to the front of its new
bucket in `aux`. -/
def redistribute {K V F : Type} (P : Params K F) (new_size : Nat) (m_size : Nat)
    (m_table : List (List (HashEntry K V))) (aux : List (List (HashEntry K V))) :
    List (List (HashEntry K V)) :=
  (List.range m_size).foldl
    (fun aux i =>
      (bucket m_table i).foldl
        (fun aux entry => push_front aux (P.hash entry.m_key % new_size) entry) aux)
    aux

/-- The function `HashTbl::rehash` (hashtbl.inl:180-207). -/
def rehash {K V F : Type} (P : Params K F) (t : HashTbl K V F) : HashTbl K V F :=
  let new_size := find_next_prime (t.m_size * 2)
  let aux_count := t.m_count
  let aux := redistribute P new_size t.m_size t.m_table (List.replicate new_size [])
  { t with m_size := new_size, m_table := aux, m_count := aux_count }

/-- The function `HashTbl::insert` (hashtbl.inl:109-137): the new table and the
returned flag. -/
def insert {K V F : Type} [DecidableEq K] (P : Params K F) (t : HashTbl K V F)
    (key_ : K) (new_data_ : V) : HashTbl K V F × Bool :=
  let end_ := P.hash key_ % t.m_size
  match overwrite key_ new_data_ (bucket t.m_table end_) with
  | some b => ({ t with m_table := t.m_table.set end_ b }, false)
  | none =>
    let t1 : HashTbl K V F :=
      { t with m_table := push_front t.m_table end_ ⟨key_, new_data_⟩
               m_count := t.m_count + 1 }
    (if P.exceeds t1.m_count t1.m_size t1.m_max_load_factor then rehash P t1 else t1, true)

/-- The function `HashTbl::clear` (hashtbl.inl:139-147). -/
def clear {K V F : Type} (t : HashTbl K V F) : HashTbl K V F :=
  { t with m_table := (List.range t.m_size).foldl (fun tb i => tb.set i []) t.m_table
           m_count := 0 }

/-- The function `HashTbl::empty` (hashtbl.inl:149-154). -/
def empty {K V F : Type} (t : HashTbl K V F) : Bool :=
  t.m_count == 0

/-- The accessor `HashTbl::size` (hashtbl.h:167). -/
def size {K V F : Type} (t : HashTbl K V F) : Nat :=
  t.m_count

/-- The function `HashTbl::retrieve` (hashtbl.inl:156-177): the returned flag
and the content of `data_item_` after the call. -/
def retrieve {K V F : Type} [DecidableEq K] (P : Params K F) (t : HashTbl K V F)
    (key_ : K) (data_item_ : V) : Bool × V :=
  match find_data key_ (bucket t.m_table (P.hash key_ % t.m_size)) with
  | some d => (true, d)
  | none => (false, data_item_)

/-- The function `HashTbl::erase` (hashtbl.inl:209-234): the new table and the
returned flag.  `--m_count` is the predecessor: an entry was found, so the
counter of a table built by the class is not zero. -/
def erase {K V F : Type} [DecidableEq K] (P : Params K F) (t : HashTbl K V F)
    (key_ : K) : HashTbl K V F × Bool :=
  let pos := P.hash key_ % t.m_size
  match erase_scan key_ (bucket t.m_table pos) with
  | some b => ({ t with m_table := t.m_table.set pos b, m_count := t.m_count - 1 }, true)
  | none => (t, false)

/-- The function `HashTbl::operator[]` (hashtbl.inl:309-339): the new table and
the data the returned reference designates.  `default` is `DataType()`. -/
def operator_brackets {K V F : Type} [DecidableEq K] [Inhabited V] (P : Params K F)
    (t : HashTbl K V F) (key_ : K) : HashTbl K V F × V :=
  let pos := P.hash key_ % t.m_size
  match find_data key_ (bucket t.m_table pos) with
  | some d => (t, d)
  | none =>
    let t1 : HashTbl K V F := { t with m_count := t.m_count + 1 }
    let t2 := if P.exceeds t1.m_count t1.m_size t1.m_max_load_factor then rehash P t1 else t1
    let pos := P.hash key_ % t2.m_size
    ({ t2 with m_table := push_front t2.m_table pos ⟨key_, default⟩ }, default)

/-- The states of a table an owner can observe: built by the constructor and
changed by the mutating members.  The copy constructor and the copy assignment
yield a state equal to their source; the initializer-list constructor and
assignment are a constructor or `clear`, `max_load_factor(1.0)` and a run of
`insert`; a write through the reference returned by `at` or `operator[]` yields
the state `insert` yields for a key that is present. -/
inductive Reachable {K V F : Type} [DecidableEq K] [Inhabited V] (P : Params K F) :
    HashTbl K V F → Prop
  | ctor (sz : Nat) : Reachable P (HashTbl.ctor P sz)
  | insert (t : HashTbl K V F) (key_ : K) (new_data_ : V) :
      Reachable P t → Reachable P (insert P t key_ new_data_).1
  | operator_brackets (t : HashTbl K V F) (key_ : K) :
      Reachable P t → Reachable P (operator_brackets P t key_).1
  | erase (t : HashTbl K V F) (key_ : K) :
      Reachable P t → Reachable P (erase P t key_).1
  | clear (t : HashTbl K V F) : Reachable P t → Reachable P (clear t)
  | rehash (t : HashTbl K V F) : Reachable P t → Reachable P (rehash P t)
  | set_max_load_factor (t : HashTbl K V F) (mlf : F) :
      Reachable P t → Reachable P (set_max_load_factor t mlf)

end ac

namespace ac

/-- Shape of the bucket array of a table built by the class: `m_size` buckets,
at least one; every entry sits in the bucket its key hashes to; no key occurs
twice. -/
structure TableInv {K V F : Type} (P : Params K F) (t : HashTbl K V F) : Prop where
  len : t.m_table.length = t.m_size
  pos : 0 < t.m_size
  idx : ∀ i e, e ∈ bucket t.m_table i → P.hash e.m_key % t.m_size = i
  nodup : (keys t).Nodup

/-- Invariant of a table between two calls: the shape of the bucket array, and
the counter `m_count` is the number of entries. -/
structure Inv {K V F : Type} (P : Params K F) (t : HashTbl K V F)
    extends TableInv P t : Prop where
  cnt : t.m_count = (entries t).length

end ac

/-! ## A concrete instance -/

namespace ac

/-- Keys and data are numbers, a key is its own hash value, and the load factor
is a whole number: the table rehashes when `count > size * mlf`. -/
def sample_params : Params Nat Nat :=
  { hash := fun k => k
    one := 1
    exceeds := fun count size mlf => decide (count > size * mlf) }

/-- The table `HashTbl(2)` after `insert(1, 10)` and `insert(2, 20)`: two
buckets, both in use, so that a third key makes the table rehash. -/
def sample_table : HashTbl Nat Nat Nat :=
  (insert sample_params (insert sample_params (HashTbl.ctor sample_params 2) 1 10).1 2 20).1

end ac

/-! ## Checked access, copies and assignments (hashtbl.inl) -/

namespace ac

/-- The exception `std::out_of_range` thrown by `at` (called `KeyNotFound` in
the specification). -/
inductive Exception
  | out_of_range
  deriving DecidableEq

/-- The function `HashTbl::at` (hashtbl.inl:290-307): the table after the call
and either the data the returned reference designates or the exception
thrown.  The body writes nothing, so the table is the one it was called on. -/
def at_ {K V F : Type} [DecidableEq K] (P : Params K F) (t : HashTbl K V F) (key_ : K) :
    HashTbl K V F × Except Exception V :=
  match find_data key_ (bucket t.m_table (P.hash key_ % t.m_size)) with
  | some d => (t, .ok d)
  | none => (t, .error .out_of_range)

/-- The loop `for (auto i{0}; i < m_size; ++i) m_table[i] = source.m_table[i];`
of the copy constructor and of the copy assignment. -/
def copy_lists {E : Type} (m_size : Nat) (source : List (List E)) (m_table : List (List E)) :
    List (List E) :=
  (List.range m_size).foldl (fun tb i => tb.set i (bucket source i)) m_table

/-- The copy constructor `HashTbl(const HashTbl&)` (hashtbl.inl:16-29). -/
def HashTbl.copy {K V F : Type} (source : HashTbl K V F) : HashTbl K V F :=
  { m_size := source.m_size
    m_count := source.m_count
    m_max_load_factor := source.m_max_load_factor
    m_table := copy_lists source.m_size source.m_table (List.replicate source.m_size []) }

/-- The constructor `HashTbl(const std::initializer_list<entry_type>&)`
(hashtbl.inl:31-44). -/
def HashTbl.ctor_ilist {K V F : Type} [DecidableEq K] (P : Params K F)
    (ilist : List (HashEntry K V)) : HashTbl K V F :=
  ilist.foldl (fun t e => (insert P t e.m_key e.m_data).1)
    { m_size := find_next_prime ilist.length
      m_count := 0
      m_table := List.replicate (find_next_prime ilist.length) []
      m_max_load_factor := P.one }

/-- The copy assignment `operator=(const HashTbl& clone)` (hashtbl.inl:46-72)
from another table.  (Assigning a table to itself returns at once and leaves
it as it is.) -/
def operator_assign {K V F : Type} (t clone : HashTbl K V F) : HashTbl K V F :=
  let t1 := clear t
  let t2 : HashTbl K V F :=
    if clone.m_size ≠ t1.m_size then
      { t1 with m_size := clone.m_size, m_table := List.replicate clone.m_size [] }
    else t1
  { t2 with m_max_load_factor := clone.m_max_load_factor
            m_count := clone.m_count
            m_table := copy_lists t2.m_size clone.m_table t2.m_table }

/-- The assignment `operator=(const std::initializer_list<entry_type>&)`
(hashtbl.inl:74-96). -/
def operator_assign_ilist {K V F : Type} [DecidableEq K] (P : Params K F)
    (t : HashTbl K V F) (ilist : List (HashEntry K V)) : HashTbl K V F :=
  let t1 := clear t
  let t2 : HashTbl K V F :=
    if ilist.length ≠ t1.m_size then
      { t1 with m_size := find_next_prime ilist.length
                m_table := List.replicate (find_next_prime ilist.length) [] }
    else t1
  let t3 : HashTbl K V F := { t2 with m_max_load_factor := P.one }
  ilist.foldl (fun t e => (insert P t e.m_key e.m_data).1) t3

/-! ## The `float` arithmetic of the load test -/

/-- A value of the type `float` (IEEE 754 binary32).  The magnitude of a finite
value is a multiple of `2^-149`, the least positive `float`, and `finite neg n`
is the value `± n × 2^-149`; the values of the type are those with
`n = m × 2^j` for some `m < 2^24`, below `2^277` (the magnitude `2^128`). -/
inductive float
  | finite (neg : Bool) (n : Nat)
  | inf (neg : Bool)
  | nan
  deriving DecidableEq

/-- The magnitude `2^128`, in multiples of `2^-149`: a rounded magnitude from
here on is infinite. -/
def float.huge : Nat := 2 ^ 277

/-- The number of binary digits of `x`, counted in at most `fuel` halvings. -/
def digits_loop : Nat → Nat → Nat
  | 0, _ => 0
  | fuel + 1, x => if x = 0 then 0 else digits_loop fuel (x / 2) + 1

/-- The number of binary digits of `x`. -/
def digits (x : Nat) : Nat := digits_loop x x

/-- The quotient `x / 2^k` rounded to the nearest natural number, a tie to the
even one (the rounding of the arithmetic of `float`). -/
def rne (x k : Nat) : Nat :=
  x / 2 ^ k +
    (if 2 ^ k < 2 * (x % 2 ^ k) ∨ (2 * (x % 2 ^ k) = 2 ^ k ∧ (x / 2 ^ k) % 2 = 1) then 1 else 0)

/-- The number of low binary digits the rounding of `x × 2^-(149+s)` to a
`float` drops: what exceeds 24 digits, and at least the `s` digits below
`2^-149`. -/
def shift (x s : Nat) : Nat := max (digits x - 24) s

/-- The magnitude, in multiples of `2^-149`, of the `float` nearest to
`x × 2^-(149+s)`, before the test for overflow. -/
def rnd (x s : Nat) : Nat := rne x (shift x s) * 2 ^ (shift x s - s)

/-- The `float` nearest to `± x × 2^-(149+s)`: infinite from `2^128` on. -/
def float.round (neg : Bool) (x s : Nat) : float :=
  if rnd x s < float.huge then .finite neg (rnd x s) else .inf neg

/-- The conversion of a `size_type` value to `float`. -/
def float.of_size (n : Nat) : float := float.round false (n * 2 ^ 149) 0

/-- The product of two `float`s. -/
def float.mul : float → float → float
  | .finite n1 x1, .finite n2 x2 => float.round (xor n1 n2) (x1 * x2) 149
  | .finite n1 x1, .inf n2 => if x1 = 0 then .nan else .inf (xor n1 n2)
  | .inf n1, .finite n2 x2 => if x2 = 0 then .nan else .inf (xor n1 n2)
  | .inf n1, .inf n2 => .inf (xor n1 n2)
  | _, _ => .nan

/-- The place of a `float` in the order of the values, in multiples of
`2^-149`, the two zeros at the same place; a NaN has none. -/
def float.key : float → Option Int
  | .finite false n => some (n : Int)
  | .finite true n => some (-(n : Int))
  | .inf false => some (float.huge : Int)
  | .inf true => some (-(float.huge : Int))
  | .nan => none

/-- The comparison `a > b` of two `float`s: false when one of them is a
NaN. -/
def float.gt (a b : float) : Bool :=
  match float.key a, float.key b with
  | some x, some y => decide (x > y)
  | _, _ => false

/-- The comparison `a <= b` of two `float`s: false when one of them is a
NaN. -/
def float.le (a b : float) : Bool :=
  match float.key a, float.key b with
  | some x, some y => decide (x ≤ y)
  | _, _ => false

/-- The value `1.0f`, which the constructors store as the load factor
(`m_max_load_factor = 1.0`). -/
def float.one : float := .finite false (2 ^ 149)

/-- The parameters with the arithmetic of the source: the load factor is a
`float`, and `m_count > m_size * m_max_load_factor` (hashtbl.inl:133, 326)
converts the two `size_type` values to `float`, rounds the product to `float`
and compares in `float`. -/
def float_params {K : Type} (hash : K → Nat) : Params K float :=
  { hash := hash
    one := float.one
    exceeds := fun count size mlf =>
      float.gt (float.of_size count) (float.mul (float.of_size size) mlf) }

/-- The bound `count ≤ size × max_load_factor` as the source tests it: the
condition `m_count > m_size * m_max_load_factor`, evaluated in `float`, is
false. -/
def within_load {K V : Type} (t : HashTbl K V float) : Prop :=
  float.gt (float.of_size t.m_count)
    (float.mul (float.of_size t.m_size) t.m_max_load_factor) = false

instance {K V : Type} (t : HashTbl K V float) : Decidable (within_load t) :=
  inferInstanceAs (Decidable (float.gt (float.of_size t.m_count)
    (float.mul (float.of_size t.m_size) t.m_max_load_factor) = false))

/-- The bound `count ≤ size × mlf` in exact arithmetic, `mlf` being the number
(or the infinity) the `float` stands for; a NaN and the product `0 × ∞` give no
bound. -/
def exact_within (count size : Nat) : float → Bool
  | .finite false n => decide (count * 2 ^ 149 ≤ size * n)
  | .finite true n => decide (count * 2 ^ 149 + size * n = 0)
  | .inf false => decide (0 < size)
  | .inf true => false
  | .nan => false

/-- The value `0.125f`. -/
def float.eighth : float := .finite false (2 ^ 146)

/-- The `float` nearest to `1.4`, the value of the literal `1.4f`:
`11744051 × 2^-23 = 1.39999997615814208984375`. -/
def float.one_point_four : float := .finite false (11744051 * 2 ^ 126)

/-- The table `HashTbl(2)` after `max_load_factor(0.125f)`: two buckets and no
entry. -/
def small_load_table : HashTbl Nat Nat float :=
  set_max_load_factor (HashTbl.ctor (float_params fun k => k) 2) float.eighth

/-- The table `HashTbl(2)` after `insert(1, 10)` and `insert(2, 20)` with the
default load factor `1.0f`: two buckets and two entries, so that a third key
makes the table rehash. -/
def full_load_table : HashTbl Nat Nat float :=
  (insert (float_params fun k => k)
    (insert (float_params fun k => k) (HashTbl.ctor (float_params fun k => k) 2) 1 10).1 2 20).1

/-- The table `HashTbl(5)` after `max_load_factor(1.4f)` and `insert(k, 0)` for
the keys `k = 0, ..., 5`: five buckets and six entries. -/
def rounded_load_table : HashTbl Nat Nat float :=
  [0, 1, 2, 3, 4, 5].foldl (fun t k => (insert (float_params fun k => k) t k 0).1)
    (set_max_load_factor (HashTbl.ctor (float_params fun k => k) 5) float.one_point_four)

/-! ## Prime sizing with the `int` counter of `prime` -/

/-- Outcome of a computation that multiplies `int` values: a value, or the
signed overflow of the product `i * i`, at which the behaviour of the program
is undefined. -/
inductive Checked (α : Type)
  | value (a : α)
  | signed_overflow (i : Nat)

/-- The largest value of the type `int` (32 bits): `2^31 - 1`. -/
def INT_MAX : Nat := 2147483647

/-- The loop `for (auto i{5}; i * i <= n_; i += 6)` of `prime`
(hashtbl.inl:262-267), the counter `i` being an `int` as `auto i{5}` declares
it: the product `i * i` is formed in `int` before it is compared with the
`size_type` value `n_`.  The sums `i + 2` and `i += 6` stay in range, since the
product of the same `i` did.  The first argument bounds the number of
iterations, as in `prime_loop`. -/
def prime_loop_checked : Nat → Nat → Nat → Checked Bool
  | 0, _, _ => .value true
  | fuel + 1, i, n_ =>
    if INT_MAX < i * i then .signed_overflow i
    else if i * i ≤ n_ then
      if n_ % i = 0 ∨ n_ % (i + 2) = 0 then .value false
      else prime_loop_checked fuel (i + 6) n_
    else .value true

/-- The function `HashTbl::prime` (hashtbl.inl:248-270) with the `int` counter
of its loop. -/
def prime_checked (n_ : Nat) : Checked Bool :=
  if n_ ≤ 1 then .value false
  else if n_ ≤ 3 then .value true
  else if n_ % 2 = 0 ∨ n_ % 3 = 0 then .value false
  else prime_loop_checked n_ 5 n_

/-- The loop `while (!prime(n_)) ++n_;` of `find_next_prime` over
`prime_checked`, with a bound on the number of increments. -/
def find_next_prime_loop_checked : Nat → Nat → Checked Nat
  | 0, n_ => .value n_
  | fuel + 1, n_ =>
    match prime_checked n_ with
    | .value true => .value n_
    | .value false => find_next_prime_loop_checked fuel (n_ + 1)
    | .signed_overflow i => .signed_overflow i

/-- The function `HashTbl::find_next_prime` (hashtbl.inl:236-245) over
`prime_checked`. -/
def find_next_prime_checked (n_ : Nat) : Checked Nat :=
  find_next_prime_loop_checked (n_ + 2) n_

/-- The regular constructor `HashTbl(size_type sz)` (hashtbl.inl:5-14) over
`find_next_prime_checked`. -/
def HashTbl.ctor_checked {K V F : Type} (P : Params K F) (sz : Nat) :
    Checked (HashTbl K V F) :=
  match find_next_prime_checked sz with
  | .value m_size =>
    .value { m_size := m_size
             m_count := 0
             m_table := List.replicate m_size []
             m_max_load_factor := P.one }
  | .signed_overflow i => .signed_overflow i

/-- The function `HashTbl::rehash` (hashtbl.inl:180-207) over
`find_next_prime_checked`. -/
def rehash_checked {K V F : Type} (P : Params K F) (t : HashTbl K V F) :
    Checked (HashTbl K V F) :=
  match find_next_prime_checked (t.m_size * 2) with
  | .value new_size =>
    let aux_count := t.m_count
    let aux := redistribute P new_size t.m_size t.m_table (List.replicate new_size [])
    .value { t with m_size := new_size, m_table := aux, m_count := aux_count }
  | .signed_overflow i => .signed_overflow i

end ac

/-! # Dynamic array `sc::vector` (vector.h) -/

namespace sc

/-! ## Data model -/

/-- The two exceptions the class throws: `std::length_error` (called
`EmptyContainer` in the specification) and `std::out_of_range` (called
`InvalidPosition`, `InvalidRange` and `IndexOutOfRange` there). -/
inductive Exception
  | length_error
  | out_of_range
  deriving DecidableEq

/-- The private members of `class vector` (vector.h:927-930).  `m_storage` is
the buffer `new T[m_capacity]`, cell by cell. -/
structure vector (T : Type) where
  m_end : Nat
  m_capacity : Nat
  m_storage : List T
  deriving DecidableEq

/-- How a call of a member ends: it returns (new state and result), it throws
(exception and the state at the `throw`), or its behaviour is undefined: a cell
outside the buffer is read or written, or a loop of the standard library walks
off its range. -/
inductive Outcome (T α : Type)
  | returned (v : vector T) (r : α)
  | thrown (e : Exception) (v : vector T)
  | undefined
  deriving DecidableEq

/-- Sequencing of two steps of a member body. -/
def Outcome.bind {T α β : Type} (o : Outcome T α) (f : vector T → α → Outcome T β) :
    Outcome T β :=
  match o with
  | .returned v r => f v r
  | .thrown e v => .thrown e v
  | .undefined => .undefined

/-! An iterator (`MyForwardIterator`, a wrapped raw pointer) is the offset of
its pointer from `m_storage`, counted in cells: an integer, negative before the
buffer.  `begin()` is offset `0` and `end()` is offset `m_end`. -/

/-- The iterator `begin()` (vector.h:440). -/
def vector.begin {T : Type} (_v : vector T) : Int := 0

/-- The iterator `end()` (vector.h:446). -/
def vector.end_ {T : Type} (v : vector T) : Int := v.m_end

/-- The accessor `size()` (vector.h:466). -/
def vector.size {T : Type} (v : vector T) : Nat := v.m_end

/-- The accessor `capacity()` (vector.h:472). -/
def vector.capacity {T : Type} (v : vector T) : Nat := v.m_capacity

/-- The accessor `empty()` (vector.h:478). -/
def vector.empty {T : Type} (v : vector T) : Bool := v.m_end == 0

/-- The private `full()` (vector.h:877). -/
def vector.full {T : Type} (v : vector T) : Bool := v.m_end == v.m_capacity

/-- The live elements: the cells `0 .. m_end-1` of the buffer. -/
def vector.live {T : Type} (v : vector T) : List T := v.m_storage.take v.m_end

/-- A vector between two calls: the buffer has `m_capacity` cells and
`m_end ≤ m_capacity`. -/
def vector.Valid {T : Type} (v : vector T) : Prop :=
  v.m_storage.length = v.m_capacity ∧ v.m_end ≤ v.m_capacity

/-! ## Memory and the standard algorithms -/

/-- Reading the cell at offset `p`; `none` outside the buffer. -/
def load {T : Type} (buf : List T) (p : Int) : Option T :=
  if 0 ≤ p then buf[p.toNat]? else none

/-- Writing the cell at offset `p`; `none` outside the buffer. -/
def store {T : Type} (buf : List T) (p : Int) (x : T) : Option (List T) :=
  if 0 ≤ p ∧ p.toNat < buf.length then some (buf.set p.toNat x) else none

/-- The function `std::distance(first, last)` on two `MyForwardIterator`s.  The
class declares `iterator_category = std::bidirectional_iterator_tag`
(vector.h:48-49), so the library counts the steps of
`while (first != last) { ++first; ++n; }`: the result is `last - first` when
`last` is reachable from `first`, and the loop never meets `last` otherwise. -/
def distance (first last : Int) : Option Int :=
  if first ≤ last then some (last - first) else none

/-- The loop of `std::copy` inside one buffer, `n` rounds of
`*d_first++ = *first++`. -/
def copy_loop {T : Type} : Nat → List T → Int → Int → Option (List T)
  | 0, buf, _, _ => some buf
  | n + 1, buf, first, d_first =>
    (load buf first).bind fun x =>
      (store buf d_first x).bind fun buf1 => copy_loop n buf1 (first + 1) (d_first + 1)

/-- The function `std::copy(first, last, d_first)` on iterators of the vector:
the loop runs until `first` meets `last`. -/
def copy {T : Type} (buf : List T) (first last d_first : Int) : Option (List T) :=
  if first ≤ last then copy_loop (last - first).toNat buf first d_first else none

/-- The loop of `std::copy_backward`, `n` rounds of `*--d_last = *--last`. -/
def copy_backward_loop {T : Type} : Nat → List T → Int → Int → Option (List T)
  | 0, buf, _, _ => some buf
  | n + 1, buf, last, d_last =>
    (load buf (last - 1)).bind fun x =>
      (store buf (d_last - 1) x).bind fun buf1 =>
        copy_backward_loop n buf1 (last - 1) (d_last - 1)

/-- The function `std::copy_backward(first, last, d_last)` on iterators of the
vector. -/
def copy_backward {T : Type} (buf : List T) (first last d_last : Int) : Option (List T) :=
  if first ≤ last then copy_backward_loop (last - first).toNat buf last d_last else none

/-- The function `std::copy` from a range `xs` outside the buffer to the cells
from `d_first` on. -/
def copy_in {T : Type} : List T → List T → Int → Option (List T)
  | [], buf, _ => some buf
  | x :: xs, buf, d_first => (store buf d_first x).bind fun buf1 => copy_in xs buf1 (d_first + 1)

/-- The call `std::copy(m_storage, m_storage + n, aux)` of `reserve`: the cells
`i, i+1, ..` of `src`, `n` of them, go to the same cells of the new buffer. -/
def copy_across {T : Type} : Nat → List T → Nat → List T → Option (List T)
  | 0, _, _, aux => some aux
  | n + 1, src, i, aux =>
    (load src i).bind fun x =>
      (store aux i x).bind fun aux1 => copy_across n src (i + 1) aux1

/-! ## Members -/

/-- The constructor `vector(size_type cp)` (vector.h:326-333): `cp` cells set to
`T()`, all of them live. -/
def vector.ctor {T : Type} [Inhabited T] (cp : Nat) : vector T :=
  { m_end := cp, m_capacity := cp, m_storage := List.replicate cp default }

/-- The constructors from an initializer list and from a range
(vector.h:362-384): the buffer is a copy of the elements, all of them live. -/
def vector.of_list {T : Type} (il : List T) : vector T :=
  { m_end := il.length, m_capacity := il.length, m_storage := il }

/-- The function `reserve` (vector.h:616-627).  The cells of the fresh buffer
`new T[new_cap]` hold `T()` here; the source leaves them unspecified for a
scalar `T`, and they lie beyond `m_end` when `reserve` returns. -/
def reserve {T : Type} [Inhabited T] (v : vector T) (new_cap : Nat) : Outcome T Unit :=
  if new_cap > v.m_capacity then
    match copy_across v.m_end v.m_storage 0 (List.replicate new_cap default) with
    | some aux => .returned { v with m_storage := aux, m_capacity := new_cap } ()
    | none => .undefined
  else .returned v ()

/-- The function `push_back` (vector.h:496-502). -/
def push_back {T : Type} [Inhabited T] (v : vector T) (value : T) : Outcome T Unit :=
  (if v.full then reserve v ((v.m_capacity + 1) * 2) else .returned v ()).bind fun v1 _ =>
    match store v1.m_storage v1.m_end value with
    | some buf => .returned { v1 with m_storage := buf, m_end := v1.m_end + 1 } ()
    | none => .undefined

/-- The function `pop_back` (vector.h:508-513). -/
def pop_back {T : Type} (v : vector T) : Outcome T Unit :=
  if v.empty then .thrown .length_error v
  else .returned { v with m_end := v.m_end - 1 } ()

/-- The private `prepare_insertion` (vector.h:887-908): the checks, the growth,
the shift to the right of the cells from `pos_` on, and the returned
iterator. -/
def prepare_insertion {T : Type} [Inhabited T] (v : vector T) (pos_ : Int) (sz : Nat) :
    Outcome T Int :=
  if v.empty ∧ pos_ ≠ v.begin then .thrown .length_error v
  else if pos_ < v.begin ∨ pos_ > v.end_ then .thrown .out_of_range v
  else
    match distance v.begin pos_ with
    | none => .undefined
    | some aux =>
      (if v.m_end + sz > v.m_capacity then reserve v ((v.m_end + sz) * 2)
        else .returned v ()).bind fun v1 _ =>
        match copy_backward v1.m_storage (v1.begin + aux) v1.end_ (v1.end_ + sz) with
        | some buf =>
          .returned { v1 with m_storage := buf, m_end := v1.m_end + sz } (v1.begin + aux)
        | none => .undefined

/-- The function `insert(iterator pos_, const_reference value_)`
(vector.h:556-563). -/
def insert {T : Type} [Inhabited T] (v : vector T) (pos_ : Int) (value_ : T) :
    Outcome T Int :=
  (prepare_insertion v pos_ 1).bind fun v1 pos_ =>
    match store v1.m_storage pos_ value_ with
    | some buf => .returned { v1 with m_storage := buf } pos_
    | none => .undefined

/-- The function `insert(iterator pos_, InputItr first_, InputItr last_)`
(vector.h:524-532); `xs` is the content of the range `[first_, last_)`, which
lies outside the vector. -/
def insert_range {T : Type} [Inhabited T] (v : vector T) (pos_ : Int) (xs : List T) :
    Outcome T Int :=
  (prepare_insertion v pos_ xs.length).bind fun v1 pos_ =>
    match copy_in xs v1.m_storage pos_ with
    | some buf => .returned { v1 with m_storage := buf } pos_
    | none => .undefined

/-- The function `insert(iterator pos_, std::initializer_list<value_type> ilist_)`
(vector.h:585-593). -/
def insert_ilist {T : Type} [Inhabited T] (v : vector T) (pos_ : Int) (ilist_ : List T) :
    Outcome T Int :=
  (prepare_insertion v pos_ ilist_.length).bind fun v1 pos_ =>
    match copy_in ilist_ v1.m_storage pos_ with
    | some buf => .returned { v1 with m_storage := buf } pos_
    | none => .undefined

/-- The function `cbegin()` (vector.h:452): `const_iterator(m_storage)`. -/
def vector.cbegin {T : Type} (_v : vector T) : Int := 0

/-- The function `insert(const_iterator pos_, const_reference value_)`
(vector.h:571-577): `iterator new_pos(m_storage + std::distance(cbegin(), pos_))`,
then the form that takes an `iterator`.  The distance is counted before any
check of `pos_`, and the pointer `m_storage` is the offset `0`. -/
def insert_const {T : Type} [Inhabited T] (v : vector T) (pos_ : Int) (value_ : T) :
    Outcome T Int :=
  match distance v.cbegin pos_ with
  | none => .undefined
  | some d => insert v (0 + d) value_

/-- The function `insert(const_iterator pos_, InputItr first_, InputItr last_)`
(vector.h:542-548). -/
def insert_range_const {T : Type} [Inhabited T] (v : vector T) (pos_ : Int) (xs : List T) :
    Outcome T Int :=
  match distance v.cbegin pos_ with
  | none => .undefined
  | some d => insert_range v (0 + d) xs

/-- The function
`insert(const_iterator pos_, std::initializer_list<value_type> ilist_)`
(vector.h:601-607). -/
def insert_ilist_const {T : Type} [Inhabited T] (v : vector T) (pos_ : Int)
    (ilist_ : List T) : Outcome T Int :=
  match distance v.cbegin pos_ with
  | none => .undefined
  | some d => insert_ilist v (0 + d) ilist_

/-- The function `erase(iterator pos)` (vector.h:746-762). -/
def erase {T : Type} (v : vector T) (pos : Int) : Outcome T Int :=
  if v.empty then .thrown .length_error v
  else if pos < v.begin ∨ pos ≥ v.end_ then .thrown .out_of_range v
  else
    match copy v.m_storage (pos + 1) v.end_ pos with
    | some buf => .returned { v with m_storage := buf, m_end := v.m_end - 1 } pos
    | none => .undefined

/-- The function `erase(iterator first, iterator last)` (vector.h:693-709).
In `m_end -= std::distance(first, last)` the count is not negative when
`std::distance` returns, and it is at most `m_end` after the range check. -/
def erase_range {T : Type} (v : vector T) (first last : Int) : Outcome T Int :=
  if v.empty then .thrown .length_error v
  else if first < v.begin ∨ last > v.end_ then .thrown .out_of_range v
  else
    match copy v.m_storage last v.end_ first with
    | none => .undefined
    | some buf =>
      match distance first last with
      | none => .undefined
      | some d => .returned { v with m_storage := buf, m_end := v.m_end - d.toNat } first

/-- The calls of the mutating members listed in the size/capacity invariant. -/
inductive Call (T : Type)
  | push_back (value : T)
  | pop_back
  | insert (pos_ : Int) (value_ : T)
  | insert_range (pos_ : Int) (xs : List T)
  | insert_ilist (pos_ : Int) (ilist_ : List T)
  | erase (pos : Int)
  | erase_range (first last : Int)
  | reserve (new_cap : Nat)

/-- The vector a call leaves behind: the new state when the call returns, the
state at the `throw` when it throws, nothing when its behaviour is undefined. -/
def Outcome.state {T α : Type} : Outcome T α → Option (vector T)
  | .returned v _ => some v
  | .thrown _ v => some v
  | .undefined => none

/-- The vector after the call `c` on the vector `v`. -/
def Call.after {T : Type} [Inhabited T] (c : Call T) (v : vector T) : Option (vector T) :=
  match c with
  | .push_back value => (sc.push_back v value).state
  | .pop_back => (sc.pop_back v).state
  | .insert pos_ value_ => (sc.insert v pos_ value_).state
  | .insert_range pos_ xs => (sc.insert_range v pos_ xs).state
  | .insert_ilist pos_ ilist_ => (sc.insert_ilist v pos_ ilist_).state
  | .erase pos => (sc.erase v pos).state
  | .erase_range first last => (sc.erase_range v first last).state
  | .reserve new_cap => (sc.reserve v new_cap).state

end sc

/-! ## Assignment, `assign` and `clear` (vector.h) -/

namespace sc

/-- The function `clear` (vector.h:488). -/
def clear {T : Type} (v : vector T) : Outcome T Unit :=
  .returned { v with m_end := 0 } ()

/-- The function `shrink_to_fit` (vector.h:632-643). -/
def shrink_to_fit {T : Type} [Inhabited T] (v : vector T) : Outcome T Unit :=
  if v.m_capacity > v.m_end then
    match copy_across v.m_end v.m_storage 0 (List.replicate v.m_end default) with
    | some aux => .returned { v with m_storage := aux, m_capacity := v.m_end } ()
    | none => .undefined
  else .returned v ()

/-- The private `allocate_and_resize` (vector.h:914-925). -/
def allocate_and_resize {T : Type} [Inhabited T] (v : vector T) (sz : Nat) : vector T :=
  if sz > v.m_capacity then
    { m_storage := List.replicate sz default, m_capacity := sz, m_end := sz }
  else { v with m_end := sz }

/-- The loop `for (size_type i{0}; i < m_end; ++i) m_storage[i] = value_;` of
`assign`, `n` rounds from the index `i` on. -/
def fill_loop {T : Type} : Nat → List T → Nat → T → Option (List T)
  | 0, buf, _, _ => some buf
  | n + 1, buf, i, value_ =>
    (store buf i value_).bind fun buf1 => fill_loop n buf1 (i + 1) value_

/-- The function `assign(size_type count_, const_reference value_)`
(vector.h:650-657). -/
def assign {T : Type} [Inhabited T] (v : vector T) (count_ : Nat) (value_ : T) :
    Outcome T Unit :=
  match fill_loop (allocate_and_resize v count_).m_end
      (allocate_and_resize v count_).m_storage 0 value_ with
  | some buf => .returned { allocate_and_resize v count_ with m_storage := buf } ()
  | none => .undefined

/-- The function `assign(const std::initializer_list<T>& ilist)`
(vector.h:663-669). -/
def assign_ilist {T : Type} [Inhabited T] (v : vector T) (ilist : List T) : Outcome T Unit :=
  match copy_in ilist (allocate_and_resize v ilist.length).m_storage
      (allocate_and_resize v ilist.length).begin with
  | some buf => .returned { allocate_and_resize v ilist.length with m_storage := buf } ()
  | none => .undefined

/-- The function `assign(InputItr first, InputItr last)` (vector.h:676-683);
`xs` is the content of the range `[first, last)`, which lies outside the
vector. -/
def assign_range {T : Type} [Inhabited T] (v : vector T) (xs : List T) : Outcome T Unit :=
  match copy_in xs (allocate_and_resize v xs.length).m_storage
      (allocate_and_resize v xs.length).begin with
  | some buf => .returned { allocate_and_resize v xs.length with m_storage := buf } ()
  | none => .undefined

/-- The copy assignment `operator=(const vector& other)` (vector.h:391-410)
from another vector.  (Assigning a vector to itself returns at once and leaves
it as it is.) -/
def operator_assign {T : Type} [Inhabited T] (v other : vector T) : Outcome T Unit :=
  match copy_across other.m_end other.m_storage 0
      (if v.m_capacity ≠ other.m_capacity then List.replicate other.m_capacity default
        else v.m_storage) with
  | some buf =>
    .returned { m_end := other.m_end, m_capacity := other.m_capacity, m_storage := buf } ()
  | none => .undefined

/-- The assignment `operator=(const std::initializer_list<T> il)`
(vector.h:417-432). -/
def operator_assign_ilist {T : Type} [Inhabited T] (v : vector T) (il : List T) :
    Outcome T Unit :=
  match copy_in il
      (if v.m_capacity ≠ il.length then List.replicate il.length default else v.m_storage)
      0 with
  | some buf => .returned { m_end := il.length, m_capacity := il.length, m_storage := buf } ()
  | none => .undefined

/-- The calls that change a vector other than `shrink_to_fit` and the two
assignment operators: the calls of `Call`, the three forms of `assign`, and
`clear`. -/
inductive Update (T : Type)
  | call (c : Call T)
  | assign (count_ : Nat) (value_ : T)
  | assign_ilist (ilist : List T)
  | assign_range (xs : List T)
  | clear

/-- The vector after the update `u` of the vector `v`. -/
def Update.after {T : Type} [Inhabited T] (u : Update T) (v : vector T) : Option (vector T) :=
  match u with
  | .call c => c.after v
  | .assign count_ value_ => (sc.assign v count_ value_).state
  | .assign_ilist ilist => (sc.assign_ilist v ilist).state
  | .assign_range xs => (sc.assign_range v xs).state
  | .clear => (sc.clear v).state

end sc

/-! ## `count` (hashtbl.inl) -/

namespace ac

/-- The function `HashTbl::count` (hashtbl.inl:272-288): the counter is raised
once for every entry of the collision list at `hash(key_) % m_size`; the key of
the entry is not looked at. -/
def count {K V F : Type} (P : Params K F) (t : HashTbl K V F) (key_ : K) : Nat :=
  (bucket t.m_table (P.hash key_ % t.m_size)).foldl (fun count _ => count + 1) 0

/-- The table `HashTbl(2)` after `insert(1, 10)` and `insert(3, 30)`: both keys
hash to the bucket 1, and the table does not rehash. -/
def collision_table : HashTbl Nat Nat Nat :=
  (insert sample_params (insert sample_params (HashTbl.ctor sample_params 2) 1 10).1 3 30).1

end ac

/-! ## Element access and comparison (vector.h) -/

namespace sc

/-- The function `operator[](size_type idx)` (vector.h:795-802): the cell
`m_storage[idx]`, with no check; the behaviour is undefined outside the
buffer. -/
def operator_brackets {T : Type} (v : vector T) (idx : Nat) : Outcome T T :=
  match load v.m_storage idx with
  | some x => .returned v x
  | none => .undefined

/-- The function `at(size_type idx)` (vector.h:810-828). -/
def at_ {T : Type} (v : vector T) (idx : Nat) : Outcome T T :=
  if idx ≥ v.m_end then .thrown .out_of_range v
  else
    match load v.m_storage idx with
    | some x => .returned v x
    | none => .undefined

/-- The loop `for (auto i = 0; i < lhs.size(); ++i) if (lhs[i] != rhs[i]) return false;`
of `operator==`, `n` rounds from the index `i` on.  The counter `i` is an
`int` (the type `auto` gives to `0`): `++i` at `INT_MAX = 2147483647`
overflows, and the behaviour is undefined.  The result is `none` when a cell
outside one of the buffers is read or `++i` overflows.  The operator `!=` of
`T` is the negation of the equality of `T`. -/
def equal_loop {T : Type} [DecidableEq T] : Nat → List T → List T → Nat → Option Bool
  | 0, _, _, _ => some true
  | n + 1, lhs, rhs, i =>
    (load lhs i).bind fun x =>
      (load rhs i).bind fun y =>
        if x ≠ y then some false
        else if i + 1 > 2147483647 then none
        else equal_loop n lhs rhs (i + 1)

/-- The function `operator==(const vector&, const vector&)` (vector.h:941-952). -/
def operator_eq {T : Type} [DecidableEq T] (lhs rhs : vector T) : Option Bool :=
  if lhs.size ≠ rhs.size then some false
  else equal_loop lhs.size lhs.m_storage rhs.m_storage 0

/-- The function `operator!=(const vector&, const vector&)` (vector.h:960):
`!(lhs == rhs)`. -/
def operator_ne {T : Type} [DecidableEq T] (lhs rhs : vector T) : Option Bool :=
  (operator_eq lhs rhs).map fun b => !b

end sc

/-! # Searching in an array of integers (searching.cpp) -/

namespace sa

/-! A pointer into the array is the offset of its cell, an integer; the array
is the list of its cells, and `value_type` is `int`.  The values are only
compared, so they are integers without a bound. -/

/-- Reading the cell `*p`; `none` outside the array. -/
def deref (A : List Int) (p : Int) : Option Int :=
  if 0 ≤ p then A[p.toNat]? else none

/-- The loop `while (first != last)` of `lbound` (searching.cpp:112-125) with
the variables `first`, `last` and `result`.  `(last - first) / 2` is the
division of C++, which rounds towards zero.  The first argument bounds the
number of rounds; `none` when a cell outside the array is read or the bound is
used up. -/
def lbound_loop (A : List Int) (value : Int) : Nat → Int → Int → Int → Option Int
  | 0, first, last, result => if first = last then some result else none
  | fuel + 1, first, last, result =>
    if first = last then some result
    else
      match deref A (first + (last - first).tdiv 2) with
      | none => none
      | some x =>
        if x ≥ value then
          lbound_loop A value fuel first (first + (last - first).tdiv 2)
            (first + (last - first).tdiv 2)
        else lbound_loop A value fuel (first + (last - first).tdiv 2 + 1) last result

/-- The function `sa::lbound` (searching.cpp:108-128).  The loop is given
`last - first` rounds: every round of a range `first < last` leaves a shorter
one. -/
def lbound (A : List Int) (first last : Int) (value : Int) : Option Int :=
  lbound_loop A value (last - first).toNat first last last

/-- The loop `while (first != last)` of `ubound` (searching.cpp:141-154), as
`lbound_loop` with the test `*mid > value`. -/
def ubound_loop (A : List Int) (value : Int) : Nat → Int → Int → Int → Option Int
  | 0, first, last, result => if first = last then some result else none
  | fuel + 1, first, last, result =>
    if first = last then some result
    else
      match deref A (first + (last - first).tdiv 2) with
      | none => none
      | some x =>
        if x > value then
          ubound_loop A value fuel first (first + (last - first).tdiv 2)
            (first + (last - first).tdiv 2)
        else ubound_loop A value fuel (first + (last - first).tdiv 2 + 1) last result

/-- The function `sa::ubound` (searching.cpp:137-157). -/
def ubound (A : List Int) (first last : Int) (value : Int) : Option Int :=
  ubound_loop A value (last - first).toNat first last last

end sa

/-! ## Linear and binary search (searching.cpp) -/

namespace sa

/-- The loop `for (int *ptr = first; ptr != last; ptr++)` of `lsearch`
(searching.cpp:21-26).  The first argument bounds the number of rounds; `none`
when a cell outside the array is read or the bound is used up. -/
def lsearch_loop (A : List Int) (value : Int) : Nat → Int → Int → Option Int
  | 0, ptr, last => if ptr = last then some last else none
  | fuel + 1, ptr, last =>
    if ptr = last then some last
    else
      match deref A ptr with
      | none => none
      | some x => if x = value then some ptr else lsearch_loop A value fuel (ptr + 1) last

/-- The function `sa::lsearch` (searching.cpp:19-27).  The loop is given
`last - first` rounds. -/
def lsearch (A : List Int) (first last : Int) (value : Int) : Option Int :=
  lsearch_loop A value (last - first).toNat first last

/-- The loop `while (first != last)` of `bsearch` (searching.cpp:39-54) with the
variables `first`, `last` and `aux`, the value of `last` at the call. -/
def bsearch_loop (A : List Int) (value : Int) : Nat → Int → Int → Int → Option Int
  | 0, first, last, aux => if first = last then some aux else none
  | fuel + 1, first, last, aux =>
    if first = last then some aux
    else
      match deref A (first + (last - first).tdiv 2) with
      | none => none
      | some x =>
        if value = x then some (first + (last - first).tdiv 2)
        else if value > x then
          bsearch_loop A value fuel (first + (last - first).tdiv 2 + 1) last aux
        else bsearch_loop A value fuel first (first + (last - first).tdiv 2) aux

/-- The function `sa::bsearch` (searching.cpp:36-56).  The loop is given
`last - first` rounds: every round of a range `first < last` leaves a shorter
one. -/
def bsearch (A : List Int) (first last : Int) (value : Int) : Option Int :=
  bsearch_loop A value (last - first).toNat first last last

/-- How a run of a function on an array ends: with a result, with the access
to a cell outside the array (the behaviour is undefined from there on), or
with the bound on the number of steps used up. -/
inductive Run (α : Type)
  | done (a : α)
  | out_of_range (p : Int)
  | out_of_fuel
  deriving DecidableEq

/-- Sequencing of two steps. -/
def Run.bind {α β : Type} (r : Run α) (f : α → Run β) : Run β :=
  match r with
  | .done a => f a
  | .out_of_range p => .out_of_range p
  | .out_of_fuel => .out_of_fuel

/-- The function `sa::aux_rec_bsearch` (searching.cpp:65-86): the positions
dereferenced, in the order of the reads, and the outcome; the result `none` is
the null pointer.  `*mid` is read before `first != last` is tested; the body
of the `while` returns in its first round.  The first argument bounds the
number of calls. -/
def aux_rec_bsearch (A : List Int) (value : Int) :
    Nat → Int → Int → List Int × Run (Option Int)
  | 0, _, _ => ([], .out_of_fuel)
  | fuel + 1, first, last =>
    match deref A (first + (last - first).tdiv 2) with
    | none => ([first + (last - first).tdiv 2], .out_of_range (first + (last - first).tdiv 2))
    | some x =>
      if value = x then
        ([first + (last - first).tdiv 2], .done (some (first + (last - first).tdiv 2)))
      else if first ≠ last then
        if value > x then
          ((first + (last - first).tdiv 2) ::
              (aux_rec_bsearch A value fuel (first + (last - first).tdiv 2 + 1) last).1,
            (aux_rec_bsearch A value fuel (first + (last - first).tdiv 2 + 1) last).2)
        else
          ((first + (last - first).tdiv 2) ::
              (aux_rec_bsearch A value fuel first (first + (last - first).tdiv 2)).1,
            (aux_rec_bsearch A value fuel first (first + (last - first).tdiv 2)).2)
      else ([first + (last - first).tdiv 2], .done none)

/-- The function `sa::bsearch_rec` (searching.cpp:95-99):
`aux ? aux : last`.  The recursion is given `last - first + 1` calls: every
call on a range `first < last` passes a shorter one on. -/
def bsearch_rec (A : List Int) (first last : Int) (value : Int) :
    List Int × Run Int :=
  ((aux_rec_bsearch A value ((last - first).toNat + 1) first last).1,
    (aux_rec_bsearch A value ((last - first).toNat + 1) first last).2.bind fun aux =>
      match aux with
      | some p => .done p
      | none => .done last)

end sa

/-! # Sorting a range of an array (sorting.h) -/

namespace sa

/-! The functions of sorting.h take two pointers into an array of `DataType`
and a comparator `cmp`.  As for the searches, a pointer is the offset of its
cell, an integer, and the array is the list of its cells.  Every loop and
every recursion takes a bound on its number of rounds. -/

/-- Reading the cell `*p`. -/
def read {α : Type} (A : List α) (p : Int) : Run α :=
  if 0 ≤ p then
    match A[p.toNat]? with
    | some x => .done x
    | none => .out_of_range p
  else .out_of_range p

/-- Writing the cell `*p = x`. -/
def write {α : Type} (A : List α) (p : Int) (x : α) : Run (List α) :=
  if 0 ≤ p ∧ p.toNat < A.length then .done (A.set p.toNat x) else .out_of_range p

/-- The call `std::swap(*p, *q)`: both cells are read, then both are
written. -/
def swap {α : Type} (A : List α) (p q : Int) : Run (List α) :=
  (read A p).bind fun x =>
    (read A q).bind fun y =>
      (write A p y).bind fun A1 => write A1 q x

/-- The conversion of a pointer difference to `int` in
`int size = std::distance(first, last)` (sorting.h:210, 310): the value modulo
`2^32`, taken in `[-2^31, 2^31)`. -/
def to_int (n : Int) : Int := (n + 2147483648) % 4294967296 - 2147483648

/-- A fresh array `new DataType[cap]` filled by `std::copy` from `n` cells of
`A` (sorting.h:321-326): every cell is read, then written to the next position
`k` of the new array; a position from `cap` on is outside the new array. -/
def copy_out {α : Type} (A : List α) (cap : Nat) : Nat → Int → Nat → Run (List α)
  | 0, _, _ => .done []
  | n + 1, first, k =>
    (read A first).bind fun x =>
      if k < cap then
        (copy_out A cap n (first + 1) (k + 1)).bind fun xs => .done (x :: xs)
      else .out_of_range (k : Int)

/-! ## Insertion, selection, bubble and shell sort -/

/-- The inner loop `while (runner != first && cmp(*runner, *(runner - 1)))` of
`insertion` (sorting.h:113-118). -/
def insertion_inner {α : Type} (cmp : α → α → Bool) (first : Int) :
    Nat → List α → Int → Run (List α)
  | 0, A, runner => if runner ≠ first then .out_of_fuel else .done A
  | fuel + 1, A, runner =>
    if runner ≠ first then
      (read A runner).bind fun x =>
        (read A (runner - 1)).bind fun y =>
          if cmp x y then
            (swap A runner (runner - 1)).bind fun A1 =>
              insertion_inner cmp first fuel A1 (runner - 1)
          else .done A
    else .done A

/-- The outer loop `while (fast != last)` of `insertion` (sorting.h:107-121);
`inner` bounds the rounds of each inner loop. -/
def insertion_outer {α : Type} (cmp : α → α → Bool) (first last : Int) (inner : Nat) :
    Nat → List α → Int → Run (List α)
  | 0, A, fast => if fast ≠ last then .out_of_fuel else .done A
  | fuel + 1, A, fast =>
    if fast ≠ last then
      (insertion_inner cmp first inner A fast).bind fun A1 =>
        insertion_outer cmp first last inner fuel A1 (fast + 1)
    else .done A

/-- The function `sa::insertion` (sorting.h:103-123): `fast` starts at
`first + 1`. -/
def insertion {α : Type} (cmp : α → α → Bool) (fuel : Nat) (A : List α) (first last : Int) :
    Run (List α) :=
  insertion_outer cmp first last fuel fuel A (first + 1)

/-- The inner loop `for (auto j = i + 1; j != last; j++)` of `selection`
(sorting.h:148-152): the pointer `pMin` it leaves. -/
def selection_inner {α : Type} (cmp : α → α → Bool) (A : List α) (last : Int) :
    Nat → Int → Int → Run Int
  | 0, pMin, j => if j ≠ last then .out_of_fuel else .done pMin
  | fuel + 1, pMin, j =>
    if j ≠ last then
      (read A j).bind fun x =>
        (read A pMin).bind fun y =>
          selection_inner cmp A last fuel (if cmp x y then j else pMin) (j + 1)
    else .done pMin

/-- The outer loop `for (auto i = first; i != (last - 1); i++)` of `selection`
(sorting.h:143-154). -/
def selection_outer {α : Type} (cmp : α → α → Bool) (last : Int) (inner : Nat) :
    Nat → List α → Int → Run (List α)
  | 0, A, i => if i ≠ last - 1 then .out_of_fuel else .done A
  | fuel + 1, A, i =>
    if i ≠ last - 1 then
      (selection_inner cmp A last inner i (i + 1)).bind fun pMin =>
        (swap A i pMin).bind fun A1 => selection_outer cmp last inner fuel A1 (i + 1)
    else .done A

/-- The function `sa::selection` (sorting.h:139-156). -/
def selection {α : Type} (cmp : α → α → Bool) (fuel : Nat) (A : List α) (first last : Int) :
    Run (List α) :=
  selection_outer cmp last fuel fuel A first

/-- The inner loop `for (auto j = first; j != last - 1; j++)` of `bubble`
(sorting.h:180-188). -/
def bubble_inner {α : Type} (cmp : α → α → Bool) (last : Int) :
    Nat → List α → Int → Run (List α)
  | 0, A, j => if j ≠ last - 1 then .out_of_fuel else .done A
  | fuel + 1, A, j =>
    if j ≠ last - 1 then
      (read A (j + 1)).bind fun x =>
        (read A j).bind fun y =>
          (if cmp x y then swap A j (j + 1) else .done A).bind fun A1 =>
            bubble_inner cmp last fuel A1 (j + 1)
    else .done A

/-- The outer loop `for (auto i = first + 1; i != last; i++)` of `bubble`
(sorting.h:176-189). -/
def bubble_outer {α : Type} (cmp : α → α → Bool) (first last : Int) (inner : Nat) :
    Nat → List α → Int → Run (List α)
  | 0, A, i => if i ≠ last then .out_of_fuel else .done A
  | fuel + 1, A, i =>
    if i ≠ last then
      (bubble_inner cmp last inner A first).bind fun A1 =>
        bubble_outer cmp first last inner fuel A1 (i + 1)
    else .done A

/-- The function `sa::bubble` (sorting.h:172-191). -/
def bubble {α : Type} (cmp : α → α → Bool) (fuel : Nat) (A : List α) (first last : Int) :
    Run (List α) :=
  bubble_outer cmp first last fuel fuel A (first + 1)

/-- The loop `while (j >= first && cmp(key, *j))` of `shell` (sorting.h:222-226)
and the assignment `*(j + gap) = key` after it. -/
def shell_shift {α : Type} (cmp : α → α → Bool) (first gap : Int) (key : α) :
    Nat → List α → Int → Run (List α)
  | 0, A, j => if j ≥ first then .out_of_fuel else write A (j + gap) key
  | fuel + 1, A, j =>
    if j ≥ first then
      (read A j).bind fun y =>
        if cmp key y then
          (write A (j + gap) y).bind fun A1 => shell_shift cmp first gap key fuel A1 (j - gap)
        else write A (j + gap) key
    else write A (j + gap) key

/-- The loop `for (auto *i = first + gap; i != last; i++)` of `shell`
(sorting.h:215-229). -/
def shell_pass {α : Type} (cmp : α → α → Bool) (first last gap : Int) (inner : Nat) :
    Nat → List α → Int → Run (List α)
  | 0, A, i => if i ≠ last then .out_of_fuel else .done A
  | fuel + 1, A, i =>
    if i ≠ last then
      (read A i).bind fun key =>
        (shell_shift cmp first gap key inner A (i - gap)).bind fun A1 =>
          shell_pass cmp first last gap inner fuel A1 (i + 1)
    else .done A

/-- The loop `while (gap > 0)` of `shell` (sorting.h:212-231). -/
def shell_gaps {α : Type} (cmp : α → α → Bool) (first last : Int) (inner : Nat) :
    Nat → List α → Int → Run (List α)
  | 0, A, gap => if gap > 0 then .out_of_fuel else .done A
  | fuel + 1, A, gap =>
    if gap > 0 then
      (shell_pass cmp first last gap inner inner A (first + gap)).bind fun A1 =>
        shell_gaps cmp first last inner fuel A1 (gap.tdiv 2)
    else .done A

/-- The function `sa::shell` (sorting.h:206-232). -/
def shell {α : Type} (cmp : α → α → Bool) (fuel : Nat) (A : List α) (first last : Int) :
    Run (List α) :=
  shell_gaps cmp first last fuel fuel A ((to_int (last - first)).tdiv 2)

/-! ## Merge sort -/

/-- The first loop `while (l_first != l_last && r_first != r_last)` of
`merging` (sorting.h:257-272): the pointers `l_first`, `r_first` and `first`
and the output array it leaves.  `L` and `R` are the arrays of the two input
ranges. -/
def merging_loop {α : Type} (cmp : α → α → Bool) (L R : List α) (l_last r_last : Int) :
    Nat → Int → Int → List α → Int → Run (Int × Int × List α × Int)
  | 0, l_first, r_first, A, first =>
    if l_first ≠ l_last ∧ r_first ≠ r_last then .out_of_fuel
    else .done (l_first, r_first, A, first)
  | fuel + 1, l_first, r_first, A, first =>
    if l_first ≠ l_last ∧ r_first ≠ r_last then
      (read L l_first).bind fun x =>
        (read R r_first).bind fun y =>
          if cmp x y then
            (write A first x).bind fun A1 =>
              merging_loop cmp L R l_last r_last fuel (l_first + 1) r_first A1 (first + 1)
          else
            (write A first y).bind fun A1 =>
              merging_loop cmp L R l_last r_last fuel l_first (r_first + 1) A1 (first + 1)
    else .done (l_first, r_first, A, first)

/-- The loops `while (l_first != l_last)` and `while (r_first != r_last)` of
`merging` (sorting.h:275-290), which copy what is left of one input range `S`:
the output array and the pointer `first` they leave. -/
def merging_rest {α : Type} (S : List α) (s_last : Int) :
    Nat → Int → List α → Int → Run (List α × Int)
  | 0, s_first, A, first => if s_first ≠ s_last then .out_of_fuel else .done (A, first)
  | fuel + 1, s_first, A, first =>
    if s_first ≠ s_last then
      (read S s_first).bind fun x =>
        (write A first x).bind fun A1 => merging_rest S s_last fuel (s_first + 1) A1 (first + 1)
    else .done (A, first)

/-- The function `sa::merging` (sorting.h:251-291).  Each loop is given as
many rounds as the two input ranges have cells. -/
def merging {α : Type} (cmp : α → α → Bool) (L : List α) (l_first l_last : Int)
    (R : List α) (r_first r_last : Int) (A : List α) (first : Int) : Run (List α) :=
  (merging_loop cmp L R l_last r_last ((l_last - l_first).toNat + (r_last - r_first).toNat)
      l_first r_first A first).bind fun s =>
    (merging_rest L l_last (l_last - l_first).toNat s.1 s.2.2.1 s.2.2.2).bind fun s1 =>
      (merging_rest R r_last (r_last - r_first).toNat s.2.1 s1.1 s1.2).bind fun s2 =>
        .done s2.1

/-- The recursion of `sa::merge` (sorting.h:307-339), with `size` the `int`
made of `last - first`, `n1 = size / 2` and `n2 = size - n1`.  The arrays
`left` and `right` are fresh arrays of `n1` and `n2` cells that receive the
cells `[first, first + n1)` and `[first + n1, last)`, and pointers into them are
offsets from their first cells. -/
def merge_rec {α : Type} (cmp : α → α → Bool) : Nat → List α → Int → Int → Run (List α)
  | 0, A, first, last => if to_int (last - first) ≥ 2 then .out_of_fuel else .done A
  | fuel + 1, A, first, last =>
    if to_int (last - first) ≥ 2 then
      (copy_out A ((to_int (last - first)).tdiv 2).toNat
          ((to_int (last - first)).tdiv 2).toNat first 0).bind fun left =>
        (copy_out A (to_int (last - first) - (to_int (last - first)).tdiv 2).toNat
            (last - (first + (to_int (last - first)).tdiv 2)).toNat
            (first + (to_int (last - first)).tdiv 2) 0).bind fun right =>
          (merge_rec cmp fuel right 0
              (to_int (last - first) - (to_int (last - first)).tdiv 2)).bind fun right1 =>
            (merge_rec cmp fuel left 0 ((to_int (last - first)).tdiv 2)).bind fun left1 =>
              merging cmp left1 0 ((to_int (last - first)).tdiv 2) right1 0
                (to_int (last - first) - (to_int (last - first)).tdiv 2) A first
    else .done A

/-- The function `sa::merge` (sorting.h:307-339).  The recursion is given
`last - first` levels: every call passes shorter ranges on. -/
def merge {α : Type} (cmp : α → α → Bool) (A : List α) (first last : Int) : Run (List α) :=
  merge_rec cmp (last - first).toNat A first last

/-! ## Quick sort -/

/-- The function `sa::median_of_three` (sorting.h:354-370): the array and the
pointer `mid`. -/
def median_of_three {α : Type} (cmp : α → α → Bool) (A : List α) (first last : Int) :
    Run (List α × Int) :=
  (read A (first + (last - first).tdiv 2)).bind fun xm =>
    (read A first).bind fun xf =>
      (if cmp xm xf then swap A (first + (last - first).tdiv 2) first else .done A).bind
        fun A1 =>
          (read A1 (last - 1)).bind fun xl =>
            (read A1 first).bind fun xf1 =>
              (if cmp xl xf1 then swap A1 (last - 1) first else .done A1).bind fun A2 =>
                (read A2 (last - 1)).bind fun xl2 =>
                  (read A2 (first + (last - first).tdiv 2)).bind fun xm2 =>
                    (if cmp xl2 xm2 then swap A2 (last - 1) (first + (last - first).tdiv 2)
                      else .done A2).bind fun A3 =>
                        .done (A3, first + (last - first).tdiv 2)

/-- The loop `for (auto i = first; i != (last - 1); i++)` of `partition`
(sorting.h:401-408): the array and the pointer `pIndex` it leaves. -/
def partition_loop {α : Type} (cmp : α → α → Bool) (last : Int) (pivo_v : α) :
    Nat → List α → Int → Int → Run (List α × Int)
  | 0, A, pIndex, i => if i ≠ last - 1 then .out_of_fuel else .done (A, pIndex)
  | fuel + 1, A, pIndex, i =>
    if i ≠ last - 1 then
      (read A i).bind fun x =>
        if cmp x pivo_v then
          (swap A pIndex i).bind fun A1 =>
            partition_loop cmp last pivo_v fuel A1 (pIndex + 1) (i + 1)
        else partition_loop cmp last pivo_v fuel A pIndex (i + 1)
    else .done (A, pIndex)

/-- The function `sa::partition` (sorting.h:389-414): the array and the
returned pointer.  The loop is given `last - first` rounds. -/
def partition {α : Type} (cmp : α → α → Bool) (A : List α) (first last : Int) :
    Run (List α × Int) :=
  (median_of_three cmp A first last).bind fun s =>
    (swap s.1 s.2 (last - 1)).bind fun A2 =>
      (read A2 (last - 1)).bind fun pivo_v =>
        (partition_loop cmp last pivo_v (last - first).toNat A2 first first).bind fun s3 =>
          (swap s3.1 s3.2 (last - 1)).bind fun A4 => .done (A4, s3.2)

/-- The recursion of `sa::quick` (sorting.h:430-441). -/
def quick_rec {α : Type} (cmp : α → α → Bool) : Nat → List α → Int → Int → Run (List α)
  | 0, A, first, last => if last - first ≥ 2 then .out_of_fuel else .done A
  | fuel + 1, A, first, last =>
    if last - first ≥ 2 then
      (partition cmp A first last).bind fun s =>
        (quick_rec cmp fuel s.1 first s.2).bind fun A2 => quick_rec cmp fuel A2 (s.2 + 1) last
    else .done A

/-- The function `sa::quick` (sorting.h:430-441).  The recursion is given
`last - first` levels: every call passes shorter ranges on. -/
def quick {α : Type} (cmp : α → α → Bool) (A : List α) (first last : Int) : Run (List α) :=
  quick_rec cmp (last - first).toNat A first last

/-- A comparator that is a strict weak ordering: irreflexive, transitive, and
with a transitive incomparability. -/
structure StrictWeakOrder {α : Type} (cmp : α → α → Bool) : Prop where
  irrefl : ∀ a, cmp a a = false
  trans : ∀ a b c, cmp a b = true → cmp b c = true → cmp a c = true
  incomp_trans : ∀ a b c, cmp a b = false → cmp b a = false → cmp b c = false →
    cmp c b = false → cmp a c = false ∧ cmp c a = false

/-- The cells `first .. last-1` of an array. -/
def slice {α : Type} (A : List α) (first last : Nat) : List α :=
  (A.take last).drop first

/-- The array `A'` holds the elements of the array `A`, moved inside the range
`[first, last)` only: the same length, a permutation, and the same cells outside
the range. -/
def Rearranged {α : Type} (A A' : List α) (first last : Nat) : Prop :=
  A'.length = A.length ∧ A'.Perm A ∧ ∀ k, k < first ∨ last ≤ k → A'[k]? = A[k]?

/-- A list sorted with respect to `cmp`: no element compares less than an
element before it. -/
def SortedBy {α : Type} (cmp : α → α → Bool) (l : List α) : Prop :=
  l.Pairwise fun a b => cmp b a = false

instance {α : Type} (cmp : α → α → Bool) (l : List α) : Decidable (SortedBy cmp l) := by
  unfold SortedBy
  infer_instance

/-- The comparator `a < b` on the integers. -/
def less (a b : Int) : Bool := decide (a < b)

end sa

/-! ## The doubly linked list `sc::list` (list.h)

The nodes of all lists live in one heap.  A pointer to a node is the address
of a heap cell, or `none` for `nullptr`; a cell is `none` once its node is
deleted, and an access to a deleted node, or through `nullptr`, has no
result.  Loops are given a number of rounds; the result is `none` as well
when the rounds are used up. -/

namespace sc

/-- The data members of `sc::list` (list.h:380-382): the length and the
pointers to the head and tail nodes. -/
structure list where
  m_len : Nat
  m_head : Option Nat
  m_tail : Option Nat
deriving DecidableEq

namespace list

/-- The struct `Node` (list.h:48-64). -/
structure Node (T : Type) where
  data : T
  next : Option Nat
  prev : Option Nat
deriving DecidableEq

/-- The heap: cell `a` holds the node at address `a`, if it is alive. -/
abbrev Heap (T : Type) := List (Option (Node T))

/-- The node a pointer refers to. -/
def load {T : Type} (H : Heap T) (p : Option Nat) : Option (Node T) :=
  match p with
  | none => none
  | some a => (H[a]?).join

/-- An assignment to the node a pointer refers to. -/
def store {T : Type} (H : Heap T) (p : Option Nat) (n : Node T) : Option (Heap T) :=
  match p with
  | none => none
  | some a =>
    match load H (some a) with
    | none => none
    | some _ => some (H.set a (some n))

/-- The assignment `p->next = v`. -/
def set_next {T : Type} (H : Heap T) (p v : Option Nat) : Option (Heap T) :=
  (load H p).bind fun n => store H p { n with next := v }

/-- The assignment `p->prev = v`. -/
def set_prev {T : Type} (H : Heap T) (p v : Option Nat) : Option (Heap T) :=
  (load H p).bind fun n => store H p { n with prev := v }

/-- The expression `new Node(...)`: the heap and the pointer to the new node. -/
def alloc {T : Type} (H : Heap T) (n : Node T) : Heap T × Option Nat :=
  (H ++ [some n], some H.length)

/-- The statement `delete p`. -/
def free {T : Type} (H : Heap T) (p : Option Nat) : Option (Heap T) :=
  match p with
  | none => some H
  | some a =>
    match load H (some a) with
    | none => none
    | some _ => some (H.set a none)

/-- The increment `++it` of an iterator (list.h:295-301): the new `m_ptr`. -/
def incr {T : Type} (H : Heap T) (it : Option Nat) : Option (Option Nat) :=
  match it with
  | none => some none
  | some a => (load H (some a)).bind fun n => some n.next

/-- The dereference `*it` of an iterator (list.h:280). -/
def deref {T : Type} (H : Heap T) (it : Option Nat) : Option T :=
  (load H it).bind fun n => some n.data

/-- The function `begin()` (list.h:614). -/
def begin {T : Type} (H : Heap T) (l : list) : Option (Option Nat) :=
  (load H l.m_head).bind fun n => some n.next

/-- The function `end()` (list.h:626). -/
def end_ (l : list) : Option Nat := l.m_tail

/-- The function `empty()` (list.h:640). -/
def empty (l : list) : Bool := decide (l.m_len = 0)

/-- The function `size()` (list.h:646). -/
def size (l : list) : Nat := l.m_len

/-- The default constructor `list()` (list.h:394-412). -/
def ctor {T : Type} [Inhabited T] (H : Heap T) : Option (Heap T × list) :=
  (set_next (alloc (alloc H ⟨default, none, none⟩).1 ⟨default, none, none⟩).1
      (alloc H ⟨default, none, none⟩).2
      (alloc (alloc H ⟨default, none, none⟩).1 ⟨default, none, none⟩).2).bind fun H1 =>
    (set_prev H1 (alloc (alloc H ⟨default, none, none⟩).1 ⟨default, none, none⟩).2
        (alloc H ⟨default, none, none⟩).2).bind fun H2 =>
      some (H2, ⟨0, (alloc H ⟨default, none, none⟩).2,
        (alloc (alloc H ⟨default, none, none⟩).1 ⟨default, none, none⟩).2⟩)

/-- The loop of the constructor from an initializer list (list.h:521-527):
the heap and the pointer `curr` it leaves. -/
def ctor_ilist_loop {T : Type} : List T → Heap T → Option Nat → Option (Heap T × Option Nat)
  | [], H, curr => some (H, curr)
  | x :: xs, H, curr =>
    (set_next (alloc H ⟨x, none, none⟩).1 curr (alloc H ⟨x, none, none⟩).2).bind fun H1 =>
      (set_prev H1 (alloc H ⟨x, none, none⟩).2 curr).bind fun H2 =>
        ctor_ilist_loop xs H2 (alloc H ⟨x, none, none⟩).2

/-- The constructor `list(std::initializer_list<T>)` (list.h:509-531). -/
def ctor_ilist {T : Type} [Inhabited T] (H : Heap T) (ilist_ : List T) :
    Option (Heap T × list) :=
  (ctor H).bind fun s =>
    (ctor_ilist_loop ilist_ s.1 s.2.m_head).bind fun r =>
      (set_next r.1 r.2 s.2.m_tail).bind fun H1 =>
        (set_prev H1 s.2.m_tail r.2).bind fun H2 =>
          some (H2, { s.2 with m_len := ilist_.length % 18446744073709551616 })

/-- The function `erase(iterator)` (list.h:908-921): the heap, the list and
the iterator returned.  The length is a `size_t`. -/
def erase {T : Type} (H : Heap T) (l : list) (it_ : Option Nat) :
    Option (Heap T × list × Option Nat) :=
  (load H it_).bind fun n =>
    (set_next H n.prev n.next).bind fun H1 =>
      (load H1 it_).bind fun n1 =>
        (set_prev H1 n.next n1.prev).bind fun H2 =>
          (free H2 it_).bind fun H3 =>
            some (H3, { l with m_len := (l.m_len + 18446744073709551615) %
              18446744073709551616 }, n.next)

/-- The loop of `erase(iterator, iterator)` (list.h:932-933). -/
def erase_range_loop {T : Type} :
    Nat → Heap T → list → Option Nat → Option Nat → Option (Heap T × list)
  | 0, H, l, start, end_ => if start ≠ end_ then none else some (H, l)
  | fuel + 1, H, l, start, end_ =>
    if start ≠ end_ then
      (erase H l start).bind fun r => erase_range_loop fuel r.1 r.2.1 r.2.2 end_
    else some (H, l)

/-- The function `erase(iterator, iterator)` (list.h:929-936). -/
def erase_range {T : Type} (H : Heap T) (l : list) (start end_ : Option Nat) :
    Option (Heap T × list × Option Nat) :=
  (erase_range_loop l.m_len H l start end_).bind fun r => some (r.1, r.2, end_)

/-- The function `clear()` (list.h:653). -/
def clear {T : Type} (H : Heap T) (l : list) : Option (Heap T × list) :=
  (begin H l).bind fun b => (erase_range H l b (end_ l)).bind fun r => some (r.1, r.2.1)

/-- The destructor `~list()` (list.h:537-542). -/
def dtor {T : Type} (H : Heap T) (l : list) : Option (Heap T) :=
  (clear H l).bind fun r => (free r.1 r.2.m_head).bind fun H1 => free H1 r.2.m_tail

/-- The loop of `unique()` (list.h:1086-1097) with the iterators `slow` and
`fast`. -/
def unique_loop {T : Type} [DecidableEq T] :
    Nat → Heap T → list → Option Nat → Option Nat → Option (Heap T × list)
  | 0, H, l, _, fast => if fast ≠ end_ l then none else some (H, l)
  | fuel + 1, H, l, slow, fast =>
    if fast ≠ end_ l then
      (deref H slow).bind fun x =>
        (deref H fast).bind fun y =>
          if x = y then
            (erase H l fast).bind fun r => unique_loop fuel r.1 r.2.1 slow r.2.2
          else
            (incr H fast).bind fun fast1 => unique_loop fuel H l fast fast1
    else some (H, l)

/-- The function `unique()` (list.h:1075-1100).  The loop removes or passes
one node in each round, so `m_len` rounds are enough. -/
def unique {T : Type} [DecidableEq T] (H : Heap T) (l : list) : Option (Heap T × list) :=
  if empty l then some (H, l)
  else
    (begin H l).bind fun slow =>
      (begin H l).bind fun fast =>
        (incr H fast).bind fun fast1 => unique_loop l.m_len H l slow fast1

/-- The statements that link the node of `it2` in before the node of `it1`
and advance `it2` (list.h:988-992 and 1002-1006): the heap and the new
`it2`. -/
def merge_move {T : Type} (H : Heap T) (it1 it2 : Option Nat) :
    Option (Heap T × Option Nat) :=
  (load H it1).bind fun n1 =>
    (set_next H n1.prev it2).bind fun H1 =>
      (load H1 it1).bind fun n1a =>
        (set_prev H1 it2 n1a.prev).bind fun H2 =>
          (set_prev H2 it1 it2).bind fun H3 =>
            (incr H3 it2).bind fun it2a =>
              (load H3 it2a).bind fun n2a =>
                (set_next H3 n2a.prev it1).bind fun H4 => some (H4, it2a)

/-- The first loop of `merge` (list.h:985-997): the heap and the iterators
`it1` and `it2` it leaves.  `lt` is the operator `<` of `T`. -/
def merge_loop {T : Type} (lt : T → T → Bool) (this other : list) :
    Nat → Heap T → Option Nat → Option Nat → Option (Heap T × Option Nat × Option Nat)
  | 0, H, it1, it2 =>
    if it1 ≠ end_ this ∧ it2 ≠ end_ other then none else some (H, it1, it2)
  | fuel + 1, H, it1, it2 =>
    if it1 ≠ end_ this ∧ it2 ≠ end_ other then
      (deref H it2).bind fun y =>
        (deref H it1).bind fun x =>
          if lt y x then
            (merge_move H it1 it2).bind fun r => merge_loop lt this other fuel r.1 it1 r.2
          else
            (incr H it1).bind fun it1a => merge_loop lt this other fuel H it1a it2
    else some (H, it1, it2)

/-- The second loop of `merge` (list.h:1000-1007). -/
def merge_rest {T : Type} (other : list) :
    Nat → Heap T → Option Nat → Option Nat → Option (Heap T)
  | 0, H, _, it2 => if it2 ≠ end_ other then none else some H
  | fuel + 1, H, it1, it2 =>
    if it2 ≠ end_ other then
      (merge_move H it1 it2).bind fun r => merge_rest other fuel r.1 it1 r.2
    else some H

/-- The function `merge(list &other)` (list.h:975-1018): the heap, this list
and the other list.  Two list objects are the same object exactly when they
have the same head node, which every constructor allocates anew.  Each round
of the two loops passes a node of one of the lists, so the sum of the lengths
bounds the rounds. -/
def merge {T : Type} (lt : T → T → Bool) (H : Heap T) (this other : list) :
    Option (Heap T × list × list) :=
  if this.m_head ≠ other.m_head then
    (begin H this).bind fun it1 =>
      (begin H other).bind fun it2 =>
        (merge_loop lt this other (this.m_len + other.m_len) H it1 it2).bind fun s =>
          (merge_rest other other.m_len s.1 s.2.1 s.2.2).bind fun H1 =>
            (set_next H1 other.m_head other.m_tail).bind fun H2 =>
              (set_prev H2 other.m_tail other.m_head).bind fun H3 =>
                some (H3,
                  { this with m_len := (this.m_len + size other) % 18446744073709551616 },
                  { other with m_len := 0 })
  else some (H, this, other)

/-- The call `std::advance(it, n)` for `n ≥ 0`: `n` increments. -/
def advance {T : Type} (H : Heap T) : Nat → Option Nat → Option (Option Nat)
  | 0, it => some it
  | n + 1, it => (incr H it).bind fun it1 => advance H n it1

/-- The statements of `sort()` that move the nodes from `it_half` on to the
new list `right` (list.h:1119-1132): the heap, this list and `right`. -/
def sort_split {T : Type} (H : Heap T) (l right : list) (it_half : Option Nat) (m : Nat) :
    Option (Heap T × list × list) :=
  (load H l.m_tail).bind fun nt =>
    (set_prev H right.m_tail nt.prev).bind fun H1 =>
      (load H1 l.m_tail).bind fun nt1 =>
        (set_next H1 nt1.prev right.m_tail).bind fun H2 =>
          (load H2 it_half).bind fun nh =>
            (set_prev H2 l.m_tail nh.prev).bind fun H3 =>
              (load H3 it_half).bind fun nh1 =>
                (set_next H3 nh1.prev l.m_tail).bind fun H4 =>
                  (set_next H4 right.m_head it_half).bind fun H5 =>
                    (set_prev H5 it_half right.m_head).bind fun H6 =>
                      some (H6, { l with m_len := m },
                        { right with m_len := size l - m })

/-- The recursion of `sort()` (list.h:1105-1141), with the destructor of the
local list `right` at the end of the block.  `fuel` bounds the depth of the
recursion. -/
def sort_rec {T : Type} [Inhabited T] (lt : T → T → Bool) :
    Nat → Heap T → list → Option (Heap T × list)
  | 0, H, l => if size l ≥ 2 then none else some (H, l)
  | fuel + 1, H, l =>
    if size l ≥ 2 then
      (begin H l).bind fun b =>
        (advance H (size l / 2) b).bind fun it_half =>
          (ctor H).bind fun c =>
            (sort_split c.1 l c.2 it_half (size l / 2)).bind fun s =>
              (sort_rec lt fuel s.1 s.2.1).bind fun s1 =>
                (sort_rec lt fuel s1.1 s.2.2).bind fun s2 =>
                  (merge lt s2.1 s1.2 s2.2).bind fun s3 =>
                    (dtor s3.1 s3.2.2).bind fun H1 => some (H1, s3.2.1)
    else some (H, l)

/-- The function `sort()` (list.h:1105-1141).  Every call passes shorter
lists on, so the recursion is given `m_len` levels. -/
def sort {T : Type} [Inhabited T] (lt : T → T → Bool) (H : Heap T) (l : list) :
    Option (Heap T × list) :=
  sort_rec lt l.m_len H l

/-- The elements met on the way from `begin()` to `end()`. -/
def walk {T : Type} (H : Heap T) (l : list) : Nat → Option Nat → Option (List T)
  | 0, it => if it ≠ end_ l then none else some []
  | fuel + 1, it =>
    if it ≠ end_ l then
      (deref H it).bind fun x =>
        (incr H it).bind fun it1 => (walk H l fuel it1).bind fun xs => some (x :: xs)
    else some []

/-- The elements of a list in order. -/
def contents {T : Type} (H : Heap T) (l : list) : Option (List T) :=
  (begin H l).bind fun b => walk H l l.m_len b

/-! ### The lists a heap represents -/

/-- The pointer `next` of the node at address `a`. -/
def next_of {T : Type} (H : Heap T) (a : Nat) : Option (Option Nat) :=
  (load H (some a)).map Node.next

/-- The pointer `prev` of the node at address `a`. -/
def prev_of {T : Type} (H : Heap T) (a : Nat) : Option (Option Nat) :=
  (load H (some a)).map Node.prev

/-- The data of the node at address `a`. -/
def data_of {T : Type} (H : Heap T) (a : Nat) : Option T :=
  (load H (some a)).map Node.data

/-- Two live nodes linked to each other: `a->next` is `b` and `b->prev` is
`a`. -/
def Link {T : Type} (H : Heap T) (a b : Nat) : Prop :=
  next_of H a = some (some b) ∧ prev_of H b = some (some a)

instance {T : Type} (H : Heap T) : DecidableRel (Link H) :=
  fun a b => inferInstanceAs (Decidable (next_of H a = some (some b) ∧
    prev_of H b = some (some a)))

/-- A chain of nodes: every node is linked to the one after it. -/
def Linked {T : Type} (H : Heap T) : List Nat → Prop
  | a :: b :: rest => Link H a b ∧ Linked H (b :: rest)
  | _ => True

instance Linked.decidable {T : Type} (H : Heap T) : ∀ c, Decidable (Linked H c)
  | [] => inferInstanceAs (Decidable True)
  | [_] => inferInstanceAs (Decidable True)
  | a :: b :: rest =>
    @instDecidableAnd (Link H a b) (Linked H (b :: rest)) inferInstance
      (Linked.decidable H (b :: rest))

/-- The list object `l` in the heap `H` is a well-formed list made of the
nodes `nodes`, given in order with their addresses and data, between the head
node `h` and the tail node `t`: the nodes are distinct and alive, every one is
linked to the next, and the length, a `size_t`, counts them. -/
def Rep {T : Type} (H : Heap T) (l : list) (h : Nat) (nodes : List (Nat × T)) (t : Nat) :
    Prop :=
  l.m_head = some h ∧ l.m_tail = some t ∧ l.m_len = nodes.length ∧
    nodes.length < 18446744073709551616 ∧
    (h :: (nodes.map Prod.fst ++ [t])).Nodup ∧
    Linked H (h :: (nodes.map Prod.fst ++ [t])) ∧
    ∀ p ∈ nodes, data_of H p.1 = some p.2

instance {T : Type} [DecidableEq T] (H : Heap T) (l : list) (h : Nat)
    (nodes : List (Nat × T)) (t : Nat) : Decidable (Rep H l h nodes t) :=
  inferInstanceAs (Decidable (l.m_head = some h ∧ l.m_tail = some t ∧
    l.m_len = nodes.length ∧ nodes.length < 18446744073709551616 ∧
    (h :: (nodes.map Prod.fst ++ [t])).Nodup ∧
    Linked H (h :: (nodes.map Prod.fst ++ [t])) ∧
    ∀ p ∈ nodes, data_of H p.1 = some p.2))

/-- The address of the first of the nodes `nodes`, or `t` if there is none:
where `begin()` points in a list that ends at the node `t`. -/
def first_of {T : Type} (nodes : List (Nat × T)) (t : Nat) : Nat :=
  match nodes with
  | [] => t
  | p :: _ => p.1

/-- The elements `unique()` keeps of those that follow a kept element `v`. -/
def unique_after {T : Type} [DecidableEq T] (v : T) : List T → List T
  | [] => []
  | w :: r => if v = w then unique_after v r else w :: unique_after w r

/-- The elements `unique()` keeps: the way its loop goes through the
elements (list.h:1086-1097), with `slow` on the last kept one. -/
def unique_of {T : Type} [DecidableEq T] : List T → List T
  | [] => []
  | v :: r => v :: unique_after v r

/-- The maximal runs of consecutive equal elements of a list. -/
def runs {T : Type} [DecidableEq T] : List T → List (List T)
  | [] => []
  | x :: xs =>
    match runs xs with
    | [] => [[x]]
    | r :: rs => if r.head? = some x then (x :: r) :: rs else [x] :: r :: rs

/-- The heap the initializer-list constructor leaves for the list `{3, 1, 2}`
alone: its head node is at the address `0`, its tail node at `1`. -/
def one_list : Heap Int :=
  [some ⟨0, some 2, none⟩, some ⟨0, none, some 4⟩, some ⟨3, some 3, some 0⟩,
    some ⟨1, some 4, some 2⟩, some ⟨2, some 1, some 3⟩]

/-- The heap two calls of the initializer-list constructor leave, for the
lists `{1, 4}` and `{2, 5}`: their head nodes are at the addresses `0` and
`4`, their tail nodes at `1` and `5`. -/
def two_lists : Heap Int :=
  [some ⟨0, some 2, none⟩, some ⟨0, none, some 3⟩, some ⟨1, some 3, some 0⟩,
    some ⟨4, some 1, some 2⟩,
    some ⟨0, some 6, none⟩, some ⟨0, none, some 7⟩, some ⟨2, some 7, some 4⟩,
    some ⟨5, some 5, some 6⟩]

end list

end sc

/-! ## Lists of buckets -/

namespace ac

theorem bucket_of_lt {E : Type} (tb : List (List E)) (i : Nat) (h : i < tb.length) :
    bucket tb i = tb[i] := by
  simp [bucket, List.getD_eq_getElem?_getD, List.getElem?_eq_getElem h]

theorem bucket_of_ge {E : Type} (tb : List (List E)) (i : Nat) (h : tb.length ≤ i) :
    bucket tb i = [] := by
  simp [bucket, List.getD_eq_getElem?_getD, List.getElem?_eq_none h]

theorem bucket_set {E : Type} (tb : List (List E)) (i j : Nat) (b : List E)
    (h : i < tb.length) :
    bucket (tb.set i b) j = if j = i then b else bucket tb j := by
  unfold bucket
  simp only [List.getD_eq_getElem?_getD, List.getElem?_set]
  by_cases hji : j = i
  · subst hji; simp [h]
  · have : ¬ i = j := fun e => hji e.symm
    simp [hji, this]

theorem bucket_replicate {E : Type} (n i : Nat) :
    bucket (List.replicate n ([] : List E)) i = [] := by
  by_cases h : i < n
  · rw [bucket_of_lt _ _ (by simpa using h)]; simp
  · exact bucket_of_ge _ _ (by simpa using h)

theorem mem_flatten_iff_bucket {E : Type} (tb : List (List E)) (e : E) :
    e ∈ tb.flatten ↔ ∃ i, e ∈ bucket tb i := by
  constructor
  · intro h
    obtain ⟨l, hl, hel⟩ := List.mem_flatten.mp h
    obtain ⟨i, hi, rfl⟩ := List.getElem_of_mem hl
    exact ⟨i, by rw [bucket_of_lt _ _ hi]; exact hel⟩
  · rintro ⟨i, hi⟩
    by_cases hlt : i < tb.length
    · rw [bucket_of_lt _ _ hlt] at hi
      exact List.mem_flatten.mpr ⟨tb[i], List.getElem_mem hlt, hi⟩
    · rw [bucket_of_ge _ _ (by omega)] at hi
      simp at hi

theorem flatten_split {E : Type} (tb : List (List E)) (i : Nat) (h : i < tb.length) :
    tb.flatten = (tb.take i).flatten ++ (bucket tb i ++ (tb.drop (i + 1)).flatten) := by
  induction tb generalizing i with
  | nil => simp at h
  | cons l ls ih =>
    cases i with
    | zero => simp [bucket]
    | succ n =>
      have hn : n < ls.length := by simpa using h
      have := ih n hn
      simp only [List.flatten_cons, List.take_succ_cons, List.drop_succ_cons, List.append_assoc]
      rw [this]
      simp [bucket]

theorem flatten_set {E : Type} (tb : List (List E)) (i : Nat) (b : List E)
    (h : i < tb.length) :
    (tb.set i b).flatten = (tb.take i).flatten ++ (b ++ (tb.drop (i + 1)).flatten) := by
  induction tb generalizing i with
  | nil => simp at h
  | cons l ls ih =>
    cases i with
    | zero => simp
    | succ n =>
      have hn : n < ls.length := by simpa using h
      simp [ih n hn]

theorem range_map_bucket {E : Type} (tb : List (List E)) :
    (List.range tb.length).map (bucket tb) = tb := by
  apply List.ext_getElem
  · simp
  · intro n h1 h2
    simp only [List.getElem_map, List.getElem_range]
    exact bucket_of_lt tb n h2

end ac

/-! ## The three scans of a collision list -/

namespace ac

theorem find_data_eq_none {K V : Type} [DecidableEq K] (k : K) (l : List (HashEntry K V)) :
    find_data k l = none ↔ k ∉ l.map HashEntry.m_key := by
  induction l with
  | nil => simp [find_data]
  | cons e es ih =>
    by_cases h : e.m_key = k
    · simp [find_data, h]
    · have h2 : ¬ k = e.m_key := fun c => h c.symm
      simp [find_data, h, h2, ih]

theorem mem_of_find_data {K V : Type} [DecidableEq K] (k : K) (d : V)
    (l : List (HashEntry K V)) (h : find_data k l = some d) : (⟨k, d⟩ : HashEntry K V) ∈ l := by
  induction l with
  | nil => simp [find_data] at h
  | cons e es ih =>
    by_cases hk : e.m_key = k
    · simp only [find_data, hk, if_true, Option.some.injEq] at h
      cases e
      simp_all
    · simp only [find_data, hk, if_false] at h
      exact List.mem_cons_of_mem _ (ih h)

theorem find_data_of_mem {K V : Type} [DecidableEq K] (k : K) (d : V)
    (l : List (HashEntry K V)) (hnd : (l.map HashEntry.m_key).Nodup)
    (h : (⟨k, d⟩ : HashEntry K V) ∈ l) : find_data k l = some d := by
  induction l with
  | nil => simp at h
  | cons e es ih =>
    simp only [List.map_cons, List.nodup_cons] at hnd
    rcases List.mem_cons.mp h with h1 | h1
    · subst h1; simp [find_data]
    · have hne : e.m_key ≠ k := by
        intro c
        apply hnd.1
        rw [c]
        exact List.mem_map.mpr ⟨_, h1, rfl⟩
      simp only [find_data, hne, if_false]
      exact ih hnd.2 h1

theorem overwrite_eq_none {K V : Type} [DecidableEq K] (k : K) (v : V)
    (l : List (HashEntry K V)) :
    overwrite k v l = none ↔ k ∉ l.map HashEntry.m_key := by
  induction l with
  | nil => simp [overwrite]
  | cons e es ih =>
    by_cases h : e.m_key = k
    · simp [overwrite, h]
    · have h2 : ¬ k = e.m_key := fun c => h c.symm
      simp [overwrite, h, h2, ih]

theorem overwrite_some {K V : Type} [DecidableEq K] (k : K) (v : V)
    (l b : List (HashEntry K V)) (h : overwrite k v l = some b) :
    b.map HashEntry.m_key = l.map HashEntry.m_key ∧ (⟨k, v⟩ : HashEntry K V) ∈ b ∧
      b.length = l.length ∧ ∀ e : HashEntry K V, e.m_key ≠ k → (e ∈ b ↔ e ∈ l) := by
  induction l generalizing b with
  | nil => simp [overwrite] at h
  | cons e es ih =>
    by_cases hk : e.m_key = k
    · simp only [overwrite, hk, if_true, Option.some.injEq] at h
      subst h
      refine ⟨by simp [hk], by simp, by simp, ?_⟩
      intro e2 hne
      have h1 : e2 ≠ e := fun c => hne (c ▸ hk)
      have h2 : e2 ≠ (⟨k, v⟩ : HashEntry K V) := fun c => hne (by rw [c])
      simp [h1, h2]
    · simp only [overwrite, hk, if_false] at h
      cases hb2 : overwrite k v es with
      | none => rw [hb2] at h; simp at h
      | some b2 =>
      rw [hb2] at h
      have h := Option.some.inj h
      subst h
      obtain ⟨h1, h2, h3, h4⟩ := ih b2 hb2
      refine ⟨by simp [h1], List.mem_cons_of_mem _ h2, by simp [h3], ?_⟩
      intro e2 hne
      simp [h4 e2 hne]

theorem erase_scan_eq_none {K V : Type} [DecidableEq K] (k : K)
    (l : List (HashEntry K V)) :
    erase_scan k l = none ↔ k ∉ l.map HashEntry.m_key := by
  induction l with
  | nil => simp [erase_scan]
  | cons e es ih =>
    by_cases h : e.m_key = k
    · simp [erase_scan, h]
    · have h2 : ¬ k = e.m_key := fun c => h c.symm
      simp [erase_scan, h, h2, ih]

theorem erase_scan_some {K V : Type} [DecidableEq K] (k : K)
    (l b : List (HashEntry K V)) (h : erase_scan k l = some b) :
    b.Sublist l ∧ b.length + 1 = l.length ∧
      ((l.map HashEntry.m_key).Nodup → k ∉ b.map HashEntry.m_key) ∧
      ∀ e : HashEntry K V, e.m_key ≠ k → (e ∈ b ↔ e ∈ l) := by
  induction l generalizing b with
  | nil => simp [erase_scan] at h
  | cons e es ih =>
    by_cases hk : e.m_key = k
    · simp only [erase_scan, hk, if_true, Option.some.injEq] at h
      subst h
      refine ⟨List.sublist_cons_self _ _, rfl, ?_, ?_⟩
      · intro hnd
        simp only [List.map_cons, List.nodup_cons] at hnd
        rw [← hk]; exact hnd.1
      · intro e2 hne
        have h1 : e2 ≠ e := fun c => hne (c ▸ hk)
        simp [h1]
    · simp only [erase_scan, hk, if_false] at h
      cases hb2 : erase_scan k es with
      | none => rw [hb2] at h; simp at h
      | some b2 =>
      rw [hb2] at h
      have h := Option.some.inj h
      subst h
      obtain ⟨h1, h2, h3, h4⟩ := ih b2 hb2
      refine ⟨h1.cons₂ _, by simp [h2], ?_, ?_⟩
      · intro hnd
        simp only [List.map_cons, List.nodup_cons] at hnd
        have := h3 hnd.2
        have h5 : ¬ k = e.m_key := fun c => hk c.symm
        simp [h5]
        simpa using this
      · intro e2 hne
        simp [h4 e2 hne]

end ac

/-! ## Sizes -/

namespace ac

theorem le_find_next_prime_loop (fuel n : Nat) : n ≤ find_next_prime_loop fuel n := by
  induction fuel generalizing n with
  | zero => simp [find_next_prime_loop]
  | succ f ih =>
    simp only [find_next_prime_loop]
    split
    · exact Nat.le_refl n
    · exact Nat.le_trans (Nat.le_succ n) (ih (n + 1))

theorem le_find_next_prime (n : Nat) : n ≤ find_next_prime n :=
  le_find_next_prime_loop _ _

theorem find_next_prime_pos (n : Nat) : 0 < find_next_prime n := by
  cases n with
  | zero => decide
  | succ m => exact Nat.lt_of_lt_of_le (Nat.succ_pos m) (le_find_next_prime _)

end ac

/-! ## What the invariant gives -/

namespace ac

theorem TableInv.mem_entries_iff {K V F : Type} {P : Params K F} {t : HashTbl K V F}
    (h : TableInv P t) (e : HashEntry K V) :
    e ∈ entries t ↔ e ∈ bucket t.m_table (P.hash e.m_key % t.m_size) := by
  unfold entries
  rw [mem_flatten_iff_bucket]
  constructor
  · rintro ⟨i, hi⟩
    rw [h.idx i e hi]; exact hi
  · intro he; exact ⟨_, he⟩

theorem TableInv.bucket_nodup {K V F : Type} {P : Params K F} {t : HashTbl K V F}
    (h : TableInv P t) (i : Nat) : ((bucket t.m_table i).map HashEntry.m_key).Nodup := by
  by_cases hlt : i < t.m_table.length
  · rw [bucket_of_lt _ _ hlt]
    have hs : (t.m_table[i]).Sublist t.m_table.flatten :=
      List.sublist_flatten_of_mem (List.getElem_mem hlt)
    exact List.Nodup.sublist (hs.map _) h.nodup
  · rw [bucket_of_ge _ _ (by omega)]; simp

theorem TableInv.find_data_iff {K V F : Type} [DecidableEq K] {P : Params K F}
    {t : HashTbl K V F} (h : TableInv P t) (k : K) (d : V) :
    find_data k (bucket t.m_table (P.hash k % t.m_size)) = some d ↔
      (⟨k, d⟩ : HashEntry K V) ∈ entries t := by
  constructor
  · intro hf
    exact (h.mem_entries_iff _).mpr (mem_of_find_data k d _ hf)
  · intro hm
    exact find_data_of_mem k d _ (h.bucket_nodup _) ((h.mem_entries_iff _).mp hm)

theorem TableInv.key_mem_iff {K V F : Type} {P : Params K F} {t : HashTbl K V F}
    (h : TableInv P t) (k : K) :
    k ∈ keys t ↔ k ∈ (bucket t.m_table (P.hash k % t.m_size)).map HashEntry.m_key := by
  unfold keys
  simp only [List.mem_map]
  constructor
  · rintro ⟨e, he, rfl⟩
    exact ⟨e, (h.mem_entries_iff e).mp he, rfl⟩
  · rintro ⟨e, he, rfl⟩
    exact ⟨e, (h.mem_entries_iff e).mpr he, rfl⟩

theorem TableInv.retrieve_of_mem {K V F : Type} [DecidableEq K] {P : Params K F}
    {t : HashTbl K V F} (h : TableInv P t) (k : K) (d out : V)
    (hm : (⟨k, d⟩ : HashEntry K V) ∈ entries t) : retrieve P t k out = (true, d) := by
  unfold retrieve
  rw [(h.find_data_iff k d).mpr hm]

theorem TableInv.retrieve_of_not_mem {K V F : Type} [DecidableEq K] {P : Params K F}
    {t : HashTbl K V F} (h : TableInv P t) (k : K) (out : V)
    (hm : k ∉ keys t) : retrieve P t k out = (false, out) := by
  unfold retrieve
  rw [(find_data_eq_none k _).mpr (fun c => hm ((h.key_mem_iff k).mpr c))]

/-- Two tables that hold the same entries for the key `k` answer `retrieve` for
`k` alike. -/
theorem retrieve_congr {K V F : Type} [DecidableEq K] {P : Params K F}
    {t u : HashTbl K V F} (ht : TableInv P t) (hu : TableInv P u) (k : K)
    (hmem : ∀ e : HashEntry K V, e.m_key = k → (e ∈ entries u ↔ e ∈ entries t)) (out : V) :
    retrieve P u k out = retrieve P t k out := by
  cases hf : find_data k (bucket t.m_table (P.hash k % t.m_size)) with
  | none =>
    have hk : k ∉ keys t := fun c =>
      (find_data_eq_none k _).mp hf ((ht.key_mem_iff k).mp c)
    have hk2 : k ∉ keys u := by
      intro c
      apply hk
      unfold keys at c ⊢
      obtain ⟨e, he, hek⟩ := List.mem_map.mp c
      exact List.mem_map.mpr ⟨e, (hmem e hek).mp he, hek⟩
    rw [ht.retrieve_of_not_mem k out hk, hu.retrieve_of_not_mem k out hk2]
  | some d =>
    have hm := (ht.find_data_iff k d).mp hf
    rw [ht.retrieve_of_mem k d out hm, hu.retrieve_of_mem k d out ((hmem _ rfl).mpr hm)]

end ac

/-! ## One bucket replaced -/

namespace ac

theorem mem_flatten_set {E : Type} (tb : List (List E)) (i : Nat) (b : List E)
    (h : i < tb.length) (e : E) :
    e ∈ (tb.set i b).flatten ↔ e ∈ b ∨ ∃ j, j ≠ i ∧ e ∈ bucket tb j := by
  rw [mem_flatten_iff_bucket]
  constructor
  · rintro ⟨j, hj⟩
    rw [bucket_set _ _ _ _ h] at hj
    by_cases hji : j = i
    · left; simpa [hji] using hj
    · right; exact ⟨j, hji, by simpa [hji] using hj⟩
  · rintro (hb | ⟨j, hji, hj⟩)
    · exact ⟨i, by rw [bucket_set _ _ _ _ h]; simpa using hb⟩
    · exact ⟨j, by rw [bucket_set _ _ _ _ h]; simpa [hji] using hj⟩

theorem flatten_push_front_perm {E : Type} (tb : List (List E)) (i : Nat) (e : E)
    (h : i < tb.length) : (push_front tb i e).flatten.Perm (e :: tb.flatten) := by
  unfold push_front
  rw [flatten_set _ _ _ h, flatten_split tb i h]
  simp

theorem TableInv.of_table_eq {K V F : Type} {P : Params K F} {t u : HashTbl K V F}
    (h : TableInv P t) (hs : u.m_size = t.m_size) (ht : u.m_table = t.m_table) :
    TableInv P u := by
  refine ⟨by rw [ht, hs]; exact h.len, by rw [hs]; exact h.pos, ?_, ?_⟩
  · intro i e he
    rw [ht] at he
    rw [hs]; exact h.idx i e he
  · have : keys u = keys t := by unfold keys entries; rw [ht]
    rw [this]; exact h.nodup

theorem TableInv.set_bucket {K V F : Type} {P : Params K F} {t u : HashTbl K V F}
    (h : TableInv P t) (i : Nat) (hi : i < t.m_size) (b : List (HashEntry K V))
    (hs : u.m_size = t.m_size) (ht : u.m_table = t.m_table.set i b)
    (hidx : ∀ e ∈ b, P.hash e.m_key % t.m_size = i)
    (hnd : ((t.m_table.set i b).flatten.map HashEntry.m_key).Nodup) :
    TableInv P u := by
  have hlen : i < t.m_table.length := by rw [h.len]; exact hi
  refine ⟨by rw [ht, hs, List.length_set]; exact h.len, by rw [hs]; exact h.pos, ?_, ?_⟩
  · intro j e he
    rw [ht, bucket_set _ _ _ _ hlen] at he
    rw [hs]
    by_cases hji : j = i
    · rw [hji]; exact hidx e (by simpa [hji] using he)
    · exact h.idx j e (by simpa [hji] using he)
  · unfold keys entries; rw [ht]; exact hnd

theorem TableInv.push_front {K V F : Type} {P : Params K F} {t u : HashTbl K V F}
    (h : TableInv P t) (k : K) (v : V) (hk : k ∉ keys t)
    (hs : u.m_size = t.m_size)
    (ht : u.m_table = push_front t.m_table (P.hash k % t.m_size) ⟨k, v⟩) :
    TableInv P u ∧ (entries u).Perm (⟨k, v⟩ :: entries t) := by
  have hi : P.hash k % t.m_size < t.m_size := Nat.mod_lt _ h.pos
  have hlen : P.hash k % t.m_size < t.m_table.length := by rw [h.len]; exact hi
  have hperm := flatten_push_front_perm t.m_table _ (⟨k, v⟩ : HashEntry K V) hlen
  refine ⟨h.set_bucket _ hi _ hs ht ?_ ?_, ?_⟩
  · intro e he
    rcases List.mem_cons.mp he with rfl | he
    · rfl
    · exact h.idx _ e he
  · have hp := hperm.map HashEntry.m_key
    unfold ac.push_front at hp
    rw [hp.nodup_iff]
    simp only [List.map_cons, List.nodup_cons]
    exact ⟨hk, h.nodup⟩
  · unfold entries; rw [ht]; exact hperm

end ac

/-! ## Rehash -/

namespace ac

theorem distribute_spec {E : Type} (f : E → Nat) (es : List E) (aux : List (List E))
    (hf : ∀ e ∈ es, f e < aux.length) :
    (es.foldl (fun aux e => push_front aux (f e) e) aux).length = aux.length ∧
    (es.foldl (fun aux e => push_front aux (f e) e) aux).flatten.Perm (es ++ aux.flatten) ∧
    ∀ j e, e ∈ bucket (es.foldl (fun aux e => push_front aux (f e) e) aux) j →
      e ∈ bucket aux j ∨ f e = j := by
  induction es generalizing aux with
  | nil =>
    refine ⟨rfl, by simp, ?_⟩
    intro j e he
    exact Or.inl he
  | cons x xs ih =>
    have hx : f x < aux.length := hf x (List.mem_cons_self _ _)
    have hl : (push_front aux (f x) x).length = aux.length := by
      simp [push_front]
    obtain ⟨h1, h2, h3⟩ := ih (push_front aux (f x) x) (by
      intro e he; rw [hl]; exact hf e (List.mem_cons_of_mem _ he))
    simp only [List.foldl_cons]
    refine ⟨by rw [h1, hl], ?_, ?_⟩
    · refine h2.trans ?_
      have hp := flatten_push_front_perm aux (f x) x hx
      refine (List.Perm.append_left xs hp).trans ?_
      simp
    · intro j e he
      rcases h3 j e he with hb | hb
      · unfold push_front at hb
        rw [bucket_set _ _ _ _ hx] at hb
        by_cases hj : j = f x
        · simp only [hj, if_true] at hb
          rcases List.mem_cons.mp hb with rfl | hb
          · right; exact hj.symm
          · left; rw [hj]; exact hb
        · left; simpa [hj] using hb
      · right; exact hb

theorem redistribute_eq {K V F : Type} (P : Params K F) (n : Nat)
    (tb aux : List (List (HashEntry K V))) :
    redistribute P n tb.length tb aux =
      tb.flatten.foldl (fun aux e => push_front aux (P.hash e.m_key % n) e) aux := by
  unfold redistribute
  rw [List.foldl_flatten]
  conv_rhs => rw [← range_map_bucket tb]
  rw [List.foldl_map]

theorem rehash_spec {K V F : Type} (P : Params K F) (t : HashTbl K V F)
    (h : TableInv P t) :
    TableInv P (rehash P t) ∧ (entries (rehash P t)).Perm (entries t) ∧
      (rehash P t).m_count = t.m_count ∧
      (rehash P t).m_size = find_next_prime (t.m_size * 2) ∧
      (rehash P t).m_max_load_factor = t.m_max_load_factor := by
  have hpos : 0 < find_next_prime (t.m_size * 2) := find_next_prime_pos _
  have hred : (rehash P t).m_table =
      t.m_table.flatten.foldl
        (fun aux e => push_front aux (P.hash e.m_key % find_next_prime (t.m_size * 2)) e)
        (List.replicate (find_next_prime (t.m_size * 2)) []) := by
    show redistribute P _ t.m_size t.m_table _ = _
    rw [← h.len, redistribute_eq]
  obtain ⟨h1, h2, h3⟩ := distribute_spec
    (fun e : HashEntry K V => P.hash e.m_key % find_next_prime (t.m_size * 2))
    t.m_table.flatten (List.replicate (find_next_prime (t.m_size * 2)) [])
    (by intro e _; simpa using Nat.mod_lt _ hpos)
  have hperm : (entries (rehash P t)).Perm (entries t) := by
    unfold entries; rw [hred]
    refine h2.trans ?_
    simp
  refine ⟨⟨?_, hpos, ?_, ?_⟩, hperm, rfl, rfl, rfl⟩
  · rw [hred, h1]; simp [rehash]
  · intro j e he
    rw [hred] at he
    rcases h3 j e he with hb | hb
    · rw [bucket_replicate] at hb; simp at hb
    · exact hb
  · unfold keys
    rw [(hperm.map HashEntry.m_key).nodup_iff]
    exact h.nodup

end ac

/-! ## The members keep the invariant -/

namespace ac

theorem flatten_eq_nil_of_buckets {E : Type} (tb : List (List E))
    (h : ∀ j, bucket tb j = []) : tb.flatten = [] := by
  apply List.eq_nil_iff_forall_not_mem.mpr
  intro e he
  obtain ⟨j, hj⟩ := (mem_flatten_iff_bucket tb e).mp he
  rw [h j] at hj
  simp at hj

theorem ctor_inv {K V F : Type} (P : Params K F) (sz : Nat) :
    Inv P (HashTbl.ctor P sz : HashTbl K V F) := by
  have he : (List.replicate (find_next_prime sz) ([] : List (HashEntry K V))).flatten = [] :=
    flatten_eq_nil_of_buckets _ (fun j => bucket_replicate _ j)
  refine ⟨⟨by simp [HashTbl.ctor], find_next_prime_pos sz, ?_, ?_⟩, ?_⟩
  · intro i e hi
    simp only [HashTbl.ctor] at hi
    rw [bucket_replicate] at hi
    simp at hi
  · simp only [keys, entries, HashTbl.ctor]
    rw [he]; simp
  · simp only [entries, HashTbl.ctor]
    rw [he]; simp

theorem clear_loop_spec {E : Type} (n : Nat) (tb : List (List E)) :
    ((List.range n).foldl (fun tb i => tb.set i []) tb).length = tb.length ∧
    ∀ j, bucket ((List.range n).foldl (fun tb i => tb.set i []) tb) j =
      if j < n then [] else bucket tb j := by
  induction n with
  | zero => simp
  | succ m ih =>
    rw [List.range_succ, List.foldl_append]
    simp only [List.foldl_cons, List.foldl_nil, List.length_set]
    refine ⟨ih.1, ?_⟩
    intro j
    by_cases hm : m < tb.length
    · rw [bucket_set _ _ _ _ (by rw [ih.1]; exact hm), ih.2 j]
      by_cases hj : j = m
      · simp [hj]
      · by_cases hlt : j < m
        · have : j < m + 1 := by omega
          simp [hj, hlt, this]
        · have : ¬ j < m + 1 := by omega
          simp [hj, hlt, this]
    · rw [List.set_eq_of_length_le (by rw [ih.1]; omega), ih.2 j]
      by_cases hlt : j < m
      · have : j < m + 1 := by omega
        simp [hlt, this]
      · by_cases hj : j = m
        · subst hj
          simp [bucket_of_ge tb j (by omega)]
        · have : ¬ j < m + 1 := by omega
          simp [hlt, this]

theorem clear_inv {K V F : Type} (P : Params K F) (t : HashTbl K V F) (h : Inv P t) :
    Inv P (clear t) ∧ entries (clear t) = [] ∧ (clear t).m_size = t.m_size := by
  obtain ⟨h1, h2⟩ := clear_loop_spec t.m_size t.m_table
  have hb : ∀ j, bucket (clear t).m_table j = [] := by
    intro j
    show bucket ((List.range t.m_size).foldl (fun tb i => tb.set i []) t.m_table) j = []
    rw [h2 j]
    by_cases hj : j < t.m_size
    · simp [hj]
    · simp only [hj, if_false]
      exact bucket_of_ge _ _ (by rw [h.len]; omega)
  have he : entries (clear t) = [] := flatten_eq_nil_of_buckets _ hb
  refine ⟨⟨⟨?_, h.pos, ?_, ?_⟩, ?_⟩, he, rfl⟩
  · show ((List.range t.m_size).foldl (fun tb i => tb.set i []) t.m_table).length = t.m_size
    rw [h1]; exact h.len
  · intro i e hi
    rw [hb i] at hi
    simp at hi
  · unfold keys; rw [he]; simp
  · rw [he]; rfl

theorem set_max_load_factor_inv {K V F : Type} (P : Params K F) (t : HashTbl K V F)
    (mlf : F) (h : Inv P t) : Inv P (set_max_load_factor t mlf) :=
  ⟨h.toTableInv.of_table_eq rfl rfl, h.cnt⟩

theorem rehash_inv {K V F : Type} (P : Params K F) (t : HashTbl K V F) (h : Inv P t) :
    Inv P (rehash P t) := by
  obtain ⟨h1, h2, h3, _⟩ := rehash_spec P t h.toTableInv
  exact ⟨h1, by rw [h3, h2.length_eq]; exact h.cnt⟩

theorem eq_of_key_eq {K V : Type} (l : List (HashEntry K V))
    (hnd : (l.map HashEntry.m_key).Nodup) (e1 e2 : HashEntry K V)
    (h1 : e1 ∈ l) (h2 : e2 ∈ l) (hk : e1.m_key = e2.m_key) : e1 = e2 :=
  List.inj_on_of_nodup_map hnd h1 h2 hk

/-- What `insert` does to the entries: the invariant is kept, the flag tells
whether the key was new, the counter follows, and the entries afterwards are
the pair `(k, v)` and the old entries with another key. -/
theorem insert_spec {K V F : Type} [DecidableEq K] (P : Params K F) (t : HashTbl K V F)
    (h : Inv P t) (k : K) (v : V) :
    Inv P (insert P t k v).1 ∧
    ((insert P t k v).2 = true ↔ k ∉ keys t) ∧
    (k ∉ keys t → (insert P t k v).1.m_count = t.m_count + 1) ∧
    (k ∈ keys t → (insert P t k v).1.m_count = t.m_count ∧
      (insert P t k v).1.m_size = t.m_size ∧ keys (insert P t k v).1 = keys t) ∧
    ∀ e : HashEntry K V, e ∈ entries (insert P t k v).1 ↔
      e = ⟨k, v⟩ ∨ (e.m_key ≠ k ∧ e ∈ entries t) := by
  have hi : P.hash k % t.m_size < t.m_size := Nat.mod_lt _ h.pos
  have hlen : P.hash k % t.m_size < t.m_table.length := by rw [h.len]; exact hi
  cases hov : overwrite k v (bucket t.m_table (P.hash k % t.m_size)) with
  | none =>
    have hk : k ∉ keys t := fun c =>
      (overwrite_eq_none k v _).mp hov ((h.key_mem_iff k).mp c)
    -- the table after the push and the increment
    obtain ⟨t1, ht1⟩ : ∃ t1 : HashTbl K V F, t1 =
        { t with m_table := push_front t.m_table (P.hash k % t.m_size) ⟨k, v⟩
                 m_count := t.m_count + 1 } := ⟨_, rfl⟩
    have hins : insert P t k v =
        (if P.exceeds t1.m_count t1.m_size t1.m_max_load_factor then rehash P t1 else t1,
          true) := by
      simp only [insert, hov, ht1]
    obtain ⟨hT1, hperm1⟩ := h.toTableInv.push_front (u := t1) k v hk
      (by rw [ht1]) (by rw [ht1])
    have hc1 : t1.m_count = t.m_count + 1 := by rw [ht1]
    have hI1 : Inv P t1 := ⟨hT1, by rw [hc1, hperm1.length_eq, h.cnt]; rfl⟩
    have hmem1 : ∀ e : HashEntry K V, e ∈ entries t1 ↔
        e = ⟨k, v⟩ ∨ (e.m_key ≠ k ∧ e ∈ entries t) := by
      intro e
      rw [hperm1.mem_iff, List.mem_cons]
      constructor
      · rintro (he | he)
        · exact Or.inl he
        · refine Or.inr ⟨?_, he⟩
          intro c
          exact hk (List.mem_map.mpr ⟨e, he, c⟩)
      · rintro (he | ⟨_, he⟩)
        · exact Or.inl he
        · exact Or.inr he
    rw [hins]
    by_cases hex : P.exceeds t1.m_count t1.m_size t1.m_max_load_factor = true
    · simp only [hex, if_true]
      obtain ⟨_, hp, hc, _⟩ := rehash_spec P t1 hT1
      refine ⟨rehash_inv P t1 hI1, by simp [hk], fun _ => by rw [hc, hc1],
        fun c => absurd c hk, ?_⟩
      intro e
      rw [hp.mem_iff]; exact hmem1 e
    · simp only [hex]
      exact ⟨hI1, by simp [hk], fun _ => hc1, fun c => absurd c hk, hmem1⟩
  | some b =>
    have hk : k ∈ keys t := by
      rw [h.key_mem_iff k]
      by_contra c
      rw [(overwrite_eq_none k v _).mpr c] at hov
      exact Option.noConfusion hov
    obtain ⟨hb1, hb2, hb3, hb4⟩ := overwrite_some k v _ b hov
    obtain ⟨t1, ht1⟩ : ∃ t1 : HashTbl K V F, t1 =
        { t with m_table := t.m_table.set (P.hash k % t.m_size) b } := ⟨_, rfl⟩
    have hins : insert P t k v = (t1, false) := by
      simp only [insert, hov, ht1]
    have hfl : (t.m_table.set (P.hash k % t.m_size) b).flatten.map HashEntry.m_key =
        t.m_table.flatten.map HashEntry.m_key := by
      rw [flatten_set _ _ _ hlen, flatten_split t.m_table _ hlen]
      simp [hb1]
    have hT1 : TableInv P t1 := by
      refine h.toTableInv.set_bucket _ hi b (by rw [ht1]) (by rw [ht1]) ?_ ?_
      · intro e he
        by_cases hek : e.m_key = k
        · rw [hek]
        · exact h.idx _ e ((hb4 e hek).mp he)
      · rw [hfl]; exact h.nodup
    have hkeys : keys t1 = keys t := by
      unfold keys entries; rw [ht1]; exact hfl
    have hin : (⟨k, v⟩ : HashEntry K V) ∈ entries t1 := by
      unfold entries; rw [ht1]
      exact (mem_flatten_set _ _ _ hlen _).mpr (Or.inl hb2)
    rw [hins]
    refine ⟨⟨hT1, ?_⟩, by simp [hk], fun c => absurd hk c, fun _ => ⟨by rw [ht1], by rw [ht1], hkeys⟩, ?_⟩
    · have hl : (entries t1).length = (entries t).length := by
        have := congrArg List.length hkeys
        simpa [keys] using this
      rw [hl, ← h.cnt, ht1]
    · intro e
      constructor
      · intro he
        by_cases hek : e.m_key = k
        · left
          exact eq_of_key_eq _ hT1.nodup e ⟨k, v⟩ he hin hek
        · right
          refine ⟨hek, ?_⟩
          unfold entries at he ⊢
          rw [ht1] at he
          rcases (mem_flatten_set _ _ _ hlen _).mp he with hb | ⟨j, _, hj⟩
          · exact (mem_flatten_iff_bucket _ _).mpr ⟨_, (hb4 e hek).mp hb⟩
          · exact (mem_flatten_iff_bucket _ _).mpr ⟨j, hj⟩
      · rintro (rfl | ⟨hek, he⟩)
        · exact hin
        · unfold entries; rw [ht1]
          apply (mem_flatten_set _ _ _ hlen _).mpr
          have hbk := (h.mem_entries_iff e).mp he
          by_cases hj : P.hash e.m_key % t.m_size = P.hash k % t.m_size
          · left; rw [hj] at hbk; exact (hb4 e hek).mpr hbk
          · right; exact ⟨_, hj, hbk⟩

end ac

namespace ac

/-- What `erase` does to the entries: the invariant is kept, the flag tells
whether the key was there, the counter follows, the bucket array keeps its
size, and the entries afterwards are the old entries with another key. -/
theorem erase_spec {K V F : Type} [DecidableEq K] (P : Params K F) (t : HashTbl K V F)
    (h : Inv P t) (k : K) :
    Inv P (erase P t k).1 ∧
    ((erase P t k).2 = true ↔ k ∈ keys t) ∧
    (k ∈ keys t → (erase P t k).1.m_count + 1 = t.m_count) ∧
    (k ∉ keys t → (erase P t k).1 = t) ∧
    (erase P t k).1.m_size = t.m_size ∧
    ∀ e : HashEntry K V, e ∈ entries (erase P t k).1 ↔ (e.m_key ≠ k ∧ e ∈ entries t) := by
  have hi : P.hash k % t.m_size < t.m_size := Nat.mod_lt _ h.pos
  have hlen : P.hash k % t.m_size < t.m_table.length := by rw [h.len]; exact hi
  cases hsc : erase_scan k (bucket t.m_table (P.hash k % t.m_size)) with
  | none =>
    have hk : k ∉ keys t := fun c =>
      (erase_scan_eq_none k _).mp hsc ((h.key_mem_iff k).mp c)
    have her : erase P t k = (t, false) := by simp only [erase, hsc]
    rw [her]
    refine ⟨h, by simp [hk], fun c => absurd c hk, fun _ => rfl, rfl, ?_⟩
    intro e
    constructor
    · intro he
      exact ⟨fun c => hk (List.mem_map.mpr ⟨e, he, c⟩), he⟩
    · exact fun he => he.2
  | some b =>
    have hk : k ∈ keys t := by
      rw [h.key_mem_iff k]
      by_contra c
      rw [(erase_scan_eq_none k _).mpr c] at hsc
      exact Option.noConfusion hsc
    obtain ⟨hb1, hb2, hb3, hb4⟩ := erase_scan_some k _ b hsc
    have hb3 := hb3 (h.bucket_nodup _)
    obtain ⟨t1, ht1⟩ : ∃ t1 : HashTbl K V F, t1 =
        { t with m_table := t.m_table.set (P.hash k % t.m_size) b
                 m_count := t.m_count - 1 } := ⟨_, rfl⟩
    have her : erase P t k = (t1, true) := by simp only [erase, hsc, ht1]
    have hsub : (t.m_table.set (P.hash k % t.m_size) b).flatten.Sublist t.m_table.flatten := by
      rw [flatten_set _ _ _ hlen, flatten_split t.m_table _ hlen]
      exact List.Sublist.append (List.Sublist.refl _)
        (List.Sublist.append hb1 (List.Sublist.refl _))
    have hlenE : (t.m_table.set (P.hash k % t.m_size) b).flatten.length + 1 =
        t.m_table.flatten.length := by
      rw [flatten_set _ _ _ hlen, flatten_split t.m_table _ hlen]
      simp only [List.length_append]
      omega
    have hT1 : TableInv P t1 := by
      refine h.toTableInv.set_bucket _ hi b (by rw [ht1]) (by rw [ht1]) ?_ ?_
      · intro e he
        exact h.idx _ e (hb1.subset he)
      · exact List.Nodup.sublist (hsub.map _) h.nodup
    have hE1 : (entries t1).length + 1 = (entries t).length := by
      unfold entries; rw [ht1]; exact hlenE
    have hc1 : t1.m_count + 1 = t.m_count := by
      have hc := h.cnt
      have : t1.m_count = t.m_count - 1 := by rw [ht1]
      omega
    have hcnt1 : t1.m_count = (entries t1).length := by
      have := h.cnt; omega
    rw [her]
    refine ⟨⟨hT1, hcnt1⟩, by simp [hk], fun _ => hc1, fun c => absurd hk c,
      by rw [ht1], ?_⟩
    intro e
    unfold entries
    rw [show t1.m_table = t.m_table.set (P.hash k % t.m_size) b by rw [ht1],
      mem_flatten_set _ _ _ hlen]
    constructor
    · rintro (he | ⟨j, hj, he⟩)
      · have hek : e.m_key ≠ k := fun c => hb3 (List.mem_map.mpr ⟨e, he, c⟩)
        exact ⟨hek, (mem_flatten_iff_bucket _ _).mpr ⟨_, hb1.subset he⟩⟩
      · refine ⟨?_, (mem_flatten_iff_bucket _ _).mpr ⟨j, he⟩⟩
        intro c
        apply hj
        rw [← h.idx j e he, c]
    · rintro ⟨hek, he⟩
      have hbk := (h.mem_entries_iff e).mp he
      by_cases hj : P.hash e.m_key % t.m_size = P.hash k % t.m_size
      · left; rw [hj] at hbk; exact (hb4 e hek).mpr hbk
      · right; exact ⟨_, hj, hbk⟩

end ac

namespace ac

/-- What `operator[]` does to the entries: a key already there leaves the table
as it is; a new key is entered with the default data, after the rehash if there
is one. -/
theorem operator_brackets_spec {K V F : Type} [DecidableEq K] [Inhabited V]
    (P : Params K F) (t : HashTbl K V F) (h : Inv P t) (k : K) :
    Inv P (operator_brackets P t k).1 ∧
    (k ∈ keys t → (operator_brackets P t k).1 = t) ∧
    (k ∉ keys t → (operator_brackets P t k).1.m_count = t.m_count + 1 ∧
      ∀ e : HashEntry K V, e ∈ entries (operator_brackets P t k).1 ↔
        e = ⟨k, default⟩ ∨ e ∈ entries t) := by
  cases hf : find_data k (bucket t.m_table (P.hash k % t.m_size)) with
  | some d =>
    have hk : k ∈ keys t :=
      List.mem_map.mpr ⟨⟨k, d⟩, (h.find_data_iff k d).mp hf, rfl⟩
    have hop : operator_brackets P t k = (t, d) := by simp only [operator_brackets, hf]
    rw [hop]
    exact ⟨h, fun _ => rfl, fun c => absurd hk c⟩
  | none =>
    have hk : k ∉ keys t := fun c =>
      (find_data_eq_none k _).mp hf ((h.key_mem_iff k).mp c)
    obtain ⟨t1, ht1⟩ : ∃ t1 : HashTbl K V F, t1 = { t with m_count := t.m_count + 1 } :=
      ⟨_, rfl⟩
    obtain ⟨t2, ht2⟩ : ∃ t2 : HashTbl K V F, t2 =
        if P.exceeds t1.m_count t1.m_size t1.m_max_load_factor then rehash P t1 else t1 :=
      ⟨_, rfl⟩
    obtain ⟨t3, ht3⟩ : ∃ t3 : HashTbl K V F, t3 =
        { t2 with m_table := push_front t2.m_table (P.hash k % t2.m_size) ⟨k, default⟩ } :=
      ⟨_, rfl⟩
    have hop : operator_brackets P t k = (t3, default) := by
      simp only [operator_brackets, hf, ht3, ht2, ht1]
    have hT1 : TableInv P t1 := h.toTableInv.of_table_eq (by rw [ht1]) (by rw [ht1])
    have hE1 : entries t1 = entries t := by unfold entries; rw [ht1]
    have h2 : TableInv P t2 ∧ (entries t2).Perm (entries t) ∧ t2.m_count = t.m_count + 1 := by
      rw [ht2]
      by_cases hex : P.exceeds t1.m_count t1.m_size t1.m_max_load_factor = true
      · rw [if_pos hex]
        obtain ⟨r1, r2, r3, _⟩ := rehash_spec P t1 hT1
        exact ⟨r1, by rw [← hE1]; exact r2, by rw [r3, ht1]⟩
      · rw [if_neg hex]
        exact ⟨hT1, by rw [hE1], by rw [ht1]⟩
    obtain ⟨hT2, hp2, hc2⟩ := h2
    have hk2 : k ∉ keys t2 := by
      unfold keys
      intro c
      exact hk ((hp2.map HashEntry.m_key).mem_iff.mp c)
    obtain ⟨hT3, hp3⟩ := hT2.push_front (u := t3) k default hk2 (by rw [ht3]) (by rw [ht3])
    have hc3 : t3.m_count = t.m_count + 1 := by rw [ht3]; exact hc2
    rw [hop]
    refine ⟨⟨hT3, ?_⟩, fun c => absurd c hk, fun _ => ⟨hc3, ?_⟩⟩
    · rw [hc3, hp3.length_eq, List.length_cons, hp2.length_eq, h.cnt]
    · intro e
      rw [hp3.mem_iff, List.mem_cons, hp2.mem_iff]

/-- Every state reached through the members satisfies the invariant. -/
theorem Reachable.inv {K V F : Type} [DecidableEq K] [Inhabited V] {P : Params K F}
    {t : HashTbl K V F} (h : Reachable P t) : Inv P t := by
  induction h with
  | ctor sz => exact ctor_inv P sz
  | insert t k v _ ih => exact (insert_spec P t ih k v).1
  | operator_brackets t k _ ih => exact (operator_brackets_spec P t ih k).1
  | erase t k _ ih => exact (erase_spec P t ih k).1
  | clear t _ ih => exact (clear_inv P t ih).1
  | rehash t _ ih => exact rehash_inv P t ih
  | set_max_load_factor t mlf _ ih => exact set_max_load_factor_inv P t mlf ih

end ac

/-! ## The iteration bounds of `prime` and `find_next_prime` are never used up -/

namespace ac

/-- The loop of `prime` gives the same answer with any two bounds that exceed
the rounds it can run: the bound passed by `prime` does not decide. -/
theorem prime_loop_bound_irrelevant (n : Nat) :
    ∀ (f g i : Nat), 1 ≤ i → n < i + f → n < i + g → prime_loop f i n = prime_loop g i n := by
  intro f
  induction f with
  | zero =>
    intro g i hi hf _
    have hlt : ¬ i * i ≤ n := by
      have : i ≤ i * i := Nat.le_mul_self i
      omega
    cases g with
    | zero => rfl
    | succ g => simp [prime_loop, hlt]
  | succ f ih =>
    intro g i hi hf hg
    cases g with
    | zero =>
      have hlt : ¬ i * i ≤ n := by
        have : i ≤ i * i := Nat.le_mul_self i
        omega
      simp [prime_loop, hlt]
    | succ g =>
      simp only [prime_loop]
      by_cases h1 : i * i ≤ n
      · rw [if_pos h1, if_pos h1]
        by_cases h2 : n % i = 0 ∨ n % (i + 2) = 0
        · rw [if_pos h2, if_pos h2]
        · rw [if_neg h2, if_neg h2]
          exact ih g (i + 6) (by omega) (by omega) (by omega)
      · rw [if_neg h1, if_neg h1]

theorem prime_loop_of_prime (p : Nat) (hp : Nat.Prime p) :
    ∀ (f i : Nat), 3 ≤ i → prime_loop f i p = true := by
  intro f
  induction f with
  | zero => intro i _; rfl
  | succ f ih =>
    intro i hi
    simp only [prime_loop]
    by_cases h1 : i * i ≤ p
    · have h3 : 3 * i ≤ i * i := Nat.mul_le_mul_right i hi
      have hd1 : ¬ p % i = 0 := by
        intro c
        rcases (Nat.dvd_prime hp).mp (Nat.dvd_of_mod_eq_zero c) with h | h <;> omega
      have hd2 : ¬ p % (i + 2) = 0 := by
        intro c
        rcases (Nat.dvd_prime hp).mp (Nat.dvd_of_mod_eq_zero c) with h | h <;> omega
      rw [if_pos h1, if_neg (by rintro (h | h); exact hd1 h; exact hd2 h)]
      exact ih (i + 6) (by omega)
    · rw [if_neg h1]

/-- Every prime number is accepted by `prime`. -/
theorem prime_of_nat_prime (p : Nat) (hp : Nat.Prime p) : prime p = true := by
  have h2 := hp.two_le
  unfold prime
  rw [if_neg (by omega)]
  by_cases h3 : p ≤ 3
  · rw [if_pos h3]
  · rw [if_neg h3]
    have hd1 : ¬ p % 2 = 0 := by
      intro c
      rcases (Nat.dvd_prime hp).mp (Nat.dvd_of_mod_eq_zero c) with h | h <;> omega
    have hd2 : ¬ p % 3 = 0 := by
      intro c
      rcases (Nat.dvd_prime hp).mp (Nat.dvd_of_mod_eq_zero c) with h | h <;> omega
    rw [if_neg (by rintro (h | h); exact hd1 h; exact hd2 h)]
    exact prime_loop_of_prime p hp p 5 (by omega)

theorem find_next_prime_loop_reaches (p : Nat) (hp : prime p = true) :
    ∀ (fuel n : Nat), n ≤ p → p - n ≤ fuel → prime (find_next_prime_loop fuel n) = true := by
  intro fuel
  induction fuel with
  | zero =>
    intro n h1 h2
    have : n = p := by omega
    simp only [find_next_prime_loop]
    rw [this]; exact hp
  | succ f ih =>
    intro n h1 h2
    simp only [find_next_prime_loop]
    by_cases hn : prime n = true
    · rw [if_pos hn]; exact hn
    · rw [if_neg hn]
      have hne : n ≠ p := fun c => hn (c ▸ hp)
      exact ih (n + 1) (by omega) (by omega)

/-- The loop of `find_next_prime` stops at a number that `prime` accepts: the
bound on its increments is not used up. -/
theorem prime_find_next_prime (n : Nat) : prime (find_next_prime n) = true := by
  unfold find_next_prime
  cases n with
  | zero => decide
  | succ m =>
    obtain ⟨p, hp, h1, h2⟩ := Nat.exists_prime_lt_and_le_two_mul (m + 1) (by omega)
    exact find_next_prime_loop_reaches p (prime_of_nat_prime p hp) _ _ (by omega) (by omega)

end ac

/-! ## Properties of the hash table -/

namespace ac

theorem sample_table_reachable : Reachable sample_params sample_table :=
  Reachable.insert _ 2 20 (Reachable.insert _ 1 10 (Reachable.ctor 2))

/-- C6: in every state reached from the constructor through `insert`,
`operator[]`, `erase`, `clear` and `rehash`, the keys of all entries of all
buckets are pairwise different. -/
theorem keys_unique {K V F : Type} [DecidableEq K] [Inhabited V]
    (P : Params K F) (t : HashTbl K V F) (h : Reachable P t) : (keys t).Nodup :=
  h.inv.nodup

theorem keys_unique_witness :
    Reachable sample_params (insert sample_params sample_table 1 11).1 ∧
      (keys (insert sample_params sample_table 1 11).1).Nodup :=
  ⟨Reachable.insert _ 1 11 sample_table_reachable,
    keys_unique sample_params _ (Reachable.insert _ 1 11 sample_table_reachable)⟩

/-- C7: in every reachable state, an entry stored in bucket `i` has
`hash(key) mod size = i` for the current size of the bucket array. -/
theorem bucket_index {K V F : Type} [DecidableEq K] [Inhabited V]
    (P : Params K F) (t : HashTbl K V F) (h : Reachable P t) (i : Nat)
    (e : HashEntry K V) (he : e ∈ bucket t.m_table i) :
    P.hash e.m_key % t.m_size = i :=
  h.inv.idx i e he

/-- After `operator[](3)` has rehashed `sample_table`, the new entry lies in
bucket 3 of 5. -/
theorem bucket_index_witness :
    Reachable sample_params (operator_brackets sample_params sample_table 3).1 ∧
      (⟨3, 0⟩ : HashEntry Nat Nat) ∈
        bucket (operator_brackets sample_params sample_table 3).1.m_table 3 ∧
      sample_params.hash 3 % (operator_brackets sample_params sample_table 3).1.m_size = 3 :=
  ⟨Reachable.operator_brackets _ 3 sample_table_reachable, by decide,
    bucket_index sample_params _ (Reachable.operator_brackets _ 3 sample_table_reachable) 3
      ⟨3, 0⟩ (by decide)⟩

/-- C9: in every reachable state, `erase(k)` returns `true` exactly when an
entry has the key `k`; then `size()` goes down by one and `retrieve(k, _)`
returns `false` afterwards; otherwise `erase` returns `false` and `size()`
stays.  In both cases the bucket array keeps its size and `retrieve` answers
for every other key as before. -/
theorem erase_result {K V F : Type} [DecidableEq K] [Inhabited V]
    (P : Params K F) (t : HashTbl K V F) (h : Reachable P t) (k : K) (out : V) :
    ((erase P t k).2 = true ↔ k ∈ keys t) ∧
    (k ∈ keys t → size (erase P t k).1 + 1 = size t ∧
      retrieve P (erase P t k).1 k out = (false, out)) ∧
    (k ∉ keys t → (erase P t k).2 = false ∧ size (erase P t k).1 = size t) ∧
    (erase P t k).1.m_size = t.m_size ∧
    (∀ (k2 : K) (out2 : V), k2 ≠ k →
      retrieve P (erase P t k).1 k2 out2 = retrieve P t k2 out2) := by
  obtain ⟨hI, hflag, hdec, hsame, hsz, hmem⟩ := erase_spec P t h.inv k
  have hgone : k ∉ keys (erase P t k).1 := by
    intro c
    obtain ⟨e, he, hek⟩ := List.mem_map.mp c
    exact ((hmem e).mp he).1 hek
  refine ⟨hflag, fun hk => ⟨hdec hk, hI.toTableInv.retrieve_of_not_mem k out hgone⟩,
    fun hk => ⟨?_, by rw [hsame hk]⟩, hsz, ?_⟩
  · cases hb : (erase P t k).2 with
    | false => rfl
    | true => exact absurd (hflag.mp hb) hk
  · intro k2 out2 hne
    refine retrieve_congr h.inv.toTableInv hI.toTableInv k2 ?_ out2
    intro e hek
    rw [hmem e]
    constructor
    · exact fun he => he.2
    · exact fun he => ⟨by rw [hek]; exact hne, he⟩

theorem erase_result_witness :
    Reachable sample_params sample_table ∧ 1 ∈ keys sample_table ∧
      size (erase sample_params sample_table 1).1 = 1 ∧
      (((erase sample_params sample_table 1).2 = true ↔ 1 ∈ keys sample_table) ∧
      (1 ∈ keys sample_table → size (erase sample_params sample_table 1).1 + 1
          = size sample_table ∧
        retrieve sample_params (erase sample_params sample_table 1).1 1 0 = (false, 0)) ∧
      (1 ∉ keys sample_table → (erase sample_params sample_table 1).2 = false ∧
        size (erase sample_params sample_table 1).1 = size sample_table) ∧
      (erase sample_params sample_table 1).1.m_size = sample_table.m_size ∧
      (∀ (k2 : Nat) (out2 : Nat), k2 ≠ 1 →
        retrieve sample_params (erase sample_params sample_table 1).1 k2 out2
          = retrieve sample_params sample_table k2 out2)) :=
  ⟨sample_table_reachable, by decide, by decide,
    erase_result sample_params sample_table sample_table_reachable 1 0⟩

end ac

/-! ## Memory lemmas for the vector -/

namespace sc

theorem load_natCast {T : Type} (buf : List T) (i : Nat) : load buf (i : Int) = buf[i]? := by
  simp [load]

theorem store_natCast {T : Type} (buf : List T) (i : Nat) (x : T) (h : i < buf.length) :
    store buf (i : Int) x = some (buf.set i x) := by
  simp [store, h]

theorem load_of_lt {T : Type} (buf : List T) (i : Nat) (h : i < buf.length) :
    load buf (i : Int) = some buf[i] := by
  rw [load_natCast, List.getElem?_eq_getElem h]

theorem copy_across_spec {T : Type} (n : Nat) (src : List T) (i : Nat) (aux : List T)
    (hs : i + n ≤ src.length) (ha : i + n ≤ aux.length) :
    ∃ r, copy_across n src i aux = some r ∧ r.length = aux.length ∧
      ∀ j, r[j]? = if i ≤ j ∧ j < i + n then src[j]? else aux[j]? := by
  induction n generalizing i aux with
  | zero =>
    refine ⟨aux, rfl, rfl, ?_⟩
    intro j
    rw [if_neg (by omega)]
  | succ m ih =>
    have h1 : i < src.length := by omega
    have h2 : i < aux.length := by omega
    obtain ⟨r, hr, hl, hg⟩ := ih (i + 1) (aux.set i src[i]) (by omega)
      (by rw [List.length_set]; omega)
    refine ⟨r, ?_, by rw [hl, List.length_set], ?_⟩
    · simp only [copy_across, load_of_lt src i h1, Option.bind_some,
        store_natCast aux i _ h2]
      exact hr
    · intro j
      rw [hg j]
      by_cases hj : i = j
      · subst hj
        rw [if_neg (by omega), if_pos (by omega), List.getElem?_set, if_pos rfl, if_pos h2,
          List.getElem?_eq_getElem h1]
      · by_cases hin : i + 1 ≤ j ∧ j < i + 1 + m
        · rw [if_pos hin, if_pos (by omega)]
        · rw [if_neg hin, if_neg (by omega), List.getElem?_set, if_neg hj]

theorem copy_in_spec {T : Type} (xs : List T) (buf : List T) (d : Nat)
    (h : d + xs.length ≤ buf.length) :
    ∃ r, copy_in xs buf (d : Int) = some r ∧ r.length = buf.length ∧
      ∀ j, r[j]? = if d ≤ j ∧ j < d + xs.length then xs[j - d]? else buf[j]? := by
  induction xs generalizing buf d with
  | nil =>
    refine ⟨buf, rfl, rfl, ?_⟩
    intro j
    rw [if_neg (by simp)]
  | cons x xs ih =>
    simp only [List.length_cons] at h
    have h2 : d < buf.length := by omega
    obtain ⟨r, hr, hl, hg⟩ := ih (buf.set d x) (d + 1) (by rw [List.length_set]; omega)
    refine ⟨r, ?_, by rw [hl, List.length_set], ?_⟩
    · simp only [copy_in, store_natCast buf d _ h2, Option.bind_some]
      have : ((d : Int) + 1) = ((d + 1 : Nat) : Int) := by omega
      rw [this]; exact hr
    · intro j
      rw [hg j]
      simp only [List.length_cons]
      by_cases hj : d = j
      · subst hj
        rw [if_neg (by omega), if_pos (by omega), List.getElem?_set, if_pos rfl, if_pos h2]
        simp
      · by_cases hin : d + 1 ≤ j ∧ j < d + 1 + xs.length
        · have a3 : j - d = (j - (d + 1)) + 1 := by omega
          rw [if_pos hin, if_pos (by omega), a3, List.getElem?_cons_succ]
        · rw [if_neg hin, if_neg (by omega), List.getElem?_set, if_neg hj]

theorem copy_backward_loop_spec {T : Type} (n : Nat) (buf : List T) (last d_last : Nat)
    (h1 : n ≤ last) (h2 : last ≤ d_last) (h3 : d_last ≤ buf.length) :
    ∃ r, copy_backward_loop n buf (last : Int) (d_last : Int) = some r ∧
      r.length = buf.length ∧
      ∀ j, r[j]? = if d_last - n ≤ j ∧ j < d_last then buf[j - (d_last - last)]?
        else buf[j]? := by
  induction n generalizing buf last d_last with
  | zero =>
    refine ⟨buf, rfl, rfl, ?_⟩
    intro j
    rw [if_neg (by omega)]
  | succ m ih =>
    have hl1 : last - 1 < buf.length := by omega
    have hd1 : d_last - 1 < buf.length := by omega
    obtain ⟨r, hr, hl, hg⟩ := ih (buf.set (d_last - 1) buf[last - 1]) (last - 1) (d_last - 1)
      (by omega) (by omega) (by rw [List.length_set]; omega)
    refine ⟨r, ?_, by rw [hl, List.length_set], ?_⟩
    · have e1 : ((last : Int) - 1) = ((last - 1 : Nat) : Int) := by omega
      have e2 : ((d_last : Int) - 1) = ((d_last - 1 : Nat) : Int) := by omega
      simp only [copy_backward_loop, e1, e2, load_of_lt buf _ hl1, Option.bind_some,
        store_natCast buf _ _ hd1]
      exact hr
    · intro j
      rw [hg j]
      by_cases hj : d_last - 1 = j
      · have a3 : j - (d_last - last) = last - 1 := by omega
        rw [if_neg (by omega), if_pos (by omega), List.getElem?_set, if_pos hj, if_pos hd1,
          a3, List.getElem?_eq_getElem hl1]
      · by_cases hin : d_last - 1 - m ≤ j ∧ j < d_last - 1
        · have a3 : j - (d_last - 1 - (last - 1)) = j - (d_last - last) := by omega
          have a4 : ¬ (d_last - 1 = j - (d_last - last)) := by omega
          rw [if_pos hin, if_pos (by omega), a3, List.getElem?_set, if_neg a4]
        · rw [if_neg hin, if_neg (by omega), List.getElem?_set, if_neg hj]

end sc

/-! ## Growth and insertion -/

namespace sc

theorem reserve_spec {T : Type} [Inhabited T] (v : vector T) (hv : v.Valid) (n : Nat) :
    ∃ v1, reserve v n = .returned v1 () ∧ v1.Valid ∧ v1.m_end = v.m_end ∧
      v1.m_capacity = (if n > v.m_capacity then n else v.m_capacity) ∧
      ∀ j, j < v.m_end → v1.m_storage[j]? = v.m_storage[j]? := by
  by_cases hn : n > v.m_capacity
  · obtain ⟨r, hr, hl, hg⟩ := copy_across_spec v.m_end v.m_storage 0
      (List.replicate n default) (by have := hv.1; have := hv.2; omega)
      (by have := hv.2; simp; omega)
    refine ⟨{ v with m_storage := r, m_capacity := n }, ?_, ?_, rfl, by simp [hn], ?_⟩
    · simp only [reserve, hn, if_true, hr]
    · exact ⟨by simp [hl], by have := hv.2; show v.m_end ≤ n; omega⟩
    · intro j hj
      show r[j]? = _
      rw [hg j, if_pos (by omega)]
  · refine ⟨v, by simp only [reserve, hn, if_false], hv, rfl, by simp [hn], fun _ _ => rfl⟩

theorem prepare_insertion_spec {T : Type} [Inhabited T] (v : vector T) (hv : v.Valid)
    (i : Nat) (hi : i ≤ v.m_end) (sz : Nat) :
    ∃ v1, prepare_insertion v (i : Int) sz = .returned v1 (i : Int) ∧ v1.Valid ∧
      v1.m_end = v.m_end + sz ∧
      v1.m_capacity =
        (if v.m_end + sz > v.m_capacity then (v.m_end + sz) * 2 else v.m_capacity) ∧
      (∀ j, j < i → v1.m_storage[j]? = v.m_storage[j]?) ∧
      (∀ j, i + sz ≤ j → j < v.m_end + sz → v1.m_storage[j]? = v.m_storage[j - sz]?) := by
  have c1 : ¬ (v.empty = true ∧ (i : Int) ≠ v.begin) := by
    rintro ⟨he, hne⟩
    apply hne
    have : v.m_end = 0 := by simpa [vector.empty] using he
    simp only [vector.begin]
    omega
  have c2 : ¬ ((i : Int) < v.begin ∨ (i : Int) > v.end_) := by
    simp only [vector.begin, vector.end_]
    omega
  have c3 : distance v.begin (i : Int) = some (i : Int) := by
    simp [distance, vector.begin]
  -- the vector after the growth, if any
  obtain ⟨w, hw, hwv, hwe, hwc, hwg⟩ : ∃ w : vector T,
      (if v.m_end + sz > v.m_capacity then reserve v ((v.m_end + sz) * 2)
        else Outcome.returned v ()) = .returned w () ∧ w.Valid ∧ w.m_end = v.m_end ∧
      w.m_capacity =
        (if v.m_end + sz > v.m_capacity then (v.m_end + sz) * 2 else v.m_capacity) ∧
      ∀ j, j < v.m_end → w.m_storage[j]? = v.m_storage[j]? := by
    by_cases hg : v.m_end + sz > v.m_capacity
    · obtain ⟨w, h1, h2, h3, h4, h5⟩ := reserve_spec v hv ((v.m_end + sz) * 2)
      refine ⟨w, by rw [if_pos hg]; exact h1, h2, h3, ?_, h5⟩
      rw [h4, if_pos hg, if_pos (by omega)]
    · exact ⟨v, by rw [if_neg hg], hv, rfl, by rw [if_neg hg], fun _ _ => rfl⟩
  have hroom : w.m_end + sz ≤ w.m_storage.length := by
    rw [hwv.1, hwc, hwe]
    by_cases hg : v.m_end + sz > v.m_capacity
    · rw [if_pos hg]; omega
    · rw [if_neg hg]; omega
  obtain ⟨r, hr, hl, hg⟩ := copy_backward_loop_spec (w.m_end - i) w.m_storage w.m_end
    (w.m_end + sz) (by omega) (by omega) hroom
  have hcb : copy_backward w.m_storage (w.begin + (i : Int)) w.end_ (w.end_ + (sz : Int)) =
      some r := by
    have e1 : w.begin + (i : Int) = (i : Int) := by simp [vector.begin]
    have e2 : ((w.m_end : Int) - (i : Int)).toNat = w.m_end - i := by omega
    have e3 : (w.m_end : Int) + (sz : Int) = ((w.m_end + sz : Nat) : Int) := by omega
    have e4 : (i : Int) ≤ (w.m_end : Int) := by omega
    simp only [copy_backward, e1, vector.end_, e2, e3, e4, if_true]
    exact hr
  refine ⟨{ w with m_storage := r, m_end := w.m_end + sz }, ?_, ?_, ?_, hwc, ?_, ?_⟩
  · simp only [prepare_insertion, c1, c2, if_false, c3, hw, Outcome.bind, hcb]
    simp [vector.begin]
  · refine ⟨?_, ?_⟩
    · show r.length = w.m_capacity
      rw [hl]; exact hwv.1
    · show w.m_end + sz ≤ w.m_capacity
      rw [← hwv.1]; exact hroom
  · show w.m_end + sz = v.m_end + sz
    rw [hwe]
  · intro j hj
    show r[j]? = _
    rw [hg j, if_neg (by omega)]
    exact hwg j (by omega)
  · intro j hj1 hj2
    show r[j]? = _
    have a : w.m_end + sz - w.m_end = sz := by omega
    rw [hg j, if_pos (by omega), a]
    exact hwg (j - sz) (by omega)

end sc

namespace sc

theorem live_length {T : Type} (v : vector T) (hv : v.Valid) : v.live.length = v.m_end := by
  unfold vector.live
  rw [List.length_take]
  have := hv.1; have := hv.2
  omega

theorem live_getElem? {T : Type} (v : vector T) (j : Nat) (hj : j < v.m_end) :
    v.live[j]? = v.m_storage[j]? := by
  unfold vector.live
  rw [List.getElem?_take, if_pos hj]

theorem insert_eq_insert_range {T : Type} [Inhabited T] (v : vector T) (pos_ : Int)
    (value_ : T) : insert v pos_ value_ = insert_range v pos_ [value_] := by
  unfold insert insert_range
  simp only [List.length_singleton]
  cases prepare_insertion v pos_ 1 with
  | returned v1 p =>
    simp only [Outcome.bind, copy_in]
    cases store v1.m_storage p value_ <;> rfl
  | thrown e w => rfl
  | undefined => rfl

theorem insert_range_spec {T : Type} [Inhabited T] (v : vector T) (hv : v.Valid)
    (i : Nat) (hi : i ≤ v.m_end) (xs : List T) :
    ∃ v1, insert_range v (i : Int) xs = .returned v1 (i : Int) ∧ v1.Valid ∧
      v1.live = v.live.take i ++ xs ++ v.live.drop i ∧
      v1.m_end = v.m_end + xs.length ∧
      v1.m_capacity = (if v.m_end + xs.length > v.m_capacity then (v.m_end + xs.length) * 2
        else v.m_capacity) := by
  obtain ⟨w, hw, hwv, hwe, hwc, hlo, hhi⟩ := prepare_insertion_spec v hv i hi xs.length
  obtain ⟨r, hr, hl, hg⟩ := copy_in_spec xs w.m_storage i
    (by have := hwv.1; have := hwv.2; omega)
  refine ⟨{ w with m_storage := r }, ?_, ⟨by show r.length = _; rw [hl]; exact hwv.1, hwv.2⟩,
    ?_, hwe, hwc⟩
  · simp only [insert_range, hw, Outcome.bind, hr]
  · have hL := live_length v hv
    have hlt : (v.live.take i).length = i := by rw [List.length_take, hL]; omega
    apply List.ext_getElem?
    intro j
    have hlhs : (vector.live { w with m_storage := r })[j]? =
        if j < v.m_end + xs.length then r[j]? else none := by
      show (r.take w.m_end)[j]? = _
      rw [List.getElem?_take, hwe]
    have hrhs : (v.live.take i ++ xs ++ v.live.drop i)[j]? =
        if j < i then v.live[j]? else
          if j - i < xs.length then xs[j - i]? else v.live[i + (j - i - xs.length)]? := by
      rw [List.append_assoc, List.getElem?_append, hlt, List.getElem?_append,
        List.getElem?_drop, List.getElem?_take]
      by_cases h1 : j < i
      · rw [if_pos h1, if_pos h1, if_pos h1]
      · rw [if_neg h1, if_neg h1]
    rw [hlhs, hrhs, hg j]
    by_cases h1 : j < i
    · rw [if_pos (by omega), if_neg (by omega), if_pos h1, hlo j h1,
        live_getElem? v j (by omega)]
    · rw [if_neg h1]
      by_cases h2 : j < i + xs.length
      · rw [if_pos (by omega), if_pos (by omega), if_pos (by omega)]
      · by_cases h3 : j < v.m_end + xs.length
        · have a : i + (j - i - xs.length) = j - xs.length := by omega
          rw [if_pos h3, if_neg (by omega), if_neg (by omega), hhi j (by omega) h3, a,
            live_getElem? v _ (by omega)]
        · rw [if_neg h3, if_neg (by omega)]
          symm
          apply List.getElem?_eq_none
          rw [hL]; omega

theorem push_back_spec {T : Type} [Inhabited T] (v : vector T) (hv : v.Valid) (x : T) :
    ∃ v1, push_back v x = .returned v1 () ∧ v1.Valid ∧ v1.m_end = v.m_end + 1 ∧
      v1.m_storage[v.m_end]? = some x ∧
      (∀ j, j < v.m_end → v1.m_storage[j]? = v.m_storage[j]?) ∧
      v1.m_capacity = (if v.m_end = v.m_capacity then (v.m_capacity + 1) * 2
        else v.m_capacity) := by
  obtain ⟨w, hw, hwv, hwe, hwc, hwg⟩ : ∃ w : vector T,
      (if v.full then reserve v ((v.m_capacity + 1) * 2)
        else Outcome.returned v ()) = .returned w () ∧ w.Valid ∧ w.m_end = v.m_end ∧
      w.m_capacity =
        (if v.m_end = v.m_capacity then (v.m_capacity + 1) * 2 else v.m_capacity) ∧
      ∀ j, j < v.m_end → w.m_storage[j]? = v.m_storage[j]? := by
    by_cases hf : v.m_end = v.m_capacity
    · have hfull : v.full = true := by simp [vector.full, hf]
      obtain ⟨w, h1, h2, h3, h4, h5⟩ := reserve_spec v hv ((v.m_capacity + 1) * 2)
      refine ⟨w, by rw [hfull]; exact h1, h2, h3, ?_, h5⟩
      rw [h4, if_pos (by omega), if_pos hf]
    · have hfull : v.full = false := by simp [vector.full, hf]
      exact ⟨v, by rw [hfull]; rfl, hv, rfl, by rw [if_neg hf], fun _ _ => rfl⟩
  have hroom : w.m_end < w.m_storage.length := by
    rw [hwv.1, hwc, hwe]
    by_cases hf : v.m_end = v.m_capacity
    · rw [if_pos hf]; omega
    · rw [if_neg hf]; have := hv.2; omega
  refine ⟨{ w with m_storage := w.m_storage.set w.m_end x, m_end := w.m_end + 1 }, ?_, ?_, ?_,
    ?_, ?_, hwc⟩
  · simp only [push_back, hw, Outcome.bind, store_natCast _ _ _ hroom]
  · refine ⟨?_, ?_⟩
    · show (w.m_storage.set w.m_end x).length = w.m_capacity
      rw [List.length_set]; exact hwv.1
    · show w.m_end + 1 ≤ w.m_capacity
      rw [← hwv.1]; omega
  · show w.m_end + 1 = v.m_end + 1
    rw [hwe]
  · show (w.m_storage.set w.m_end x)[v.m_end]? = some x
    rw [← hwe, List.getElem?_set, if_pos rfl, if_pos hroom]
  · intro j hj
    show (w.m_storage.set w.m_end x)[j]? = _
    rw [List.getElem?_set, if_neg (by omega)]
    exact hwg j hj

end sc

/-! ## Removal -/

namespace sc

theorem copy_loop_spec {T : Type} (n : Nat) (buf : List T) (first d_first : Nat)
    (h1 : first + n ≤ buf.length) (h2 : d_first ≤ first) :
    ∃ r, copy_loop n buf (first : Int) (d_first : Int) = some r ∧ r.length = buf.length ∧
      ∀ j, r[j]? = if d_first ≤ j ∧ j < d_first + n then buf[j + (first - d_first)]?
        else buf[j]? := by
  induction n generalizing buf first d_first with
  | zero =>
    refine ⟨buf, rfl, rfl, ?_⟩
    intro j
    rw [if_neg (by omega)]
  | succ m ih =>
    have hf : first < buf.length := by omega
    have hd : d_first < buf.length := by omega
    obtain ⟨r, hr, hl, hg⟩ := ih (buf.set d_first buf[first]) (first + 1) (d_first + 1)
      (by rw [List.length_set]; omega) (by omega)
    refine ⟨r, ?_, by rw [hl, List.length_set], ?_⟩
    · have e1 : ((first : Int) + 1) = ((first + 1 : Nat) : Int) := by omega
      have e2 : ((d_first : Int) + 1) = ((d_first + 1 : Nat) : Int) := by omega
      simp only [copy_loop, load_of_lt buf _ hf, Option.bind_some, store_natCast buf _ _ hd,
        e1, e2]
      exact hr
    · intro j
      rw [hg j]
      by_cases hj : d_first = j
      · have a3 : j + (first - d_first) = first := by omega
        rw [if_neg (by omega), if_pos (by omega), List.getElem?_set, if_pos hj, if_pos hd, a3,
          List.getElem?_eq_getElem hf]
      · by_cases hin : d_first + 1 ≤ j ∧ j < d_first + 1 + m
        · have a3 : j + (first + 1 - (d_first + 1)) = j + (first - d_first) := by omega
          have a4 : ¬ (d_first = j + (first - d_first)) := by omega
          rw [if_pos hin, if_pos (by omega), a3, List.getElem?_set, if_neg a4]
        · rw [if_neg hin, if_neg (by omega), List.getElem?_set, if_neg hj]

/-- The range check of `erase(first, last)` rejects a range that starts before
`begin()` or ends past `end()`, and the vector stays as it is. -/
theorem erase_range_rejects {T : Type} (v : vector T) (first last : Int)
    (hne : v.m_end ≠ 0) (h : first < v.begin ∨ last > v.end_) :
    erase_range v first last = .thrown .out_of_range v := by
  have he : v.empty = false := by simp [vector.empty, hne]
  simp only [erase_range, he, h, if_true]
  rfl

/-- A reversed range passes the checks of `erase(first, last)` and the call has
no defined outcome: `std::distance(first, last)` cannot reach `last`. -/
theorem erase_range_reversed {T : Type} (v : vector T) (first last : Int)
    (hne : v.m_end ≠ 0) (h1 : v.begin ≤ first) (h2 : last ≤ v.end_) (h3 : last < first) :
    erase_range v first last = .undefined := by
  have he : v.empty = false := by simp [vector.empty, hne]
  have hc : ¬ (first < v.begin ∨ last > v.end_) := by omega
  have hd : distance first last = none := by
    unfold distance
    rw [if_neg (by omega)]
  simp only [erase_range, he, hc, if_false, hd]
  cases copy v.m_storage last v.end_ first <;> rfl

/-- A range `begin() ≤ first ≤ last ≤ end()` is erased: the call returns
`first`, the size goes down by the length of the range and the buffer keeps its
length. -/
theorem erase_range_returns {T : Type} (v : vector T) (hv : v.Valid) (i j : Nat)
    (hne : v.m_end ≠ 0) (hij : i ≤ j) (hj : j ≤ v.m_end) :
    ∃ buf, erase_range v (i : Int) (j : Int) =
        .returned { v with m_storage := buf, m_end := v.m_end - (j - i) } (i : Int) ∧
      buf.length = v.m_storage.length := by
  have he : v.empty = false := by simp [vector.empty, hne]
  have hc : ¬ ((i : Int) < v.begin ∨ (j : Int) > v.end_) := by
    simp only [vector.begin, vector.end_]; omega
  have hd : distance (i : Int) (j : Int) = some ((j : Int) - (i : Int)) := by
    unfold distance
    rw [if_pos (by omega)]
  obtain ⟨r, hr, hl, _⟩ := copy_loop_spec (v.m_end - j) v.m_storage j i
    (by have := hv.1; have := hv.2; omega) hij
  have hcp : copy v.m_storage (j : Int) v.end_ (i : Int) = some r := by
    have e1 : (j : Int) ≤ (v.m_end : Int) := by omega
    have e2 : ((v.m_end : Int) - (j : Int)).toNat = v.m_end - j := by omega
    simp only [copy, vector.end_, e1, if_true, e2]
    exact hr
  refine ⟨r, ?_, hl⟩
  have e3 : ((j : Int) - (i : Int)).toNat = j - i := by omega
  simp only [erase_range, he, hc, if_false, hcp, hd, e3]
  rfl

/-- The call `erase(pos)` with `begin() ≤ pos < end()` returns `pos`, the size
goes down by one and the buffer keeps its length. -/
theorem erase_returns {T : Type} (v : vector T) (hv : v.Valid) (i : Nat) (hi : i < v.m_end) :
    ∃ buf, erase v (i : Int) =
        .returned { v with m_storage := buf, m_end := v.m_end - 1 } (i : Int) ∧
      buf.length = v.m_storage.length := by
  have he : v.empty = false := by
    have : v.m_end ≠ 0 := by omega
    simp [vector.empty, this]
  have hc : ¬ ((i : Int) < v.begin ∨ (i : Int) ≥ v.end_) := by
    simp only [vector.begin, vector.end_]; omega
  obtain ⟨r, hr, hl, _⟩ := copy_loop_spec (v.m_end - (i + 1)) v.m_storage (i + 1) i
    (by have := hv.1; have := hv.2; omega) (by omega)
  have hcp : copy v.m_storage ((i : Int) + 1) v.end_ (i : Int) = some r := by
    have e1 : (i : Int) + 1 ≤ (v.m_end : Int) := by omega
    have e2 : ((v.m_end : Int) - ((i : Int) + 1)).toNat = v.m_end - (i + 1) := by omega
    have e3 : ((i : Int) + 1) = ((i + 1 : Nat) : Int) := by omega
    simp only [copy, vector.end_, e1, if_true, e2]
    rw [e3]; exact hr
  refine ⟨r, ?_, hl⟩
  simp only [erase, he, hc, if_false, hcp]
  rfl

end sc

/-! ## The failing branches -/

namespace sc

theorem empty_eq_true_iff {T : Type} (v : vector T) : v.empty = true ↔ v.m_end = 0 := by
  simp [vector.empty]

theorem pop_back_empty {T : Type} (v : vector T) (h : v.m_end = 0) :
    pop_back v = .thrown .length_error v := by
  unfold pop_back
  rw [if_pos ((empty_eq_true_iff v).mpr h)]

theorem pop_back_nonempty {T : Type} (v : vector T) (h : v.m_end ≠ 0) :
    pop_back v = .returned { v with m_end := v.m_end - 1 } () := by
  unfold pop_back
  rw [if_neg (fun c => h ((empty_eq_true_iff v).mp c))]

theorem prepare_insertion_length_error {T : Type} [Inhabited T] (v : vector T) (pos_ : Int)
    (sz : Nat) (h : v.m_end = 0) (hp : pos_ ≠ v.begin) :
    prepare_insertion v pos_ sz = .thrown .length_error v := by
  unfold prepare_insertion
  rw [if_pos ⟨(empty_eq_true_iff v).mpr h, hp⟩]

theorem prepare_insertion_out_of_range {T : Type} [Inhabited T] (v : vector T) (pos_ : Int)
    (sz : Nat) (h : v.m_end ≠ 0) (hp : pos_ < v.begin ∨ pos_ > v.end_) :
    prepare_insertion v pos_ sz = .thrown .out_of_range v := by
  unfold prepare_insertion
  rw [if_neg (fun c => h ((empty_eq_true_iff v).mp c.1)), if_pos hp]

theorem erase_length_error {T : Type} (v : vector T) (pos : Int) (h : v.m_end = 0) :
    erase v pos = .thrown .length_error v := by
  unfold erase
  rw [if_pos ((empty_eq_true_iff v).mpr h)]

theorem erase_out_of_range {T : Type} (v : vector T) (pos : Int) (h : v.m_end ≠ 0)
    (hp : pos < v.begin ∨ pos ≥ v.end_) : erase v pos = .thrown .out_of_range v := by
  unfold erase
  rw [if_neg (fun c => h ((empty_eq_true_iff v).mp c)), if_pos hp]

theorem erase_range_length_error {T : Type} (v : vector T) (first last : Int)
    (h : v.m_end = 0) : erase_range v first last = .thrown .length_error v := by
  unfold erase_range
  rw [if_pos ((empty_eq_true_iff v).mpr h)]

end sc

/-! ## The size never exceeds the capacity after a call with a defined outcome -/

namespace sc

theorem insert_range_outcome {T : Type} [Inhabited T] (v : vector T) (hv : v.Valid)
    (pos_ : Int) (xs : List T) :
    (insert_range v pos_ xs).state = some v ∨
      ∃ w, (insert_range v pos_ xs).state = some w ∧ w.Valid := by
  by_cases c2 : pos_ < v.begin ∨ pos_ > v.end_
  · left
    by_cases he : v.m_end = 0
    · have hp : pos_ ≠ v.begin := by
        simp only [vector.begin, vector.end_] at c2 ⊢; omega
      unfold insert_range
      rw [prepare_insertion_length_error v pos_ _ he hp]; rfl
    · unfold insert_range
      rw [prepare_insertion_out_of_range v pos_ _ he c2]; rfl
  · right
    have h0 : 0 ≤ pos_ := by
      simp only [vector.begin, vector.end_] at c2; omega
    have h1 : pos_.toNat ≤ v.m_end := by
      simp only [vector.begin, vector.end_] at c2; omega
    have h2 : pos_ = (pos_.toNat : Int) := by omega
    obtain ⟨w, hw, hwv, _⟩ := insert_range_spec v hv pos_.toNat h1 xs
    rw [← h2] at hw
    exact ⟨w, by rw [hw]; rfl, hwv⟩

theorem erase_outcome {T : Type} (v : vector T) (hv : v.Valid) (pos : Int) :
    (erase v pos).state = some v ∨ ∃ w, (erase v pos).state = some w ∧ w.Valid := by
  by_cases he : v.m_end = 0
  · left; rw [erase_length_error v pos he]; rfl
  · by_cases c2 : pos < v.begin ∨ pos ≥ v.end_
    · left; rw [erase_out_of_range v pos he c2]; rfl
    · right
      have h0 : pos = (pos.toNat : Int) := by
        simp only [vector.begin, vector.end_] at c2; omega
      have h1 : pos.toNat < v.m_end := by
        simp only [vector.begin, vector.end_] at c2; omega
      obtain ⟨buf, hb, hl⟩ := erase_returns v hv pos.toNat h1
      rw [← h0] at hb
      refine ⟨_, by rw [hb]; rfl, ?_, ?_⟩
      · show buf.length = v.m_capacity
        rw [hl]; exact hv.1
      · have := hv.2
        show v.m_end - 1 ≤ v.m_capacity
        omega

theorem erase_range_outcome {T : Type} (v : vector T) (hv : v.Valid) (first last : Int) :
    (erase_range v first last).state = some v ∨
      (∃ w, (erase_range v first last).state = some w ∧ w.Valid) ∨
      ((erase_range v first last).state = none ∧ v.m_end ≠ 0 ∧ v.begin ≤ first ∧
        last ≤ v.end_ ∧ last < first) := by
  by_cases he : v.m_end = 0
  · left; rw [erase_range_length_error v first last he]; rfl
  · by_cases c2 : first < v.begin ∨ last > v.end_
    · left; rw [erase_range_rejects v first last he c2]; rfl
    · right
      by_cases c3 : last < first
      · right
        have h1 : v.begin ≤ first := by omega
        have h2 : last ≤ v.end_ := by omega
        exact ⟨by rw [erase_range_reversed v first last he h1 h2 c3]; rfl, he, h1, h2, c3⟩
      · left
        simp only [vector.begin, vector.end_] at c2
        have h0 : first = (first.toNat : Int) := by omega
        have h1 : last = (last.toNat : Int) := by omega
        obtain ⟨buf, hb, hl⟩ := erase_range_returns v hv first.toNat last.toNat he
          (by omega) (by omega)
        rw [← h0, ← h1] at hb
        refine ⟨_, by rw [hb]; rfl, ?_, ?_⟩
        · show buf.length = v.m_capacity
          rw [hl]; exact hv.1
        · have := hv.2
          show v.m_end - (last.toNat - first.toNat) ≤ v.m_capacity
          omega

/-- After a call of `push_back`, `pop_back`, `insert`, `erase` or `reserve`
that returns or throws, the buffer has `m_capacity` cells and
`m_end ≤ m_capacity`. -/
theorem valid_after_call {T : Type} [Inhabited T] (v : vector T) (hv : v.Valid)
    (c : Call T) (w : vector T) (h : c.after v = some w) : w.Valid := by
  have key : ∀ o : Option (vector T), (o = some v ∨ ∃ u, o = some u ∧ u.Valid) →
      o = some w → w.Valid := by
    rintro o (h1 | ⟨u, h1, h2⟩) h3
    · rw [h1] at h3; rw [← Option.some.inj h3]; exact hv
    · rw [h1] at h3; rw [← Option.some.inj h3]; exact h2
  cases c with
  | push_back value =>
    obtain ⟨v1, h1, h2, _⟩ := push_back_spec v hv value
    exact key (push_back v value).state (Or.inr ⟨v1, by rw [h1]; rfl, h2⟩) h
  | pop_back =>
    by_cases he : v.m_end = 0
    · exact key (pop_back v).state (Or.inl (by rw [pop_back_empty v he]; rfl)) h
    · refine key (pop_back v).state
        (Or.inr ⟨{ v with m_end := v.m_end - 1 }, by rw [pop_back_nonempty v he]; rfl, hv.1, ?_⟩) h
      have := hv.2
      show v.m_end - 1 ≤ v.m_capacity
      omega
  | insert pos_ value_ =>
    exact key (insert v pos_ value_).state
      (by rw [insert_eq_insert_range]; exact insert_range_outcome v hv pos_ _) h
  | insert_range pos_ xs =>
    exact key (insert_range v pos_ xs).state (insert_range_outcome v hv pos_ xs) h
  | insert_ilist pos_ ilist_ =>
    exact key (insert_range v pos_ ilist_).state (insert_range_outcome v hv pos_ ilist_) h
  | erase pos => exact key (erase v pos).state (erase_outcome v hv pos) h
  | erase_range first last =>
    rcases erase_range_outcome v hv first last with h1 | h1 | ⟨h1, _⟩
    · exact key (erase_range v first last).state (Or.inl h1) h
    · exact key (erase_range v first last).state (Or.inr h1) h
    · have h2 : (erase_range v first last).state = some w := h
      rw [h1] at h2
      exact Option.noConfusion h2
  | reserve new_cap =>
    obtain ⟨v1, h1, h2, _⟩ := reserve_spec v hv new_cap
    exact key (reserve v new_cap).state (Or.inr ⟨v1, by rw [h1]; rfl, h2⟩) h

/-- On a vector in a valid state the only call without a defined outcome is
`erase(first, last)` with `begin() ≤ first`, `last ≤ end()` and `last < first`
on a vector that is not empty. -/
theorem after_eq_none_iff {T : Type} [Inhabited T] (v : vector T) (hv : v.Valid)
    (c : Call T) :
    c.after v = none ↔ ∃ first last, c = .erase_range first last ∧ v.m_end ≠ 0 ∧
      v.begin ≤ first ∧ last ≤ v.end_ ∧ last < first := by
  have key : ∀ o : Option (vector T), (o = some v ∨ ∃ u, o = some u ∧ u.Valid) →
      o ≠ none := by
    rintro o (h1 | ⟨u, h1, _⟩) h3 <;> rw [h1] at h3 <;> exact Option.noConfusion h3
  constructor
  · intro h
    cases c with
    | push_back value =>
      obtain ⟨v1, h1, h2, _⟩ := push_back_spec v hv value
      exact absurd h (key (push_back v value).state (Or.inr ⟨v1, by rw [h1]; rfl, h2⟩))
    | pop_back =>
      by_cases he : v.m_end = 0
      · exact absurd h (key (pop_back v).state (Or.inl (by rw [pop_back_empty v he]; rfl)))
      · have h2 : (pop_back v).state = none := h
        rw [pop_back_nonempty v he] at h2
        exact Option.noConfusion h2
    | insert pos_ value_ =>
      exact absurd h (key (insert v pos_ value_).state
        (by rw [insert_eq_insert_range]; exact insert_range_outcome v hv pos_ _))
    | insert_range pos_ xs =>
      exact absurd h (key (insert_range v pos_ xs).state (insert_range_outcome v hv pos_ xs))
    | insert_ilist pos_ ilist_ =>
      exact absurd h
        (key (insert_range v pos_ ilist_).state (insert_range_outcome v hv pos_ ilist_))
    | erase pos => exact absurd h (key (erase v pos).state (erase_outcome v hv pos))
    | erase_range first last =>
      rcases erase_range_outcome v hv first last with h1 | h1 | ⟨_, h2⟩
      · exact absurd h (key (erase_range v first last).state (Or.inl h1))
      · exact absurd h (key (erase_range v first last).state (Or.inr h1))
      · exact ⟨first, last, rfl, h2⟩
    | reserve new_cap =>
      obtain ⟨v1, h1, h2, _⟩ := reserve_spec v hv new_cap
      exact absurd h (key (reserve v new_cap).state (Or.inr ⟨v1, by rw [h1]; rfl, h2⟩))
  · rintro ⟨first, last, rfl, he, h1, h2, h3⟩
    show (erase_range v first last).state = none
    rw [erase_range_reversed v first last he h1 h2 h3]; rfl

end sc

/-! ## Properties of the vector -/

namespace sc

/-- C3: the bound `size() ≤ capacity()` after every call, whatever the position
arguments, is not kept by `erase(first, last)`.  On the vector `{1, 2}` (size
and capacity 2) the call `erase(end() + 1, end())` passes the emptiness check
and the range check `first < begin() || last > end()`, and then ends neither
with a return nor with a throw: `std::distance(first, last)` runs on a range
whose end cannot be reached, so no state satisfying the bound follows. -/
theorem erase_range_past_end_undefined :
    (vector.of_list [1, 2] : vector Nat).empty = false ∧
      ¬ ((3 : Int) < (vector.of_list [1, 2] : vector Nat).begin ∨
          (2 : Int) > (vector.of_list [1, 2] : vector Nat).end_) ∧
      erase_range (vector.of_list [1, 2] : vector Nat) 3 2 = Outcome.undefined := by
  decide

/-- C5: `erase(first, last)` does not throw `std::out_of_range` for every range
that is not a sub-range of the live elements.  On the vector `{1, 2}` with
capacity 4 the call `erase(begin() + 2, begin() + 1)`, where `first > last`,
passes the check `first < begin() || last > end()`; the element at index 1 is
copied to the cell at index 2 and `std::distance(first, last)` then runs on a
range whose end cannot be reached.  The call ends neither with
`out_of_range` nor with a return. -/
theorem erase_range_reversed_not_rejected :
    reserve (vector.of_list [1, 2] : vector Nat) 4 = .returned ⟨2, 4, [1, 2, 0, 0]⟩ () ∧
      copy [1, 2, 0, 0] 1 2 2 = some [1, 2, 2, 0] ∧
      distance 2 1 = none ∧
      erase_range (⟨2, 4, [1, 2, 0, 0]⟩ : vector Nat) 2 1 = Outcome.undefined ∧
      erase_range (⟨2, 4, [1, 2, 0, 0]⟩ : vector Nat) 2 1 ≠
        Outcome.thrown Exception.out_of_range ⟨2, 4, [1, 2, 0, 0]⟩ := by
  decide

end sc

/-! ## Removal: the elements left -/

namespace sc

theorem erase_eq_erase_range {T : Type} (v : vector T) (pos : Int) :
    erase v pos = erase_range v pos (pos + 1) := by
  unfold erase erase_range
  by_cases he : v.empty = true
  · rw [if_pos he, if_pos he]
  · rw [if_neg he, if_neg he]
    by_cases hc : pos < v.begin ∨ pos ≥ v.end_
    · rw [if_pos hc, if_pos (by omega)]
    · rw [if_neg hc, if_neg (by omega)]
      have hd : distance pos (pos + 1) = some 1 := by
        unfold distance
        rw [if_pos (by omega)]
        congr 1
        omega
      rw [hd]
      cases copy v.m_storage (pos + 1) v.end_ pos <;> rfl

theorem erase_range_contents {T : Type} (v : vector T) (hv : v.Valid) (i j : Nat)
    (hne : v.m_end ≠ 0) (hij : i ≤ j) (hj : j ≤ v.m_end) :
    ∃ v1, erase_range v (i : Int) (j : Int) = .returned v1 (i : Int) ∧ v1.Valid ∧
      v1.m_end = v.m_end - (j - i) ∧ v1.m_capacity = v.m_capacity ∧
      v1.live = v.live.take i ++ v.live.drop j := by
  have he : v.empty = false := by simp [vector.empty, hne]
  have hc : ¬ ((i : Int) < v.begin ∨ (j : Int) > v.end_) := by
    simp only [vector.begin, vector.end_]; omega
  have hd : distance (i : Int) (j : Int) = some ((j : Int) - (i : Int)) := by
    unfold distance
    rw [if_pos (by omega)]
  obtain ⟨r, hr, hl, hg⟩ := copy_loop_spec (v.m_end - j) v.m_storage j i
    (by have := hv.1; have := hv.2; omega) hij
  have hcp : copy v.m_storage (j : Int) v.end_ (i : Int) = some r := by
    have e1 : (j : Int) ≤ (v.m_end : Int) := by omega
    have e2 : ((v.m_end : Int) - (j : Int)).toNat = v.m_end - j := by omega
    simp only [copy, vector.end_, e1, if_true, e2]
    exact hr
  have e3 : ((j : Int) - (i : Int)).toNat = j - i := by omega
  refine ⟨{ v with m_storage := r, m_end := v.m_end - (j - i) }, ?_, ?_, rfl, rfl, ?_⟩
  · simp only [erase_range, he, hc, if_false, hcp, hd, e3]
    rfl
  · refine ⟨?_, ?_⟩
    · show r.length = v.m_capacity
      rw [hl]; exact hv.1
    · have := hv.2
      show v.m_end - (j - i) ≤ v.m_capacity
      omega
  · have hL := live_length v hv
    have hlt : (v.live.take i).length = i := by rw [List.length_take, hL]; omega
    apply List.ext_getElem?
    intro k
    have hlhs : (vector.live { v with m_storage := r, m_end := v.m_end - (j - i) })[k]? =
        if k < v.m_end - (j - i) then r[k]? else none := by
      show (r.take (v.m_end - (j - i)))[k]? = _
      rw [List.getElem?_take]
    have hrhs : (v.live.take i ++ v.live.drop j)[k]? =
        if k < i then v.live[k]? else v.live[j + (k - i)]? := by
      rw [List.getElem?_append, hlt, List.getElem?_drop, List.getElem?_take]
      by_cases h1 : k < i
      · rw [if_pos h1, if_pos h1, if_pos h1]
      · rw [if_neg h1, if_neg h1]
    rw [hlhs, hrhs, hg k]
    by_cases h1 : k < i
    · rw [if_pos (by omega), if_neg (by omega), if_pos h1, live_getElem? v k (by omega)]
    · rw [if_neg h1]
      by_cases h2 : k < v.m_end - (j - i)
      · have a : k + (j - i) = j + (k - i) := by omega
        rw [if_pos h2, if_pos (by omega), a, live_getElem? v _ (by omega)]
      · rw [if_neg h2]
        symm
        apply List.getElem?_eq_none
        rw [hL]; omega

theorem erase_contents {T : Type} (v : vector T) (hv : v.Valid) (i : Nat)
    (hi : i < v.m_end) :
    ∃ v1, erase v (i : Int) = .returned v1 (i : Int) ∧ v1.Valid ∧
      v1.m_end = v.m_end - 1 ∧ v1.m_capacity = v.m_capacity ∧
      v1.live = v.live.take i ++ v.live.drop (i + 1) := by
  obtain ⟨v1, h1, h2, h3, h4, h5⟩ := erase_range_contents v hv i (i + 1) (by omega)
    (by omega) (by omega)
  refine ⟨v1, ?_, h2, ?_, h4, h5⟩
  · rw [erase_eq_erase_range]
    have e : ((i : Int) + 1) = ((i + 1 : Nat) : Int) := by omega
    rw [e]; exact h1
  · rw [h3]; omega

/-- The three ways a call of `insert(pos_, first_, last_)` ends on a vector in
a valid state. -/
theorem insert_range_cases {T : Type} [Inhabited T] (v : vector T) (hv : v.Valid)
    (pos_ : Int) (xs : List T) :
    (v.m_end = 0 ∧ pos_ ≠ v.begin ∧ insert_range v pos_ xs = .thrown .length_error v) ∨
    (v.m_end ≠ 0 ∧ (pos_ < v.begin ∨ pos_ > v.end_) ∧
      insert_range v pos_ xs = .thrown .out_of_range v) ∨
    (v.begin ≤ pos_ ∧ pos_ ≤ v.end_ ∧ ∃ v1, insert_range v pos_ xs = .returned v1 pos_) := by
  by_cases c2 : pos_ < v.begin ∨ pos_ > v.end_
  · by_cases he : v.m_end = 0
    · left
      have hp : pos_ ≠ v.begin := by
        simp only [vector.begin, vector.end_] at c2 ⊢; omega
      refine ⟨he, hp, ?_⟩
      unfold insert_range
      rw [prepare_insertion_length_error v pos_ _ he hp]; rfl
    · right; left
      refine ⟨he, c2, ?_⟩
      unfold insert_range
      rw [prepare_insertion_out_of_range v pos_ _ he c2]; rfl
  · right; right
    have h0 : 0 ≤ pos_ := by
      simp only [vector.begin, vector.end_] at c2; omega
    have h1 : pos_.toNat ≤ v.m_end := by
      simp only [vector.begin, vector.end_] at c2; omega
    have h2 : pos_ = (pos_.toNat : Int) := by omega
    obtain ⟨w, hw, _⟩ := insert_range_spec v hv pos_.toNat h1 xs
    rw [← h2] at hw
    exact ⟨by omega, by omega, w, hw⟩

end sc

/-! ## Properties of the vector, continued -/

namespace sc

/-- C11: `pop_back()` throws `std::length_error` exactly when `size() == 0` and
leaves the vector as it is; otherwise it returns, `size()` is one less, the
capacity is the same and the buffer, hence the elements at the indices
`0 .. size-2`, is untouched. -/
theorem pop_back_outcome {T : Type} (v : vector T) :
    (pop_back v = .thrown .length_error v ↔ v.size = 0) ∧
    (v.size ≠ 0 → ∃ v1, pop_back v = .returned v1 () ∧ v1.size + 1 = v.size ∧
      v1.capacity = v.capacity ∧ v1.m_storage = v.m_storage ∧
      v1.live = v.live.take (v.size - 1)) := by
  refine ⟨⟨?_, fun h => pop_back_empty v h⟩, ?_⟩
  · intro h
    by_contra hne
    rw [pop_back_nonempty v hne] at h
    exact Outcome.noConfusion h
  · intro hne
    refine ⟨{ v with m_end := v.m_end - 1 }, pop_back_nonempty v hne, ?_, rfl, rfl, ?_⟩
    · show v.m_end - 1 + 1 = v.m_end
      have : v.m_end ≠ 0 := hne
      omega
    · show v.m_storage.take (v.m_end - 1) = (v.m_storage.take v.m_end).take (v.m_end - 1)
      rw [List.take_take]
      congr 1
      omega

/-- The vector `{1, 2, 3, 4, 5}` loses its last element; on the vector it leaves
after five calls the sixth call throws. -/
theorem pop_back_outcome_witness :
    (vector.of_list [1, 2, 3, 4, 5] : vector Nat).size ≠ 0 ∧
    pop_back (⟨0, 5, [1, 2, 3, 4, 5]⟩ : vector Nat) =
      .thrown .length_error ⟨0, 5, [1, 2, 3, 4, 5]⟩ ∧
    (∃ v1, pop_back (vector.of_list [1, 2, 3, 4, 5] : vector Nat) = .returned v1 () ∧
      v1.size + 1 = (vector.of_list [1, 2, 3, 4, 5] : vector Nat).size ∧
      v1.capacity = (vector.of_list [1, 2, 3, 4, 5] : vector Nat).capacity ∧
      v1.m_storage = (vector.of_list [1, 2, 3, 4, 5] : vector Nat).m_storage ∧
      v1.live = (vector.of_list [1, 2, 3, 4, 5] : vector Nat).live.take
        ((vector.of_list [1, 2, 3, 4, 5] : vector Nat).size - 1)) :=
  ⟨by decide, by decide,
    (pop_back_outcome (vector.of_list [1, 2, 3, 4, 5] : vector Nat)).2 (by decide)⟩

/-- On a vector that is not empty, each form of `insert` through an
iterator throws `std::out_of_range` for a position outside
`[begin(), end()]`; on an empty vector each form throws `std::length_error`
for every position other than `begin()`, while `end()` is the same position as
`begin()` and the insertion there returns; an `insert` that throws leaves the
vector as it was. -/
theorem insert_position_checks {T : Type} [Inhabited T] (v : vector T) (hv : v.Valid)
    (pos_ : Int) (x : T) (xs : List T) :
    (v.size ≠ 0 → (pos_ < v.begin ∨ pos_ > v.end_) →
      insert v pos_ x = .thrown .out_of_range v ∧
      insert_range v pos_ xs = .thrown .out_of_range v ∧
      insert_ilist v pos_ xs = .thrown .out_of_range v) ∧
    (v.size = 0 → pos_ ≠ v.begin →
      insert v pos_ x = .thrown .length_error v ∧
      insert_range v pos_ xs = .thrown .length_error v ∧
      insert_ilist v pos_ xs = .thrown .length_error v) ∧
    (v.size = 0 → v.end_ = v.begin ∧
      (∃ v1, insert v v.end_ x = .returned v1 v.begin ∧
        insert v v.begin x = .returned v1 v.begin) ∧
      (∃ v1, insert_range v v.end_ xs = .returned v1 v.begin ∧
        insert_range v v.begin xs = .returned v1 v.begin) ∧
      (∃ v1, insert_ilist v v.end_ xs = .returned v1 v.begin ∧
        insert_ilist v v.begin xs = .returned v1 v.begin)) ∧
    (∀ e w, (insert v pos_ x = .thrown e w ∨ insert_range v pos_ xs = .thrown e w ∨
      insert_ilist v pos_ xs = .thrown e w) → w = v) := by
  have hil : ∀ p, insert_ilist v p xs = insert_range v p xs := fun _ => rfl
  refine ⟨?_, ?_, ?_, ?_⟩
  · intro hne hp
    have h : ∀ ys : List T, insert_range v pos_ ys = .thrown .out_of_range v := by
      intro ys
      unfold insert_range
      rw [prepare_insertion_out_of_range v pos_ _ hne hp]; rfl
    exact ⟨by rw [insert_eq_insert_range]; exact h _, h xs, by rw [hil]; exact h xs⟩
  · intro he hp
    have h : ∀ ys : List T, insert_range v pos_ ys = .thrown .length_error v := by
      intro ys
      unfold insert_range
      rw [prepare_insertion_length_error v pos_ _ he hp]; rfl
    exact ⟨by rw [insert_eq_insert_range]; exact h _, h xs, by rw [hil]; exact h xs⟩
  · intro he
    have hend : v.end_ = v.begin := by
      have : v.m_end = 0 := he
      simp only [vector.end_, vector.begin, this]
      rfl
    have h : ∀ ys : List T, ∃ v1, insert_range v v.end_ ys = .returned v1 v.begin ∧
        insert_range v v.begin ys = .returned v1 v.begin := by
      intro ys
      obtain ⟨v1, h1, _⟩ := insert_range_spec v hv 0 (Nat.zero_le _) ys
      have e : ((0 : Nat) : Int) = v.begin := rfl
      rw [e] at h1
      exact ⟨v1, by rw [hend]; exact h1, h1⟩
    refine ⟨hend, ?_, h xs, ?_⟩
    · obtain ⟨v1, h1, h2⟩ := h [x]
      exact ⟨v1, by rw [insert_eq_insert_range]; exact h1,
        by rw [insert_eq_insert_range]; exact h2⟩
    · obtain ⟨v1, h1, h2⟩ := h xs
      exact ⟨v1, by rw [hil]; exact h1, by rw [hil]; exact h2⟩
  · have h : ∀ (ys : List T) e w, insert_range v pos_ ys = .thrown e w → w = v := by
      intro ys e w hth
      rcases insert_range_cases v hv pos_ ys with ⟨_, _, h1⟩ | ⟨_, _, h1⟩ | ⟨_, _, v1, h1⟩
      · rw [h1] at hth
        injection hth with _ h2
        exact h2.symm
      · rw [h1] at hth
        injection hth with _ h2
        exact h2.symm
      · rw [h1] at hth
        exact Outcome.noConfusion hth
    intro e w hth
    rcases hth with hth | hth | hth
    · rw [insert_eq_insert_range] at hth; exact h _ e w hth
    · exact h _ e w hth
    · rw [hil] at hth; exact h _ e w hth

/-- On `{1, 2, 3}` the position `end() + 1` is rejected with `out_of_range`; on
the empty vector the position `begin() + 1` is rejected with `length_error`
and `end()` is accepted. -/
theorem insert_position_checks_witness :
    (vector.of_list [1, 2, 3] : vector Nat).Valid ∧
    (vector.of_list [1, 2, 3] : vector Nat).size ≠ 0 ∧
    ((4 : Int) < (vector.of_list [1, 2, 3] : vector Nat).begin ∨
      (4 : Int) > (vector.of_list [1, 2, 3] : vector Nat).end_) ∧
    (insert (vector.of_list [1, 2, 3] : vector Nat) 4 9 =
        .thrown .out_of_range (vector.of_list [1, 2, 3]) ∧
      insert_range (vector.of_list [1, 2, 3] : vector Nat) 4 [7, 8] =
        .thrown .out_of_range (vector.of_list [1, 2, 3]) ∧
      insert_ilist (vector.of_list [1, 2, 3] : vector Nat) 4 [7, 8] =
        .thrown .out_of_range (vector.of_list [1, 2, 3])) ∧
    insert (vector.ctor 0 : vector Nat) 1 9 = .thrown .length_error (vector.ctor 0) ∧
    insert (vector.ctor 0 : vector Nat) (vector.ctor 0 : vector Nat).end_ 9 =
      .returned ⟨1, 2, [9, 0]⟩ 0 :=
  ⟨⟨rfl, by decide⟩, by decide, by decide,
    (insert_position_checks (vector.of_list [1, 2, 3] : vector Nat) ⟨rfl, by decide⟩ 4 9
      [7, 8]).1 (by decide) (by decide),
    by decide, by decide⟩

/-- C12: the three forms of `insert` that take a `const_iterator` count
`std::distance(cbegin(), pos_)` before any check of the position.  For a
position before `cbegin()`, on an empty vector or not, that loop never meets
`pos_`: the behaviour is undefined, neither `std::out_of_range` nor
`std::length_error` is thrown.  From `cbegin()` on, each form ends as the form
that takes an `iterator` does. -/
theorem insert_const_position_unchecked {T : Type} [Inhabited T] (v : vector T)
    (pos_ : Int) (x : T) (xs : List T) :
    (pos_ < v.cbegin →
      insert_const v pos_ x = .undefined ∧ insert_range_const v pos_ xs = .undefined ∧
      insert_ilist_const v pos_ xs = .undefined) ∧
    (v.cbegin ≤ pos_ →
      insert_const v pos_ x = insert v pos_ x ∧
      insert_range_const v pos_ xs = insert_range v pos_ xs ∧
      insert_ilist_const v pos_ xs = insert_ilist v pos_ xs) := by
  constructor
  · intro h
    have hd : distance v.cbegin pos_ = none := by
      unfold distance
      rw [if_neg (by omega)]
    unfold insert_const insert_range_const insert_ilist_const
    rw [hd]
    exact ⟨rfl, rfl, rfl⟩
  · intro h
    have hd : distance v.cbegin pos_ = some (pos_ - v.cbegin) := by
      unfold distance
      rw [if_pos h]
    have e : (0 : Int) + (pos_ - v.cbegin) = pos_ := by
      unfold vector.cbegin
      omega
    unfold insert_const insert_range_const insert_ilist_const
    rw [hd]
    simp only [e, and_self]

theorem insert_const_position_unchecked_witness :
    (vector.of_list [1, 2, 3] : vector Nat).size = 3 ∧
    (-1 : Int) < (vector.of_list [1, 2, 3] : vector Nat).cbegin ∧
    (insert_const (vector.of_list [1, 2, 3]) (-1) 9 = .undefined ∧
      insert_range_const (vector.of_list [1, 2, 3]) (-1) [9, 9] = .undefined ∧
      insert_ilist_const (vector.of_list [1, 2, 3]) (-1) [9, 9] = .undefined) ∧
    insert (vector.of_list [1, 2, 3]) (-1) 9 =
      .thrown .out_of_range (vector.of_list [1, 2, 3]) ∧
    (vector.ctor 0 : vector Nat).size = 0 ∧
    (insert_const (vector.ctor 0 : vector Nat) (-1) 9 = .undefined ∧
      insert_range_const (vector.ctor 0 : vector Nat) (-1) [9, 9] = .undefined ∧
      insert_ilist_const (vector.ctor 0 : vector Nat) (-1) [9, 9] = .undefined) ∧
    insert (vector.ctor 0 : vector Nat) (-1) 9 = .thrown .length_error (vector.ctor 0) ∧
    (vector.of_list [1, 2, 3] : vector Nat).cbegin ≤ (4 : Int) ∧
    (insert_const (vector.of_list [1, 2, 3]) 4 9 = insert (vector.of_list [1, 2, 3]) 4 9 ∧
      insert_range_const (vector.of_list [1, 2, 3]) 4 [9, 9] =
        insert_range (vector.of_list [1, 2, 3]) 4 [9, 9] ∧
      insert_ilist_const (vector.of_list [1, 2, 3]) 4 [9, 9] =
        insert_ilist (vector.of_list [1, 2, 3]) 4 [9, 9]) ∧
    insert_const (vector.of_list [1, 2, 3]) 4 9 =
      .thrown .out_of_range (vector.of_list [1, 2, 3]) :=
  ⟨rfl, by decide,
    (insert_const_position_unchecked (vector.of_list [1, 2, 3]) (-1) 9 [9, 9]).1 (by decide),
    rfl, rfl,
    (insert_const_position_unchecked (vector.ctor 0 : vector Nat) (-1) 9 [9, 9]).1 (by decide),
    rfl, by decide,
    (insert_const_position_unchecked (vector.of_list [1, 2, 3]) 4 9 [9, 9]).2 (by decide),
    rfl⟩

/-- C13: for a vector of size `s` and an index `i`, `erase(begin() + i)` throws
`std::length_error` on an empty vector and `std::out_of_range` on a non-empty
vector when `i` is outside `[0, s)`, leaving the vector as it was; for
`0 ≤ i < s` it returns `begin() + i`, the live elements are the old ones
without the element at index `i`, in their order, the size is `s - 1` and the
capacity is the same. -/
theorem erase_position_outcome {T : Type} (v : vector T) (hv : v.Valid) (i : Int) :
    (v.size = 0 → erase v (v.begin + i) = .thrown .length_error v) ∧
    (v.size ≠ 0 → (i < 0 ∨ (v.size : Int) ≤ i) →
      erase v (v.begin + i) = .thrown .out_of_range v) ∧
    (0 ≤ i → i < (v.size : Int) →
      ∃ v1, erase v (v.begin + i) = .returned v1 (v.begin + i) ∧
        v1.live = v.live.take i.toNat ++ v.live.drop (i.toNat + 1) ∧
        v1.size = v.size - 1 ∧ v1.capacity = v.capacity) := by
  have hb : v.begin + i = i := by simp [vector.begin]
  rw [hb]
  refine ⟨fun he => erase_length_error v i he, ?_, ?_⟩
  · intro hne hi
    refine erase_out_of_range v i hne ?_
    simp only [vector.begin, vector.end_, vector.size] at hi ⊢
    omega
  · intro h0 h1
    have e : i = (i.toNat : Int) := by omega
    obtain ⟨v1, h2, _, h3, h4, h5⟩ := erase_contents v hv i.toNat
      (by simp only [vector.size] at h1; omega)
    rw [← e] at h2
    exact ⟨v1, h2, h5, h3, h4⟩

/-- The vector `{1, 2, 3, 4, 5}` without its element at index 2. -/
theorem erase_position_outcome_witness :
    (vector.of_list [1, 2, 3, 4, 5] : vector Nat).Valid ∧
    erase (vector.of_list [1, 2, 3, 4, 5] : vector Nat) 2 =
      .returned ⟨4, 5, [1, 2, 4, 5, 5]⟩ 2 ∧
    erase (vector.of_list [1, 2, 3, 4, 5] : vector Nat) 5 =
      .thrown .out_of_range (vector.of_list [1, 2, 3, 4, 5]) ∧
    (∃ v1, erase (vector.of_list [1, 2, 3, 4, 5] : vector Nat)
        ((vector.of_list [1, 2, 3, 4, 5] : vector Nat).begin + 2) =
          .returned v1 ((vector.of_list [1, 2, 3, 4, 5] : vector Nat).begin + 2) ∧
      v1.live = (vector.of_list [1, 2, 3, 4, 5] : vector Nat).live.take (2 : Int).toNat ++
        (vector.of_list [1, 2, 3, 4, 5] : vector Nat).live.drop ((2 : Int).toNat + 1) ∧
      v1.size = (vector.of_list [1, 2, 3, 4, 5] : vector Nat).size - 1 ∧
      v1.capacity = (vector.of_list [1, 2, 3, 4, 5] : vector Nat).capacity) :=
  ⟨⟨rfl, by decide⟩, by decide, by decide,
    (erase_position_outcome (vector.of_list [1, 2, 3, 4, 5] : vector Nat) ⟨rfl, by decide⟩
      2).2.2 (by decide) (by decide)⟩

/-- C14: for a non-empty vector of size `s` and indices `0 ≤ i ≤ j ≤ s`,
`erase(begin() + i, begin() + j)` returns `begin() + i`, which is `end()` of
the result when `j = s`; the live elements are the old ones without those at
the indices `i .. j-1`, in their order, the size is `s - (j - i)` and the
capacity is the same. -/
theorem erase_range_removes {T : Type} (v : vector T) (hv : v.Valid) (hne : v.size ≠ 0)
    (i j : Nat) (hij : i ≤ j) (hj : j ≤ v.size) :
    ∃ v1, erase_range v (v.begin + i) (v.begin + j) = .returned v1 (v.begin + i) ∧
      v1.live = v.live.take i ++ v.live.drop j ∧
      v1.size = v.size - (j - i) ∧ v1.capacity = v.capacity ∧
      (j = v.size → v.begin + (i : Int) = v1.end_) := by
  have hb : ∀ k : Nat, v.begin + (k : Int) = (k : Int) := fun k => by simp [vector.begin]
  rw [hb i, hb j]
  obtain ⟨v1, h1, _, h2, h3, h4⟩ := erase_range_contents v hv i j hne hij hj
  refine ⟨v1, h1, h4, h2, h3, ?_⟩
  intro hjs
  simp only [vector.end_, h2]
  simp only [vector.size] at hjs hj
  omega

/-- The tests of `EraseRange` on `{1, 2, 3, 4, 5}`: the middle range `[1, 4)`
and the range `[2, 5)` that reaches the end. -/
theorem erase_range_removes_witness :
    (vector.of_list [1, 2, 3, 4, 5] : vector Nat).Valid ∧
    (vector.of_list [1, 2, 3, 4, 5] : vector Nat).size ≠ 0 ∧
    erase_range (vector.of_list [1, 2, 3, 4, 5] : vector Nat) 1 4 =
      .returned ⟨2, 5, [1, 5, 3, 4, 5]⟩ 1 ∧
    (∃ v1, erase_range (vector.of_list [1, 2, 3, 4, 5] : vector Nat)
        ((vector.of_list [1, 2, 3, 4, 5] : vector Nat).begin + (2 : Nat))
        ((vector.of_list [1, 2, 3, 4, 5] : vector Nat).begin + (5 : Nat)) =
          .returned v1 ((vector.of_list [1, 2, 3, 4, 5] : vector Nat).begin + (2 : Nat)) ∧
      v1.live = (vector.of_list [1, 2, 3, 4, 5] : vector Nat).live.take 2 ++
        (vector.of_list [1, 2, 3, 4, 5] : vector Nat).live.drop 5 ∧
      v1.size = (vector.of_list [1, 2, 3, 4, 5] : vector Nat).size - (5 - 2) ∧
      v1.capacity = (vector.of_list [1, 2, 3, 4, 5] : vector Nat).capacity ∧
      (5 = (vector.of_list [1, 2, 3, 4, 5] : vector Nat).size →
        (vector.of_list [1, 2, 3, 4, 5] : vector Nat).begin + ((2 : Nat) : Int) = v1.end_)) :=
  ⟨⟨rfl, by decide⟩, by decide, by decide,
    erase_range_removes (vector.of_list [1, 2, 3, 4, 5] : vector Nat) ⟨rfl, by decide⟩
      (by decide) 2 5 (by decide) (by decide)⟩

end sc

/-! ## The capacity after a call -/

namespace sc

theorem fill_loop_spec {T : Type} (n : Nat) (buf : List T) (i : Nat) (x : T)
    (h : i + n ≤ buf.length) :
    ∃ r, fill_loop n buf i x = some r ∧ r.length = buf.length ∧
      ∀ j, r[j]? = if i ≤ j ∧ j < i + n then some x else buf[j]? := by
  induction n generalizing buf i with
  | zero =>
    refine ⟨buf, rfl, rfl, ?_⟩
    intro j
    rw [if_neg (by omega)]
  | succ m ih =>
    have h2 : i < buf.length := by omega
    obtain ⟨r, hr, hl, hg⟩ := ih (buf.set i x) (i + 1) (by rw [List.length_set]; omega)
    refine ⟨r, ?_, by rw [hl, List.length_set], ?_⟩
    · simp only [fill_loop, store_natCast buf i _ h2, Option.bind_some]
      exact hr
    · intro j
      rw [hg j]
      by_cases hj : i = j
      · rw [if_neg (by omega), if_pos (by omega), List.getElem?_set, if_pos hj, if_pos h2]
      · by_cases hin : i + 1 ≤ j ∧ j < i + 1 + m
        · rw [if_pos hin, if_pos (by omega)]
        · rw [if_neg hin, if_neg (by omega), List.getElem?_set, if_neg hj]

theorem allocate_and_resize_spec {T : Type} [Inhabited T] (v : vector T) (hv : v.Valid)
    (sz : Nat) :
    (allocate_and_resize v sz).Valid ∧ (allocate_and_resize v sz).m_end = sz ∧
      (allocate_and_resize v sz).m_capacity =
        (if sz > v.m_capacity then sz else v.m_capacity) := by
  unfold allocate_and_resize
  by_cases h : sz > v.m_capacity
  · rw [if_pos h, if_pos h]
    exact ⟨⟨by simp, Nat.le_refl _⟩, rfl, rfl⟩
  · rw [if_neg h, if_neg h]
    exact ⟨⟨hv.1, by show sz ≤ v.m_capacity; omega⟩, rfl, rfl⟩

/-- The call `assign(count_, value_)` returns with `count_` live elements, all
equal to `value_`; the capacity is the old one, or `count_` if that is
larger. -/
theorem assign_spec {T : Type} [Inhabited T] (v : vector T) (hv : v.Valid) (n : Nat)
    (x : T) :
    ∃ w, assign v n x = .returned w () ∧ w.Valid ∧ w.m_end = n ∧
      w.m_capacity = (if n > v.m_capacity then n else v.m_capacity) ∧
      w.live = List.replicate n x := by
  obtain ⟨ha, he, hc⟩ := allocate_and_resize_spec v hv n
  obtain ⟨r, hr, hl, hg⟩ := fill_loop_spec (allocate_and_resize v n).m_end
    (allocate_and_resize v n).m_storage 0 x (by have := ha.1; have := ha.2; omega)
  refine ⟨{ allocate_and_resize v n with m_storage := r }, ?_, ?_, he, hc, ?_⟩
  · simp only [assign, hr]
  · exact ⟨by show r.length = _; rw [hl]; exact ha.1, ha.2⟩
  · apply List.ext_getElem?
    intro j
    show (r.take (allocate_and_resize v n).m_end)[j]? = _
    rw [List.getElem?_take, he, List.getElem?_replicate, hg j, he]
    by_cases hj : j < n
    · rw [if_pos hj, if_pos (by omega), if_pos hj]
    · rw [if_neg hj, if_neg hj]

/-- The calls `assign(ilist)` and `assign(first, last)` return with the
assigned elements as live elements; the capacity is the old one, or the number
of assigned elements if that is larger. -/
theorem assign_range_spec {T : Type} [Inhabited T] (v : vector T) (hv : v.Valid)
    (xs : List T) :
    ∃ w, assign_range v xs = .returned w () ∧ assign_ilist v xs = .returned w () ∧
      w.Valid ∧ w.m_end = xs.length ∧
      w.m_capacity = (if xs.length > v.m_capacity then xs.length else v.m_capacity) ∧
      w.live = xs := by
  obtain ⟨ha, he, hc⟩ := allocate_and_resize_spec v hv xs.length
  obtain ⟨r, hr, hl, hg⟩ := copy_in_spec xs (allocate_and_resize v xs.length).m_storage 0
    (by have := ha.1; have := ha.2; omega)
  have hr2 : copy_in xs (allocate_and_resize v xs.length).m_storage
      (allocate_and_resize v xs.length).begin = some r := hr
  refine ⟨{ allocate_and_resize v xs.length with m_storage := r }, ?_, ?_, ?_, he, hc, ?_⟩
  · simp only [assign_range, hr2]
  · simp only [assign_ilist, hr2]
  · exact ⟨by show r.length = _; rw [hl]; exact ha.1, ha.2⟩
  · apply List.ext_getElem?
    intro j
    show (r.take (allocate_and_resize v xs.length).m_end)[j]? = _
    rw [List.getElem?_take, he, hg j]
    by_cases hj : j < xs.length
    · rw [if_pos hj, if_pos (by omega)]; rfl
    · rw [if_neg hj]
      symm
      exact List.getElem?_eq_none (by omega)

/-- The copy assignment returns a vector with the size and the capacity of the
source and with its live elements. -/
theorem operator_assign_spec {T : Type} [Inhabited T] (v other : vector T)
    (hv : v.Valid) (ho : other.Valid) :
    ∃ w, operator_assign v other = .returned w () ∧ w.Valid ∧ w.m_end = other.m_end ∧
      w.m_capacity = other.m_capacity ∧ w.live = other.live := by
  have hlen : (if v.m_capacity ≠ other.m_capacity then List.replicate other.m_capacity default
      else v.m_storage).length = other.m_capacity := by
    by_cases h : v.m_capacity ≠ other.m_capacity
    · rw [if_pos h]; simp
    · rw [if_neg h, hv.1]; omega
  obtain ⟨r, hr, hl, hg⟩ := copy_across_spec other.m_end other.m_storage 0
    (if v.m_capacity ≠ other.m_capacity then List.replicate other.m_capacity default
      else v.m_storage)
    (by have := ho.1; have := ho.2; omega) (by rw [hlen]; have := ho.2; omega)
  refine ⟨{ m_end := other.m_end, m_capacity := other.m_capacity, m_storage := r }, ?_,
    ⟨by show r.length = _; rw [hl, hlen], ho.2⟩, rfl, rfl, ?_⟩
  · simp only [operator_assign, hr]
  · apply List.ext_getElem?
    intro j
    show (r.take other.m_end)[j]? = (other.m_storage.take other.m_end)[j]?
    rw [List.getElem?_take, List.getElem?_take, hg j]
    by_cases hj : j < other.m_end
    · rw [if_pos hj, if_pos (by omega), if_pos hj]
    · rw [if_neg hj, if_neg hj]

/-- The assignment from an initializer list returns a vector whose size and
capacity are the length of the list and whose live elements are the list. -/
theorem operator_assign_ilist_spec {T : Type} [Inhabited T] (v : vector T) (hv : v.Valid)
    (il : List T) :
    ∃ w, operator_assign_ilist v il = .returned w () ∧ w.Valid ∧ w.m_end = il.length ∧
      w.m_capacity = il.length ∧ w.live = il := by
  have hlen : (if v.m_capacity ≠ il.length then List.replicate il.length default
      else v.m_storage).length = il.length := by
    by_cases h : v.m_capacity ≠ il.length
    · rw [if_pos h]; simp
    · rw [if_neg h, hv.1]; omega
  obtain ⟨r, hr, hl, hg⟩ := copy_in_spec il
    (if v.m_capacity ≠ il.length then List.replicate il.length default else v.m_storage) 0
    (by rw [hlen]; omega)
  have hr2 : copy_in il
      (if v.m_capacity ≠ il.length then List.replicate il.length default else v.m_storage)
      0 = some r := hr
  refine ⟨{ m_end := il.length, m_capacity := il.length, m_storage := r }, ?_,
    ⟨by show r.length = _; rw [hl, hlen], Nat.le_refl _⟩, rfl, rfl, ?_⟩
  · simp only [operator_assign_ilist, hr2]
  · apply List.ext_getElem?
    intro j
    show (r.take il.length)[j]? = _
    rw [List.getElem?_take, hg j]
    by_cases hj : j < il.length
    · rw [if_pos hj, if_pos (by omega)]; rfl
    · rw [if_neg hj]
      symm
      exact List.getElem?_eq_none (by omega)

/-- A call on a vector in a valid state has no defined outcome, or leaves the
vector as it was, or leaves a valid vector whose capacity is not smaller. -/
theorem call_after_cases {T : Type} [Inhabited T] (v : vector T) (hv : v.Valid)
    (c : Call T) :
    c.after v = none ∨ ∃ w, c.after v = some w ∧ w.Valid ∧ v.m_capacity ≤ w.m_capacity := by
  have same : ∀ o : Option (vector T), o = some v →
      o = none ∨ ∃ w, o = some w ∧ w.Valid ∧ v.m_capacity ≤ w.m_capacity :=
    fun o h => Or.inr ⟨v, h, hv, Nat.le_refl _⟩
  have insert_case : ∀ (pos_ : Int) (xs : List T),
      (insert_range v pos_ xs).state = none ∨
        ∃ w, (insert_range v pos_ xs).state = some w ∧ w.Valid ∧
          v.m_capacity ≤ w.m_capacity := by
    intro pos_ xs
    rcases insert_range_cases v hv pos_ xs with ⟨_, _, h1⟩ | ⟨_, _, h1⟩ | ⟨h0, h1, _⟩
    · exact same _ (by rw [h1]; rfl)
    · exact same _ (by rw [h1]; rfl)
    · simp only [vector.begin, vector.end_] at h0 h1
      have e : pos_ = (pos_.toNat : Int) := by omega
      obtain ⟨w, hw, hwv, _, _, hwc⟩ := insert_range_spec v hv pos_.toNat (by omega) xs
      rw [← e] at hw
      refine Or.inr ⟨w, by rw [hw]; rfl, hwv, ?_⟩
      rw [hwc]
      by_cases hg : v.m_end + xs.length > v.m_capacity
      · rw [if_pos hg]; omega
      · rw [if_neg hg]
  cases c with
  | push_back value =>
    obtain ⟨w, h1, h2, _, _, _, h3⟩ := push_back_spec v hv value
    refine Or.inr ⟨w, by show (push_back v value).state = _; rw [h1]; rfl, h2, ?_⟩
    rw [h3]
    by_cases hf : v.m_end = v.m_capacity
    · rw [if_pos hf]; omega
    · rw [if_neg hf]
  | pop_back =>
    by_cases he : v.m_end = 0
    · exact same _ (by show (pop_back v).state = _; rw [pop_back_empty v he]; rfl)
    · refine Or.inr ⟨{ v with m_end := v.m_end - 1 },
        by show (pop_back v).state = _; rw [pop_back_nonempty v he]; rfl, ⟨hv.1, ?_⟩,
        Nat.le_refl _⟩
      have := hv.2
      show v.m_end - 1 ≤ v.m_capacity
      omega
  | insert pos_ value_ =>
    show (insert v pos_ value_).state = none ∨
      ∃ w, (insert v pos_ value_).state = some w ∧ w.Valid ∧ v.m_capacity ≤ w.m_capacity
    rw [insert_eq_insert_range]
    exact insert_case pos_ _
  | insert_range pos_ xs => exact insert_case pos_ xs
  | insert_ilist pos_ ilist_ => exact insert_case pos_ ilist_
  | erase pos =>
    show (erase v pos).state = none ∨
      ∃ w, (erase v pos).state = some w ∧ w.Valid ∧ v.m_capacity ≤ w.m_capacity
    by_cases he : v.m_end = 0
    · exact same _ (by rw [erase_length_error v pos he]; rfl)
    · by_cases c2 : pos < v.begin ∨ pos ≥ v.end_
      · exact same _ (by rw [erase_out_of_range v pos he c2]; rfl)
      · simp only [vector.begin, vector.end_] at c2
        have e : pos = (pos.toNat : Int) := by omega
        obtain ⟨w, hw, hwv, _, hwc, _⟩ := erase_contents v hv pos.toNat (by omega)
        rw [← e] at hw
        exact Or.inr ⟨w, by rw [hw]; rfl, hwv, by rw [hwc]⟩
  | erase_range first last =>
    show (erase_range v first last).state = none ∨
      ∃ w, (erase_range v first last).state = some w ∧ w.Valid ∧ v.m_capacity ≤ w.m_capacity
    by_cases he : v.m_end = 0
    · exact same _ (by rw [erase_range_length_error v first last he]; rfl)
    · by_cases c2 : first < v.begin ∨ last > v.end_
      · exact same _ (by rw [erase_range_rejects v first last he c2]; rfl)
      · by_cases c3 : last < first
        · left
          rw [erase_range_reversed v first last he (by omega) (by omega) c3]; rfl
        · simp only [vector.begin, vector.end_] at c2
          have e1 : first = (first.toNat : Int) := by omega
          have e2 : last = (last.toNat : Int) := by omega
          obtain ⟨w, hw, hwv, _, hwc, _⟩ := erase_range_contents v hv first.toNat
            last.toNat he (by omega) (by omega)
          rw [← e1, ← e2] at hw
          exact Or.inr ⟨w, by rw [hw]; rfl, hwv, by rw [hwc]⟩
  | reserve new_cap =>
    obtain ⟨w, h1, h2, _, h3, _⟩ := reserve_spec v hv new_cap
    refine Or.inr ⟨w, by show (reserve v new_cap).state = _; rw [h1]; rfl, h2, ?_⟩
    rw [h3]
    by_cases hg : new_cap > v.m_capacity
    · rw [if_pos hg]; omega
    · rw [if_neg hg]

end sc

namespace sc

/-- C15, as the code has it: after a call of `push_back`, `pop_back`, `insert`,
`erase`, `reserve`, `assign` or `clear` that returns or throws, `capacity()` is
at least what it was before.  The two assignment operators always return and
set the capacity to the capacity of the source vector, respectively to the
length of the initializer list, which may be smaller than before. -/
theorem capacity_not_decreased {T : Type} [Inhabited T] (v : vector T) (hv : v.Valid)
    (u : Update T) (w : vector T) (h : u.after v = some w) (other : vector T)
    (ho : other.Valid) (il : List T) :
    v.capacity ≤ w.capacity ∧
    (∃ w1, operator_assign v other = .returned w1 () ∧ w1.capacity = other.capacity) ∧
    (∃ w2, operator_assign_ilist v il = .returned w2 () ∧ w2.capacity = il.length) := by
  refine ⟨?_, ?_, ?_⟩
  · cases u with
    | call c =>
      rcases call_after_cases v hv c with h1 | ⟨w1, h1, _, h2⟩
      · have h3 : c.after v = some w := h
        rw [h1] at h3
        exact Option.noConfusion h3
      · have h3 : c.after v = some w := h
        rw [h1] at h3
        rw [← Option.some.inj h3]
        exact h2
    | assign count_ value_ =>
      obtain ⟨w1, h1, _, _, h2, _⟩ := assign_spec v hv count_ value_
      have h3 : (assign v count_ value_).state = some w := h
      rw [h1] at h3
      rw [← Option.some.inj h3]
      show v.m_capacity ≤ w1.m_capacity
      rw [h2]
      by_cases hg : count_ > v.m_capacity
      · rw [if_pos hg]; omega
      · rw [if_neg hg]
    | assign_ilist ilist =>
      obtain ⟨w1, _, h1, _, _, h2, _⟩ := assign_range_spec v hv ilist
      have h3 : (assign_ilist v ilist).state = some w := h
      rw [h1] at h3
      rw [← Option.some.inj h3]
      show v.m_capacity ≤ w1.m_capacity
      rw [h2]
      by_cases hg : ilist.length > v.m_capacity
      · rw [if_pos hg]; omega
      · rw [if_neg hg]
    | assign_range xs =>
      obtain ⟨w1, h1, _, _, _, h2, _⟩ := assign_range_spec v hv xs
      have h3 : (assign_range v xs).state = some w := h
      rw [h1] at h3
      rw [← Option.some.inj h3]
      show v.m_capacity ≤ w1.m_capacity
      rw [h2]
      by_cases hg : xs.length > v.m_capacity
      · rw [if_pos hg]; omega
      · rw [if_neg hg]
    | clear =>
      have h3 : (clear v).state = some w := h
      simp only [clear, Outcome.state, Option.some.injEq] at h3
      rw [← h3]
      exact Nat.le_refl _
  · obtain ⟨w1, h1, _, _, h2, _⟩ := operator_assign_spec v other hv ho
    exact ⟨w1, h1, h2⟩
  · obtain ⟨w2, h1, _, _, h2, _⟩ := operator_assign_ilist_spec v hv il
    exact ⟨w2, h1, h2⟩

/-- The vector `{1, 2, 3, 4, 5}` after `assign(3, 9)` keeps capacity 5; assigned
from a vector of capacity 3, or from the list `{1, 2}`, it gets that capacity. -/
theorem capacity_not_decreased_witness :
    (vector.of_list [1, 2, 3, 4, 5] : vector Nat).Valid ∧
    (Update.assign 3 9).after (vector.of_list [1, 2, 3, 4, 5] : vector Nat) =
      some ⟨3, 5, [9, 9, 9, 4, 5]⟩ ∧
    (⟨1, 3, [7, 8, 9]⟩ : vector Nat).Valid ∧
    ((vector.of_list [1, 2, 3, 4, 5] : vector Nat).capacity ≤
        (⟨3, 5, [9, 9, 9, 4, 5]⟩ : vector Nat).capacity ∧
      (∃ w1, operator_assign (vector.of_list [1, 2, 3, 4, 5] : vector Nat) ⟨1, 3, [7, 8, 9]⟩
          = .returned w1 () ∧ w1.capacity = (⟨1, 3, [7, 8, 9]⟩ : vector Nat).capacity) ∧
      (∃ w2, operator_assign_ilist (vector.of_list [1, 2, 3, 4, 5] : vector Nat) [1, 2]
          = .returned w2 () ∧ w2.capacity = [1, 2].length)) :=
  ⟨⟨rfl, by decide⟩, by decide, ⟨rfl, by decide⟩,
    capacity_not_decreased (vector.of_list [1, 2, 3, 4, 5] : vector Nat) ⟨rfl, by decide⟩
      (Update.assign 3 9) ⟨3, 5, [9, 9, 9, 4, 5]⟩ (by decide) ⟨1, 3, [7, 8, 9]⟩
      ⟨rfl, by decide⟩ [1, 2]⟩

/-- C15 fails as stated: the vector `{1, 2, 3, 4, 5}` has capacity 5, and after
the assignment of the initializer list `{1, 2}` its capacity is 2; after the
assignment of a vector of capacity 3 its capacity is 3. -/
theorem capacity_decreased_by_assignment :
    operator_assign_ilist (vector.of_list [1, 2, 3, 4, 5] : vector Nat) [1, 2] =
      .returned ⟨2, 2, [1, 2]⟩ () ∧
    operator_assign (vector.of_list [1, 2, 3, 4, 5] : vector Nat) ⟨1, 3, [7, 8, 9]⟩ =
      .returned ⟨1, 3, [7, 0, 0]⟩ () ∧
    ¬ ((vector.of_list [1, 2, 3, 4, 5] : vector Nat).capacity ≤
        (⟨2, 2, [1, 2]⟩ : vector Nat).capacity) ∧
    ¬ ((vector.of_list [1, 2, 3, 4, 5] : vector Nat).capacity ≤
        (⟨1, 3, [7, 0, 0]⟩ : vector Nat).capacity) := by
  decide

end sc

/-! ## `prime` accepts the prime numbers only -/

namespace ac

theorem prime_loop_no_divisor (m : Nat) :
    ∀ (f i0 : Nat), prime_loop f i0 m = true → ∀ k, k < f →
      (i0 + 6 * k) * (i0 + 6 * k) ≤ m →
      ¬ m % (i0 + 6 * k) = 0 ∧ ¬ m % (i0 + 6 * k + 2) = 0 := by
  intro f
  induction f with
  | zero => intro i0 _ k hk; omega
  | succ f ih =>
    intro i0 h k hk hsq
    have h0 : i0 * i0 ≤ m :=
      Nat.le_trans (Nat.mul_le_mul (Nat.le_add_right _ _) (Nat.le_add_right _ _)) hsq
    simp only [prime_loop] at h
    rw [if_pos h0] at h
    by_cases hd : m % i0 = 0 ∨ m % (i0 + 2) = 0
    · rw [if_pos hd] at h
      exact Bool.noConfusion h
    · rw [if_neg hd] at h
      cases k with
      | zero =>
        simp only [Nat.mul_zero, Nat.add_zero]
        exact ⟨fun c => hd (Or.inl c), fun c => hd (Or.inr c)⟩
      | succ k2 =>
        have e : i0 + 6 * (k2 + 1) = i0 + 6 + 6 * k2 := by omega
        rw [e] at hsq ⊢
        exact ih (i0 + 6) h k2 (by omega) hsq

/-- Every number accepted by `prime` is a prime number. -/
theorem nat_prime_of_prime (m : Nat) (h : prime m = true) : Nat.Prime m := by
  unfold prime at h
  by_cases h1 : m ≤ 1
  · rw [if_pos h1] at h
    exact Bool.noConfusion h
  · rw [if_neg h1] at h
    by_cases h3 : m ≤ 3
    · have : m = 2 ∨ m = 3 := by omega
      rcases this with rfl | rfl
      · exact Nat.prime_two
      · exact Nat.prime_three
    · rw [if_neg h3] at h
      by_cases hd : m % 2 = 0 ∨ m % 3 = 0
      · rw [if_pos hd] at h
        exact Bool.noConfusion h
      · rw [if_neg hd] at h
        by_contra hnp
        have hp : Nat.Prime m.minFac := Nat.minFac_prime (by omega)
        have hdvd : m.minFac ∣ m := Nat.minFac_dvd m
        have hsq : m.minFac * m.minFac ≤ m := by
          have := Nat.minFac_sq_le_self (by omega : 0 < m) hnp
          rwa [pow_two] at this
        have h2 := hp.two_le
        have hp2 : ¬ m.minFac % 2 = 0 := by
          intro c
          apply hd
          left
          exact Nat.mod_eq_zero_of_dvd (Nat.dvd_trans (Nat.dvd_of_mod_eq_zero c) hdvd)
        have hp3 : ¬ m.minFac % 3 = 0 := by
          intro c
          apply hd
          right
          exact Nat.mod_eq_zero_of_dvd (Nat.dvd_trans (Nat.dvd_of_mod_eq_zero c) hdvd)
        have hmod : m % m.minFac = 0 := Nat.mod_eq_zero_of_dvd hdvd
        have hlt : m.minFac < m := by
          have : 2 * m.minFac ≤ m.minFac * m.minFac := Nat.mul_le_mul_right _ h2
          omega
        have h6 : m.minFac % 6 = 1 ∨ m.minFac % 6 = 5 := by omega
        rcases h6 with h6 | h6
        · have e : 5 + 6 * ((m.minFac - 7) / 6) + 2 = m.minFac := by omega
          have hle : 5 + 6 * ((m.minFac - 7) / 6) ≤ m.minFac := by omega
          have := (prime_loop_no_divisor m m 5 h ((m.minFac - 7) / 6) (by omega)
            (Nat.le_trans (Nat.mul_le_mul hle hle) hsq)).2
          rw [e] at this
          exact this hmod
        · have e : 5 + 6 * ((m.minFac - 5) / 6) = m.minFac := by omega
          have := (prime_loop_no_divisor m m 5 h ((m.minFac - 5) / 6) (by omega)
            (by rw [e]; exact hsq)).1
          rw [e] at this
          exact this hmod

theorem prime_iff (m : Nat) : prime m = true ↔ Nat.Prime m :=
  ⟨nat_prime_of_prime m, prime_of_nat_prime m⟩

theorem find_next_prime_loop_skips (fuel : Nat) :
    ∀ (n q : Nat), n ≤ q → q < find_next_prime_loop fuel n → prime q = false := by
  induction fuel with
  | zero =>
    intro n q h1 h2
    simp only [find_next_prime_loop] at h2
    omega
  | succ f ih =>
    intro n q h1 h2
    simp only [find_next_prime_loop] at h2
    by_cases hn : prime n = true
    · rw [if_pos hn] at h2
      omega
    · rw [if_neg hn] at h2
      by_cases hq : q = n
      · rw [hq]
        cases hb : prime n with
        | false => rfl
        | true => exact absurd hb hn
      · exact ih (n + 1) q (by omega) h2

/-- The result of `find_next_prime` is the least prime number that is not below
the argument. -/
theorem find_next_prime_spec (n : Nat) :
    Nat.Prime (find_next_prime n) ∧ n ≤ find_next_prime n ∧
      ∀ q, Nat.Prime q → n ≤ q → find_next_prime n ≤ q := by
  refine ⟨nat_prime_of_prime _ (prime_find_next_prime n), le_find_next_prime n, ?_⟩
  intro q hq hnq
  by_contra hlt
  have := find_next_prime_loop_skips (n + 2) n q hnq (by
    show q < find_next_prime n
    omega)
  rw [prime_of_nat_prime q hq] at this
  exact Bool.noConfusion this

end ac

/-! ## Size, counter and load factor after an insertion -/

namespace ac

/-- The three ways `insert` ends: a present key (nothing but the data
changes), a new key without rehash, a new key with rehash. -/
theorem insert_shape {K V F : Type} [DecidableEq K] (P : Params K F) (t : HashTbl K V F)
    (k : K) (v : V) :
    (insert P t k v).1.m_max_load_factor = t.m_max_load_factor ∧
    (((insert P t k v).1.m_size = t.m_size ∧ (insert P t k v).1.m_count = t.m_count) ∨
     ((insert P t k v).1.m_size = t.m_size ∧ (insert P t k v).1.m_count = t.m_count + 1 ∧
        P.exceeds (t.m_count + 1) t.m_size t.m_max_load_factor = false) ∨
     ((insert P t k v).1.m_size = find_next_prime (t.m_size * 2) ∧
        (insert P t k v).1.m_count = t.m_count + 1 ∧
        P.exceeds (t.m_count + 1) t.m_size t.m_max_load_factor = true)) := by
  cases hov : overwrite k v (bucket t.m_table (P.hash k % t.m_size)) with
  | some b =>
    have hins : insert P t k v =
        ({ t with m_table := t.m_table.set (P.hash k % t.m_size) b }, false) := by
      simp only [insert, hov]
    rw [hins]
    exact ⟨rfl, Or.inl ⟨rfl, rfl⟩⟩
  | none =>
    cases hex : P.exceeds (t.m_count + 1) t.m_size t.m_max_load_factor with
    | true =>
      have hins : insert P t k v =
          (rehash P { t with m_table := push_front t.m_table (P.hash k % t.m_size) ⟨k, v⟩
                             m_count := t.m_count + 1 }, true) := by
        simp only [insert, hov, hex, if_true]
      rw [hins]
      exact ⟨rfl, Or.inr (Or.inr ⟨rfl, rfl, rfl⟩)⟩
    | false =>
      have hins : insert P t k v =
          ({ t with m_table := push_front t.m_table (P.hash k % t.m_size) ⟨k, v⟩
                    m_count := t.m_count + 1 }, true) := by
        simp only [insert, hov, hex]
        rfl
      rw [hins]
      exact ⟨rfl, Or.inr (Or.inl ⟨rfl, rfl, rfl⟩)⟩

/-- The three ways `operator[]` ends, and the data it yields: the stored data
of a present key, the default data of a new key. -/
theorem operator_brackets_shape {K V F : Type} [DecidableEq K] [Inhabited V]
    (P : Params K F) (t : HashTbl K V F) (k : K) :
    (operator_brackets P t k).1.m_max_load_factor = t.m_max_load_factor ∧
    ((∃ d, find_data k (bucket t.m_table (P.hash k % t.m_size)) = some d ∧
        operator_brackets P t k = (t, d)) ∨
     (find_data k (bucket t.m_table (P.hash k % t.m_size)) = none ∧
        (operator_brackets P t k).2 = default ∧
        (operator_brackets P t k).1.m_size = t.m_size ∧
        (operator_brackets P t k).1.m_count = t.m_count + 1 ∧
        P.exceeds (t.m_count + 1) t.m_size t.m_max_load_factor = false) ∨
     (find_data k (bucket t.m_table (P.hash k % t.m_size)) = none ∧
        (operator_brackets P t k).2 = default ∧
        (operator_brackets P t k).1.m_size = find_next_prime (t.m_size * 2) ∧
        (operator_brackets P t k).1.m_count = t.m_count + 1 ∧
        P.exceeds (t.m_count + 1) t.m_size t.m_max_load_factor = true)) := by
  cases hf : find_data k (bucket t.m_table (P.hash k % t.m_size)) with
  | some d =>
    have hop : operator_brackets P t k = (t, d) := by simp only [operator_brackets, hf]
    rw [hop]
    exact ⟨rfl, Or.inl ⟨d, rfl, rfl⟩⟩
  | none =>
    cases hex : P.exceeds (t.m_count + 1) t.m_size t.m_max_load_factor with
    | true =>
      have hop : operator_brackets P t k =
          ({ rehash P { t with m_count := t.m_count + 1 } with
              m_table := push_front (rehash P { t with m_count := t.m_count + 1 }).m_table
                (P.hash k % (rehash P { t with m_count := t.m_count + 1 }).m_size)
                ⟨k, default⟩ }, default) := by
        simp only [operator_brackets, hf, hex, if_true]
      rw [hop]
      exact ⟨rfl, Or.inr (Or.inr ⟨rfl, rfl, rfl, rfl, rfl⟩)⟩
    | false =>
      have hop : operator_brackets P t k =
          ({ t with m_count := t.m_count + 1
                    m_table := push_front t.m_table (P.hash k % t.m_size) ⟨k, default⟩ },
            default) := by
        simp only [operator_brackets, hf, hex]
        rfl
      rw [hop]
      exact ⟨rfl, Or.inr (Or.inl ⟨rfl, rfl, rfl, rfl, rfl⟩)⟩

end ac

/-! ## Copies and assignments stay among the reachable states -/

namespace ac

theorem copy_lists_loop_spec {E : Type} (source tb : List (List E)) (k : Nat)
    (hk : k ≤ source.length) (hl : tb.length = source.length) :
    ((List.range k).foldl (fun tb i => tb.set i (bucket source i)) tb).length =
        source.length ∧
    ∀ j, ((List.range k).foldl (fun tb i => tb.set i (bucket source i)) tb)[j]? =
      if j < k then source[j]? else tb[j]? := by
  induction k with
  | zero =>
    refine ⟨hl, ?_⟩
    intro j
    rw [if_neg (by omega)]
    rfl
  | succ m ih =>
    obtain ⟨h1, h2⟩ := ih (by omega)
    rw [List.range_succ, List.foldl_append]
    simp only [List.foldl_cons, List.foldl_nil, List.length_set]
    refine ⟨h1, ?_⟩
    intro j
    rw [List.getElem?_set, h1]
    by_cases hj : m = j
    · subst hj
      rw [if_pos rfl, if_pos (by omega), if_pos (by omega), bucket_of_lt _ _ (by omega),
        List.getElem?_eq_getElem (by omega)]
    · rw [if_neg hj, h2 j]
      by_cases hlt : j < m
      · rw [if_pos hlt, if_pos (by omega)]
      · rw [if_neg hlt, if_neg (by omega)]

theorem copy_lists_eq {E : Type} (source tb : List (List E))
    (hl : tb.length = source.length) : copy_lists source.length source tb = source := by
  obtain ⟨h1, h2⟩ := copy_lists_loop_spec source tb source.length (Nat.le_refl _) hl
  apply List.ext_getElem?
  intro j
  unfold copy_lists
  rw [h2 j]
  by_cases hj : j < source.length
  · rw [if_pos hj]
  · rw [if_neg hj, List.getElem?_eq_none (by omega), List.getElem?_eq_none (by omega)]

/-- The copy constructor yields a state equal to its source. -/
theorem copy_eq {K V F : Type} (P : Params K F) (t : HashTbl K V F) (h : Inv P t) :
    HashTbl.copy t = t := by
  have e : copy_lists t.m_size t.m_table (List.replicate t.m_size []) = t.m_table := by
    rw [← h.len]
    exact copy_lists_eq _ _ (by simp)
  unfold HashTbl.copy
  rw [e]

/-- The copy assignment from another table yields a state equal to that
table. -/
theorem operator_assign_eq {K V F : Type} (P : Params K F) (t clone : HashTbl K V F)
    (ht : Inv P t) (hc : Inv P clone) : operator_assign t clone = clone := by
  obtain ⟨hcl, _, hsz⟩ := clear_inv P t ht
  by_cases hne : clone.m_size ≠ (clear t).m_size
  · have e : copy_lists clone.m_size clone.m_table (List.replicate clone.m_size []) =
        clone.m_table := by
      rw [← hc.len]
      exact copy_lists_eq _ _ (by simp)
    simp only [operator_assign, if_pos hne]
    rw [e]
  · have hs : (clear t).m_size = clone.m_size := by
      by_contra c
      exact hne (fun c2 => c c2.symm)
    have e : copy_lists (clear t).m_size clone.m_table (clear t).m_table = clone.m_table := by
      rw [hs, ← hc.len]
      exact copy_lists_eq _ _ (by rw [hcl.len, hs, hc.len])
    simp only [operator_assign, if_neg hne]
    rw [e, hs]

theorem Reachable.foldl_insert {K V F : Type} [DecidableEq K] [Inhabited V]
    {P : Params K F} (ilist : List (HashEntry K V)) :
    ∀ t : HashTbl K V F, Reachable P t →
      Reachable P (ilist.foldl (fun t e => (ac.insert P t e.m_key e.m_data).1) t) := by
  induction ilist with
  | nil => intro t h; exact h
  | cons e es ih =>
    intro t h
    rw [List.foldl_cons]
    exact ih _ (Reachable.insert t e.m_key e.m_data h)

theorem Reachable.ctor_ilist {K V F : Type} [DecidableEq K] [Inhabited V]
    (P : Params K F) (ilist : List (HashEntry K V)) :
    Reachable P (HashTbl.ctor_ilist P ilist : HashTbl K V F) :=
  Reachable.foldl_insert ilist _ (Reachable.ctor ilist.length)

theorem Reachable.operator_assign_ilist {K V F : Type} [DecidableEq K] [Inhabited V]
    {P : Params K F} (t : HashTbl K V F) (h : Reachable P t)
    (ilist : List (HashEntry K V)) : Reachable P (ac.operator_assign_ilist P t ilist) := by
  by_cases hne : ilist.length ≠ (ac.clear t).m_size
  · have e : ac.operator_assign_ilist P t ilist =
        ilist.foldl (fun t e => (ac.insert P t e.m_key e.m_data).1)
          (HashTbl.ctor P ilist.length) := by
      simp only [ac.operator_assign_ilist, if_pos hne]
      rfl
    rw [e]
    exact Reachable.foldl_insert ilist _ (Reachable.ctor ilist.length)
  · have e : ac.operator_assign_ilist P t ilist =
        ilist.foldl (fun t e => (ac.insert P t e.m_key e.m_data).1)
          (ac.set_max_load_factor (ac.clear t) P.one) := by
      simp only [ac.operator_assign_ilist, if_neg hne]
      rfl
    rw [e]
    exact Reachable.foldl_insert ilist _
      (Reachable.set_max_load_factor _ _ (Reachable.clear t h))

/-- The number of buckets of a reachable table is a prime number. -/
theorem Reachable.prime_size {K V F : Type} [DecidableEq K] [Inhabited V] {P : Params K F}
    {t : HashTbl K V F} (h : Reachable P t) : Nat.Prime t.m_size := by
  induction h with
  | ctor sz => exact (find_next_prime_spec sz).1
  | insert t k v _ ih =>
    rcases (insert_shape P t k v).2 with h1 | h1 | h1
    · rw [h1.1]; exact ih
    · rw [h1.1]; exact ih
    · rw [h1.1]; exact (find_next_prime_spec _).1
  | operator_brackets t k _ ih =>
    rcases (operator_brackets_shape P t k).2 with ⟨d, _, h1⟩ | h1 | h1
    · rw [h1]; exact ih
    · rw [h1.2.2.1]; exact ih
    · rw [h1.2.2.1]; exact (find_next_prime_spec _).1
  | erase t k hr ih =>
    rw [(erase_spec P t hr.inv k).2.2.2.2.1]; exact ih
  | clear t _ ih => exact ih
  | rehash t _ _ => exact (find_next_prime_spec _).1
  | set_max_load_factor t mlf _ ih => exact ih

end ac

/-! ## The load bound, `operator[]` and `at` -/

namespace ac

/-! ### The rounding of the load test -/

theorem digits_loop_le_iff (fuel : Nat) :
    ∀ x n, x ≤ fuel → (digits_loop fuel x ≤ n ↔ x < 2 ^ n) := by
  induction fuel with
  | zero =>
    intro x n hx
    have h0 : x = 0 := by omega
    subst h0
    simp [digits_loop]
  | succ f ih =>
    intro x n hx
    simp only [digits_loop]
    by_cases h0 : x = 0
    · subst h0
      simp
    · rw [if_neg h0]
      cases n with
      | zero =>
        simp only [pow_zero]
        omega
      | succ m =>
        rw [Nat.add_le_add_iff_right, ih (x / 2) m (by omega), pow_succ]
        omega

/-- A number has at most `n` binary digits exactly when it is below `2^n`. -/
theorem digits_le_iff (x n : Nat) : digits x ≤ n ↔ x < 2 ^ n :=
  digits_loop_le_iff x x n (Nat.le_refl x)

theorem lt_pow_digits (x : Nat) : x < 2 ^ digits x :=
  (digits_le_iff x _).mp (Nat.le_refl _)

theorem digits_pos (x : Nat) (h : 0 < x) : 0 < digits x := by
  by_contra hc
  have h0 : digits x ≤ 0 := by omega
  rw [digits_le_iff] at h0
  simp only [pow_zero] at h0
  omega

theorem pow_digits_le (x : Nat) (h : 0 < x) : 2 ^ (digits x - 1) ≤ x := by
  by_contra hc
  have hd := digits_pos x h
  have h1 : digits x ≤ digits x - 1 := (digits_le_iff x _).mpr (by omega)
  omega

theorem digits_mono {x y : Nat} (h : x ≤ y) : digits x ≤ digits y :=
  (digits_le_iff x _).mpr (Nat.lt_of_le_of_lt h (lt_pow_digits y))

theorem digits_double (x : Nat) (h : 0 < x) : digits (2 * x) = digits x + 1 := by
  apply Nat.le_antisymm
  · rw [digits_le_iff, pow_succ]
    have := lt_pow_digits x
    omega
  · by_contra hc
    have hle : digits (2 * x) ≤ digits x := by omega
    rw [digits_le_iff] at hle
    have h2 := pow_digits_le x h
    have hd := digits_pos x h
    have e : 2 ^ digits x = 2 ^ (digits x - 1) * 2 := by
      rw [← pow_succ]
      congr 1
      omega
    omega

theorem rne_ge (x k : Nat) : x / 2 ^ k ≤ rne x k := Nat.le_add_right _ _

theorem rne_le_succ (x k : Nat) : rne x k ≤ x / 2 ^ k + 1 := by
  unfold rne
  split <;> omega

/-- Rounding does not pass a multiple of the unit. -/
theorem rne_le_of_le_mul (x k m : Nat) (h : x ≤ 2 ^ k * m) : rne x k ≤ m := by
  have hp : 0 < 2 ^ k := Nat.two_pow_pos _
  have hq : x / 2 ^ k ≤ m := by
    apply Nat.div_le_of_le_mul
    exact h
  by_cases he : x / 2 ^ k = m
  · have hdm := Nat.div_add_mod x (2 ^ k)
    rw [he] at hdm
    have hr : x % 2 ^ k = 0 := by omega
    unfold rne
    rw [hr, he]
    have c : ¬ (2 ^ k < 2 * 0 ∨ 2 * 0 = 2 ^ k ∧ m % 2 = 1) := by omega
    rw [if_neg c]
    omega
  · have := rne_le_succ x k
    omega

theorem rne_mono (x y k : Nat) (h : x ≤ y) : rne x k ≤ rne y k := by
  have hq : x / 2 ^ k ≤ y / 2 ^ k := Nat.div_le_div_right h
  by_cases he : x / 2 ^ k = y / 2 ^ k
  · have hx := Nat.div_add_mod x (2 ^ k)
    have hy := Nat.div_add_mod y (2 ^ k)
    rw [he] at hx
    have hr : x % 2 ^ k ≤ y % 2 ^ k := by omega
    unfold rne
    rw [he]
    split <;> split <;> omega
  · have := rne_le_succ x k
    have := rne_ge y k
    omega

theorem rne_double (x k : Nat) : rne (2 * x) (k + 1) = rne x k := by
  have h1 : 2 * x / 2 ^ (k + 1) = x / 2 ^ k := by
    rw [pow_succ, Nat.mul_comm (2 ^ k) 2, Nat.mul_div_mul_left _ _ (by decide)]
  have h2 : 2 * x % 2 ^ (k + 1) = 2 * (x % 2 ^ k) := by
    rw [pow_succ, Nat.mul_comm (2 ^ k) 2, Nat.mul_mod_mul_left]
  unfold rne
  rw [h1, h2, pow_succ]
  split <;> split <;> omega

theorem rnd_zero (s : Nat) : rnd 0 s = 0 := by
  have hd : digits 0 = 0 := rfl
  have hs : shift 0 s = s := by
    unfold shift
    rw [hd]
    omega
  have hp : 0 < 2 ^ s := Nat.two_pow_pos _
  unfold rnd rne
  rw [hs, Nat.zero_div, Nat.zero_mod, if_neg (by omega)]
  simp

/-- The rounding to `float` is monotone. -/
theorem rnd_mono (s : Nat) {x y : Nat} (h : x ≤ y) : rnd x s ≤ rnd y s := by
  have hdm := digits_mono h
  have hk : shift x s ≤ shift y s := by
    unfold shift
    omega
  unfold rnd
  by_cases he : shift x s = shift y s
  · rw [he]
    exact Nat.mul_le_mul_right _ (rne_mono x y _ h)
  · have ex : shift x s = max (digits x - 24) s := rfl
    have ey : shift y s = max (digits y - 24) s := rfl
    have hsx : s ≤ shift x s := by omega
    have hdx : digits x - 24 ≤ shift x s := by omega
    have hky : shift y s = digits y - 24 := by omega
    have hy0 : 0 < y := by
      by_contra hc
      have e : y = 0 := by omega
      subst e
      have hd : digits 0 = 0 := rfl
      rw [hd] at ey
      omega
    have hx : x < 2 ^ (shift y s + 23) := (digits_le_iff x _).mp (by omega)
    have hy : 2 ^ (shift y s + 23) ≤ y := by
      have h2 := pow_digits_le y hy0
      have e : digits y - 1 = shift y s + 23 := by omega
      rw [e] at h2
      exact h2
    have h1 : rne x (shift x s) ≤ 2 ^ (shift y s + 23 - shift x s) := by
      apply rne_le_of_le_mul
      rw [← pow_add]
      have e : shift x s + (shift y s + 23 - shift x s) = shift y s + 23 := by omega
      rw [e]
      exact Nat.le_of_lt hx
    have h2 : 2 ^ 23 ≤ rne y (shift y s) := by
      refine Nat.le_trans ?_ (rne_ge y _)
      rw [Nat.le_div_iff_mul_le (Nat.two_pow_pos _), ← pow_add, Nat.add_comm]
      exact hy
    calc rne x (shift x s) * 2 ^ (shift x s - s)
        ≤ 2 ^ (shift y s + 23 - shift x s) * 2 ^ (shift x s - s) :=
          Nat.mul_le_mul_right _ h1
      _ = 2 ^ 23 * 2 ^ (shift y s - s) := by
          rw [← pow_add, ← pow_add]
          congr 1
          omega
      _ ≤ rne y (shift y s) * 2 ^ (shift y s - s) := Nat.mul_le_mul_right _ h2

/-- Doubling a number in the normal range doubles its rounded value. -/
theorem rnd_double (s x : Nat) (h : 2 ^ (23 + s) ≤ x) : rnd (2 * x) s = 2 * rnd x s := by
  have hx0 : 0 < x := Nat.lt_of_lt_of_le (Nat.two_pow_pos _) h
  have hd : 24 + s ≤ digits x := by
    by_contra hc
    have h1 : digits x ≤ 23 + s := by omega
    rw [digits_le_iff] at h1
    omega
  have hs : shift x s = digits x - 24 := by unfold shift; omega
  have hs2 : shift (2 * x) s = digits x - 24 + 1 := by
    unfold shift
    rw [digits_double x hx0]
    omega
  unfold rnd
  rw [hs2, hs, rne_double]
  have e : digits x - 24 + 1 - s = (digits x - 24 - s) + 1 := by omega
  rw [e, pow_succ]
  ring

/-- Below the normal range the rounded value stays below it. -/
theorem rnd_small (s x : Nat) (h : x < 2 ^ (23 + s)) : rnd x s ≤ 2 ^ 23 := by
  have hd : digits x ≤ 23 + s := (digits_le_iff _ _).mpr h
  have hs : shift x s = s := by unfold shift; omega
  unfold rnd
  rw [hs, Nat.sub_self, pow_zero, Nat.mul_one]
  apply rne_le_of_le_mul
  rw [← pow_add, Nat.add_comm]
  exact Nat.le_of_lt h

theorem of_size_cases (n : Nat) :
    (rnd (n * 2 ^ 149) 0 < float.huge ∧
      float.of_size n = .finite false (rnd (n * 2 ^ 149) 0)) ∨
    (float.huge ≤ rnd (n * 2 ^ 149) 0 ∧ float.of_size n = .inf false) := by
  unfold float.of_size float.round
  by_cases h : rnd (n * 2 ^ 149) 0 < float.huge
  · rw [if_pos h]
    exact Or.inl ⟨h, rfl⟩
  · rw [if_neg h]
    exact Or.inr ⟨by omega, rfl⟩

theorem key_round (neg : Bool) (x s : Nat) :
    float.key (float.round neg x s) =
      some (if neg then -((min (rnd x s) float.huge : Nat) : Int)
        else ((min (rnd x s) float.huge : Nat) : Int)) := by
  unfold float.round
  by_cases h : rnd x s < float.huge
  · rw [if_pos h, Nat.min_eq_left (Nat.le_of_lt h)]
    cases neg <;> rfl
  · rw [if_neg h, Nat.min_eq_right (by omega)]
    cases neg <;> rfl

theorem key_of_size (n : Nat) :
    float.key (float.of_size n) = some ((min (rnd (n * 2 ^ 149) 0) float.huge : Nat) : Int) :=
  key_round false _ _

theorem key_mul_of_size (s N : Nat) (hN : 0 < N) :
    float.key (float.mul (float.of_size s) (.finite false N)) =
      some (((if rnd (s * 2 ^ 149) 0 < float.huge then
        min (rnd (rnd (s * 2 ^ 149) 0 * N) 149) float.huge else float.huge : Nat)) : Int) := by
  rcases of_size_cases s with ⟨h, e⟩ | ⟨h, e⟩
  · rw [e, if_pos h]
    exact key_round false _ _
  · rw [e, if_neg (by omega)]
    simp only [float.mul]
    rw [if_neg (by omega)]
    rfl

/-- The arithmetic of the load test: when `count > size × mlf` is false in
`float` and the rounded product is at least `1.0f`, `count + 1 > size1 × mlf`
is false for every size `size1` from `2 × size` on. -/
theorem load_step (T N c s s1 : Nat) (hs1 : 2 * s ≤ s1)
    (hb : min (rnd (c * 2 ^ 149) 0) T ≤
      (if rnd (s * 2 ^ 149) 0 < T then min (rnd (rnd (s * 2 ^ 149) 0 * N) 149) T else T))
    (h1 : 2 ^ 149 ≤
      (if rnd (s * 2 ^ 149) 0 < T then min (rnd (rnd (s * 2 ^ 149) 0 * N) 149) T else T)) :
    min (rnd ((c + 1) * 2 ^ 149) 0) T ≤
      (if rnd (s1 * 2 ^ 149) 0 < T then min (rnd (rnd (s1 * 2 ^ 149) 0 * N) 149) T
        else T) := by
  by_cases h1T : rnd (s1 * 2 ^ 149) 0 < T
  · rw [if_pos h1T]
    have ha1 : rnd (s * 2 ^ 149) 0 ≤ rnd (2 * s * 2 ^ 149) 0 :=
      rnd_mono 0 (Nat.mul_le_mul_right _ (by omega))
    have ha2 : rnd (2 * s * 2 ^ 149) 0 ≤ rnd (s1 * 2 ^ 149) 0 :=
      rnd_mono 0 (Nat.mul_le_mul_right _ hs1)
    have haT : rnd (s * 2 ^ 149) 0 < T := by omega
    rw [if_pos haT] at hb h1
    have hs0 : 0 < s := by
      by_contra hc
      have e : s = 0 := by omega
      subst e
      rw [Nat.zero_mul, rnd_zero, Nat.zero_mul, rnd_zero] at h1
      have h2 : (2 : Nat) ^ 149 ≤ 0 := Nat.le_trans h1 (Nat.min_le_left _ _)
      exact absurd h2 (by decide)
    have hp : ∀ n, 0 < n → 2 ^ (23 + 0) ≤ n * 2 ^ 149 := by
      intro n hn
      calc 2 ^ (23 + 0) ≤ 1 * 2 ^ 149 := by decide
        _ ≤ n * 2 ^ 149 := Nat.mul_le_mul_right _ hn
    have hA2 : rnd (2 * s * 2 ^ 149) 0 = 2 * rnd (s * 2 ^ 149) 0 := by
      rw [Nat.mul_assoc]
      exact rnd_double 0 _ (hp s hs0)
    have hr : 2 ^ 149 ≤ rnd (rnd (s * 2 ^ 149) 0 * N) 149 :=
      Nat.le_trans h1 (Nat.min_le_left _ _)
    have haN : 2 ^ (23 + 149) ≤ rnd (s * 2 ^ 149) 0 * N := by
      by_contra hc
      have h2 := rnd_small 149 (rnd (s * 2 ^ 149) 0 * N) (by omega)
      have h3 : (2 : Nat) ^ 149 ≤ 2 ^ 23 := Nat.le_trans hr h2
      exact absurd h3 (by decide)
    have hr2 : rnd (2 * rnd (s * 2 ^ 149) 0 * N) 149 =
        2 * rnd (rnd (s * 2 ^ 149) 0 * N) 149 := by
      rw [Nat.mul_assoc]
      exact rnd_double 149 _ haN
    have hr1 : 2 * rnd (rnd (s * 2 ^ 149) 0 * N) 149 ≤
        rnd (rnd (s1 * 2 ^ 149) 0 * N) 149 := by
      rw [← hr2]
      exact rnd_mono 149 (Nat.mul_le_mul_right N (by omega))
    by_cases hc0 : c = 0
    · subst hc0
      have e1 : rnd ((0 + 1) * 2 ^ 149) 0 = 2 ^ 149 := by decide!
      rw [e1]
      omega
    · have hg : rnd ((c + 1) * 2 ^ 149) 0 ≤ 2 * rnd (c * 2 ^ 149) 0 := by
        rw [← rnd_double 0 (c * 2 ^ 149) (hp c (by omega)), ← Nat.mul_assoc]
        exact rnd_mono 0 (Nat.mul_le_mul_right _ (by omega))
      omega
  · rw [if_neg h1T]
    exact Nat.min_le_right _ _

/-- The load test after a growth of the table, for every load factor: when
`count > size × mlf` is false and `1.0f <= size × mlf` is true, both in `float`,
`count + 1 > size1 × mlf` is false for every size `size1` from `2 × size` on. -/
theorem within_after_growth (mlf : float) (c s s1 : Nat) (hs1 : 2 * s ≤ s1)
    (hb : float.gt (float.of_size c) (float.mul (float.of_size s) mlf) = false)
    (h1 : float.le float.one (float.mul (float.of_size s) mlf) = true) :
    float.gt (float.of_size (c + 1)) (float.mul (float.of_size s1) mlf) = false := by
  have hmono : rnd (s * 2 ^ 149) 0 ≤ rnd (s1 * 2 ^ 149) 0 :=
    rnd_mono 0 (Nat.mul_le_mul_right _ (by omega))
  have hhuge : 0 < float.huge := by decide!
  cases mlf with
  | nan =>
    rcases of_size_cases s with ⟨_, e⟩ | ⟨_, e⟩ <;> rw [e] at h1 <;>
      simp [float.mul, float.le, float.key] at h1
  | inf neg =>
    cases neg with
    | true =>
      rcases of_size_cases s with ⟨_, e⟩ | ⟨_, e⟩
      · rw [e] at h1
        simp only [float.mul] at h1
        split at h1 <;> simp [float.le, float.key, float.one] at h1
        omega
      · rw [e] at h1
        simp [float.mul, float.le, float.key, float.one] at h1
        omega
    | false =>
      have hpos : 0 < rnd (s * 2 ^ 149) 0 := by
        rcases of_size_cases s with ⟨_, e⟩ | ⟨h, _⟩
        · rw [e] at h1
          simp only [float.mul] at h1
          by_contra hc
          rw [if_pos (by omega)] at h1
          simp [float.le, float.key] at h1
        · omega
      have e1 : float.mul (float.of_size s1) (.inf false) = .inf false := by
        rcases of_size_cases s1 with ⟨_, e⟩ | ⟨_, e⟩
        · rw [e]
          simp only [float.mul]
          rw [if_neg (by omega)]
          rfl
        · rw [e]
          rfl
      rw [e1]
      unfold float.gt
      rw [key_of_size]
      simp only [float.key, decide_eq_false_iff_not]
      omega
  | finite neg N =>
    cases neg with
    | true =>
      rcases of_size_cases s with ⟨_, e⟩ | ⟨_, e⟩
      · rw [e] at h1
        have e2 : float.mul (.finite false (rnd (s * 2 ^ 149) 0)) (.finite true N) =
            float.round true (rnd (s * 2 ^ 149) 0 * N) 149 := rfl
        rw [e2] at h1
        unfold float.le at h1
        rw [key_round] at h1
        simp [float.key, float.one] at h1
        omega
      · rw [e] at h1
        simp only [float.mul] at h1
        split at h1 <;> simp [float.le, float.key, float.one] at h1
        omega
    | false =>
      by_cases hN : N = 0
      · subst hN
        rcases of_size_cases s with ⟨_, e⟩ | ⟨_, e⟩
        · rw [e] at h1
          have e2 : float.mul (.finite false (rnd (s * 2 ^ 149) 0)) (.finite false 0) =
              float.round false (rnd (s * 2 ^ 149) 0 * 0) 149 := rfl
          rw [e2] at h1
          unfold float.le at h1
          rw [key_round, Nat.mul_zero, rnd_zero] at h1
          simp [float.key, float.one] at h1
        · rw [e] at h1
          simp [float.mul, float.le, float.key] at h1
      · have hNp : 0 < N := by omega
        unfold float.gt at hb ⊢
        unfold float.le at h1
        rw [key_of_size, key_mul_of_size _ _ hNp] at hb ⊢
        rw [key_mul_of_size _ _ hNp] at h1
        simp only [float.key, float.one, decide_eq_false_iff_not, decide_eq_true_eq,
          gt_iff_lt, not_lt, Nat.cast_le] at hb h1 ⊢
        have h2 : 2 ^ 149 ≤ (if rnd (s * 2 ^ 149) 0 < float.huge then
            min (rnd (rnd (s * 2 ^ 149) 0 * N) 149) float.huge else float.huge) := by
          exact_mod_cast h1
        exact load_step float.huge N c s s1 hs1 hb h2

/-- Rounding to the nearest multiple moves a number by at most half the unit. -/
theorem rne_error (x k : Nat) : 2 * (rne x k * 2 ^ k) ≤ 2 * x + 2 ^ k := by
  have hdm := Nat.div_add_mod x (2 ^ k)
  have hc : x / 2 ^ k * 2 ^ k = 2 ^ k * (x / 2 ^ k) := Nat.mul_comm _ _
  unfold rne
  split
  · next h =>
    rw [Nat.add_mul, Nat.one_mul, hc]
    omega
  · rw [Nat.add_zero, hc]
    omega

/-- In the normal range the rounding to `float` adds at most the fraction
`2^-24` of the number. -/
theorem rnd_error (s x : Nat) (h : 2 ^ (23 + s) ≤ x) :
    rnd x s * 2 ^ s * 2 ^ 24 ≤ x * (2 ^ 24 + 1) := by
  have hx0 : 0 < x := Nat.lt_of_lt_of_le (Nat.two_pow_pos _) h
  have hd : 24 + s ≤ digits x := by
    by_contra hc
    have h1 : digits x ≤ 23 + s := by omega
    rw [digits_le_iff] at h1
    omega
  have hs : shift x s = digits x - 24 := by unfold shift; omega
  have h2 := pow_digits_le x hx0
  have e1 : digits x - 1 = (digits x - 24) + 23 := by omega
  rw [e1, pow_add] at h2
  have h3 := rne_error x (digits x - 24)
  have e2 : rnd x s * 2 ^ s = rne x (digits x - 24) * 2 ^ (digits x - 24) := by
    unfold rnd
    rw [hs, Nat.mul_assoc, ← pow_add]
    congr 2
    omega
  rw [e2]
  generalize rne x (digits x - 24) * 2 ^ (digits x - 24) = r at h3
  generalize 2 ^ (digits x - 24) = u at h2 h3
  omega

/-- A number of at most 24 binary digits times a power of two is a `float`:
its rounding is exact. -/
theorem rnd_exact (n j s : Nat) (hn : n < 2 ^ 24) (hs : s ≤ j) :
    rnd (n * 2 ^ j) s = n * 2 ^ (j - s) := by
  have hd : digits (n * 2 ^ j) ≤ 24 + j := by
    rw [digits_le_iff, pow_add]
    exact Nat.mul_lt_mul_of_pos_right hn (Nat.two_pow_pos _)
  have hk : shift (n * 2 ^ j) s ≤ j := by unfold shift; omega
  have hsk : s ≤ shift (n * 2 ^ j) s := by unfold shift; omega
  unfold rnd rne
  generalize shift (n * 2 ^ j) s = k at hk hsk
  have e : n * 2 ^ j = 2 ^ k * (n * 2 ^ (j - k)) := by
    rw [Nat.mul_left_comm, ← pow_add]
    congr 2
    omega
  have hq : n * 2 ^ j / 2 ^ k = n * 2 ^ (j - k) :=
    Nat.div_eq_of_eq_mul_right (Nat.two_pow_pos _) e
  have hr : n * 2 ^ j % 2 ^ k = 0 := by
    rw [e]
    exact Nat.mul_mod_right _ _
  have hp : 0 < 2 ^ k := Nat.two_pow_pos _
  rw [hq, hr, if_neg (by omega), Nat.add_zero, Nat.mul_assoc, ← pow_add]
  congr 2
  omega

/-- What a false load test says in exact arithmetic: for a count and a size
below `2^24`, which convert to `float` without rounding, and a load factor
`N × 2^-149`, the test `count > size × mlf` is false in `float` only when
`count ≤ size × mlf × (1 + 2^-24)`. -/
theorem within_load_bound (count size N : Nat) (hc : count < 2 ^ 24) (hs : size < 2 ^ 24)
    (h : float.gt (float.of_size count)
      (float.mul (float.of_size size) (.finite false N)) = false) :
    count * 2 ^ 149 * 2 ^ 24 ≤ size * N * (2 ^ 24 + 1) := by
  by_cases hN : N = 0
  · subst hN
    have e0 : float.mul (float.of_size size) (.finite false 0) = .finite false 0 ∨
        float.mul (float.of_size size) (.finite false 0) = .nan := by
      rcases of_size_cases size with ⟨_, e⟩ | ⟨_, e⟩
      · left
        rw [e]
        show float.round false (rnd (size * 2 ^ 149) 0 * 0) 149 = _
        rw [Nat.mul_zero]
        decide!
      · right
        rw [e]
        rfl
    have hcs : rnd (count * 2 ^ 149) 0 = count * 2 ^ 149 := rnd_exact count 149 0 hc (by omega)
    have hsz : rnd (size * 2 ^ 149) 0 = size * 2 ^ 149 := rnd_exact size 149 0 hs (by omega)
    rcases e0 with e | e
    · rw [e] at h
      unfold float.gt at h
      rw [key_of_size, hcs] at h
      simp only [float.key, decide_eq_false_iff_not, gt_iff_lt, not_lt] at h
      have h2 : min (count * 2 ^ 149) float.huge ≤ 0 := by exact_mod_cast h
      have h3 : 0 < float.huge := by decide!
      have h4 : count * 2 ^ 149 = 0 := by omega
      rw [h4]
      omega
    · rcases of_size_cases size with ⟨_, e1⟩ | ⟨h5, _⟩
      · rw [e1] at e
        have e2 : float.mul (.finite false (rnd (size * 2 ^ 149) 0)) (.finite false 0) =
            float.round false (rnd (size * 2 ^ 149) 0 * 0) 149 := rfl
        rw [e2] at e
        unfold float.round at e
        split at e <;> exact absurd e (by simp)
      · rw [hsz] at h5
        have h6 : size * 2 ^ 149 < 2 ^ 24 * 2 ^ 149 :=
          Nat.mul_lt_mul_of_pos_right hs (Nat.two_pow_pos _)
        have h7 : 2 ^ 24 * 2 ^ 149 ≤ float.huge := by decide!
        omega
  · have hNp : 0 < N := by omega
    have hcs : rnd (count * 2 ^ 149) 0 = count * 2 ^ 149 := rnd_exact count 149 0 hc (by omega)
    have hsz : rnd (size * 2 ^ 149) 0 = size * 2 ^ 149 := rnd_exact size 149 0 hs (by omega)
    have hch : count * 2 ^ 149 < float.huge := by
      have h6 : count * 2 ^ 149 < 2 ^ 24 * 2 ^ 149 :=
        Nat.mul_lt_mul_of_pos_right hc (Nat.two_pow_pos _)
      have h7 : 2 ^ 24 * 2 ^ 149 ≤ float.huge := by decide!
      omega
    have hsh : size * 2 ^ 149 < float.huge := by
      have h6 : size * 2 ^ 149 < 2 ^ 24 * 2 ^ 149 :=
        Nat.mul_lt_mul_of_pos_right hs (Nat.two_pow_pos _)
      have h7 : 2 ^ 24 * 2 ^ 149 ≤ float.huge := by decide!
      omega
    unfold float.gt at h
    rw [key_of_size, key_mul_of_size _ _ hNp, hcs, hsz, if_pos hsh] at h
    simp only [decide_eq_false_iff_not, gt_iff_lt, not_lt, Nat.cast_le] at h
    have h2 : count * 2 ^ 149 ≤ rnd (size * 2 ^ 149 * N) 149 := by
      have h3 := Nat.le_trans h (Nat.min_le_left _ _)
      rw [Nat.min_eq_left (Nat.le_of_lt hch)] at h3
      exact h3
    by_cases hn : 2 ^ (23 + 149) ≤ size * 2 ^ 149 * N
    · have h3 := rnd_error 149 _ hn
      have e : size * 2 ^ 149 * N * (2 ^ 24 + 1) = size * N * (2 ^ 24 + 1) * 2 ^ 149 := by ring
      rw [e] at h3
      have h4 : count * 2 ^ 149 * 2 ^ 149 * 2 ^ 24 ≤
          rnd (size * 2 ^ 149 * N) 149 * 2 ^ 149 * 2 ^ 24 :=
        Nat.mul_le_mul_right _ (Nat.mul_le_mul_right _ h2)
      have h5 : count * 2 ^ 149 * 2 ^ 24 * 2 ^ 149 ≤ size * N * (2 ^ 24 + 1) * 2 ^ 149 := by
        have e2 : count * 2 ^ 149 * 2 ^ 24 * 2 ^ 149 = count * 2 ^ 149 * 2 ^ 149 * 2 ^ 24 := by
          ring
        rw [e2]
        exact Nat.le_trans h4 h3
      exact Nat.le_of_mul_le_mul_right h5 (Nat.two_pow_pos _)
    · have h3 := rnd_small 149 (size * 2 ^ 149 * N) (by omega)
      have h4 : count * 2 ^ 149 ≤ 2 ^ 23 := Nat.le_trans h2 h3
      have h5 : count = 0 := by
        by_contra hc0
        have h6 : 1 * 2 ^ 149 ≤ count * 2 ^ 149 := Nat.mul_le_mul_right _ (by omega)
        have h7 : ¬ (1 * 2 ^ 149 ≤ 2 ^ 23) := by decide
        exact h7 (Nat.le_trans h6 h4)
      subst h5
      simp

/-- C16 (counterexample): two reachable states with a positive load factor in
which `count ≤ size × mlf` holds, exactly and as the source tests it, and an
insertion after which it does not hold exactly.  `HashTbl(2)` with
`max_load_factor(0.125f)` and no entry: `insert(0, 0)` returns `true` after its
one rehash, with 5 buckets and 1 entry, and `1 > 5 × 0.125` still, in `float`
too; `operator[](0)` ends in the same way.  `HashTbl(5)` with
`max_load_factor(1.4f)` and 6 entries: `insert(6, 0)` returns `true` without a
rehash, because `5 × 1.4f` is rounded to `7.0f` and `7 > 7.0f` is false, and it
leaves 7 entries in 5 buckets, more than `5 × 1.4f = 6.99999988...`. -/
theorem load_bound_broken :
    (Reachable (float_params fun k => k) small_load_table ∧
      small_load_table.m_max_load_factor = float.eighth ∧
      small_load_table.m_size = 2 ∧ small_load_table.m_count = 0 ∧
      exact_within 0 2 float.eighth = true ∧ within_load small_load_table ∧
      (insert (float_params fun k => k) small_load_table 0 0).2 = true ∧
      (insert (float_params fun k => k) small_load_table 0 0).1.m_size = 5 ∧
      (insert (float_params fun k => k) small_load_table 0 0).1.m_count = 1 ∧
      exact_within 1 5 float.eighth = false ∧
      ¬ within_load (insert (float_params fun k => k) small_load_table 0 0).1 ∧
      (operator_brackets (float_params fun k => k) small_load_table 0).1.m_size = 5 ∧
      (operator_brackets (float_params fun k => k) small_load_table 0).1.m_count = 1 ∧
      ¬ within_load (operator_brackets (float_params fun k => k) small_load_table 0).1) ∧
    (Reachable (float_params fun k => k) rounded_load_table ∧
      rounded_load_table.m_max_load_factor = float.one_point_four ∧
      rounded_load_table.m_size = 5 ∧ rounded_load_table.m_count = 6 ∧
      exact_within 6 5 float.one_point_four = true ∧ within_load rounded_load_table ∧
      float.mul (float.of_size 5) float.one_point_four = float.of_size 7 ∧
      (insert (float_params fun k => k) rounded_load_table 6 0).2 = true ∧
      (insert (float_params fun k => k) rounded_load_table 6 0).1.m_size = 5 ∧
      (insert (float_params fun k => k) rounded_load_table 6 0).1.m_count = 7 ∧
      exact_within 7 5 float.one_point_four = false ∧
      within_load (insert (float_params fun k => k) rounded_load_table 6 0).1) :=
  ⟨⟨Reachable.set_max_load_factor _ _ (Reachable.ctor 2), by decide!, by decide!, by decide!,
      by decide!, by decide!, by decide!, by decide!, by decide!, by decide!, by decide!,
      by decide!, by decide!, by decide!⟩,
    ⟨Reachable.insert _ 5 0 (Reachable.insert _ 4 0 (Reachable.insert _ 3 0
        (Reachable.insert _ 2 0 (Reachable.insert _ 1 0 (Reachable.insert _ 0 0
          (Reachable.set_max_load_factor _ _ (Reachable.ctor 5))))))),
      by decide!, by decide!, by decide!, by decide!, by decide!, by decide!, by decide!,
      by decide!, by decide!, by decide!, by decide!⟩⟩

/-- C16 (amended): for every load factor, in every table state in which the
test `count > size × mlf` of the source is false and the product `size × mlf`
it computes is at least `1.0f`, the test is false again in the state `insert`
leaves and in the state `operator[]` leaves, whether the call found the key,
added it without a rehash or added it and rehashed once.  The load factor is a
`float` and the test is evaluated in `float`, as the source does.  In exact
arithmetic this bounds the count up to the rounding of the product: for a load
factor `N × 2^-149` and a count and a size below `2^24`, the state the call
leaves has `count ≤ size × mlf × (1 + 2^-24)`. -/
theorem load_bound_after_insert {K V : Type} [DecidableEq K] [Inhabited V]
    (hash : K → Nat) (t : HashTbl K V float) (hb : within_load t)
    (h1 : float.le float.one
      (float.mul (float.of_size t.m_size) t.m_max_load_factor) = true) (k : K) (v : V) :
    (within_load (insert (float_params hash) t k v).1 ∧
      within_load (operator_brackets (float_params hash) t k).1) ∧
    (∀ N, t.m_max_load_factor = .finite false N →
      ((insert (float_params hash) t k v).1.m_count < 2 ^ 24 →
        (insert (float_params hash) t k v).1.m_size < 2 ^ 24 →
        (insert (float_params hash) t k v).1.m_count * 2 ^ 149 * 2 ^ 24 ≤
          (insert (float_params hash) t k v).1.m_size * N * (2 ^ 24 + 1)) ∧
      ((operator_brackets (float_params hash) t k).1.m_count < 2 ^ 24 →
        (operator_brackets (float_params hash) t k).1.m_size < 2 ^ 24 →
        (operator_brackets (float_params hash) t k).1.m_count * 2 ^ 149 * 2 ^ 24 ≤
          (operator_brackets (float_params hash) t k).1.m_size * N * (2 ^ 24 + 1))) := by
  have step : ∀ t1 : HashTbl K V float, t1.m_max_load_factor = t.m_max_load_factor →
      ((t1.m_size = t.m_size ∧ t1.m_count = t.m_count) ∨
        (t1.m_size = t.m_size ∧ t1.m_count = t.m_count + 1 ∧
          (float_params hash).exceeds (t.m_count + 1) t.m_size t.m_max_load_factor = false) ∨
        (t1.m_size = find_next_prime (t.m_size * 2) ∧ t1.m_count = t.m_count + 1 ∧
          (float_params hash).exceeds (t.m_count + 1) t.m_size t.m_max_load_factor = true)) →
      within_load t1 := by
    intro t1 hm hcase
    unfold within_load at hb ⊢
    rw [hm]
    rcases hcase with ⟨hs, hc⟩ | ⟨hs, hc, hex⟩ | ⟨hs, hc, _⟩
    · rewrite [hs, hc]
      exact hb
    · rewrite [hs, hc]
      simp only [float_params] at hex
      exact hex
    · rewrite [hs, hc]
      have hN : t.m_size * 2 ≤ find_next_prime (t.m_size * 2) := le_find_next_prime _
      exact within_after_growth _ _ _ _ (by omega) hb h1
  have exact_bound : ∀ (t1 : HashTbl K V float) (N : Nat),
      t1.m_max_load_factor = .finite false N → within_load t1 →
      t1.m_count < 2 ^ 24 → t1.m_size < 2 ^ 24 →
      t1.m_count * 2 ^ 149 * 2 ^ 24 ≤ t1.m_size * N * (2 ^ 24 + 1) := by
    intro t1 N hm hw hc hs
    unfold within_load at hw
    rw [hm] at hw
    exact within_load_bound _ _ N hc hs hw
  obtain ⟨hm1, hc1⟩ := insert_shape (float_params hash) t k v
  obtain ⟨hm2, hc2⟩ := operator_brackets_shape (float_params hash) t k
  have w1 : within_load (insert (float_params hash) t k v).1 := step _ hm1 hc1
  have w2 : within_load (operator_brackets (float_params hash) t k).1 := by
    refine step _ hm2 ?_
    rcases hc2 with ⟨d, _, hop⟩ | ⟨_, _, hs, hcn, hex⟩ | ⟨_, _, hs, hcn, hex⟩
    · rw [hop]
      exact Or.inl ⟨rfl, rfl⟩
    · exact Or.inr (Or.inl ⟨hs, hcn, hex⟩)
    · exact Or.inr (Or.inr ⟨hs, hcn, hex⟩)
  exact ⟨⟨w1, w2⟩, fun N hN =>
    ⟨exact_bound _ N (hm1.trans hN) w1, exact_bound _ N (hm2.trans hN) w2⟩⟩

theorem load_bound_after_insert_witness :
    within_load full_load_table ∧
    float.le float.one
      (float.mul (float.of_size full_load_table.m_size)
        full_load_table.m_max_load_factor) = true ∧
    full_load_table.m_max_load_factor = float.one ∧
    full_load_table.m_size = 2 ∧ full_load_table.m_count = 2 ∧
    (insert (float_params fun k => k) full_load_table 3 30).1.m_size = 5 ∧
    (insert (float_params fun k => k) full_load_table 3 30).1.m_count = 3 ∧
    (within_load (insert (float_params fun k => k) full_load_table 3 30).1 ∧
      within_load (operator_brackets (float_params fun k => k) full_load_table 3).1) ∧
    (insert (float_params fun k => k) full_load_table 3 30).1.m_count * 2 ^ 149 * 2 ^ 24 ≤
      (insert (float_params fun k => k) full_load_table 3 30).1.m_size * 2 ^ 149 *
        (2 ^ 24 + 1) :=
  ⟨by decide!, by decide!, by decide!, by decide!, by decide!, by decide!, by decide!,
    (load_bound_after_insert (fun k => k) full_load_table (by decide!) (by decide!) 3 30).1,
    ((load_bound_after_insert (fun k => k) full_load_table (by decide!) (by decide!) 3 30).2
      (2 ^ 149) (by decide!)).1 (by decide!) (by decide!)⟩

/-- C18: in every reachable state, `at(k)` throws `std::out_of_range` exactly
when no entry has the key `k`; when an entry has it, `at(k)` yields the value
that `retrieve(k, out)` leaves in `out`, and `retrieve` returns `true`; in both
cases the table after the call is the table before it, so `size()` and every
entry are as before. -/
theorem at_result {K V F : Type} [DecidableEq K] [Inhabited V]
    (P : Params K F) (t : HashTbl K V F) (h : Reachable P t) (k : K) (out : V) :
    ((at_ P t k).2 = .error .out_of_range ↔ k ∉ keys t) ∧
    (k ∈ keys t → (retrieve P t k out).1 = true ∧
      (at_ P t k).2 = .ok (retrieve P t k out).2) ∧
    (at_ P t k).1 = t ∧
    size (at_ P t k).1 = size t ∧
    entries (at_ P t k).1 = entries t := by
  have hT := h.inv.toTableInv
  cases hf : find_data k (bucket t.m_table (P.hash k % t.m_size)) with
  | none =>
    have hk : k ∉ keys t := fun c => (find_data_eq_none k _).mp hf ((hT.key_mem_iff k).mp c)
    have hat : at_ P t k = (t, .error .out_of_range) := by simp only [at_, hf]
    rw [hat]
    exact ⟨⟨fun _ => hk, fun _ => rfl⟩, fun c => absurd c hk, rfl, rfl, rfl⟩
  | some d =>
    have hm := (hT.find_data_iff k d).mp hf
    have hk : k ∈ keys t := List.mem_map.mpr ⟨_, hm, rfl⟩
    have hat : at_ P t k = (t, .ok d) := by simp only [at_, hf]
    rw [hat, hT.retrieve_of_mem k d out hm]
    refine ⟨⟨fun c => ?_, fun c => absurd hk c⟩, fun _ => ⟨rfl, rfl⟩, rfl, rfl, rfl⟩
    cases c

theorem at_result_witness :
    Reachable sample_params sample_table ∧ 1 ∈ keys sample_table ∧ 7 ∉ keys sample_table ∧
    (at_ sample_params sample_table 1).2 = .ok 10 ∧
    (at_ sample_params sample_table 7).2 = .error .out_of_range ∧
    (((at_ sample_params sample_table 7).2 = .error .out_of_range ↔ 7 ∉ keys sample_table) ∧
    (7 ∈ keys sample_table → (retrieve sample_params sample_table 7 0).1 = true ∧
      (at_ sample_params sample_table 7).2 = .ok (retrieve sample_params sample_table 7 0).2) ∧
    (at_ sample_params sample_table 7).1 = sample_table ∧
    size (at_ sample_params sample_table 7).1 = size sample_table ∧
    entries (at_ sample_params sample_table 7).1 = entries sample_table) :=
  ⟨sample_table_reachable, by decide, by decide, rfl, rfl,
    at_result sample_params sample_table sample_table_reachable 7 0⟩

end ac

/-! ## The `int` counter of `prime` -/

namespace ac

/-- Whenever the loop with the `int` counter returns a value, it is the value
of the loop over the natural numbers. -/
theorem prime_loop_checked_value (fuel : Nat) :
    ∀ (i n_ : Nat) (b : Bool), prime_loop_checked fuel i n_ = .value b →
      prime_loop fuel i n_ = b := by
  induction fuel with
  | zero =>
    intro i n_ b h
    simp only [prime_loop_checked, Checked.value.injEq] at h
    simp only [prime_loop]
    exact h
  | succ f ih =>
    intro i n_ b h
    simp only [prime_loop_checked] at h
    simp only [prime_loop]
    by_cases hov : INT_MAX < i * i
    · rw [if_pos hov] at h
      cases h
    · rw [if_neg hov] at h
      by_cases hle : i * i ≤ n_
      · rw [if_pos hle] at h ⊢
        by_cases hd : n_ % i = 0 ∨ n_ % (i + 2) = 0
        · rw [if_pos hd] at h ⊢
          exact Checked.value.inj h
        · rw [if_neg hd] at h ⊢
          exact ih _ _ _ h
      · rw [if_neg hle] at h ⊢
        exact Checked.value.inj h

/-- Below `46337² = 2147117569` no product `i * i` of the loop leaves the range
of `int`: the loop with the `int` counter returns what the loop over the natural
numbers returns. -/
theorem prime_loop_checked_eq (fuel : Nat) :
    ∀ (i n_ : Nat), i % 6 = 5 → i ≤ 46337 → n_ < 2147117569 →
      prime_loop_checked fuel i n_ = .value (prime_loop fuel i n_) := by
  induction fuel with
  | zero => intro i n_ _ _ _; rfl
  | succ f ih =>
    intro i n_ hmod hi hn
    have hsq : i * i ≤ 46337 * 46337 := Nat.mul_le_mul hi hi
    have hov : ¬ INT_MAX < i * i := by unfold INT_MAX; omega
    simp only [prime_loop_checked, prime_loop]
    rw [if_neg hov]
    by_cases hle : i * i ≤ n_
    · rw [if_pos hle, if_pos hle]
      by_cases hd : n_ % i = 0 ∨ n_ % (i + 2) = 0
      · rw [if_pos hd, if_pos hd]
      · rw [if_neg hd, if_neg hd]
        have hlt : i < 46337 := by
          by_contra c
          have : 46337 * 46337 ≤ i * i := Nat.mul_le_mul (by omega) (by omega)
          omega
        exact ih _ _ (by omega) (by omega) hn
    · rw [if_neg hle, if_neg hle]

theorem prime_checked_eq (n_ : Nat) (hn : n_ < 2147117569) :
    prime_checked n_ = .value (prime n_) := by
  unfold prime_checked prime
  by_cases h1 : n_ ≤ 1
  · rw [if_pos h1, if_pos h1]
  · rw [if_neg h1, if_neg h1]
    by_cases h3 : n_ ≤ 3
    · rw [if_pos h3, if_pos h3]
    · rw [if_neg h3, if_neg h3]
      by_cases hd : n_ % 2 = 0 ∨ n_ % 3 = 0
      · rw [if_pos hd, if_pos hd]
      · rw [if_neg hd, if_neg hd]
        exact prime_loop_checked_eq _ _ _ (by decide) (by decide) hn

theorem prime_checked_value (n_ : Nat) (b : Bool) (h : prime_checked n_ = .value b) :
    prime n_ = b := by
  unfold prime_checked at h
  unfold prime
  by_cases h1 : n_ ≤ 1
  · rw [if_pos h1] at h ⊢
    exact Checked.value.inj h
  · rw [if_neg h1] at h ⊢
    by_cases h3 : n_ ≤ 3
    · rw [if_pos h3] at h ⊢
      exact Checked.value.inj h
    · rw [if_neg h3] at h ⊢
      by_cases hd : n_ % 2 = 0 ∨ n_ % 3 = 0
      · rw [if_pos hd] at h ⊢
        exact Checked.value.inj h
      · rw [if_neg hd] at h ⊢
        exact prime_loop_checked_value _ _ _ _ h

theorem find_next_prime_loop_checked_eq (fuel : Nat) :
    ∀ n_ : Nat, find_next_prime_loop fuel n_ < 2147117569 →
      find_next_prime_loop_checked fuel n_ = .value (find_next_prime_loop fuel n_) := by
  induction fuel with
  | zero => intro n_ _; rfl
  | succ f ih =>
    intro n_ h
    have hn : n_ < 2147117569 := Nat.lt_of_le_of_lt (le_find_next_prime_loop _ _) h
    simp only [find_next_prime_loop_checked, find_next_prime_loop] at h ⊢
    rw [prime_checked_eq n_ hn]
    cases hp : prime n_ with
    | true => simp only [if_true]
    | false =>
      rw [hp] at h
      simp only [Bool.false_eq_true, if_false] at h ⊢
      exact ih _ h

/-- While the prime that `find_next_prime` finds is below `46337²`, the function
with the `int` counter returns it. -/
theorem find_next_prime_checked_eq (n_ : Nat) (h : find_next_prime n_ < 2147117569) :
    find_next_prime_checked n_ = .value (find_next_prime n_) :=
  find_next_prime_loop_checked_eq _ _ h

/-- From `46337²` on, the loop with the `int` counter either finds a divisor or
forms the product `46343 * 46343 = 2147673649`, which is above `INT_MAX`. -/
theorem prime_loop_checked_large (n_ : Nat) (hn : 2147117569 ≤ n_) (fuel : Nat) :
    ∀ i : Nat, i % 6 = 5 → i ≤ 46343 → 46343 < i + 6 * fuel →
      prime_loop_checked fuel i n_ = .value false ∨
      prime_loop_checked fuel i n_ = .signed_overflow 46343 := by
  induction fuel with
  | zero => intro i _ hi hf; omega
  | succ f ih =>
    intro i hmod hi hf
    simp only [prime_loop_checked]
    by_cases he : i = 46343
    · subst he
      rw [if_pos (by decide)]
      exact Or.inr rfl
    · have hi2 : i ≤ 46337 := by omega
      have hsq : i * i ≤ 46337 * 46337 := Nat.mul_le_mul hi2 hi2
      rw [if_neg (by unfold INT_MAX; omega), if_pos (by omega)]
      by_cases hd : n_ % i = 0 ∨ n_ % (i + 2) = 0
      · rw [if_pos hd]
        exact Or.inl rfl
      · rw [if_neg hd]
        exact ih _ (by omega) (by omega) (by omega)

theorem prime_checked_large (n_ : Nat) (hn : 2147117569 ≤ n_) :
    prime_checked n_ = .value false ∨ prime_checked n_ = .signed_overflow 46343 := by
  unfold prime_checked
  rw [if_neg (by omega), if_neg (by omega)]
  by_cases hd : n_ % 2 = 0 ∨ n_ % 3 = 0
  · rw [if_pos hd]
    exact Or.inl rfl
  · rw [if_neg hd]
    exact prime_loop_checked_large n_ hn n_ 5 (by decide) (by decide) (by omega)

/-- When no number from 5 to 46339 divides `n_`, the loop does not stop before
it forms `46343 * 46343`. -/
theorem prime_loop_checked_overflow (n_ : Nat) (hn : 2147117569 ≤ n_)
    (hfree : ∀ d, 5 ≤ d → d ≤ 46339 → n_ % d ≠ 0) (fuel : Nat) :
    ∀ i : Nat, 5 ≤ i → i % 6 = 5 → i ≤ 46343 → 46343 < i + 6 * fuel →
      prime_loop_checked fuel i n_ = .signed_overflow 46343 := by
  induction fuel with
  | zero => intro i _ _ hi hf; omega
  | succ f ih =>
    intro i h5 hmod hi hf
    simp only [prime_loop_checked]
    by_cases he : i = 46343
    · subst he
      rw [if_pos (by decide)]
    · have hi2 : i ≤ 46337 := by omega
      have hsq : i * i ≤ 46337 * 46337 := Nat.mul_le_mul hi2 hi2
      have hd : ¬ (n_ % i = 0 ∨ n_ % (i + 2) = 0) := by
        rintro (c | c)
        · exact hfree i h5 (by omega) c
        · exact hfree (i + 2) (by omega) (by omega) c
      rw [if_neg (by unfold INT_MAX; omega), if_pos (by omega), if_neg hd]
      exact ih _ (by omega) (by omega) (by omega) (by omega)

/-- At a prime number from `46337²` on, `prime` forms `46343 * 46343`. -/
theorem prime_checked_of_prime (p : Nat) (hn : 2147117569 ≤ p) (hp : Nat.Prime p) :
    prime_checked p = .signed_overflow 46343 := by
  rcases prime_checked_large p hn with h | h
  · have := prime_checked_value p false h
    rw [prime_of_nat_prime p hp] at this
    cases this
  · exact h

theorem find_next_prime_loop_checked_large (fuel : Nat) :
    ∀ n_ : Nat, 2147117569 ≤ n_ → (∃ p, Nat.Prime p ∧ n_ ≤ p ∧ p < n_ + fuel) →
      find_next_prime_loop_checked fuel n_ = .signed_overflow 46343 := by
  induction fuel with
  | zero =>
    rintro n_ _ ⟨p, _, h1, h2⟩
    omega
  | succ f ih =>
    rintro n_ hn ⟨p, hp, h1, h2⟩
    simp only [find_next_prime_loop_checked]
    rcases prime_checked_large n_ hn with h | h
    · rw [h]
      have hnp : ¬ Nat.Prime n_ := by
        intro c
        rw [prime_checked_of_prime n_ hn c] at h
        cases h
      have hne : n_ ≠ p := fun c => hnp (c ▸ hp)
      exact ih (n_ + 1) (by omega) ⟨p, hp, by omega, by omega⟩
    · rw [h]

/-- From `46337² = 2147117569` on, `find_next_prime` never returns a value: the
search ends in the product `46343 * 46343`, which leaves the range of `int`. -/
theorem find_next_prime_checked_large (n_ : Nat) (hn : 2147117569 ≤ n_) :
    find_next_prime_checked n_ = .signed_overflow 46343 := by
  obtain ⟨p, hp, h1, h2⟩ := Nat.exists_prime_lt_and_le_two_mul n_ (by omega)
  exact find_next_prime_loop_checked_large _ n_ hn ⟨p, hp, by omega, by omega⟩

theorem prime_46349 : Nat.Prime 46349 := by norm_num

/-- No number from 5 to 46339 divides `2148229801 = 46349²`. -/
theorem square_46349_free (d : Nat) (h5 : 5 ≤ d) (hd : d ≤ 46339) :
    2148229801 % d ≠ 0 := by
  intro c
  have hdvd : d ∣ 46349 ^ 2 := by
    have : (46349 : Nat) ^ 2 = 2148229801 := by norm_num
    rw [this]
    exact Nat.dvd_of_mod_eq_zero c
  obtain ⟨k, hk, rfl⟩ := (Nat.dvd_prime_pow prime_46349).mp hdvd
  have hk3 : k = 0 ∨ k = 1 ∨ k = 2 := by omega
  rcases hk3 with rfl | rfl | rfl
  · norm_num at h5
  · norm_num at hd
  · norm_num at hd

/-- The request `2^30` gives `2^30 + 3` buckets: the search of `find_next_prime`
and the trial divisions of `prime` are run as they are. -/
theorem find_next_prime_1073741824 : find_next_prime 1073741824 = 1073741827 := by
  decide!

theorem ctor_size {K V F : Type} (P : Params K F) (sz : Nat) :
    (HashTbl.ctor P sz : HashTbl K V F).m_size = find_next_prime sz := rfl

/-- While the prime found is below `46337²`, the constructor with the `int`
counter builds the table of `HashTbl.ctor`: no entry, and as many buckets as
the least prime not below the requested size. -/
theorem ctor_checked_eq {K V F : Type} (P : Params K F) (sz : Nat)
    (h : find_next_prime sz < 2147117569) :
    (HashTbl.ctor_checked P sz : Checked (HashTbl K V F)) = .value (HashTbl.ctor P sz) := by
  unfold HashTbl.ctor_checked
  rw [find_next_prime_checked_eq sz h]
  rfl

/-- While the prime found is below `46337²`, `rehash` with the `int` counter
yields the table of `rehash`. -/
theorem rehash_checked_eq {K V F : Type} (P : Params K F) (t : HashTbl K V F)
    (h : find_next_prime (t.m_size * 2) < 2147117569) :
    rehash_checked P t = .value (rehash P t) := by
  unfold rehash_checked
  rw [find_next_prime_checked_eq _ h]
  rfl

/-- C19: `prime(2148229801)` does not answer `false`, although `2148229801` is
`46349 * 46349`: no counter value from 5 to 46339 divides it, so the loop goes
on to the counter 46343 and forms `46343 * 46343 = 2147673649` in `int`, above
`INT_MAX`.  `find_next_prime(2148229801)` and `HashTbl(2148229801)` end in this
overflow and not in the least prime from `2148229801` on.  The requests 4, 0 and
1 give 5, 2 and 2 buckets. -/
theorem prime_checked_overflows :
    2148229801 = 46349 * 46349 ∧ ¬ Nat.Prime 2148229801 ∧
    INT_MAX < 46343 * 46343 ∧
    prime_checked 2148229801 = .signed_overflow 46343 ∧
    find_next_prime_checked 2148229801 = .signed_overflow 46343 ∧
    (HashTbl.ctor_checked sample_params 2148229801 : Checked (HashTbl Nat Nat Nat)) =
      .signed_overflow 46343 ∧
    find_next_prime_checked 4 = .value 5 ∧
    find_next_prime_checked 0 = .value 2 ∧
    find_next_prime_checked 1 = .value 2 := by
  have hp : prime_checked 2148229801 = .signed_overflow 46343 := by
    unfold prime_checked
    rw [if_neg (by decide), if_neg (by decide), if_neg (by decide)]
    exact prime_loop_checked_overflow _ (by decide) square_46349_free _ 5
      (by decide) (by decide) (by decide) (by decide)
  have hf : find_next_prime_checked 2148229801 = .signed_overflow 46343 :=
    find_next_prime_checked_large _ (by decide)
  refine ⟨by norm_num, by norm_num, by decide, hp, hf, ?_, rfl, rfl, rfl⟩
  unfold HashTbl.ctor_checked
  rw [hf]

/-- C20: `HashTbl(1073741824)` is built without overflow and has `1073741827`
buckets; the rehash of this table calls `find_next_prime` with twice its
size, and the search ends in the `int` product `46343 * 46343`, above `INT_MAX`,
instead of the least prime from twice the size on. -/
theorem rehash_checked_overflows :
    (HashTbl.ctor_checked sample_params 1073741824 : Checked (HashTbl Nat Nat Nat)) =
      .value (HashTbl.ctor sample_params 1073741824) ∧
    Reachable sample_params (HashTbl.ctor sample_params 1073741824 : HashTbl Nat Nat Nat) ∧
    (HashTbl.ctor sample_params 1073741824 : HashTbl Nat Nat Nat).m_size = 1073741827 ∧
    rehash_checked sample_params
      (HashTbl.ctor sample_params 1073741824 : HashTbl Nat Nat Nat) =
        .signed_overflow 46343 := by
  have hsz : (HashTbl.ctor sample_params 1073741824 : HashTbl Nat Nat Nat).m_size =
      1073741827 := by
    rw [ctor_size, find_next_prime_1073741824]
  refine ⟨ctor_checked_eq _ _ ?_, Reachable.ctor _, hsz, ?_⟩
  · rw [find_next_prime_1073741824]
    decide
  · unfold rehash_checked
    rw [hsz, find_next_prime_checked_large _ (by decide)]

end ac

/-! ## `count` -/

namespace ac

/-- Raising a counter once for every element of a list adds its length. -/
theorem foldl_count {E : Type} (l : List E) (n : Nat) :
    l.foldl (fun count _ => count + 1) n = n + l.length := by
  induction l generalizing n with
  | nil => rfl
  | cons e es ih =>
    rw [List.foldl_cons, ih, List.length_cons]
    omega

theorem mem_take_flatten {E : Type} (tb : List (List E)) (i : Nat) (e : E)
    (h : e ∈ (tb.take i).flatten) : ∃ j, j < i ∧ e ∈ bucket tb j := by
  obtain ⟨l, hl, he⟩ := List.mem_flatten.mp h
  obtain ⟨j, hj, rfl⟩ := List.mem_take_iff_getElem.mp hl
  have hj1 : j < i := Nat.lt_of_lt_of_le hj (Nat.min_le_left _ _)
  have hj2 : j < tb.length := Nat.lt_of_lt_of_le hj (Nat.min_le_right _ _)
  exact ⟨j, hj1, by rw [bucket_of_lt tb j hj2]; exact he⟩

theorem mem_drop_flatten {E : Type} (tb : List (List E)) (i : Nat) (e : E)
    (h : e ∈ (tb.drop i).flatten) : ∃ j, i ≤ j ∧ e ∈ bucket tb j := by
  obtain ⟨l, hl, he⟩ := List.mem_flatten.mp h
  obtain ⟨n, hn, rfl⟩ := List.mem_iff_getElem.mp hl
  rw [List.getElem_drop] at he
  have hlt : i + n < tb.length := by
    rw [List.length_drop] at hn
    omega
  exact ⟨i + n, Nat.le_add_right i n, by rw [bucket_of_lt tb _ hlt]; exact he⟩

/-- In a table built by the class, the entries whose keys hash to the bucket
`i` are the entries of the collision list `i`. -/
theorem TableInv.filter_entries {K V F : Type} {P : Params K F} {t : HashTbl K V F}
    (h : TableInv P t) (i : Nat) (hi : i < t.m_size) :
    (entries t).filter (fun e => decide (P.hash e.m_key % t.m_size = i)) =
      bucket t.m_table i := by
  unfold entries
  rw [flatten_split t.m_table i (by rw [h.len]; exact hi), List.filter_append,
    List.filter_append]
  have h1 : List.filter (fun e => decide (P.hash e.m_key % t.m_size = i))
      (t.m_table.take i).flatten = [] := by
    rw [List.filter_eq_nil_iff]
    intro e he
    obtain ⟨j, hj, hej⟩ := mem_take_flatten _ _ _ he
    have := h.idx j e hej
    simp only [decide_eq_true_eq]
    omega
  have h2 : List.filter (fun e => decide (P.hash e.m_key % t.m_size = i))
      (t.m_table.drop (i + 1)).flatten = [] := by
    rw [List.filter_eq_nil_iff]
    intro e he
    obtain ⟨j, hj, hej⟩ := mem_drop_flatten _ _ _ he
    have := h.idx j e hej
    simp only [decide_eq_true_eq]
    omega
  have h3 : List.filter (fun e => decide (P.hash e.m_key % t.m_size = i))
      (bucket t.m_table i) = bucket t.m_table i := by
    rw [List.filter_eq_self]
    intro e he
    simp only [decide_eq_true_eq]
    exact h.idx i e he
  rw [h1, h2, h3, List.nil_append, List.append_nil]

theorem collision_table_reachable : Reachable sample_params collision_table :=
  Reachable.insert _ 3 30 (Reachable.insert _ 1 10 (Reachable.ctor 2))

/-- C21: in every reachable state, `count(k)` is the number of entries of the
collision list at `hash(k) % size`, which are the entries of the table whose
keys hash to that bucket, whatever their keys; it is at least 1 when an entry
has the key `k`.  In the table `HashTbl(2)` holding the keys 1 and 3, where no
key occurs twice, `count(5)` is 2 although no entry has the key 5, and
`count(1)` is 2. -/
theorem count_result {K V F : Type} [DecidableEq K] [Inhabited V]
    (P : Params K F) (t : HashTbl K V F) (h : Reachable P t) (k : K) :
    count P t k = (bucket t.m_table (P.hash k % t.m_size)).length ∧
    count P t k = ((entries t).filter
      (fun e => decide (P.hash e.m_key % t.m_size = P.hash k % t.m_size))).length ∧
    (k ∈ keys t → 1 ≤ count P t k) ∧
    (Reachable sample_params collision_table ∧ (keys collision_table).Nodup ∧
      5 ∉ keys collision_table ∧ count sample_params collision_table 5 = 2 ∧
      1 ∈ keys collision_table ∧ count sample_params collision_table 1 = 2) := by
  have hT := h.inv.toTableInv
  have hc : count P t k = (bucket t.m_table (P.hash k % t.m_size)).length := by
    unfold count
    rw [foldl_count, Nat.zero_add]
  refine ⟨hc, ?_, ?_, collision_table_reachable, by decide, by decide, by decide,
    by decide, by decide⟩
  · rw [hc, hT.filter_entries _ (Nat.mod_lt _ hT.pos)]
  · intro hk
    rw [hc]
    obtain ⟨e, he, hek⟩ := List.mem_map.mp ((hT.key_mem_iff k).mp hk)
    exact List.length_pos_of_mem he

theorem count_result_witness :
    Reachable sample_params sample_table ∧ 1 ∈ keys sample_table ∧
    count sample_params sample_table 1 = 1 ∧ count sample_params sample_table 3 = 1 ∧
    (count sample_params sample_table 1 =
      (bucket sample_table.m_table (sample_params.hash 1 % sample_table.m_size)).length ∧
    count sample_params sample_table 1 = ((entries sample_table).filter
      (fun e => decide (sample_params.hash e.m_key % sample_table.m_size =
        sample_params.hash 1 % sample_table.m_size))).length ∧
    (1 ∈ keys sample_table → 1 ≤ count sample_params sample_table 1) ∧
    (Reachable sample_params collision_table ∧ (keys collision_table).Nodup ∧
      5 ∉ keys collision_table ∧ count sample_params collision_table 5 = 2 ∧
      1 ∈ keys collision_table ∧ count sample_params collision_table 1 = 2)) :=
  ⟨sample_table_reachable, by decide, by decide, by decide,
    count_result sample_params sample_table sample_table_reachable 1⟩

end ac

/-! ## Round trips, `reserve`, `assign` and the capacity after an insertion -/

namespace sc

/-- Two vectors of the same size whose cells below the size agree have the same
live elements. -/
theorem live_eq_of_cells {T : Type} (v w : vector T) (he : w.m_end = v.m_end)
    (h : ∀ j, j < v.m_end → w.m_storage[j]? = v.m_storage[j]?) : w.live = v.live := by
  apply List.ext_getElem?
  intro j
  unfold vector.live
  rw [List.getElem?_take, List.getElem?_take, he]
  by_cases hj : j < v.m_end
  · rw [if_pos hj, if_pos hj, h j hj]
  · rw [if_neg hj, if_neg hj]

/-- Removing the element put at the index `i` gives the list back. -/
theorem take_drop_insert {T : Type} (l : List T) (i : Nat) (hi : i ≤ l.length) (x : T) :
    (l.take i ++ [x] ++ l.drop i).take i ++ (l.take i ++ [x] ++ l.drop i).drop (i + 1) = l := by
  have hlen : (l.take i).length = i := by rw [List.length_take]; omega
  have h1 : (l.take i ++ [x] ++ l.drop i).take i = l.take i := by
    rw [List.append_assoc, List.take_append_of_le_length (by omega)]
    rw [List.take_of_length_le (by omega)]
  have h2 : (l.take i ++ [x] ++ l.drop i).drop (i + 1) = l.drop i := by
    have hlen2 : (l.take i ++ [x]).length = i + 1 := by
      rw [List.length_append, hlen]; rfl
    rw [List.drop_append_of_le_length (by omega), List.drop_of_length_le (by omega)]
    rfl
  rw [h1, h2, List.take_append_drop]

/-- C22: for a vector `v`, an index `0 ≤ i ≤ size` and a value `x`,
`v.insert(begin() + i, x)` returns `begin() + i`, and `v.erase` of the returned
iterator returns and leaves `v` with the size and the live elements, in their
order, it had before the two calls; the capacity is not smaller than before. -/
theorem erase_insert_restores {T : Type} [Inhabited T] (v : vector T) (hv : v.Valid)
    (i : Nat) (hi : i ≤ v.size) (x : T) :
    ∃ v1 v2, insert v (v.begin + i) x = .returned v1 (v1.begin + i) ∧
      erase v1 (v1.begin + i) = .returned v2 (v2.begin + i) ∧
      v2.size = v.size ∧ v2.live = v.live ∧ v.capacity ≤ v2.capacity := by
  have hb : ∀ w : vector T, w.begin + (i : Int) = (i : Int) := fun w => by
    simp [vector.begin]
  obtain ⟨v1, h1, hv1, hl1, he1, hc1⟩ := insert_range_spec v hv i hi [x]
  obtain ⟨v2, h2, _, he2, hc2, hl2⟩ := erase_contents v1 hv1 i (by
    rw [he1]; unfold vector.size at hi; simp only [List.length_singleton]; omega)
  refine ⟨v1, v2, ?_, ?_, ?_, ?_, ?_⟩
  · rw [hb v, hb v1, insert_eq_insert_range]
    exact h1
  · rw [hb v1, hb v2]
    exact h2
  · unfold vector.size
    rw [he2, he1]
    simp only [List.length_singleton]
    omega
  · rw [hl2, hl1]
    exact take_drop_insert v.live i (by rw [live_length v hv]; exact hi) x
  · unfold vector.capacity
    rw [hc2, hc1]
    split <;> omega

theorem erase_insert_restores_witness :
    (vector.of_list [1, 2, 3] : vector Nat).Valid ∧
    2 ≤ (vector.of_list [1, 2, 3] : vector Nat).size ∧
    insert (vector.of_list [1, 2, 3] : vector Nat) 2 9 =
      .returned ⟨4, 8, [1, 2, 9, 3, 0, 0, 0, 0]⟩ 2 ∧
    erase (⟨4, 8, [1, 2, 9, 3, 0, 0, 0, 0]⟩ : vector Nat) 2 =
      .returned ⟨3, 8, [1, 2, 3, 3, 0, 0, 0, 0]⟩ 2 ∧
    (∃ v1 v2, insert (vector.of_list [1, 2, 3] : vector Nat)
        ((vector.of_list [1, 2, 3] : vector Nat).begin + (2 : Nat)) 9 =
          .returned v1 (v1.begin + (2 : Nat)) ∧
      erase v1 (v1.begin + (2 : Nat)) = .returned v2 (v2.begin + (2 : Nat)) ∧
      v2.size = (vector.of_list [1, 2, 3] : vector Nat).size ∧
      v2.live = (vector.of_list [1, 2, 3] : vector Nat).live ∧
      (vector.of_list [1, 2, 3] : vector Nat).capacity ≤ v2.capacity) :=
  ⟨⟨rfl, by decide⟩, by decide, by decide, by decide,
    erase_insert_restores (vector.of_list [1, 2, 3]) ⟨rfl, by decide⟩ 2 (by decide) 9⟩

/-- C23: for a vector and a value `x`, `push_back(x)` returns, and the
`pop_back()` that follows returns too and leaves the size and the live elements
the vector had before `push_back`; the capacity is `(c + 1) * 2` when the
vector was full and the old capacity `c` otherwise. -/
theorem pop_back_after_push_back {T : Type} [Inhabited T] (v : vector T) (hv : v.Valid)
    (x : T) :
    ∃ v1 v2, push_back v x = .returned v1 () ∧ pop_back v1 = .returned v2 () ∧
      v2.size = v.size ∧ v2.live = v.live ∧
      v2.capacity = (if v.size = v.capacity then (v.capacity + 1) * 2 else v.capacity) := by
  obtain ⟨v1, h1, _, he1, _, hcells, hc1⟩ := push_back_spec v hv x
  refine ⟨v1, { v1 with m_end := v1.m_end - 1 }, h1,
    pop_back_nonempty v1 (by omega), ?_, ?_, hc1⟩
  · show v1.m_end - 1 = v.m_end
    omega
  · exact live_eq_of_cells v _ (by show v1.m_end - 1 = v.m_end; omega) hcells

theorem pop_back_after_push_back_witness :
    (vector.of_list [1, 2, 3] : vector Nat).Valid ∧
    push_back (vector.of_list [1, 2, 3] : vector Nat) 4 =
      .returned ⟨4, 8, [1, 2, 3, 4, 0, 0, 0, 0]⟩ () ∧
    pop_back (⟨4, 8, [1, 2, 3, 4, 0, 0, 0, 0]⟩ : vector Nat) =
      .returned ⟨3, 8, [1, 2, 3, 4, 0, 0, 0, 0]⟩ () ∧
    (∃ v1 v2, push_back (vector.of_list [1, 2, 3] : vector Nat) 4 = .returned v1 () ∧
      pop_back v1 = .returned v2 () ∧
      v2.size = (vector.of_list [1, 2, 3] : vector Nat).size ∧
      v2.live = (vector.of_list [1, 2, 3] : vector Nat).live ∧
      v2.capacity =
        (if (vector.of_list [1, 2, 3] : vector Nat).size =
            (vector.of_list [1, 2, 3] : vector Nat).capacity
          then ((vector.of_list [1, 2, 3] : vector Nat).capacity + 1) * 2
          else (vector.of_list [1, 2, 3] : vector Nat).capacity)) :=
  ⟨⟨rfl, by decide⟩, by decide, by decide,
    pop_back_after_push_back (vector.of_list [1, 2, 3]) ⟨rfl, by decide⟩ 4⟩

/-- C24: for a vector and a number `n`, `reserve(n)` returns; the capacity is
`n` when `n > capacity()` and the vector is left as it is otherwise; in both
cases the size and the live elements are as before. -/
theorem reserve_result {T : Type} [Inhabited T] (v : vector T) (hv : v.Valid) (n : Nat) :
    ∃ v1, reserve v n = .returned v1 () ∧
      (n > v.capacity → v1.capacity = n) ∧
      (n ≤ v.capacity → v1.capacity = v.capacity ∧ v1 = v) ∧
      v1.size = v.size ∧ v1.live = v.live := by
  obtain ⟨v1, h1, _, he, hc, hcells⟩ := reserve_spec v hv n
  refine ⟨v1, h1, ?_, ?_, he, live_eq_of_cells v v1 he hcells⟩
  · intro hn
    unfold vector.capacity at hn ⊢
    rw [hc, if_pos hn]
  · intro hn
    unfold vector.capacity at hn ⊢
    refine ⟨by rw [hc, if_neg (by omega)], ?_⟩
    have hr : reserve v n = .returned v () := by
      unfold reserve
      rw [if_neg (by omega)]
    rw [hr] at h1
    injection h1 with h1 _
    exact h1.symm

theorem reserve_result_witness :
    (vector.of_list [1, 2, 3] : vector Nat).Valid ∧
    reserve (vector.of_list [1, 2, 3] : vector Nat) 5 = .returned ⟨3, 5, [1, 2, 3, 0, 0]⟩ () ∧
    reserve (vector.of_list [1, 2, 3] : vector Nat) 2 = .returned ⟨3, 3, [1, 2, 3]⟩ () ∧
    (∃ v1, reserve (vector.of_list [1, 2, 3] : vector Nat) 5 = .returned v1 () ∧
      (5 > (vector.of_list [1, 2, 3] : vector Nat).capacity → v1.capacity = 5) ∧
      (5 ≤ (vector.of_list [1, 2, 3] : vector Nat).capacity →
        v1.capacity = (vector.of_list [1, 2, 3] : vector Nat).capacity ∧
        v1 = vector.of_list [1, 2, 3]) ∧
      v1.size = (vector.of_list [1, 2, 3] : vector Nat).size ∧
      v1.live = (vector.of_list [1, 2, 3] : vector Nat).live) :=
  ⟨⟨rfl, by decide⟩, by decide, by decide,
    reserve_result (vector.of_list [1, 2, 3]) ⟨rfl, by decide⟩ 5⟩

end sc

/-! ## `assign`, the capacity after an insertion, comparison and `at` -/

namespace sc

/-- C26: for a vector of size `s` and capacity `c`, an index `0 ≤ i ≤ s` and
`n` elements to insert at `begin() + i` (a single value: `n = 1`; a range or an
initializer list of `n` elements), the insertion returns; the capacity is `c`
afterwards when `s + n ≤ c` and `(s + n) * 2` when `s + n > c`. -/
theorem insert_capacity {T : Type} [Inhabited T] (v : vector T) (hv : v.Valid) (i : Nat)
    (hi : i ≤ v.size) (x : T) (xs : List T) :
    (∃ v1, insert v (v.begin + i) x = .returned v1 (v1.begin + i) ∧
      (v.size + 1 ≤ v.capacity → v1.capacity = v.capacity) ∧
      (v.size + 1 > v.capacity → v1.capacity = (v.size + 1) * 2)) ∧
    (∃ v1, insert_range v (v.begin + i) xs = .returned v1 (v1.begin + i) ∧
      (v.size + xs.length ≤ v.capacity → v1.capacity = v.capacity) ∧
      (v.size + xs.length > v.capacity → v1.capacity = (v.size + xs.length) * 2)) ∧
    (∃ v1, insert_ilist v (v.begin + i) xs = .returned v1 (v1.begin + i) ∧
      (v.size + xs.length ≤ v.capacity → v1.capacity = v.capacity) ∧
      (v.size + xs.length > v.capacity → v1.capacity = (v.size + xs.length) * 2)) := by
  have hb : ∀ w : vector T, w.begin + (i : Int) = (i : Int) := fun w => by
    simp [vector.begin]
  have key : ∀ ys : List T, ∃ v1, insert_range v (v.begin + i) ys = .returned v1 (v1.begin + i) ∧
      (v.size + ys.length ≤ v.capacity → v1.capacity = v.capacity) ∧
      (v.size + ys.length > v.capacity → v1.capacity = (v.size + ys.length) * 2) := by
    intro ys
    obtain ⟨v1, h1, _, _, _, hc⟩ := insert_range_spec v hv i hi ys
    unfold vector.capacity vector.size
    refine ⟨v1, by rw [hb v, hb v1]; exact h1, ?_, ?_⟩
    · intro hn
      rw [hc, if_neg (by omega)]
    · intro hn
      rw [hc, if_pos hn]
  refine ⟨?_, key xs, ?_⟩
  · rw [insert_eq_insert_range]
    exact key [x]
  · exact key xs

theorem insert_capacity_witness :
    (⟨2, 3, [1, 2, 0]⟩ : vector Nat).Valid ∧ 1 ≤ (⟨2, 3, [1, 2, 0]⟩ : vector Nat).size ∧
    insert (⟨2, 3, [1, 2, 0]⟩ : vector Nat) 1 9 = .returned ⟨3, 3, [1, 9, 2]⟩ 1 ∧
    insert_range (⟨2, 3, [1, 2, 0]⟩ : vector Nat) 1 [8, 9] =
      .returned ⟨4, 8, [1, 8, 9, 2, 0, 0, 0, 0]⟩ 1 ∧
    ((∃ v1, insert (⟨2, 3, [1, 2, 0]⟩ : vector Nat)
        ((⟨2, 3, [1, 2, 0]⟩ : vector Nat).begin + (1 : Nat)) 9 =
          .returned v1 (v1.begin + (1 : Nat)) ∧
      ((⟨2, 3, [1, 2, 0]⟩ : vector Nat).size + 1 ≤ (⟨2, 3, [1, 2, 0]⟩ : vector Nat).capacity →
        v1.capacity = (⟨2, 3, [1, 2, 0]⟩ : vector Nat).capacity) ∧
      ((⟨2, 3, [1, 2, 0]⟩ : vector Nat).size + 1 > (⟨2, 3, [1, 2, 0]⟩ : vector Nat).capacity →
        v1.capacity = ((⟨2, 3, [1, 2, 0]⟩ : vector Nat).size + 1) * 2)) ∧
    (∃ v1, insert_range (⟨2, 3, [1, 2, 0]⟩ : vector Nat)
        ((⟨2, 3, [1, 2, 0]⟩ : vector Nat).begin + (1 : Nat)) [8, 9] =
          .returned v1 (v1.begin + (1 : Nat)) ∧
      ((⟨2, 3, [1, 2, 0]⟩ : vector Nat).size + [8, 9].length ≤
          (⟨2, 3, [1, 2, 0]⟩ : vector Nat).capacity →
        v1.capacity = (⟨2, 3, [1, 2, 0]⟩ : vector Nat).capacity) ∧
      ((⟨2, 3, [1, 2, 0]⟩ : vector Nat).size + [8, 9].length >
          (⟨2, 3, [1, 2, 0]⟩ : vector Nat).capacity →
        v1.capacity = ((⟨2, 3, [1, 2, 0]⟩ : vector Nat).size + [8, 9].length) * 2)) ∧
    (∃ v1, insert_ilist (⟨2, 3, [1, 2, 0]⟩ : vector Nat)
        ((⟨2, 3, [1, 2, 0]⟩ : vector Nat).begin + (1 : Nat)) [8, 9] =
          .returned v1 (v1.begin + (1 : Nat)) ∧
      ((⟨2, 3, [1, 2, 0]⟩ : vector Nat).size + [8, 9].length ≤
          (⟨2, 3, [1, 2, 0]⟩ : vector Nat).capacity →
        v1.capacity = (⟨2, 3, [1, 2, 0]⟩ : vector Nat).capacity) ∧
      ((⟨2, 3, [1, 2, 0]⟩ : vector Nat).size + [8, 9].length >
          (⟨2, 3, [1, 2, 0]⟩ : vector Nat).capacity →
        v1.capacity = ((⟨2, 3, [1, 2, 0]⟩ : vector Nat).size + [8, 9].length) * 2))) :=
  ⟨⟨rfl, by decide⟩, by decide, by decide, by decide,
    insert_capacity ⟨2, 3, [1, 2, 0]⟩ ⟨rfl, by decide⟩ 1 (by decide) 9 [8, 9]⟩

end sc

/-! ## Comparison and checked access -/

namespace sc

theorem load_natCast_lt {T : Type} (buf : List T) (i : Nat) (hi : i < buf.length) :
    load buf (i : Int) = some (buf.get ⟨i, hi⟩) := by
  unfold load
  rw [if_pos (by omega)]
  simp [List.getElem?_eq_getElem hi]

/-- The loop of `operator==` over cells that lie in both buffers, the counter
staying within the range of `int`: it ends with `true` when the cells agree one
by one, and with `false` at the first index where they differ. -/
theorem equal_loop_spec {T : Type} [DecidableEq T] (n : Nat) :
    ∀ (lhs rhs : List T) (i : Nat), i + n ≤ lhs.length → i + n ≤ rhs.length →
      i + n ≤ 2147483647 →
      (equal_loop n lhs rhs i = some true ∧
        ∀ j, i ≤ j → j < i + n → lhs[j]? = rhs[j]?) ∨
      (equal_loop n lhs rhs i = some false ∧
        ∃ j, i ≤ j ∧ j < i + n ∧ lhs[j]? ≠ rhs[j]?) := by
  induction n with
  | zero =>
    intro lhs rhs i _ _ _
    exact Or.inl ⟨rfl, fun j h1 h2 => by omega⟩
  | succ m ih =>
    intro lhs rhs i hl hr hb
    have hil : i < lhs.length := by omega
    have hir : i < rhs.length := by omega
    simp only [equal_loop, load_natCast_lt lhs i hil, load_natCast_lt rhs i hir,
      Option.bind_eq_bind, Option.some_bind]
    by_cases hxy : lhs.get ⟨i, hil⟩ = rhs.get ⟨i, hir⟩
    · rw [if_neg (by simpa using hxy), if_neg (by omega)]
      rcases ih lhs rhs (i + 1) (by omega) (by omega) (by omega) with
        ⟨h1, h2⟩ | ⟨h1, j, h2, h3, h4⟩
      · refine Or.inl ⟨h1, ?_⟩
        intro j hj1 hj2
        by_cases hji : j = i
        · subst hji
          rw [List.getElem?_eq_getElem hil, List.getElem?_eq_getElem hir]
          exact congrArg some hxy
        · exact h2 j (by omega) (by omega)
      · exact Or.inr ⟨h1, j, by omega, by omega, h4⟩
    · rw [if_pos (by simpa using hxy)]
      refine Or.inr ⟨rfl, i, Nat.le_refl i, by omega, ?_⟩
      rw [List.getElem?_eq_getElem hil, List.getElem?_eq_getElem hir]
      intro c
      exact hxy (Option.some.inj c)

/-- The loop of `operator==` over more cells than an `int` counts: when the
cells agree up to the index `INT_MAX`, the loop reaches `++i` at `INT_MAX` and
has no defined result. -/
theorem equal_loop_overflow {T : Type} [DecidableEq T] (n : Nat) :
    ∀ (lhs rhs : List T) (i : Nat), i + n ≤ lhs.length → i + n ≤ rhs.length →
      i ≤ 2147483647 → 2147483647 < i + n →
      (∀ j, i ≤ j → j ≤ 2147483647 → lhs[j]? = rhs[j]?) →
      equal_loop n lhs rhs i = none := by
  induction n with
  | zero =>
    intro lhs rhs i _ _ h1 h2 _
    omega
  | succ m ih =>
    intro lhs rhs i hl hr h1 h2 hall
    have hil : i < lhs.length := by omega
    have hir : i < rhs.length := by omega
    have hxy : lhs.get ⟨i, hil⟩ = rhs.get ⟨i, hir⟩ := by
      have h := hall i (Nat.le_refl i) h1
      rw [List.getElem?_eq_getElem hil, List.getElem?_eq_getElem hir] at h
      exact Option.some.inj h
    simp only [equal_loop, load_natCast_lt lhs i hil, load_natCast_lt rhs i hir,
      Option.bind_eq_bind, Option.some_bind]
    rw [if_neg (by simpa using hxy)]
    by_cases hi : i + 1 > 2147483647
    · rw [if_pos hi]
    · rw [if_neg hi]
      exact ih lhs rhs (i + 1) (by omega) (by omega) (by omega) (by omega)
        (fun j hj1 hj2 => hall j (by omega) hj2)

/-- Two vectors have the same live elements exactly when they have the same
size and the same element at every index below it. -/
theorem live_eq_iff {T : Type} (a b : vector T) (ha : a.Valid) (hb : b.Valid) :
    a.live = b.live ↔
      a.m_end = b.m_end ∧ ∀ i, i < a.m_end → a.m_storage[i]? = b.m_storage[i]? := by
  constructor
  · intro h
    have he : a.m_end = b.m_end := by
      rw [← live_length a ha, ← live_length b hb, h]
    refine ⟨he, fun i hi => ?_⟩
    rw [← live_getElem? a i hi, ← live_getElem? b i (by omega), h]
  · rintro ⟨he, h⟩
    exact live_eq_of_cells b a he (fun j hj => h j (by omega))
/-- C27: `operator==` counts the index in an `int`.  For two vectors of at most
`INT_MAX = 2147483647` elements, `a == b` returns, and it returns `true`
exactly when the sizes are equal and `a[i]` equals `b[i]` at every index below
the size, that is, when the live elements are the same lists, whatever the two
capacities; `a == a` returns `true`, and `a != b` is the negation of `a == b`.
Two vectors of different sizes compare unequal whatever the sizes.  For two
vectors of the same size above `INT_MAX` whose elements agree up to the index
`INT_MAX`, `++i` overflows: `a == b` and `a != b` have no defined result, also
when `b` is `a` itself. -/
theorem operator_eq_int_counter {T : Type} [DecidableEq T] (a b : vector T) (ha : a.Valid)
    (hb : b.Valid) :
    (a.size ≤ 2147483647 →
      operator_eq a b = some (decide (a.live = b.live)) ∧
      (operator_eq a b = some true ↔
        a.size = b.size ∧ ∀ i, i < a.size → a.m_storage[i]? = b.m_storage[i]?) ∧
      operator_eq a a = some true ∧
      operator_ne a b = some (!decide (a.live = b.live))) ∧
    (a.size ≠ b.size → operator_eq a b = some false ∧ operator_ne a b = some true) ∧
    (2147483647 < a.size → a.size = b.size →
      (∀ i, i ≤ 2147483647 → a.m_storage[i]? = b.m_storage[i]?) →
      operator_eq a b = none ∧ operator_ne a b = none ∧ operator_eq a a = none) := by
  have key : ∀ c d : vector T, c.Valid → d.Valid → c.size ≤ 2147483647 →
      operator_eq c d = some (decide (c.live = d.live)) := by
    intro c d hc hd hsz
    unfold vector.size at hsz
    unfold operator_eq vector.size
    by_cases hs : c.m_end = d.m_end
    · rw [if_neg (by simpa using hs)]
      have h1 := hc.1; have h2 := hc.2; have h3 := hd.1; have h4 := hd.2
      rcases equal_loop_spec c.m_end c.m_storage d.m_storage 0 (by omega) (by omega)
        (by omega) with ⟨h, hall⟩ | ⟨h, j, _, hj, hne⟩
      · rw [h]
        have : c.live = d.live :=
          (live_eq_iff c d hc hd).mpr ⟨hs, fun i hi => hall i (Nat.zero_le i) (by omega)⟩
        simp [this]
      · rw [h]
        have : ¬ c.live = d.live := by
          intro e
          exact hne (((live_eq_iff c d hc hd).mp e).2 j (by omega))
        simp [this]
    · rw [if_pos hs]
      have : ¬ c.live = d.live := fun e => hs ((live_eq_iff c d hc hd).mp e).1
      simp [this]
  have over : ∀ c d : vector T, c.Valid → d.Valid → 2147483647 < c.size →
      c.size = d.size → (∀ i, i ≤ 2147483647 → c.m_storage[i]? = d.m_storage[i]?) →
      operator_eq c d = none := by
    intro c d hc hd hsz hs hall
    unfold vector.size at hsz hs
    unfold operator_eq vector.size
    rw [if_neg (by simpa using hs)]
    have h1 := hc.1; have h2 := hc.2; have h3 := hd.1; have h4 := hd.2
    exact equal_loop_overflow c.m_end c.m_storage d.m_storage 0 (by omega) (by omega)
      (by omega) (by omega) (fun j _ hj => hall j hj)
  refine ⟨fun hsz => ⟨key a b ha hb hsz, ?_, ?_, ?_⟩, ?_, ?_⟩
  · rw [key a b ha hb hsz]
    unfold vector.size
    rw [← live_eq_iff a b ha hb]
    simp
  · rw [key a a ha ha hsz]
    simp
  · unfold operator_ne
    rw [key a b ha hb hsz]
    rfl
  · intro hne
    have e : operator_eq a b = some false := by
      unfold operator_eq
      rw [if_pos hne]
    unfold operator_ne
    rw [e]
    exact ⟨rfl, rfl⟩
  · intro hsz hs hall
    have e := over a b ha hb hsz hs hall
    refine ⟨e, ?_, over a a ha ha hsz rfl (fun _ _ => rfl)⟩
    unfold operator_ne
    rw [e]
    rfl

theorem operator_eq_int_counter_witness :
    ((⟨2, 2, [1, 2]⟩ : vector Nat).Valid ∧ (⟨2, 4, [1, 2, 7, 7]⟩ : vector Nat).Valid ∧
      (⟨2, 2, [1, 2]⟩ : vector Nat).size ≤ 2147483647 ∧
      operator_eq (⟨2, 2, [1, 2]⟩ : vector Nat) ⟨2, 4, [1, 2, 7, 7]⟩ = some true ∧
      operator_eq (⟨2, 2, [1, 2]⟩ : vector Nat) ⟨2, 2, [1, 3]⟩ = some false ∧
      operator_eq (⟨2, 2, [1, 2]⟩ : vector Nat) ⟨1, 2, [1, 2]⟩ = some false ∧
      (operator_eq (⟨2, 2, [1, 2]⟩ : vector Nat) ⟨2, 4, [1, 2, 7, 7]⟩ =
        some (decide ((⟨2, 2, [1, 2]⟩ : vector Nat).live =
          (⟨2, 4, [1, 2, 7, 7]⟩ : vector Nat).live)) ∧
      (operator_eq (⟨2, 2, [1, 2]⟩ : vector Nat) ⟨2, 4, [1, 2, 7, 7]⟩ = some true ↔
        (⟨2, 2, [1, 2]⟩ : vector Nat).size = (⟨2, 4, [1, 2, 7, 7]⟩ : vector Nat).size ∧
        ∀ i, i < (⟨2, 2, [1, 2]⟩ : vector Nat).size →
          (⟨2, 2, [1, 2]⟩ : vector Nat).m_storage[i]? =
            (⟨2, 4, [1, 2, 7, 7]⟩ : vector Nat).m_storage[i]?) ∧
      operator_eq (⟨2, 2, [1, 2]⟩ : vector Nat) ⟨2, 2, [1, 2]⟩ = some true ∧
      operator_ne (⟨2, 2, [1, 2]⟩ : vector Nat) ⟨2, 4, [1, 2, 7, 7]⟩ =
        some (!decide ((⟨2, 2, [1, 2]⟩ : vector Nat).live =
          (⟨2, 4, [1, 2, 7, 7]⟩ : vector Nat).live)))) ∧
    ((vector.ctor 2147483648 : vector Nat).Valid ∧
      2147483647 < (vector.ctor 2147483648 : vector Nat).size ∧
      operator_eq (vector.ctor 2147483648 : vector Nat) (vector.ctor 2147483648) = none ∧
      operator_ne (vector.ctor 2147483648 : vector Nat) (vector.ctor 2147483648) = none ∧
      operator_eq (vector.ctor 2147483648 : vector Nat) (vector.ctor 2147483648) = none) :=
  ⟨⟨⟨rfl, by decide⟩, ⟨rfl, by decide⟩, by decide, by decide, by decide, by decide,
      (operator_eq_int_counter ⟨2, 2, [1, 2]⟩ ⟨2, 4, [1, 2, 7, 7]⟩ ⟨rfl, by decide⟩
        ⟨rfl, by decide⟩).1 (by decide)⟩,
    ⟨List.length_replicate _ _, Nat.le_refl _⟩, Nat.lt_succ_self _,
    (operator_eq_int_counter (vector.ctor 2147483648 : vector Nat) (vector.ctor 2147483648)
      ⟨List.length_replicate _ _, Nat.le_refl _⟩
      ⟨List.length_replicate _ _, Nat.le_refl _⟩).2.2 (Nat.lt_succ_self _) rfl
      (fun _ _ => rfl)⟩

/-- C28: for a vector and an index `idx`, `at(idx)` throws `std::out_of_range`
exactly when `idx ≥ size()`, also when `idx` is below the capacity; for
`idx < size()` it returns the live element at the index `idx`, which is the
element `operator[]` returns; the vector is left as it is in both cases. -/
theorem at_index_result {T : Type} (v : vector T) (hv : v.Valid) (idx : Nat) :
    (at_ v idx = .thrown .out_of_range v ↔ idx ≥ v.size) ∧
    (idx < v.size → ∃ x, v.live[idx]? = some x ∧ at_ v idx = .returned v x ∧
      operator_brackets v idx = .returned v x) := by
  unfold vector.size
  have h1 := hv.1; have h2 := hv.2
  by_cases hi : idx ≥ v.m_end
  · have hat : at_ v idx = .thrown .out_of_range v := by
      unfold at_
      rw [if_pos hi]
    exact ⟨⟨fun _ => hi, fun _ => hat⟩, fun c => absurd c (by omega)⟩
  · have hlt : idx < v.m_storage.length := by omega
    have hat : at_ v idx = .returned v (v.m_storage.get ⟨idx, hlt⟩) := by
      unfold at_
      rw [if_neg hi, load_natCast_lt v.m_storage idx hlt]
    have hop : operator_brackets v idx = .returned v (v.m_storage.get ⟨idx, hlt⟩) := by
      unfold operator_brackets
      rw [load_natCast_lt v.m_storage idx hlt]
    refine ⟨⟨fun c => ?_, fun c => absurd c hi⟩, fun _ => ⟨_, ?_, hat, hop⟩⟩
    · rw [hat] at c
      cases c
    · rw [live_getElem? v idx (by omega), List.getElem?_eq_getElem hlt]
      rfl

theorem at_index_result_witness :
    (⟨2, 4, [1, 2, 7, 7]⟩ : vector Nat).Valid ∧
    at_ (⟨2, 4, [1, 2, 7, 7]⟩ : vector Nat) 1 = .returned ⟨2, 4, [1, 2, 7, 7]⟩ 2 ∧
    at_ (⟨2, 4, [1, 2, 7, 7]⟩ : vector Nat) 2 = .thrown .out_of_range ⟨2, 4, [1, 2, 7, 7]⟩ ∧
    operator_brackets (⟨2, 4, [1, 2, 7, 7]⟩ : vector Nat) 2 = .returned ⟨2, 4, [1, 2, 7, 7]⟩ 7 ∧
    ((at_ (⟨2, 4, [1, 2, 7, 7]⟩ : vector Nat) 2 = .thrown .out_of_range ⟨2, 4, [1, 2, 7, 7]⟩ ↔
      2 ≥ (⟨2, 4, [1, 2, 7, 7]⟩ : vector Nat).size) ∧
    (2 < (⟨2, 4, [1, 2, 7, 7]⟩ : vector Nat).size →
      ∃ x, (⟨2, 4, [1, 2, 7, 7]⟩ : vector Nat).live[2]? = some x ∧
        at_ (⟨2, 4, [1, 2, 7, 7]⟩ : vector Nat) 2 = .returned ⟨2, 4, [1, 2, 7, 7]⟩ x ∧
        operator_brackets (⟨2, 4, [1, 2, 7, 7]⟩ : vector Nat) 2 =
          .returned ⟨2, 4, [1, 2, 7, 7]⟩ x)) :=
  ⟨⟨rfl, by decide⟩, by decide, by decide, by decide,
    at_index_result ⟨2, 4, [1, 2, 7, 7]⟩ ⟨rfl, by decide⟩ 2⟩

end sc

/-! # Properties of the searches -/

namespace sa

theorem deref_natCast (A : List Int) (m : Nat) : deref A (m : Int) = A[m]? := by
  unfold deref
  rw [if_pos (by omega)]
  rfl

/-- The pointer `first + (last - first) / 2` of a range `first ≤ last`. -/
theorem mid_eq (first last : Nat) (h : first ≤ last) :
    (first : Int) + ((last : Int) - first).tdiv 2 =
      ((first + (last - first) / 2 : Nat) : Int) := by
  rw [Int.tdiv_eq_ediv (by omega) (by decide)]
  omega

/-- The loop of `lbound` on a sorted range inside the array, with `result`
equal to `last` as at the start and after every round: it ends, at the index
that splits the range into the elements below `value` and the others. -/
theorem lbound_loop_spec (A : List Int) (value : Int) (fuel : Nat) :
    ∀ first last : Nat, first ≤ last → last ≤ A.length → last - first ≤ fuel →
      (∀ i j x y, first ≤ i → i ≤ j → j < last → A[i]? = some x → A[j]? = some y → x ≤ y) →
      ∃ r : Nat, lbound_loop A value fuel first last last = some (r : Int) ∧
        first ≤ r ∧ r ≤ last ∧
        (∀ j x, first ≤ j → j < r → A[j]? = some x → x < value) ∧
        (∀ j x, r ≤ j → j < last → A[j]? = some x → value ≤ x) := by
  induction fuel with
  | zero =>
    intro first last hfl _ hfuel _
    have : first = last := by omega
    subst this
    exact ⟨first, by simp [lbound_loop], Nat.le_refl _, Nat.le_refl _,
      fun j x h1 h2 => by omega, fun j x h1 h2 => by omega⟩
  | succ f ih =>
    intro first last hfl hlast hfuel hs
    by_cases heq : first = last
    · subst heq
      exact ⟨first, by simp [lbound_loop], Nat.le_refl _, Nat.le_refl _,
        fun j x h1 h2 => by omega, fun j x h1 h2 => by omega⟩
    · have hlt : first < last := by omega
      obtain ⟨m, hm⟩ : ∃ m, m = first + (last - first) / 2 := ⟨_, rfl⟩
      have hm1 : first ≤ m := by omega
      have hm2 : m < last := by omega
      have hmA : m < A.length := by omega
      have hmid : (first : Int) + ((last : Int) - first).tdiv 2 = (m : Int) := by
        rw [mid_eq first last hfl, hm]
      have hne : ¬ ((first : Int) = (last : Int)) := by omega
      simp only [lbound_loop]
      rw [if_neg hne, hmid, deref_natCast, List.getElem?_eq_getElem hmA]
      simp only []
      by_cases hx : A[m] ≥ value
      · rw [if_pos hx]
        obtain ⟨r, hr, h1, h2, h3, h4⟩ := ih first m hm1 (by omega) (by omega)
          (fun i j x y a b c => hs i j x y a b (by omega))
        refine ⟨r, hr, h1, by omega, h3, ?_⟩
        intro j x hj1 hj2 hjx
        by_cases hjm : j < m
        · exact h4 j x hj1 hjm hjx
        · have := hs m j A[m] x hm1 (by omega) hj2 (List.getElem?_eq_getElem hmA) hjx
          omega
      · rw [if_neg hx]
        have hcast : (m : Int) + 1 = ((m + 1 : Nat) : Int) := by omega
        rw [hcast]
        obtain ⟨r, hr, h1, h2, h3, h4⟩ := ih (m + 1) last (by omega) hlast (by omega)
          (fun i j x y a b c => hs i j x y (by omega) b c)
        refine ⟨r, hr, by omega, h2, ?_, h4⟩
        intro j x hj1 hj2 hjx
        by_cases hjm : m + 1 ≤ j
        · exact h3 j x hjm hj2 hjx
        · have := hs j m x A[m] hj1 (by omega) hm2 hjx (List.getElem?_eq_getElem hmA)
          omega

/-- The loop of `ubound` on a sorted range inside the array: it ends, at the
index that splits the range into the elements not above `value` and the
others. -/
theorem ubound_loop_spec (A : List Int) (value : Int) (fuel : Nat) :
    ∀ first last : Nat, first ≤ last → last ≤ A.length → last - first ≤ fuel →
      (∀ i j x y, first ≤ i → i ≤ j → j < last → A[i]? = some x → A[j]? = some y → x ≤ y) →
      ∃ r : Nat, ubound_loop A value fuel first last last = some (r : Int) ∧
        first ≤ r ∧ r ≤ last ∧
        (∀ j x, first ≤ j → j < r → A[j]? = some x → x ≤ value) ∧
        (∀ j x, r ≤ j → j < last → A[j]? = some x → value < x) := by
  induction fuel with
  | zero =>
    intro first last hfl _ hfuel _
    have : first = last := by omega
    subst this
    exact ⟨first, by simp [ubound_loop], Nat.le_refl _, Nat.le_refl _,
      fun j x h1 h2 => by omega, fun j x h1 h2 => by omega⟩
  | succ f ih =>
    intro first last hfl hlast hfuel hs
    by_cases heq : first = last
    · subst heq
      exact ⟨first, by simp [ubound_loop], Nat.le_refl _, Nat.le_refl _,
        fun j x h1 h2 => by omega, fun j x h1 h2 => by omega⟩
    · have hlt : first < last := by omega
      obtain ⟨m, hm⟩ : ∃ m, m = first + (last - first) / 2 := ⟨_, rfl⟩
      have hm1 : first ≤ m := by omega
      have hm2 : m < last := by omega
      have hmA : m < A.length := by omega
      have hmid : (first : Int) + ((last : Int) - first).tdiv 2 = (m : Int) := by
        rw [mid_eq first last hfl, hm]
      have hne : ¬ ((first : Int) = (last : Int)) := by omega
      simp only [ubound_loop]
      rw [if_neg hne, hmid, deref_natCast, List.getElem?_eq_getElem hmA]
      simp only []
      by_cases hx : A[m] > value
      · rw [if_pos hx]
        obtain ⟨r, hr, h1, h2, h3, h4⟩ := ih first m hm1 (by omega) (by omega)
          (fun i j x y a b c => hs i j x y a b (by omega))
        refine ⟨r, hr, h1, by omega, h3, ?_⟩
        intro j x hj1 hj2 hjx
        by_cases hjm : j < m
        · exact h4 j x hj1 hjm hjx
        · have := hs m j A[m] x hm1 (by omega) hj2 (List.getElem?_eq_getElem hmA) hjx
          omega
      · rw [if_neg hx]
        have hcast : (m : Int) + 1 = ((m + 1 : Nat) : Int) := by omega
        rw [hcast]
        obtain ⟨r, hr, h1, h2, h3, h4⟩ := ih (m + 1) last (by omega) hlast (by omega)
          (fun i j x y a b c => hs i j x y (by omega) b c)
        refine ⟨r, hr, by omega, h2, ?_, h4⟩
        intro j x hj1 hj2 hjx
        by_cases hjm : m + 1 ≤ j
        · exact h3 j x hjm hj2 hjx
        · have := hs j m x A[m] hj1 (by omega) hm2 hjx (List.getElem?_eq_getElem hmA)
          omega

/-- A range whose elements are pairwise in non-decreasing order, index by
index. -/
theorem sorted_of_pairwise (A : List Int) (first last : Nat)
    (hs : ((A.take last).drop first).Pairwise (fun a b => a ≤ b)) :
    ∀ i j x y, first ≤ i → i ≤ j → j < last → A[i]? = some x → A[j]? = some y → x ≤ y := by
  intro i j x y hi hij hj hx hy
  by_cases he : i = j
  · subst he
    rw [hx] at hy
    cases hy
    exact Int.le_refl _
  · have cell : ∀ k z, first ≤ k → k < last → A[k]? = some z →
        ((A.take last).drop first)[k - first]? = some z := by
      intro k z hk1 hk2 hz
      rw [List.getElem?_drop, List.getElem?_take, if_pos (by omega),
        show first + (k - first) = k by omega]
      exact hz
    obtain ⟨h1, e1⟩ := List.getElem?_eq_some.mp (cell i x hi (by omega) hx)
    obtain ⟨h2, e2⟩ := List.getElem?_eq_some.mp (cell j y (by omega) hj hy)
    have := List.pairwise_iff_getElem.mp hs (i - first) (j - first) h1 h2 (by omega)
    rw [e1, e2] at this
    exact this

/-- C29: for an array of integers and a range `[first, last)` of it that is
sorted in non-decreasing order (the empty range included) and for every value,
`lbound` returns a position `r` of `[first, last]` such that every element of
the range before `r` is `< value` and every element from `r` on is `≥ value`;
`r` is `last` exactly when no element is `≥ value`, and `r` is the only
position that splits the range in this way, so it is the position of
`std::lower_bound`. -/
theorem lbound_result (A : List Int) (first last : Nat) (hfl : first ≤ last)
    (hl : last ≤ A.length) (hs : ((A.take last).drop first).Pairwise (fun a b => a ≤ b))
    (value : Int) :
    ∃ r : Nat, lbound A first last value = some (r : Int) ∧ first ≤ r ∧ r ≤ last ∧
      (∀ j x, first ≤ j → j < r → A[j]? = some x → x < value) ∧
      (∀ j x, r ≤ j → j < last → A[j]? = some x → value ≤ x) ∧
      (r = last ↔ ∀ j x, first ≤ j → j < last → A[j]? = some x → x < value) ∧
      (∀ p : Nat, first ≤ p → p ≤ last →
        (∀ j x, first ≤ j → j < p → A[j]? = some x → x < value) →
        (∀ j x, p ≤ j → j < last → A[j]? = some x → value ≤ x) → p = r) := by
  have hfuel : ((last : Int) - (first : Int)).toNat = last - first := by omega
  obtain ⟨r, hr, h1, h2, h3, h4⟩ := lbound_loop_spec A value (last - first) first last hfl hl
    (Nat.le_refl _) (sorted_of_pairwise A first last hs)
  refine ⟨r, ?_, h1, h2, h3, h4, ?_, ?_⟩
  · unfold lbound
    rw [hfuel]
    exact hr
  · constructor
    · intro he j x hj1 hj2 hjx
      exact h3 j x hj1 (by omega) hjx
    · intro hall
      by_contra hne
      have hrl : r < last := by omega
      have hrA : r < A.length := by omega
      have a := hall r A[r] h1 hrl (List.getElem?_eq_getElem hrA)
      have b := h4 r A[r] (Nat.le_refl _) hrl (List.getElem?_eq_getElem hrA)
      omega
  · intro p hp1 hp2 hp3 hp4
    by_contra hne
    rcases Nat.lt_or_gt_of_ne hne with hlt | hgt
    · have hpA : p < A.length := by omega
      have a := h3 p A[p] hp1 hlt (List.getElem?_eq_getElem hpA)
      have b := hp4 p A[p] (Nat.le_refl _) (by omega) (List.getElem?_eq_getElem hpA)
      omega
    · have hrA : r < A.length := by omega
      have a := hp3 r A[r] h1 hgt (List.getElem?_eq_getElem hrA)
      have b := h4 r A[r] (Nat.le_refl _) (by omega) (List.getElem?_eq_getElem hrA)
      omega

theorem lbound_result_witness :
    lbound [1, 3, 3, 5, 7] 0 5 3 = some 1 ∧ lbound [1, 3, 3, 5, 7] 0 5 4 = some 3 ∧
    lbound [1, 3, 3, 5, 7] 0 5 8 = some 5 ∧ lbound [] 0 0 3 = some 0 ∧
    (∃ r : Nat, lbound [1, 3, 3, 5, 7] (0 : Nat) (5 : Nat) 3 = some (r : Int) ∧ 0 ≤ r ∧ r ≤ 5 ∧
      (∀ j x, 0 ≤ j → j < r → ([1, 3, 3, 5, 7] : List Int)[j]? = some x → x < 3) ∧
      (∀ j x, r ≤ j → j < 5 → ([1, 3, 3, 5, 7] : List Int)[j]? = some x → 3 ≤ x) ∧
      (r = 5 ↔ ∀ j x, 0 ≤ j → j < 5 → ([1, 3, 3, 5, 7] : List Int)[j]? = some x → x < 3) ∧
      (∀ p : Nat, 0 ≤ p → p ≤ 5 →
        (∀ j x, 0 ≤ j → j < p → ([1, 3, 3, 5, 7] : List Int)[j]? = some x → x < 3) →
        (∀ j x, p ≤ j → j < 5 → ([1, 3, 3, 5, 7] : List Int)[j]? = some x → 3 ≤ x) →
        p = r)) :=
  ⟨by decide, by decide, by decide, by decide,
    lbound_result [1, 3, 3, 5, 7] 0 5 (by decide) (by decide) (by decide) 3⟩

/-- C30: for an array of integers and a range `[first, last)` of it that is
sorted in non-decreasing order (the empty range included) and for every value,
`ubound` returns a position `r` of `[first, last]` such that every element of
the range before `r` is `≤ value` and every element from `r` on is `> value`;
`r` is `last` exactly when no element is `> value`, and `r` is the only
position that splits the range in this way, so it is the position of
`std::upper_bound`. -/
theorem ubound_result (A : List Int) (first last : Nat) (hfl : first ≤ last)
    (hl : last ≤ A.length) (hs : ((A.take last).drop first).Pairwise (fun a b => a ≤ b))
    (value : Int) :
    ∃ r : Nat, ubound A first last value = some (r : Int) ∧ first ≤ r ∧ r ≤ last ∧
      (∀ j x, first ≤ j → j < r → A[j]? = some x → x ≤ value) ∧
      (∀ j x, r ≤ j → j < last → A[j]? = some x → value < x) ∧
      (r = last ↔ ∀ j x, first ≤ j → j < last → A[j]? = some x → x ≤ value) ∧
      (∀ p : Nat, first ≤ p → p ≤ last →
        (∀ j x, first ≤ j → j < p → A[j]? = some x → x ≤ value) →
        (∀ j x, p ≤ j → j < last → A[j]? = some x → value < x) → p = r) := by
  have hfuel : ((last : Int) - (first : Int)).toNat = last - first := by omega
  obtain ⟨r, hr, h1, h2, h3, h4⟩ := ubound_loop_spec A value (last - first) first last hfl hl
    (Nat.le_refl _) (sorted_of_pairwise A first last hs)
  refine ⟨r, ?_, h1, h2, h3, h4, ?_, ?_⟩
  · unfold ubound
    rw [hfuel]
    exact hr
  · constructor
    · intro he j x hj1 hj2 hjx
      exact h3 j x hj1 (by omega) hjx
    · intro hall
      by_contra hne
      have hrl : r < last := by omega
      have hrA : r < A.length := by omega
      have a := hall r A[r] h1 hrl (List.getElem?_eq_getElem hrA)
      have b := h4 r A[r] (Nat.le_refl _) hrl (List.getElem?_eq_getElem hrA)
      omega
  · intro p hp1 hp2 hp3 hp4
    by_contra hne
    rcases Nat.lt_or_gt_of_ne hne with hlt | hgt
    · have hpA : p < A.length := by omega
      have a := h3 p A[p] hp1 hlt (List.getElem?_eq_getElem hpA)
      have b := hp4 p A[p] (Nat.le_refl _) (by omega) (List.getElem?_eq_getElem hpA)
      omega
    · have hrA : r < A.length := by omega
      have a := hp3 r A[r] h1 hgt (List.getElem?_eq_getElem hrA)
      have b := h4 r A[r] (Nat.le_refl _) (by omega) (List.getElem?_eq_getElem hrA)
      omega

theorem ubound_result_witness :
    ubound [1, 3, 3, 5, 7] 0 5 3 = some 3 ∧ ubound [1, 3, 3, 5, 7] 0 5 0 = some 0 ∧
    ubound [1, 3, 3, 5, 7] 0 5 7 = some 5 ∧ ubound [] 0 0 3 = some 0 ∧
    (∃ r : Nat, ubound [1, 3, 3, 5, 7] (0 : Nat) (5 : Nat) 3 = some (r : Int) ∧ 0 ≤ r ∧ r ≤ 5 ∧
      (∀ j x, 0 ≤ j → j < r → ([1, 3, 3, 5, 7] : List Int)[j]? = some x → x ≤ 3) ∧
      (∀ j x, r ≤ j → j < 5 → ([1, 3, 3, 5, 7] : List Int)[j]? = some x → 3 < x) ∧
      (r = 5 ↔ ∀ j x, 0 ≤ j → j < 5 → ([1, 3, 3, 5, 7] : List Int)[j]? = some x → x ≤ 3) ∧
      (∀ p : Nat, 0 ≤ p → p ≤ 5 →
        (∀ j x, 0 ≤ j → j < p → ([1, 3, 3, 5, 7] : List Int)[j]? = some x → x ≤ 3) →
        (∀ j x, p ≤ j → j < 5 → ([1, 3, 3, 5, 7] : List Int)[j]? = some x → 3 < x) →
        p = r)) :=
  ⟨by decide, by decide, by decide, by decide,
    ubound_result [1, 3, 3, 5, 7] 0 5 (by decide) (by decide) (by decide) 3⟩

end sa

/-! ## The counter and the entries -/

namespace ac

/-- C38: in every reachable state, `size()`, the counter `m_count`, is the
number of entries of all collision lists together, the sum of the lengths of
the buckets; this holds again after `insert`, `operator[]`, `erase`, `clear`
and `rehash`, and in the tables the copy constructor, the copy assignment, the
initializer-list constructor and the initializer-list assignment build. -/
theorem size_counts_entries {K V F : Type} [DecidableEq K] [Inhabited V]
    (P : Params K F) (t : HashTbl K V F) (h : Reachable P t) (k : K) (v : V)
    (ilist : List (HashEntry K V)) :
    size t = (entries t).length ∧
    size t = (t.m_table.map List.length).sum ∧
    size (insert P t k v).1 = (entries (insert P t k v).1).length ∧
    size (operator_brackets P t k).1 = (entries (operator_brackets P t k).1).length ∧
    size (erase P t k).1 = (entries (erase P t k).1).length ∧
    size (clear t) = (entries (clear t)).length ∧
    size (rehash P t) = (entries (rehash P t)).length ∧
    size (HashTbl.copy t) = (entries (HashTbl.copy t)).length ∧
    (∀ clone : HashTbl K V F, Reachable P clone →
      size (operator_assign t clone) = (entries (operator_assign t clone)).length) ∧
    size (HashTbl.ctor_ilist P ilist : HashTbl K V F) =
      (entries (HashTbl.ctor_ilist P ilist : HashTbl K V F)).length ∧
    size (operator_assign_ilist P t ilist) =
      (entries (operator_assign_ilist P t ilist)).length := by
  have key : ∀ u : HashTbl K V F, Reachable P u → size u = (entries u).length :=
    fun u hu => hu.inv.cnt
  refine ⟨key t h, ?_, key _ (Reachable.insert t k v h),
    key _ (Reachable.operator_brackets t k h), key _ (Reachable.erase t k h),
    key _ (Reachable.clear t h), key _ (Reachable.rehash t h), ?_, ?_,
    key _ (Reachable.ctor_ilist P ilist), key _ (Reachable.operator_assign_ilist t h ilist)⟩
  · rw [key t h]
    unfold entries
    exact List.length_flatten _
  · rw [copy_eq P t h.inv]
    exact key t h
  · intro clone hc
    rw [operator_assign_eq P t clone h.inv hc.inv]
    exact key clone hc

theorem size_counts_entries_witness :
    Reachable sample_params sample_table ∧ size sample_table = 2 ∧
    size (operator_brackets sample_params sample_table 3).1 = 3 ∧
    (size sample_table = (entries sample_table).length ∧
    size sample_table = (sample_table.m_table.map List.length).sum ∧
    size (insert sample_params sample_table 3 30).1 =
      (entries (insert sample_params sample_table 3 30).1).length ∧
    size (operator_brackets sample_params sample_table 3).1 =
      (entries (operator_brackets sample_params sample_table 3).1).length ∧
    size (erase sample_params sample_table 3).1 =
      (entries (erase sample_params sample_table 3).1).length ∧
    size (clear sample_table) = (entries (clear sample_table)).length ∧
    size (rehash sample_params sample_table) =
      (entries (rehash sample_params sample_table)).length ∧
    size (HashTbl.copy sample_table) = (entries (HashTbl.copy sample_table)).length ∧
    (∀ clone : HashTbl Nat Nat Nat, Reachable sample_params clone →
      size (operator_assign sample_table clone) =
        (entries (operator_assign sample_table clone)).length) ∧
    size (HashTbl.ctor_ilist sample_params [⟨1, 10⟩, ⟨2, 20⟩] : HashTbl Nat Nat Nat) =
      (entries (HashTbl.ctor_ilist sample_params [⟨1, 10⟩, ⟨2, 20⟩] :
        HashTbl Nat Nat Nat)).length ∧
    size (operator_assign_ilist sample_params sample_table [⟨1, 10⟩, ⟨2, 20⟩]) =
      (entries (operator_assign_ilist sample_params sample_table [⟨1, 10⟩, ⟨2, 20⟩])).length) :=
  ⟨sample_table_reachable, by decide, by decide,
    size_counts_entries sample_params sample_table sample_table_reachable 3 30
      [⟨1, 10⟩, ⟨2, 20⟩]⟩

end ac

/-! ## Linear and binary search -/

namespace sa

/-- The loop of `lsearch` on a range inside the array: it ends at the first
cell from `ptr` on that holds `value`, or at `last`. -/
theorem lsearch_loop_spec (A : List Int) (value : Int) (fuel : Nat) :
    ∀ ptr last : Nat, ptr ≤ last → last ≤ A.length → last - ptr ≤ fuel →
      ∃ r : Nat, lsearch_loop A value fuel ptr last = some (r : Int) ∧ ptr ≤ r ∧ r ≤ last ∧
        (∀ j, ptr ≤ j → j < r → A[j]? ≠ some value) ∧
        (r < last → A[r]? = some value) := by
  induction fuel with
  | zero =>
    intro ptr last h1 _ h3
    have : ptr = last := by omega
    subst this
    exact ⟨ptr, by simp [lsearch_loop], Nat.le_refl _, Nat.le_refl _,
      fun j a b => by omega, fun c => by omega⟩
  | succ f ih =>
    intro ptr last h1 h2 h3
    by_cases heq : ptr = last
    · subst heq
      exact ⟨ptr, by simp [lsearch_loop], Nat.le_refl _, Nat.le_refl _,
        fun j a b => by omega, fun c => by omega⟩
    · have hA : ptr < A.length := by omega
      have hne : ¬ ((ptr : Int) = (last : Int)) := by omega
      simp only [lsearch_loop]
      rw [if_neg hne, deref_natCast, List.getElem?_eq_getElem hA]
      simp only []
      by_cases hx : A[ptr] = value
      · rw [if_pos hx]
        refine ⟨ptr, rfl, Nat.le_refl _, h1, fun j a b => by omega, fun _ => ?_⟩
        rw [List.getElem?_eq_getElem hA, hx]
      · rw [if_neg hx]
        have hcast : (ptr : Int) + 1 = ((ptr + 1 : Nat) : Int) := by omega
        rw [hcast]
        obtain ⟨r, hr, h4, h5, h6, h7⟩ := ih (ptr + 1) last (by omega) h2 (by omega)
        refine ⟨r, hr, by omega, h5, ?_, h7⟩
        intro j hj1 hj2
        by_cases hjp : j = ptr
        · subst hjp
          rw [List.getElem?_eq_getElem hA]
          intro c
          exact hx (Option.some.inj c)
        · exact h6 j (by omega) hj2

/-- C32: for an array of integers in any order, a range `[first, last)` of it
(the empty range included) and a value, `lsearch` returns a position `r` of
`[first, last]`; no cell of the range before `r` holds `value`, and `r` holds
`value` when `r` is not `last`: `r` is the first occurrence of `value`, and `r`
is `last` exactly when `value` does not occur in the range. -/
theorem lsearch_result (A : List Int) (first last : Nat) (hfl : first ≤ last)
    (hl : last ≤ A.length) (value : Int) :
    ∃ r : Nat, lsearch A first last value = some (r : Int) ∧ first ≤ r ∧ r ≤ last ∧
      (∀ j, first ≤ j → j < r → A[j]? ≠ some value) ∧
      (r < last → A[r]? = some value) ∧
      (r = last ↔ ∀ j, first ≤ j → j < last → A[j]? ≠ some value) := by
  have hfuel : ((last : Int) - (first : Int)).toNat = last - first := by omega
  obtain ⟨r, hr, h1, h2, h3, h4⟩ :=
    lsearch_loop_spec A value (last - first) first last hfl hl (Nat.le_refl _)
  refine ⟨r, ?_, h1, h2, h3, h4, ?_⟩
  · unfold lsearch
    rw [hfuel]
    exact hr
  · constructor
    · intro he j hj1 hj2
      exact h3 j hj1 (by omega)
    · intro hall
      by_contra hne
      exact hall r h1 (by omega) (h4 (by omega))

theorem lsearch_result_witness :
    lsearch [4, 1, 3, 1] 0 4 1 = some 1 ∧ lsearch [4, 1, 3, 1] 0 4 7 = some 4 ∧
    lsearch [] 0 0 7 = some 0 ∧
    (∃ r : Nat, lsearch [4, 1, 3, 1] (0 : Nat) (4 : Nat) 1 = some (r : Int) ∧ 0 ≤ r ∧ r ≤ 4 ∧
      (∀ j, 0 ≤ j → j < r → ([4, 1, 3, 1] : List Int)[j]? ≠ some 1) ∧
      (r < 4 → ([4, 1, 3, 1] : List Int)[r]? = some 1) ∧
      (r = 4 ↔ ∀ j, 0 ≤ j → j < 4 → ([4, 1, 3, 1] : List Int)[j]? ≠ some 1)) :=
  ⟨by decide, by decide, by decide, lsearch_result [4, 1, 3, 1] 0 4 (by decide) (by decide) 1⟩

/-- The loop of `bsearch` on a sorted range inside the array: it ends, either
at a cell of the range that holds `value`, or with `aux` when no cell of the
range holds `value`. -/
theorem bsearch_loop_spec (A : List Int) (value aux : Int) (fuel : Nat) :
    ∀ first last : Nat, first ≤ last → last ≤ A.length → last - first ≤ fuel →
      (∀ i j x y, first ≤ i → i ≤ j → j < last → A[i]? = some x → A[j]? = some y → x ≤ y) →
      (∃ r : Nat, bsearch_loop A value fuel first last aux = some (r : Int) ∧
        first ≤ r ∧ r < last ∧ A[r]? = some value) ∨
      (bsearch_loop A value fuel first last aux = some aux ∧
        ∀ j, first ≤ j → j < last → A[j]? ≠ some value) := by
  induction fuel with
  | zero =>
    intro first last hfl _ hfuel _
    have : first = last := by omega
    subst this
    exact Or.inr ⟨by simp [bsearch_loop], fun j a b => by omega⟩
  | succ f ih =>
    intro first last hfl hlast hfuel hs
    by_cases heq : first = last
    · subst heq
      exact Or.inr ⟨by simp [bsearch_loop], fun j a b => by omega⟩
    · obtain ⟨m, hm⟩ : ∃ m, m = first + (last - first) / 2 := ⟨_, rfl⟩
      have hm1 : first ≤ m := by omega
      have hm2 : m < last := by omega
      have hmA : m < A.length := by omega
      have hmid : (first : Int) + ((last : Int) - first).tdiv 2 = (m : Int) := by
        rw [mid_eq first last hfl, hm]
      have hne : ¬ ((first : Int) = (last : Int)) := by omega
      simp only [bsearch_loop]
      rw [if_neg hne, hmid, deref_natCast, List.getElem?_eq_getElem hmA]
      simp only []
      by_cases hx : value = A[m]
      · rw [if_pos hx]
        exact Or.inl ⟨m, rfl, hm1, hm2, by rw [List.getElem?_eq_getElem hmA, hx]⟩
      · rw [if_neg hx]
        by_cases hgt : value > A[m]
        · rw [if_pos hgt]
          have hcast : (m : Int) + 1 = ((m + 1 : Nat) : Int) := by omega
          rw [hcast]
          rcases ih (m + 1) last (by omega) hlast (by omega)
            (fun i j x y a b c => hs i j x y (by omega) b c) with
            ⟨r, hr, h1, h2, h3⟩ | ⟨hr, hno⟩
          · exact Or.inl ⟨r, hr, by omega, h2, h3⟩
          · refine Or.inr ⟨hr, ?_⟩
            intro j hj1 hj2 hjx
            by_cases hjm : m + 1 ≤ j
            · exact hno j hjm hj2 hjx
            · have := hs j m value A[m] hj1 (by omega) hm2 hjx (List.getElem?_eq_getElem hmA)
              omega
        · rw [if_neg hgt]
          rcases ih first m hm1 (by omega) (by omega)
            (fun i j x y a b c => hs i j x y a b (by omega)) with
            ⟨r, hr, h1, h2, h3⟩ | ⟨hr, hno⟩
          · exact Or.inl ⟨r, hr, h1, by omega, h3⟩
          · refine Or.inr ⟨hr, ?_⟩
            intro j hj1 hj2 hjx
            by_cases hjm : j < m
            · exact hno j hj1 hjm hjx
            · have := hs m j A[m] value hm1 (by omega) hj2 (List.getElem?_eq_getElem hmA) hjx
              omega

/-- C31: for an array of integers, a range `[first, last)` of it that is sorted
in non-decreasing order (the empty range included) and a value: when `value`
occurs in the range, `bsearch` returns a position of the range whose cell holds
`value`, and this is the only such position when the elements of the range are
distinct; when `value` does not occur, `bsearch` returns `last`. -/
theorem bsearch_result (A : List Int) (first last : Nat) (hfl : first ≤ last)
    (hl : last ≤ A.length) (hs : ((A.take last).drop first).Pairwise (fun a b => a ≤ b))
    (value : Int) :
    ((∃ j, first ≤ j ∧ j < last ∧ A[j]? = some value) →
      ∃ r : Nat, bsearch A first last value = some (r : Int) ∧ first ≤ r ∧ r < last ∧
        A[r]? = some value ∧
        ((∀ i j, first ≤ i → i < j → j < last → A[i]? ≠ A[j]?) →
          ∀ j, first ≤ j → j < last → A[j]? = some value → j = r)) ∧
    ((∀ j, first ≤ j → j < last → A[j]? ≠ some value) →
      bsearch A first last value = some (last : Int)) := by
  have hfuel : ((last : Int) - (first : Int)).toNat = last - first := by omega
  have key := bsearch_loop_spec A value last (last - first) first last hfl hl (Nat.le_refl _)
    (sorted_of_pairwise A first last hs)
  unfold bsearch
  rw [hfuel]
  constructor
  · rintro ⟨j, hj1, hj2, hj3⟩
    rcases key with ⟨r, hr, h1, h2, h3⟩ | ⟨_, hno⟩
    · refine ⟨r, hr, h1, h2, h3, ?_⟩
      intro hd k hk1 hk2 hk3
      by_contra hne
      rcases Nat.lt_or_gt_of_ne hne with hlt | hgt
      · exact hd k r hk1 hlt h2 (by rw [hk3, h3])
      · exact hd r k h1 hgt hk2 (by rw [hk3, h3])
    · exact absurd hj3 (hno j hj1 hj2)
  · intro hall
    rcases key with ⟨r, hr, h1, h2, h3⟩ | ⟨hr, _⟩
    · exact absurd h3 (hall r h1 h2)
    · exact hr

theorem bsearch_result_witness :
    bsearch [1, 3, 5] 0 3 3 = some 1 ∧ bsearch [1, 3, 5] 0 3 0 = some 3 ∧
    bsearch [1, 3, 5] 0 3 4 = some 3 ∧ bsearch [1, 3, 5] 0 3 7 = some 3 ∧
    bsearch [] 0 0 7 = some 0 ∧
    (((∃ j, 0 ≤ j ∧ j < 3 ∧ ([1, 3, 5] : List Int)[j]? = some 3) →
      ∃ r : Nat, bsearch [1, 3, 5] (0 : Nat) (3 : Nat) 3 = some (r : Int) ∧ 0 ≤ r ∧ r < 3 ∧
        ([1, 3, 5] : List Int)[r]? = some 3 ∧
        ((∀ i j, 0 ≤ i → i < j → j < 3 →
            ([1, 3, 5] : List Int)[i]? ≠ ([1, 3, 5] : List Int)[j]?) →
          ∀ j, 0 ≤ j → j < 3 → ([1, 3, 5] : List Int)[j]? = some 3 → j = r)) ∧
    ((∀ j, 0 ≤ j → j < 3 → ([1, 3, 5] : List Int)[j]? ≠ some 3) →
      bsearch [1, 3, 5] (0 : Nat) (3 : Nat) 3 = some ((3 : Nat) : Int))) :=
  ⟨by decide, by decide, by decide, by decide, by decide,
    bsearch_result [1, 3, 5] 0 3 (by decide) (by decide) (by decide) 3⟩

/-- C33: the search for 7 in the sorted array `{1, 3, 5}`, where `bsearch`
returns `last`, makes `bsearch_rec` read the cell at `last`, outside the array;
so does the search in the empty array.  When the range is the first three
cells of `{1, 3, 5, 7}`, in which 7 does not occur, `aux_rec_bsearch` returns
the position `last` and not the null pointer. -/
theorem bsearch_rec_reads_past_last :
    bsearch [1, 3, 5] 0 3 7 = some 3 ∧
    (bsearch_rec [1, 3, 5] 0 3 7).2 = .out_of_range 3 ∧
    bsearch [] 0 0 7 = some 0 ∧
    (bsearch_rec [] 0 0 7).2 = .out_of_range 0 ∧
    (∀ j, j < 3 → ([1, 3, 5, 7] : List Int)[j]? ≠ some 7) ∧
    (aux_rec_bsearch [1, 3, 5, 7] 7 4 0 3).2 = .done (some 3) ∧
    (bsearch_rec [1, 3, 5] 0 3 3).2 = .done 1 ∧
    (bsearch_rec [1, 3, 5] 0 3 4).2 = .done 3 := by
  decide

/-- C39: in the search for 7 in the range `[0, 3)` that holds `1, 3, 5`,
`aux_rec_bsearch` dereferences the positions 1, 2 and 3: its third call is on
the empty range `[3, 3)` and reads the cell at `last`, which is a cell of the
array `{1, 3, 5, 7}` and lies outside the array `{1, 3, 5}`.  On an empty
range the first call reads the cell at `first = last`. -/
theorem aux_rec_bsearch_reads_last :
    (aux_rec_bsearch [1, 3, 5, 7] 7 4 0 3).1 = [1, 2, 3] ∧
    (bsearch_rec [1, 3, 5, 7] 0 3 7).1 = [1, 2, 3] ∧
    bsearch_rec [1, 3, 5] 0 3 7 = ([1, 2, 3], .out_of_range 3) ∧
    (aux_rec_bsearch [4, 5] 7 1 0 0).1 = [0] ∧
    bsearch_rec [] 0 0 7 = ([0], .out_of_range 0) := by
  decide

end sa

/-! # Properties of the sorts -/

/-! ## Cells, swaps and ranges -/

namespace sa

theorem read_natCast {α : Type} (A : List α) (i : Nat) (h : i < A.length) :
    read A (i : Int) = .done A[i] := by
  unfold read
  rw [if_pos (by omega)]
  simp [List.getElem?_eq_getElem h]

theorem write_natCast {α : Type} (A : List α) (i : Nat) (h : i < A.length) (x : α) :
    write A (i : Int) x = .done (A.set i x) := by
  unfold write
  rw [if_pos ⟨by omega, by simpa using h⟩]
  simp

theorem set_set_perm {α : Type} (A : List α) (i j : Nat) (hi : i < A.length)
    (hj : j < A.length) : ((A.set i A[j]).set j A[i]).Perm A := by
  classical
  by_cases hij : i = j
  · subst hij
    apply List.Perm.of_eq
    apply List.ext_getElem?
    intro k
    rw [List.set_set, List.getElem?_set]
    by_cases c : i = k
    · subst c
      rw [if_pos rfl, if_pos hi]
      exact (List.getElem?_eq_getElem hi).symm
    · rw [if_neg c]
  · rw [List.perm_iff_count]
    intro a
    have hj2 : j < (A.set i A[j]).length := by rw [List.length_set]; exact hj
    rw [List.count_set _ _ _ _ hj2, List.count_set _ _ _ _ hi,
      List.getElem_set_ne hij]
    have h1 : (A[i] == a) = true → 0 < List.count a A := by
      intro h
      have : A[i] = a := by simpa using h
      exact List.count_pos_iff.mpr (this ▸ List.getElem_mem hi)
    have h2 : (A[j] == a) = true → 0 < List.count a A := by
      intro h
      have : A[j] = a := by simpa using h
      exact List.count_pos_iff.mpr (this ▸ List.getElem_mem hj)
    by_cases c1 : (A[i] == a) = true <;> by_cases c2 : (A[j] == a) = true
    · have := h1 c1
      rw [if_pos c1, if_pos c2]
      omega
    · have := h1 c1
      rw [if_pos c1, if_neg c2]
      omega
    · have := h2 c2
      rw [if_neg c1, if_pos c2]
      omega
    · rw [if_neg c1, if_neg c2]
      omega

theorem Rearranged.refl {α : Type} (A : List α) (first last : Nat) :
    Rearranged A A first last :=
  ⟨rfl, List.Perm.refl _, fun _ _ => rfl⟩

theorem Rearranged.trans {α : Type} {A B C : List α} {first last : Nat}
    (h1 : Rearranged A B first last) (h2 : Rearranged B C first last) :
    Rearranged A C first last :=
  ⟨h2.1.trans h1.1, h2.2.1.trans h1.2.1, fun k hk => (h2.2.2 k hk).trans (h1.2.2 k hk)⟩

theorem Rearranged.mono {α : Type} {A B : List α} {f l first last : Nat}
    (h : Rearranged A B f l) (hf : first ≤ f) (hl : l ≤ last) : Rearranged A B first last :=
  ⟨h.1, h.2.1, fun k hk => h.2.2 k (by omega)⟩

/-- The call `std::swap` on two cells of the array. -/
theorem swap_spec {α : Type} (A : List α) (i j : Nat) (hi : i < A.length)
    (hj : j < A.length) :
    ∃ A', swap A (i : Int) (j : Int) = .done A' ∧ A'.length = A.length ∧ A'.Perm A ∧
      A'[i]? = A[j]? ∧ A'[j]? = A[i]? ∧ ∀ k, k ≠ i → k ≠ j → A'[k]? = A[k]? := by
  refine ⟨(A.set i A[j]).set j A[i], ?_, by simp, set_set_perm A i j hi hj, ?_, ?_, ?_⟩
  · unfold swap
    rw [read_natCast A i hi, read_natCast A j hj]
    simp only [Run.bind]
    rw [write_natCast A i hi]
    simp only [Run.bind]
    rw [write_natCast _ j (by rw [List.length_set]; exact hj)]
  · rw [List.getElem?_set]
    by_cases hij : j = i
    · subst hij
      rw [if_pos rfl, List.length_set, if_pos hi]
      exact (List.getElem?_eq_getElem hi).symm
    · rw [if_neg hij, List.getElem?_set, if_pos rfl, if_pos hi]
      exact (List.getElem?_eq_getElem hj).symm
  · rw [List.getElem?_set, if_pos rfl, List.length_set, if_pos hj]
    exact (List.getElem?_eq_getElem hi).symm
  · intro k hki hkj
    rw [List.getElem?_set, if_neg (fun c => hkj c.symm), List.getElem?_set,
      if_neg (fun c => hki c.symm)]

/-- A swap of two cells of a range rearranges the range. -/
theorem swap_rearranged {α : Type} (A : List α) (first last i j : Nat)
    (hi1 : first ≤ i) (hi2 : i < last) (hj1 : first ≤ j) (hj2 : j < last)
    (hl : last ≤ A.length) :
    ∃ A', swap A (i : Int) (j : Int) = .done A' ∧ Rearranged A A' first last ∧
      A'[i]? = A[j]? ∧ A'[j]? = A[i]? ∧ ∀ k, k ≠ i → k ≠ j → A'[k]? = A[k]? := by
  obtain ⟨A', h1, h2, h3, h4, h5, h6⟩ := swap_spec A i j (by omega) (by omega)
  exact ⟨A', h1, ⟨h2, h3, fun k hk => h6 k (by omega) (by omega)⟩, h4, h5, h6⟩

theorem getElem?_slice {α : Type} (A : List α) (first last k : Nat) :
    (slice A first last)[k]? = if first + k < last then A[first + k]? else none := by
  unfold slice
  rw [List.getElem?_drop, List.getElem?_take]

theorem length_slice {α : Type} (A : List α) (first last : Nat) (h : last ≤ A.length) :
    (slice A first last).length = last - first := by
  unfold slice
  rw [List.length_drop, List.length_take]
  omega

theorem mem_slice {α : Type} (A : List α) (first last : Nat) (x : α)
    (h : x ∈ slice A first last) : ∃ k, first ≤ k ∧ k < last ∧ A[k]? = some x := by
  obtain ⟨n, hn⟩ := List.mem_iff_getElem?.mp h
  rw [getElem?_slice] at hn
  by_cases c : first + n < last
  · rw [if_pos c] at hn
    exact ⟨first + n, by omega, c, hn⟩
  · rw [if_neg c] at hn
    cases hn

theorem slice_congr {α : Type} (A B : List α) (first last : Nat)
    (h : ∀ k, first ≤ k → k < last → B[k]? = A[k]?) :
    slice B first last = slice A first last := by
  apply List.ext_getElem?
  intro k
  rw [getElem?_slice, getElem?_slice]
  by_cases c : first + k < last
  · rw [if_pos c, if_pos c, h _ (by omega) c]
  · rw [if_neg c, if_neg c]

/-- A range split at one of its cells. -/
theorem slice_split {α : Type} (A : List α) (first p last : Nat) (h1 : first ≤ p)
    (h2 : p < last) (h : p < A.length) :
    slice A first last = slice A first p ++ A[p] :: slice A (p + 1) last := by
  apply List.ext_getElem?
  intro k
  rw [getElem?_slice, List.getElem?_append, length_slice A first p (by omega),
    getElem?_slice]
  by_cases c1 : k < p - first
  · rw [if_pos c1, if_pos (by omega), if_pos (by omega)]
  · rw [if_neg c1]
    by_cases c2 : k = p - first
    · subst c2
      rw [Nat.sub_self, List.getElem?_cons_zero, if_pos (by omega),
        show first + (p - first) = p by omega]
      exact List.getElem?_eq_getElem (by omega)
    · obtain ⟨m, hm⟩ : ∃ m, k - (p - first) = m + 1 := ⟨k - (p - first) - 1, by omega⟩
      rw [hm, List.getElem?_cons_succ, getElem?_slice]
      by_cases c3 : first + k < last
      · rw [if_pos c3, if_pos (by omega), show p + 1 + m = first + k by omega]
      · rw [if_neg c3, if_neg (by omega)]

/-- An array cut at the two ends of a range. -/
theorem take_slice_drop {α : Type} (A : List α) (first last : Nat) (h : first ≤ last) :
    A.take first ++ (slice A first last ++ A.drop last) = A := by
  unfold slice
  have h1 : A.take first = (A.take last).take first := by
    rw [List.take_take, Nat.min_eq_left h]
  rw [h1, ← List.append_assoc, List.take_append_drop, List.take_append_drop]

/-- A rearrangement inside a range permutes the cells of the range. -/
theorem Rearranged.slice_perm {α : Type} {A B : List α} {first last : Nat}
    (h : Rearranged A B first last) (hfl : first ≤ last) :
    (slice B first last).Perm (slice A first last) := by
  have e1 : B.take first = A.take first := by
    apply List.ext_getElem?
    intro k
    rw [List.getElem?_take, List.getElem?_take]
    by_cases c : k < first
    · rw [if_pos c, if_pos c, h.2.2 k (Or.inl c)]
    · rw [if_neg c, if_neg c]
  have e2 : B.drop last = A.drop last := by
    apply List.ext_getElem?
    intro k
    rw [List.getElem?_drop, List.getElem?_drop, h.2.2 _ (Or.inr (Nat.le_add_right _ _))]
  have hp := h.2.1
  rw [← take_slice_drop A first last hfl, ← take_slice_drop B first last hfl, e1, e2,
    List.perm_append_left_iff, List.perm_append_right_iff] at hp
  exact hp

/-- A property of all cells of a range survives a rearrangement inside the
range. -/
theorem Rearranged.forall_range {α : Type} {A B : List α} {first last : Nat}
    (h : Rearranged A B first last) (hfl : first ≤ last)
    (P : α → Prop) (hP : ∀ k x, first ≤ k → k < last → A[k]? = some x → P x) :
    ∀ k x, first ≤ k → k < last → B[k]? = some x → P x := by
  intro k x hk1 hk2 hx
  have hm : x ∈ slice B first last := by
    apply List.mem_iff_getElem?.mpr
    refine ⟨k - first, ?_⟩
    rw [getElem?_slice, if_pos (by omega), show first + (k - first) = k by omega]
    exact hx
  obtain ⟨j, hj1, hj2, hj3⟩ := mem_slice A first last x ((h.slice_perm hfl).mem_iff.mp hm)
  exact hP j x hj1 hj2 hj3

end sa

/-! ## Quick sort -/

namespace sa

theorem Run.done_bind {α β : Type} (a : α) (f : α → Run β) : (Run.done a).bind f = f a := rfl

/-- A strict weak ordering never holds in both directions. -/
theorem StrictWeakOrder.asymm {α : Type} {cmp : α → α → Bool} (h : StrictWeakOrder cmp)
    (a b : α) (hab : cmp a b = true) : cmp b a = false := by
  cases hba : cmp b a with
  | false => rfl
  | true =>
    have := h.trans a b a hab hba
    rw [h.irrefl a] at this
    cases this

/-- In a strict weak ordering, `not less` is transitive. -/
theorem StrictWeakOrder.neg_trans {α : Type} {cmp : α → α → Bool} (h : StrictWeakOrder cmp)
    (a b c : α) (hab : cmp a b = false) (hbc : cmp b c = false) : cmp a c = false := by
  cases hac : cmp a c with
  | false => rfl
  | true =>
    have hba : cmp b a = false := by
      cases hba : cmp b a with
      | false => rfl
      | true =>
        have := h.trans b a c hba hac
        rw [hbc] at this
        cases this
    have hcb : cmp c b = false := by
      cases hcb : cmp c b with
      | false => rfl
      | true =>
        have := h.trans a c b hac hcb
        rw [hab] at this
        cases this
    have := (h.incomp_trans a b c hab hba hbc hcb).1
    rw [hac] at this
    cases this

theorem less_strictWeakOrder : StrictWeakOrder less := by
  refine ⟨?_, ?_, ?_⟩
  · intro a
    simp [less]
  · intro a b c h1 h2
    simp only [less, decide_eq_true_eq] at h1 h2 ⊢
    omega
  · intro a b c h1 h2 h3 h4
    simp only [less, decide_eq_false_iff_not] at h1 h2 h3 h4 ⊢
    omega

theorem last_pred (last : Nat) (h : 0 < last) : (last : Int) - 1 = ((last - 1 : Nat) : Int) := by
  omega

/-- A swap of two cells of a range that is made or not made. -/
theorem cond_swap_rearranged {α : Type} (b : Bool) (A : List α) (first last i j : Nat)
    (hi1 : first ≤ i) (hi2 : i < last) (hj1 : first ≤ j) (hj2 : j < last)
    (hl : last ≤ A.length) :
    ∃ A', (if b = true then swap A (i : Int) (j : Int) else Run.done A) = .done A' ∧
      Rearranged A A' first last := by
  cases b with
  | false => exact ⟨A, by simp, Rearranged.refl A first last⟩
  | true =>
    obtain ⟨A', h1, h2, _⟩ := swap_rearranged A first last i j hi1 hi2 hj1 hj2 hl
    exact ⟨A', by simpa using h1, h2⟩

/-- The function `median_of_three` on a range that is not empty: it returns the
middle position and moves cells inside the range only. -/
theorem median_of_three_spec {α : Type} (cmp : α → α → Bool) (A : List α)
    (first last : Nat) (hfl : first < last) (hl : last ≤ A.length) :
    ∃ A', median_of_three cmp A first last =
        .done (A', ((first + (last - first) / 2 : Nat) : Int)) ∧
      Rearranged A A' first last := by
  obtain ⟨m, hm⟩ : ∃ m, m = first + (last - first) / 2 := ⟨_, rfl⟩
  have hm1 : first ≤ m := by omega
  have hm2 : m < last := by omega
  have hmid : (first : Int) + ((last : Int) - first).tdiv 2 = (m : Int) := by
    rw [mid_eq first last (by omega), hm]
  have hlv : (last : Int) - 1 = ((last - 1 : Nat) : Int) := last_pred last (by omega)
  rw [← hm]
  unfold median_of_three
  rw [hmid, hlv, read_natCast A m (by omega), read_natCast A first (by omega)]
  simp only [Run.done_bind]
  obtain ⟨A1, e1, r1⟩ := cond_swap_rearranged (cmp A[m] A[first]) A first last m first
    hm1 hm2 (Nat.le_refl _) hfl hl
  rw [e1]
  simp only [Run.done_bind]
  have l1 : last ≤ A1.length := by rw [r1.1]; exact hl
  rw [read_natCast A1 (last - 1) (by omega), read_natCast A1 first (by omega)]
  simp only [Run.done_bind]
  obtain ⟨A2, e2, r2⟩ := cond_swap_rearranged (cmp A1[last - 1] A1[first]) A1 first last
    (last - 1) first (by omega) (by omega) (Nat.le_refl _) hfl l1
  rw [e2]
  simp only [Run.done_bind]
  have l2 : last ≤ A2.length := by rw [r2.1]; exact l1
  rw [read_natCast A2 (last - 1) (by omega), read_natCast A2 m (by omega)]
  simp only [Run.done_bind]
  obtain ⟨A3, e3, r3⟩ := cond_swap_rearranged (cmp A2[last - 1] A2[m]) A2 first last
    (last - 1) m (by omega) (by omega) hm1 hm2 l2
  rw [e3]
  simp only [Run.done_bind]
  exact ⟨A3, rfl, (r1.trans r2).trans r3⟩

/-- The loop of `partition`, `e` being the position `last - 1` of the pivot: the
cells from `first` to `pIndex` compare less than the pivot value and the cells
from `pIndex` to `i` do not, and this holds up to `e` when the loop ends. -/
theorem partition_loop_spec {α : Type} (cmp : α → α → Bool) (pv : α) (first e : Nat)
    (fuel : Nat) :
    ∀ (A : List α) (p i : Nat), first ≤ p → p ≤ i → i ≤ e → e < A.length → e - i ≤ fuel →
      (∀ k x, first ≤ k → k < p → A[k]? = some x → cmp x pv = true) →
      (∀ k x, p ≤ k → k < i → A[k]? = some x → cmp x pv = false) →
      ∃ (A' : List α) (p' : Nat), partition_loop cmp ((e : Int) + 1) pv fuel A p i = .done (A', (p' : Int)) ∧
        p ≤ p' ∧ p' ≤ e ∧ Rearranged A A' first e ∧
        (∀ k x, first ≤ k → k < p' → A'[k]? = some x → cmp x pv = true) ∧
        (∀ k x, p' ≤ k → k < e → A'[k]? = some x → cmp x pv = false) := by
  induction fuel with
  | zero =>
    intro A p i h1 h2 h3 h4 h5 hlo hhi
    have : i = e := by omega
    subst this
    refine ⟨A, p, ?_, Nat.le_refl _, h2, Rearranged.refl _ _ _, hlo, hhi⟩
    simp [partition_loop]
  | succ f ih =>
    intro A p i h1 h2 h3 h4 h5 hlo hhi
    by_cases hie : i = e
    · subst hie
      refine ⟨A, p, ?_, Nat.le_refl _, h2, Rearranged.refl _ _ _, hlo, hhi⟩
      simp [partition_loop]
    · have hne : (i : Int) ≠ (e : Int) + 1 - 1 := by omega
      have hiA : i < A.length := by omega
      simp only [partition_loop]
      rw [if_pos hne, read_natCast A i hiA]
      simp only [Run.done_bind]
      have hc1 : (i : Int) + 1 = ((i + 1 : Nat) : Int) := by omega
      have hc2 : (p : Int) + 1 = ((p + 1 : Nat) : Int) := by omega
      by_cases hx : cmp A[i] pv = true
      · rw [if_pos hx]
        obtain ⟨A1, e1, r1, g1, g2, g3⟩ := swap_rearranged A first e p i h1 (by omega)
          (by omega) (by omega) (by omega)
        rw [e1]
        simp only [Run.done_bind]
        rw [hc1, hc2]
        obtain ⟨A', p', e2, q1, q2, r2, q3, q4⟩ := ih A1 (p + 1) (i + 1) (by omega) (by omega)
          (by omega) (by rw [r1.1]; exact h4) (by omega)
          (by
            intro k x hk1 hk2 hkx
            by_cases hkp : k = p
            · subst hkp
              rw [g1, List.getElem?_eq_getElem hiA] at hkx
              cases hkx
              exact hx
            · rw [g3 k hkp (by omega)] at hkx
              exact hlo k x hk1 (by omega) hkx)
          (by
            intro k x hk1 hk2 hkx
            by_cases hki : k = i
            · subst hki
              rw [g2] at hkx
              exact hhi p x (Nat.le_refl _) (by omega) hkx
            · rw [g3 k (by omega) hki] at hkx
              exact hhi k x (by omega) (by omega) hkx)
        exact ⟨A', p', e2, by omega, q2, r1.trans r2, q3, q4⟩
      · rw [if_neg hx, hc1]
        obtain ⟨A', p', e2, q1, q2, r2, q3, q4⟩ := ih A p (i + 1) h1 (by omega) (by omega) h4
          (by omega) hlo
          (by
            intro k x hk1 hk2 hkx
            by_cases hki : k = i
            · subst hki
              rw [List.getElem?_eq_getElem hiA] at hkx
              cases hkx
              simpa using hx
            · exact hhi k x hk1 (by omega) hkx)
        exact ⟨A', p', e2, q1, q2, r2, q3, q4⟩

/-- The function `partition` on a range that is not empty: it returns a position
`p` of the range and moves cells inside the range only; afterwards every cell of
the range before `p` compares less than the cell at `p`, and no cell after `p`
does. -/
theorem partition_spec {α : Type} (cmp : α → α → Bool) (A : List α)
    (first last : Nat) (hfl : first < last) (hl : last ≤ A.length) :
    ∃ (A' : List α) (p : Nat) (pv : α), partition cmp A first last = .done (A', (p : Int)) ∧
      first ≤ p ∧ p < last ∧ Rearranged A A' first last ∧ A'[p]? = some pv ∧
      (∀ k x, first ≤ k → k < p → A'[k]? = some x → cmp x pv = true) ∧
      (∀ k x, p < k → k < last → A'[k]? = some x → cmp x pv = false) := by
  obtain ⟨A1, e1, r1⟩ := median_of_three_spec cmp A first last hfl hl
  obtain ⟨m, hm⟩ : ∃ m, m = first + (last - first) / 2 := ⟨_, rfl⟩
  rw [← hm] at e1
  obtain ⟨e, he⟩ : ∃ e, e = last - 1 := ⟨_, rfl⟩
  have hlv : (last : Int) - 1 = (e : Int) := by omega
  have hlast : (last : Int) = (e : Int) + 1 := by omega
  have l1 : last ≤ A1.length := by rw [r1.1]; exact hl
  unfold partition
  rw [e1]
  simp only [Run.done_bind]
  rw [hlv]
  obtain ⟨A2, e2, r2, _, _, _⟩ := swap_rearranged A1 first last m e (by omega) (by omega)
    (by omega) (by omega) l1
  rw [e2]
  simp only [Run.done_bind]
  have l2 : last ≤ A2.length := by rw [r2.1]; exact l1
  have heA2 : e < A2.length := by omega
  rw [read_natCast A2 e heA2]
  simp only [Run.done_bind]
  have hfuel : ((last : Int) - (first : Int)).toNat = last - first := by omega
  rw [hfuel, hlast]
  obtain ⟨A3, p, e3, q1, q2, r3, q3, q4⟩ := partition_loop_spec cmp A2[e] first e
    (last - first) A2 first first (Nat.le_refl _) (Nat.le_refl _) (by omega) heA2 (by omega)
    (fun k x a b => by omega) (fun k x a b => by omega)
  rw [e3]
  simp only [Run.done_bind]
  have hpiv : A3[e]? = some A2[e] := by
    rw [r3.2.2 e (Or.inr (Nat.le_refl _)), List.getElem?_eq_getElem heA2]
  have l3 : last ≤ A3.length := by rw [r3.1]; exact l2
  obtain ⟨A4, e4, r4, g1, g2, g3⟩ := swap_rearranged A3 first last p e q1 (by omega)
    (by omega) (by omega) l3
  rw [e4]
  simp only [Run.done_bind]
  refine ⟨A4, p, A2[e], rfl, q1, by omega,
    ((r1.trans r2).trans (r3.mono (Nat.le_refl _) (by omega))).trans r4,
    by rw [g1, hpiv], ?_, ?_⟩
  · intro k x hk1 hk2 hkx
    rw [g3 k (by omega) (by omega)] at hkx
    exact q3 k x hk1 hk2 hkx
  · intro k x hk1 hk2 hkx
    by_cases hke : k = e
    · subst hke
      rw [g2] at hkx
      exact q4 p x (Nat.le_refl _) (by omega) hkx
    · rw [g3 k (by omega) hke] at hkx
      exact q4 k x (by omega) (by omega) hkx

theorem sortedBy_of_length_le {α : Type} (cmp : α → α → Bool) (l : List α)
    (h : l.length ≤ 1) : SortedBy cmp l := by
  unfold SortedBy
  match l, h with
  | [], _ => exact List.Pairwise.nil
  | [a], _ => exact List.pairwise_singleton _ a
  | _ :: _ :: _, h => simp at h

/-- In a sorted list no element compares less than the element right before
it. -/
theorem SortedBy.adjacent {α : Type} {cmp : α → α → Bool} {l : List α}
    (h : SortedBy cmp l) (i : Nat) (x y : α) (hx : l[i]? = some x)
    (hy : l[i + 1]? = some y) : cmp y x = false := by
  obtain ⟨h1, e1⟩ := List.getElem?_eq_some.mp hx
  obtain ⟨h2, e2⟩ := List.getElem?_eq_some.mp hy
  have := List.pairwise_iff_getElem.mp h i (i + 1) h1 h2 (Nat.lt_succ_self i)
  rw [e1, e2] at this
  exact this

/-- The recursion of `quick` on a range inside the array: it ends, the cells
are moved inside the range only, and the range is sorted afterwards. -/
theorem quick_rec_spec {α : Type} (cmp : α → α → Bool) (hc : StrictWeakOrder cmp)
    (fuel : Nat) :
    ∀ (A : List α) (first last : Nat), first ≤ last → last ≤ A.length →
      last - first ≤ fuel →
      ∃ A', quick_rec cmp fuel A first last = .done A' ∧ Rearranged A A' first last ∧
        SortedBy cmp (slice A' first last) := by
  induction fuel with
  | zero =>
    intro A first last hfl hl hfuel
    refine ⟨A, ?_, Rearranged.refl _ _ _,
      sortedBy_of_length_le cmp _ (by rw [length_slice A first last hl]; omega)⟩
    simp only [quick_rec]
    rw [if_neg (by omega)]
  | succ f ih =>
    intro A first last hfl hl hfuel
    by_cases hsz : last - first ≥ 2
    · have hge : (last : Int) - (first : Int) ≥ 2 := by omega
      obtain ⟨A1, p, pv, e1, hp1, hp2, r1, hpv, hlo, hhi⟩ :=
        partition_spec cmp A first last (by omega) hl
      have l1 : A1.length = A.length := r1.1
      obtain ⟨A2, e2, r2, s2⟩ := ih A1 first p hp1 (by omega) (by omega)
      have l2 : A2.length = A1.length := r2.1
      obtain ⟨A3, e3, r3, s3⟩ := ih A2 (p + 1) last (by omega) (by omega) (by omega)
      have l3 : A3.length = A2.length := r3.1
      have hcast : (p : Int) + 1 = ((p + 1 : Nat) : Int) := by omega
      refine ⟨A3, ?_, (r1.trans (r2.mono (Nat.le_refl _) (by omega))).trans
        (r3.mono (by omega) (Nat.le_refl _)), ?_⟩
      · simp only [quick_rec]
        rw [if_pos hge, e1]
        simp only [Run.done_bind]
        rw [e2]
        simp only [Run.done_bind]
        rw [hcast, e3]
      · have hpA3 : p < A3.length := by omega
        have hpiv : A3[p] = pv := by
          have h1 : A3[p]? = some pv := by
            rw [r3.2.2 p (Or.inl (Nat.lt_succ_self p)), r2.2.2 p (Or.inr (Nat.le_refl p)), hpv]
          rw [List.getElem?_eq_getElem hpA3] at h1
          exact Option.some.inj h1
        have hleft : slice A3 first p = slice A2 first p :=
          slice_congr A2 A3 first p (fun k _ hk2 => r3.2.2 k (Or.inl (by omega)))
        have hL : ∀ x, x ∈ slice A2 first p → cmp x pv = true := by
          intro x hx
          obtain ⟨k, hk1, hk2, hk3⟩ := mem_slice A2 first p x hx
          exact r2.forall_range hp1 (fun z => cmp z pv = true) hlo k x hk1 hk2 hk3
        have hR : ∀ y, y ∈ slice A3 (p + 1) last → cmp y pv = false := by
          intro y hy
          obtain ⟨k, hk1, hk2, hk3⟩ := mem_slice A3 (p + 1) last y hy
          refine r3.forall_range (by omega) (fun z => cmp z pv = false) ?_ k y hk1 hk2 hk3
          intro j z hj1 hj2 hjz
          rw [r2.2.2 j (Or.inr (by omega))] at hjz
          exact hhi j z (by omega) hj2 hjz
        unfold SortedBy at s2 s3 ⊢
        rw [slice_split A3 first p last hp1 hp2 (by omega), hleft, hpiv,
          List.pairwise_append, List.pairwise_cons]
        refine ⟨s2, ⟨hR, s3⟩, ?_⟩
        intro x hx y hy
        rcases List.mem_cons.mp hy with rfl | hy
        · exact hc.asymm x y (hL x hx)
        · cases hyx : cmp y x with
          | false => rfl
          | true =>
            have := hc.trans y x pv hyx (hL x hx)
            rw [hR y hy] at this
            cases this
    · refine ⟨A, ?_, Rearranged.refl _ _ _,
        sortedBy_of_length_le cmp _ (by rw [length_slice A first last hl]; omega)⟩
      simp only [quick_rec]
      rw [if_neg (by omega)]

/-- C34: for an array, a range `[first, last)` of it (empty and one-element
ranges included) and a comparator that is a strict weak ordering, `quick`
returns; the array has the same length, the same cells outside the range, and
in the range a permutation of the cells it had, sorted with respect to `cmp`: no
cell, in particular no cell `a[i+1]`, compares less than a cell before it.  On a
range that is not empty, `partition` returns a position `p` of the range and
permutes the range; afterwards every cell of the range before `p` compares less
than the cell at `p`, and no cell of the range after `p` does. -/
theorem quick_result {α : Type} (cmp : α → α → Bool) (hc : StrictWeakOrder cmp)
    (A : List α) (first last : Nat) (hfl : first ≤ last) (hl : last ≤ A.length) :
    (∃ A', quick cmp A first last = .done A' ∧ A'.length = A.length ∧
      (∀ k, k < first ∨ last ≤ k → A'[k]? = A[k]?) ∧
      (slice A' first last).Perm (slice A first last) ∧
      SortedBy cmp (slice A' first last) ∧
      (∀ i x y, (slice A' first last)[i]? = some x → (slice A' first last)[i + 1]? = some y →
        cmp y x = false)) ∧
    (first < last →
      ∃ (A' : List α) (p : Nat) (pv : α), partition cmp A first last = .done (A', (p : Int)) ∧
        first ≤ p ∧ p < last ∧ A'.length = A.length ∧
        (∀ k, k < first ∨ last ≤ k → A'[k]? = A[k]?) ∧
        (slice A' first last).Perm (slice A first last) ∧ A'[p]? = some pv ∧
        (∀ k x, first ≤ k → k < p → A'[k]? = some x → cmp x pv = true) ∧
        (∀ k x, p < k → k < last → A'[k]? = some x → cmp x pv = false)) := by
  have hfuel : ((last : Int) - (first : Int)).toNat = last - first := by omega
  constructor
  · obtain ⟨A', e, r, s⟩ := quick_rec_spec cmp hc (last - first) A first last hfl hl
      (Nat.le_refl _)
    refine ⟨A', ?_, r.1, r.2.2, r.slice_perm hfl, s, fun i x y => s.adjacent i x y⟩
    unfold quick
    rw [hfuel]
    exact e
  · intro hlt
    obtain ⟨A', p, pv, e, h1, h2, r, h3, h4, h5⟩ := partition_spec cmp A first last hlt hl
    exact ⟨A', p, pv, e, h1, h2, r.1, r.2.2, r.slice_perm hfl, h3, h4, h5⟩

theorem quick_result_witness :
    StrictWeakOrder less ∧
    quick less [9, 3, 1, 2, 5, 4, 1, 0] 1 7 = .done [9, 1, 1, 2, 3, 4, 5, 0] ∧
    quick less [] 0 0 = .done [] ∧ quick less [7] 0 1 = .done [7] ∧
    partition less [9, 3, 1, 2, 5, 4, 1, 0] 1 7 = .done ([9, 1, 1, 2, 3, 4, 5, 0], 4) ∧
    ((∃ A', quick less [9, 3, 1, 2, 5, 4, 1, 0] (1 : Nat) (7 : Nat) = .done A' ∧
      A'.length = ([9, 3, 1, 2, 5, 4, 1, 0] : List Int).length ∧
      (∀ k, k < 1 ∨ 7 ≤ k → A'[k]? = ([9, 3, 1, 2, 5, 4, 1, 0] : List Int)[k]?) ∧
      (slice A' 1 7).Perm (slice [9, 3, 1, 2, 5, 4, 1, 0] 1 7) ∧
      SortedBy less (slice A' 1 7) ∧
      (∀ i x y, (slice A' 1 7)[i]? = some x → (slice A' 1 7)[i + 1]? = some y →
        less y x = false)) ∧
    (1 < 7 →
      ∃ (A' : List Int) (p : Nat) (pv : Int),
        partition less [9, 3, 1, 2, 5, 4, 1, 0] (1 : Nat) (7 : Nat) = .done (A', (p : Int)) ∧
        1 ≤ p ∧ p < 7 ∧ A'.length = ([9, 3, 1, 2, 5, 4, 1, 0] : List Int).length ∧
        (∀ k, k < 1 ∨ 7 ≤ k → A'[k]? = ([9, 3, 1, 2, 5, 4, 1, 0] : List Int)[k]?) ∧
        (slice A' 1 7).Perm (slice [9, 3, 1, 2, 5, 4, 1, 0] 1 7) ∧ A'[p]? = some pv ∧
        (∀ k x, 1 ≤ k → k < p → A'[k]? = some x → less x pv = true) ∧
        (∀ k x, p < k → k < 7 → A'[k]? = some x → less x pv = false))) :=
  ⟨less_strictWeakOrder, by decide, by decide, by decide, by decide,
    quick_result less less_strictWeakOrder [9, 3, 1, 2, 5, 4, 1, 0] 1 7 (by decide)
      (by decide)⟩

end sa

/-! ## Merge sort -/

namespace sa

theorem slice_self {α : Type} (A : List α) (first : Nat) : slice A first first = [] := by
  apply List.ext_getElem?
  intro k
  rw [getElem?_slice, if_neg (by omega)]
  rfl

theorem slice_full {α : Type} (A : List α) : slice A 0 A.length = A := by
  unfold slice
  rw [List.take_length, List.drop_zero]

/-- A range that is not empty starts with its first cell. -/
theorem slice_cons {α : Type} (A : List α) (first last : Nat) (h1 : first < last)
    (h : first < A.length) :
    slice A first last = A[first] :: slice A (first + 1) last := by
  rw [slice_split A first first last (Nat.le_refl _) h1 h, slice_self, List.nil_append]

/-- Two adjacent ranges make one. -/
theorem slice_append {α : Type} (A : List α) (first mid last : Nat) (h1 : first ≤ mid)
    (h2 : mid ≤ last) (h3 : last ≤ A.length) :
    slice A first mid ++ slice A mid last = slice A first last := by
  apply List.ext_getElem?
  intro k
  rw [List.getElem?_append, length_slice A first mid (by omega), getElem?_slice, getElem?_slice,
    getElem?_slice]
  by_cases c1 : k < mid - first
  · rw [if_pos c1, if_pos (by omega), if_pos (by omega)]
  · rw [if_neg c1]
    by_cases c2 : first + k < last
    · rw [if_pos c2, if_pos (by omega), show mid + (k - (mid - first)) = first + k by omega]
    · rw [if_neg c2, if_neg (by omega)]

/-- The copy of `n` cells from `first` on into a fresh array that has room
for them. -/
theorem copy_out_spec {α : Type} (A : List α) (cap : Nat) (n : Nat) :
    ∀ (first k : Nat), first + n ≤ A.length → k + n ≤ cap →
      copy_out A cap n (first : Int) k = .done (slice A first (first + n)) := by
  induction n with
  | zero =>
    intro first k _ _
    rw [Nat.add_zero, slice_self]
    rfl
  | succ m ih =>
    intro first k h hk
    have hf : first < A.length := by omega
    simp only [copy_out]
    rw [read_natCast A first hf]
    simp only [Run.done_bind]
    have hc : (first : Int) + 1 = ((first + 1 : Nat) : Int) := by omega
    rw [if_pos (by omega), hc, ih (first + 1) (k + 1) (by omega) (by omega)]
    simp only [Run.done_bind]
    rw [slice_cons A first (first + (m + 1)) (by omega) hf,
      show first + 1 + m = first + (m + 1) by omega]

/-- The cells before `o`, then `x`, in an array whose cell `o` was set to
`x`. -/
theorem take_succ_set {α : Type} (A : List α) (o : Nat) (x : α) (h : o < A.length) :
    (A.set o x).take (o + 1) = A.take o ++ [x] := by
  apply List.ext_getElem?
  intro k
  rw [List.getElem?_take, List.getElem?_set, List.getElem?_append, List.length_take,
    Nat.min_eq_left (by omega), List.getElem?_take]
  by_cases c1 : k < o
  · rw [if_pos (by omega), if_neg (by omega), if_pos c1, if_pos c1]
  · rw [if_neg c1]
    by_cases c2 : k = o
    · subst c2
      rw [if_pos (by omega), if_pos rfl, if_pos h, Nat.sub_self]
      rfl
    · rw [if_neg (by omega)]
      obtain ⟨m, hm⟩ : ∃ m, k - o = m + 1 := ⟨k - o - 1, by omega⟩
      rw [hm]
      rfl

theorem drop_set_of_lt {α : Type} (A : List α) (o n : Nat) (x : α) (h : o < n) :
    (A.set o x).drop n = A.drop n := by
  rw [List.drop_set, if_pos h]

/-- The loops of `merging` that copy what is left of an input range `S`. -/
theorem merging_rest_spec {α : Type} (S : List α) (sl : Nat) (hsl : sl ≤ S.length)
    (fuel : Nat) :
    ∀ (s : Nat) (A : List α) (o : Nat), s ≤ sl → sl - s ≤ fuel → o + (sl - s) ≤ A.length →
      merging_rest S (sl : Int) fuel (s : Int) A (o : Int) =
        .done (A.take o ++ (slice S s sl ++ A.drop (o + (sl - s))),
          ((o + (sl - s) : Nat) : Int)) := by
  induction fuel with
  | zero =>
    intro s A o h1 h2 h3
    have : s = sl := by omega
    subst this
    simp only [merging_rest]
    rw [if_neg (by simp), slice_self, Nat.sub_self, Nat.add_zero, List.nil_append,
      List.take_append_drop]
  | succ f ih =>
    intro s A o h1 h2 h3
    by_cases hs : s = sl
    · subst hs
      simp only [merging_rest]
      rw [if_neg (by simp), slice_self, Nat.sub_self, Nat.add_zero, List.nil_append,
        List.take_append_drop]
    · have hne : (s : Int) ≠ (sl : Int) := by omega
      have hsS : s < S.length := by omega
      have hoA : o < A.length := by omega
      simp only [merging_rest]
      rw [if_pos hne, read_natCast S s hsS]
      simp only [Run.done_bind]
      rw [write_natCast A o hoA]
      simp only [Run.done_bind]
      have hc1 : (s : Int) + 1 = ((s + 1 : Nat) : Int) := by omega
      have hc2 : (o : Int) + 1 = ((o + 1 : Nat) : Int) := by omega
      rw [hc1, hc2, ih (s + 1) (A.set o S[s]) (o + 1) (by omega) (by omega)
        (by rw [List.length_set]; omega)]
      rw [take_succ_set A o _ (by omega), drop_set_of_lt A o _ _ (by omega),
        slice_cons S s sl (by omega) hsS, show o + 1 + (sl - (s + 1)) = o + (sl - s) by omega]
      simp only [List.append_assoc, List.singleton_append, List.cons_append, List.nil_append]

/-- The three loops of `merging`, one after the other: the cells from `o` on
receive the merge of what is left of the two input ranges. -/
theorem merging_loop_spec {α : Type} (cmp : α → α → Bool) (L R : List α) (ll rl : Nat)
    (hll : ll ≤ L.length) (hrl : rl ≤ R.length) (f1 f2 : Nat) (fuel : Nat) :
    ∀ (i j : Nat) (A : List α) (o : Nat), i ≤ ll → j ≤ rl → (ll - i) + (rl - j) ≤ fuel →
      ll - i ≤ f1 → rl - j ≤ f2 → o + (ll - i) + (rl - j) ≤ A.length →
      ((merging_loop cmp L R (ll : Int) (rl : Int) fuel (i : Int) (j : Int) A (o : Int)).bind
        fun s =>
          (merging_rest L (ll : Int) f1 s.1 s.2.2.1 s.2.2.2).bind fun s1 =>
            (merging_rest R (rl : Int) f2 s.2.1 s1.1 s1.2).bind fun s2 => .done s2.1) =
        .done (A.take o ++
          ((slice L i ll).merge (slice R j rl) cmp ++ A.drop (o + (ll - i) + (rl - j)))) := by
  have stop : ∀ (i j : Nat) (A : List α) (o : Nat), i ≤ ll → j ≤ rl → (i = ll ∨ j = rl) →
      ll - i ≤ f1 → rl - j ≤ f2 → o + (ll - i) + (rl - j) ≤ A.length →
      ((merging_rest L (ll : Int) f1 (i : Int) A (o : Int)).bind fun s1 =>
        (merging_rest R (rl : Int) f2 (j : Int) s1.1 s1.2).bind fun s2 => Run.done s2.1) =
        .done (A.take o ++
          ((slice L i ll).merge (slice R j rl) cmp ++ A.drop (o + (ll - i) + (rl - j)))) := by
    intro i j A o hi hj hor h1 h2 h3
    have ho : (A.take o).length = o := by rw [List.length_take]; omega
    have hsl : (slice L i ll).length = ll - i := length_slice L i ll hll
    rw [merging_rest_spec L ll hll f1 i A o hi h1 (by omega)]
    simp only [Run.done_bind]
    rw [merging_rest_spec R rl hrl f2 j _ (o + (ll - i)) hj h2 (by
      rw [List.length_append, List.length_append, ho, hsl, List.length_drop]
      omega)]
    simp only [Run.done_bind]
    have e1 : (A.take o ++ (slice L i ll ++ A.drop (o + (ll - i)))).take (o + (ll - i)) =
        A.take o ++ slice L i ll := by
      rw [← List.append_assoc]
      exact List.take_left' (by rw [List.length_append, ho, hsl])
    have e2 : (A.take o ++ (slice L i ll ++ A.drop (o + (ll - i)))).drop
        (o + (ll - i) + (rl - j)) = A.drop (o + (ll - i) + (rl - j)) := by
      rw [← List.append_assoc]
      have hlen : (A.take o ++ slice L i ll).length = o + (ll - i) := by
        rw [List.length_append, ho, hsl]
      rw [← hlen, List.drop_append, List.drop_drop, hlen]
    rw [e1, e2]
    have e3 : (slice L i ll).merge (slice R j rl) cmp = slice L i ll ++ slice R j rl := by
      rcases hor with h | h
      · rw [h, slice_self, List.nil_merge, List.nil_append]
      · rw [h, slice_self, List.merge_right, List.append_nil]
    rw [e3]
    simp only [List.append_assoc]
  induction fuel with
  | zero =>
    intro i j A o hi hj hf h1 h2 h3
    have hor : i = ll ∨ j = rl := by omega
    simp only [merging_loop]
    rw [if_neg (by omega)]
    simp only [Run.done_bind]
    exact stop i j A o hi hj hor h1 h2 h3
  | succ f ih =>
    intro i j A o hi hj hf h1 h2 h3
    by_cases hor : i = ll ∨ j = rl
    · simp only [merging_loop]
      rw [if_neg (by omega)]
      simp only [Run.done_bind]
      exact stop i j A o hi hj hor h1 h2 h3
    · have hi2 : i < ll := by omega
      have hj2 : j < rl := by omega
      have hiL : i < L.length := by omega
      have hjR : j < R.length := by omega
      have hoA : o < A.length := by omega
      have hcond : (i : Int) ≠ (ll : Int) ∧ (j : Int) ≠ (rl : Int) := by omega
      simp only [merging_loop]
      rw [if_pos hcond, read_natCast L i hiL, read_natCast R j hjR]
      simp only [Run.done_bind]
      have hc1 : (i : Int) + 1 = ((i + 1 : Nat) : Int) := by omega
      have hc2 : (j : Int) + 1 = ((j + 1 : Nat) : Int) := by omega
      have hc3 : (o : Int) + 1 = ((o + 1 : Nat) : Int) := by omega
      rw [slice_cons L i ll hi2 hiL, slice_cons R j rl hj2 hjR, List.cons_merge_cons]
      by_cases hx : cmp L[i] R[j] = true
      · rw [if_pos hx, if_pos hx, write_natCast A o hoA]
        simp only [Run.done_bind]
        rw [hc1, hc3, ih (i + 1) j (A.set o L[i]) (o + 1) (by omega) hj (by omega) (by omega)
          h2 (by rw [List.length_set]; omega)]
        rw [take_succ_set A o _ (by omega), drop_set_of_lt A o _ _ (by omega),
          slice_cons R j rl hj2 hjR,
          show o + 1 + (ll - (i + 1)) + (rl - j) = o + (ll - i) + (rl - j) by omega]
        simp only [List.append_assoc, List.singleton_append, List.cons_append, List.nil_append]
      · rw [if_neg hx, if_neg hx, write_natCast A o hoA]
        simp only [Run.done_bind]
        rw [hc2, hc3, ih i (j + 1) (A.set o R[j]) (o + 1) hi (by omega) (by omega) h1
          (by omega) (by rw [List.length_set]; omega)]
        rw [take_succ_set A o _ (by omega), drop_set_of_lt A o _ _ (by omega),
          slice_cons L i ll hi2 hiL,
          show o + 1 + (ll - i) + (rl - (j + 1)) = o + (ll - i) + (rl - j) by omega]
        simp only [List.append_assoc, List.singleton_append, List.cons_append, List.nil_append]

/-- The function `merging` on two whole input arrays: the `L.length + R.length`
cells of the output from `o` on receive the merge of `L` and `R`. -/
theorem merging_spec {α : Type} (cmp : α → α → Bool) (L R A : List α) (o : Nat)
    (h : o + L.length + R.length ≤ A.length) :
    merging cmp L 0 (L.length : Int) R 0 (R.length : Int) A (o : Int) =
      .done (A.take o ++ (L.merge R cmp ++ A.drop (o + L.length + R.length))) := by
  have h0 : (0 : Int) = ((0 : Nat) : Int) := rfl
  have e1 : ((L.length : Int) - 0).toNat = L.length := by omega
  have e2 : ((R.length : Int) - 0).toNat = R.length := by omega
  unfold merging
  rw [e1, e2, h0]
  have := merging_loop_spec cmp L R L.length R.length (Nat.le_refl _) (Nat.le_refl _)
    L.length R.length (L.length + R.length) 0 0 A o (Nat.zero_le _) (Nat.zero_le _)
    (by omega) (by omega) (by omega) (by omega)
  rw [slice_full, slice_full, Nat.sub_zero, Nat.sub_zero] at this
  exact this

/-- The merge of two sorted lists is sorted. -/
theorem sortedBy_merge {α : Type} (cmp : α → α → Bool) (hc : StrictWeakOrder cmp) :
    ∀ l r : List α, SortedBy cmp l → SortedBy cmp r → SortedBy cmp (l.merge r cmp) := by
  intro l
  induction l with
  | nil =>
    intro r _ hr
    rw [List.nil_merge]
    exact hr
  | cons a l ihl =>
    intro r
    induction r with
    | nil =>
      intro hl _
      rw [List.merge_right]
      exact hl
    | cons b r ihr =>
      intro hl hr
      have hl2 := List.pairwise_cons.mp hl
      have hr2 := List.pairwise_cons.mp hr
      rw [List.cons_merge_cons]
      by_cases hab : cmp a b = true
      · rw [if_pos hab]
        refine List.pairwise_cons.mpr ⟨?_, ihl (b :: r) hl2.2 hr⟩
        intro x hx
        rcases List.mem_merge.mp hx with hx | hx
        · exact hl2.1 x hx
        · rcases List.mem_cons.mp hx with rfl | hx
          · exact hc.asymm a x hab
          · cases hxa : cmp x a with
            | false => rfl
            | true =>
              have := hc.trans x a b hxa hab
              rw [hr2.1 x hx] at this
              cases this
      · have hab2 : cmp a b = false := by simpa using hab
        rw [if_neg hab]
        refine List.pairwise_cons.mpr ⟨?_, ihr hl hr2.2⟩
        intro x hx
        rcases List.mem_merge.mp hx with hx | hx
        · rcases List.mem_cons.mp hx with rfl | hx
          · exact hab2
          · exact hc.neg_trans x a b (hl2.1 x hx) hab2
        · exact hr2.1 x hx

/-- An array whose range `[first, last)` is replaced by a permutation of its
cells. -/
theorem rearranged_of_middle {α : Type} (A M : List α) (first last : Nat)
    (hfl : first ≤ last) (hl : last ≤ A.length) (hM : M.Perm (slice A first last)) :
    Rearranged A (A.take first ++ (M ++ A.drop last)) first last ∧
      slice (A.take first ++ (M ++ A.drop last)) first last = M := by
  have hlenM : M.length = last - first := by
    rw [hM.length_eq, length_slice A first last hl]
  have ht : (A.take first).length = first := by rw [List.length_take]; omega
  have hlen : (A.take first ++ (M ++ A.drop last)).length = A.length := by
    rw [List.length_append, List.length_append, ht, hlenM, List.length_drop]
    omega
  refine ⟨⟨hlen, ?_, ?_⟩, ?_⟩
  · have := take_slice_drop A first last hfl
    calc (A.take first ++ (M ++ A.drop last)).Perm
          (A.take first ++ (slice A first last ++ A.drop last)) :=
            List.Perm.append_left _ (List.Perm.append_right _ hM)
      _ = A := this
  · intro k hk
    rcases hk with hk | hk
    · rw [List.getElem?_append, ht, if_pos hk, List.getElem?_take, if_pos hk]
    · rw [List.getElem?_append, ht, if_neg (by omega), List.getElem?_append, hlenM,
        if_neg (by omega), List.getElem?_drop,
        show last + (k - first - (last - first)) = k by omega]
  · unfold slice
    have e1 : (A.take first ++ (M ++ A.drop last)).take last = A.take first ++ M := by
      rw [← List.append_assoc]
      exact List.take_left' (by rw [List.length_append, ht, hlenM]; omega)
    rw [e1]
    exact List.drop_left' ht

theorem to_int_natCast (n : Nat) (h : n < 2147483648) : to_int (n : Int) = (n : Int) := by
  unfold to_int
  omega

theorem slice_all {α : Type} (A : List α) (n : Nat) (h : A.length = n) : slice A 0 n = A := by
  rw [← h]
  exact slice_full A

/-- Merge sort on a range of fewer than `2^31` cells: the recursion ends within
`last - first` levels and leaves the range a sorted rearrangement of itself. -/
theorem merge_rec_spec {α : Type} (cmp : α → α → Bool) (hc : StrictWeakOrder cmp)
    (fuel : Nat) :
    ∀ (A : List α) (first last : Nat), first ≤ last → last ≤ A.length →
      last - first < 2147483648 → last - first ≤ fuel →
      ∃ A', merge_rec cmp fuel A (first : Int) (last : Int) = .done A' ∧
        Rearranged A A' first last ∧ SortedBy cmp (slice A' first last) := by
  induction fuel with
  | zero =>
    intro A first last hfl hl hb hf
    refine ⟨A, ?_, Rearranged.refl A first last, ?_⟩
    · have e : (last : Int) - (first : Int) = ((last - first : Nat) : Int) := by omega
      simp only [merge_rec]
      rw [e, to_int_natCast _ hb, if_neg (by omega)]
    · exact sortedBy_of_length_le cmp _ (by rw [length_slice A first last hl]; omega)
  | succ f ih =>
    intro A first last hfl hl hb hf
    have e : (last : Int) - (first : Int) = ((last - first : Nat) : Int) := by omega
    by_cases hn : last - first < 2
    · refine ⟨A, ?_, Rearranged.refl A first last, ?_⟩
      · simp only [merge_rec]
        rw [e, to_int_natCast _ hb, if_neg (by omega)]
      · exact sortedBy_of_length_le cmp _ (by rw [length_slice A first last hl]; omega)
    · obtain ⟨n1, hn1⟩ : ∃ n1, n1 = (last - first) / 2 := ⟨_, rfl⟩
      obtain ⟨n2, hn2⟩ : ∃ n2, n2 = (last - first) - n1 := ⟨_, rfl⟩
      have em : ((last - first : Nat) : Int).tdiv 2 = (n1 : Int) := by
        rw [Int.tdiv_eq_ediv (by omega) (by decide), hn1]
        omega
      have e2 : ((last - first : Nat) : Int) - (n1 : Int) = (n2 : Int) := by omega
      have e3 : (last : Int) - ((first : Int) + (n1 : Int)) = (n2 : Int) := by omega
      have e4 : (first : Int) + (n1 : Int) = ((first + n1 : Nat) : Int) := by omega
      have e0 : (0 : Int) = ((0 : Nat) : Int) := rfl
      have hmid : first + n1 + n2 = last := by omega
      simp only [merge_rec]
      rw [e, to_int_natCast _ hb, if_pos (by omega), em, e2, e3, e4, Int.toNat_ofNat,
        Int.toNat_ofNat]
      rw [copy_out_spec A n1 n1 first 0 (by omega) (by omega)]
      simp only [Run.done_bind]
      rw [copy_out_spec A n2 n2 (first + n1) 0 (by omega) (by omega), hmid]
      simp only [Run.done_bind]
      have hLlen : (slice A first (first + n1)).length = n1 := by
        rw [length_slice A first (first + n1) (by omega)]
        omega
      have hRlen : (slice A (first + n1) last).length = n2 := by
        rw [length_slice A (first + n1) last hl]
        omega
      obtain ⟨R1, hR1, rR, sR⟩ := ih (slice A (first + n1) last) 0 n2 (Nat.zero_le _)
        (by omega) (by omega) (by omega)
      obtain ⟨L1, hL1, rL, sL⟩ := ih (slice A first (first + n1)) 0 n1 (Nat.zero_le _)
        (by omega) (by omega) (by omega)
      have hR1len : R1.length = n2 := by rw [rR.1, hRlen]
      have hL1len : L1.length = n1 := by rw [rL.1, hLlen]
      rw [slice_all R1 n2 hR1len] at sR
      rw [slice_all L1 n1 hL1len] at sL
      nth_rewrite 1 [e0]
      rw [hR1]
      simp only [Run.done_bind]
      nth_rewrite 1 [e0]
      rw [hL1]
      simp only [Run.done_bind]
      rw [← hL1len, ← hR1len, merging_spec cmp L1 R1 A first (by omega)]
      have hlast : first + L1.length + R1.length = last := by omega
      rw [hlast]
      have hperm : (L1.merge R1 cmp).Perm (slice A first last) := by
        refine (List.merge_perm_append cmp).trans ?_
        rw [← slice_append A first (first + n1) last (by omega) (by omega) hl]
        exact List.Perm.append rL.2.1 rR.2.1
      obtain ⟨hr, hs⟩ := rearranged_of_middle A (L1.merge R1 cmp) first last hfl hl hperm
      refine ⟨_, rfl, hr, ?_⟩
      rw [hs]
      exact sortedBy_merge cmp hc L1 R1 sL sR

/-- Merge sort skips a range whose number of cells is `0` or `1` once it is
made an `int`. -/
theorem merge_of_to_int_lt {α : Type} (cmp : α → α → Bool) (A : List α) (first last : Int)
    (h : to_int (last - first) < 2) : merge cmp A first last = .done A := by
  unfold merge
  cases (last - first).toNat with
  | zero =>
    simp only [merge_rec]
    rw [if_neg (by omega)]
  | succ f =>
    simp only [merge_rec]
    rw [if_neg (by omega)]

theorem not_sortedBy_cons_cons {α : Type} (cmp : α → α → Bool) (a b : α) (l : List α)
    (h : cmp b a = true) : ¬ SortedBy cmp (a :: b :: l) := by
  intro hs
  have := (List.pairwise_cons.mp hs).1 b (List.mem_cons_self b l)
  rw [h] at this
  cases this

/-- C35: `merge` does not sort every array: it keeps the number of cells in an
`int`, so that a range of `2^32` cells counts as empty and is left as it is,
here with the cell `1` before the cells `0`.  (On ranges of fewer than `2^31`
cells it does sort, and `merging` does merge: see `merge_rec_spec`,
`merging_spec` and `sortedBy_merge`.) -/
theorem merge_skips_long_range :
    merge less (1 :: 0 :: List.replicate 4294967294 0) 0 4294967296 =
        .done (1 :: 0 :: List.replicate 4294967294 0) ∧
      (1 :: 0 :: List.replicate 4294967294 (0 : Int)).length = 4294967296 ∧
      ¬ SortedBy less (slice (1 :: 0 :: List.replicate 4294967294 0) 0 4294967296) := by
  have hlen : (1 :: 0 :: List.replicate 4294967294 (0 : Int)).length = 4294967296 := by
    rw [List.length_cons, List.length_cons, List.length_replicate]
  refine ⟨merge_of_to_int_lt less _ 0 4294967296 (by decide), hlen, ?_⟩
  rw [slice_all _ _ hlen]
  exact not_sortedBy_cons_cons less 1 0 _ (by decide)

end sa

/-! ## The sorts on empty and one-element ranges -/

namespace sa

/-- C40: on an empty range the in-place sorts do not return at once.
`insertion` starts `fast` at `first + 1`, `selection` runs `i` up to
`last - 1` and `bubble` starts `i` at `first + 1`, so that with `first = last`
each of them enters its loop and dereferences the cell `first + 1`, outside
the range; on the empty array this read is outside the array, and on the array
`{5, 3}` with `first = last = 0` the loops go through both cells and leave the
array at position `2`.  The functions `shell`, `merge` and `quick` return at
once with the array unchanged, and on a one-element range all six do. -/
theorem in_place_sorts_on_empty_range :
    (∀ fuel, insertion less (fuel + 1) [] 0 0 = .out_of_range 1) ∧
    (∀ fuel, selection less (fuel + 1) [] 0 0 = .out_of_range 1) ∧
    (∀ fuel, bubble less (fuel + 1) [] 0 0 = .out_of_range 1) ∧
    insertion less 5 [5, 3] 0 0 = .out_of_range 2 ∧
    selection less 5 [5, 3] 0 0 = .out_of_range 2 ∧
    bubble less 5 [5, 3] 0 0 = .out_of_range 2 ∧
    (∀ fuel, shell less fuel [] 0 0 = .done []) ∧
    merge less [] 0 0 = .done [] ∧
    quick less [] 0 0 = .done [] ∧
    (∀ (x : Int) fuel, insertion less fuel [x] 0 1 = .done [x]) ∧
    (∀ (x : Int) fuel, selection less fuel [x] 0 1 = .done [x]) ∧
    (∀ (x : Int) fuel, bubble less fuel [x] 0 1 = .done [x]) ∧
    (∀ (x : Int) fuel, shell less fuel [x] 0 1 = .done [x]) ∧
    (∀ x : Int, merge less [x] 0 1 = .done [x]) ∧
    (∀ x : Int, quick less [x] 0 1 = .done [x]) := by
  refine ⟨fun _ => rfl, fun _ => rfl, fun _ => rfl, by decide, by decide, by decide, ?_,
    by decide, by decide, ?_, ?_, ?_, ?_, fun _ => rfl, fun _ => rfl⟩
  · intro fuel
    cases fuel <;> rfl
  · intro x fuel
    cases fuel <;> rfl
  · intro x fuel
    cases fuel <;> rfl
  · intro x fuel
    cases fuel <;> rfl
  · intro x fuel
    cases fuel <;> rfl

end sa

/-! ## The doubly linked list: the heap -/

namespace sc.list

theorem load_set {T : Type} (H : Heap T) (a b : Nat) (x : Option (Node T)) :
    load (H.set a x) (some b) =
      if a = b then (if a < H.length then x else none) else load H (some b) := by
  unfold load
  simp only []
  rw [List.getElem?_set]
  by_cases c1 : a = b
  · rw [if_pos c1, if_pos c1]
    by_cases c2 : a < H.length
    · rw [if_pos c2, if_pos c2]
      rfl
    · rw [if_neg c2, if_neg c2]
      rfl
  · rw [if_neg c1, if_neg c1]

theorem load_lt {T : Type} {H : Heap T} {a : Nat} {n : Node T}
    (h : load H (some a) = some n) : a < H.length := by
  by_cases c : a < H.length
  · exact c
  · unfold load at h
    simp only [] at h
    rw [List.getElem?_eq_none (by omega)] at h
    cases h

theorem load_alloc {T : Type} (H : Heap T) (n : Node T) (b : Nat) :
    load (alloc H n).1 (some b) = if b = H.length then some n else load H (some b) := by
  unfold load alloc
  simp only []
  by_cases c : b = H.length
  · rw [if_pos c, c, List.getElem?_append_right (Nat.le_refl _), Nat.sub_self]
    rfl
  · rw [if_neg c]
    by_cases c2 : b < H.length
    · rw [List.getElem?_append_left c2]
    · rw [List.getElem?_eq_none (by rw [List.length_append, List.length_singleton]; omega),
        List.getElem?_eq_none (by omega)]

theorem set_next_eq {T : Type} {H : Heap T} {a : Nat} {n : Node T}
    (h : load H (some a) = some n) (v : Option Nat) :
    set_next H (some a) v = some (H.set a (some { n with next := v })) := by
  simp only [set_next, store, h, Option.some_bind]

theorem set_prev_eq {T : Type} {H : Heap T} {a : Nat} {n : Node T}
    (h : load H (some a) = some n) (v : Option Nat) :
    set_prev H (some a) v = some (H.set a (some { n with prev := v })) := by
  simp only [set_prev, store, h, Option.some_bind]

theorem free_eq {T : Type} {H : Heap T} {a : Nat} {n : Node T}
    (h : load H (some a) = some n) : free H (some a) = some (H.set a none) := by
  simp only [free, h]

theorem next_of_eq {T : Type} {H : Heap T} {a : Nat} {n : Node T}
    (h : load H (some a) = some n) : next_of H a = some n.next := by
  unfold next_of
  rw [h]
  rfl

theorem prev_of_eq {T : Type} {H : Heap T} {a : Nat} {n : Node T}
    (h : load H (some a) = some n) : prev_of H a = some n.prev := by
  unfold prev_of
  rw [h]
  rfl

theorem data_of_eq {T : Type} {H : Heap T} {a : Nat} {n : Node T}
    (h : load H (some a) = some n) : data_of H a = some n.data := by
  unfold data_of
  rw [h]
  rfl

theorem load_of_next_of {T : Type} {H : Heap T} {a : Nat} {v : Option Nat}
    (h : next_of H a = some v) : ∃ n, load H (some a) = some n ∧ n.next = v := by
  unfold next_of at h
  cases hl : load H (some a) with
  | none => rw [hl] at h; cases h
  | some n =>
    rw [hl] at h
    exact ⟨n, rfl, Option.some.inj h⟩

theorem load_of_prev_of {T : Type} {H : Heap T} {a : Nat} {v : Option Nat}
    (h : prev_of H a = some v) : ∃ n, load H (some a) = some n ∧ n.prev = v := by
  unfold prev_of at h
  cases hl : load H (some a) with
  | none => rw [hl] at h; cases h
  | some n =>
    rw [hl] at h
    exact ⟨n, rfl, Option.some.inj h⟩

theorem load_of_data_of {T : Type} {H : Heap T} {a : Nat} {v : T}
    (h : data_of H a = some v) : ∃ n, load H (some a) = some n ∧ n.data = v := by
  unfold data_of at h
  cases hl : load H (some a) with
  | none => rw [hl] at h; cases h
  | some n =>
    rw [hl] at h
    exact ⟨n, rfl, Option.some.inj h⟩

/-! ### Chains of nodes -/

theorem linked_append {T : Type} (H : Heap T) (a : Nat) (l2 : List Nat) :
    ∀ l1 : List Nat, Linked H (l1 ++ a :: l2) ↔ Linked H (l1 ++ [a]) ∧ Linked H (a :: l2) := by
  intro l1
  induction l1 with
  | nil => exact ⟨fun h => ⟨trivial, h⟩, fun h => h.2⟩
  | cons x l1 ih =>
    cases l1 with
    | nil =>
      exact ⟨fun h => ⟨⟨h.1, trivial⟩, h.2⟩, fun h => ⟨h.1.1, h.2⟩⟩
    | cons y l1 =>
      exact ⟨fun h => ⟨⟨h.1, (ih.mp h.2).1⟩, (ih.mp h.2).2⟩,
        fun h => ⟨h.1.1, ih.mpr ⟨h.1.2, h.2⟩⟩⟩

/-- A chain in a heap in which its links are as before: the pointers `next`
of all nodes but the last and the pointers `prev` of all nodes but the
first. -/
theorem linked_congr {T : Type} {H H1 : Heap T} :
    ∀ c : List Nat, (∀ a ∈ c.dropLast, next_of H1 a = next_of H a) →
      (∀ b ∈ c.tail, prev_of H1 b = prev_of H b) → Linked H c → Linked H1 c := by
  intro c
  induction c with
  | nil => intro _ _ _; trivial
  | cons a c ih =>
    cases c with
    | nil => intro _ _ _; trivial
    | cons b c =>
      intro hn hp h
      refine ⟨⟨?_, ?_⟩, ih ?_ ?_ h.2⟩
      · rw [hn a (by simp)]
        exact h.1.1
      · rw [hp b (by simp)]
        exact h.1.2
      · intro x hx
        exact hn x (by
          rw [List.dropLast_cons_of_ne_nil (by simp)]
          exact List.mem_cons_of_mem _ hx)
      · intro x hx
        exact hp x (List.mem_cons_of_mem _ hx)

theorem linked_snoc_congr {T : Type} {H H1 : Heap T} (L : List Nat) (P : Nat)
    (hn : ∀ a ∈ L, next_of H1 a = next_of H a)
    (hp : ∀ b ∈ L ++ [P], prev_of H1 b = prev_of H b) (h : Linked H (L ++ [P])) :
    Linked H1 (L ++ [P]) := by
  refine linked_congr _ ?_ ?_ h
  · intro a ha
    rw [List.dropLast_concat] at ha
    exact hn a ha
  · intro b hb
    exact hp b (List.mem_of_mem_tail hb)

theorem linked_cons_congr {T : Type} {H H1 : Heap T} (S : Nat) (R : List Nat)
    (hn : ∀ a ∈ S :: R, next_of H1 a = next_of H a)
    (hp : ∀ b ∈ R, prev_of H1 b = prev_of H b) (h : Linked H (S :: R)) :
    Linked H1 (S :: R) := by
  refine linked_congr _ ?_ ?_ h
  · intro a ha
    exact hn a (List.mem_of_mem_dropLast ha)
  · intro b hb
    exact hp b hb

/-! ### The function `erase` -/

/-- The function `erase` on a node `x` between the nodes `P` and `S` of a
chain: the node is deleted and its neighbours are linked to each other. -/
theorem erase_chain {T : Type} (H : Heap T) (l : list) (L R : List Nat) (P x S : Nat)
    (hnd : (L ++ P :: x :: S :: R).Nodup) (hl : Linked H (L ++ P :: x :: S :: R)) :
    ∃ H1, erase H l (some x) = some (H1,
        { l with m_len := (l.m_len + 18446744073709551615) % 18446744073709551616 },
        some S) ∧
      Linked H1 (L ++ P :: S :: R) ∧ load H1 (some x) = none ∧
      (∀ a, a ≠ x → data_of H1 a = data_of H a) ∧
      (∀ a, a ≠ P → a ≠ x → a ≠ S → load H1 (some a) = load H (some a)) := by
  obtain ⟨hL, hPx, hxS, hSR⟩ : Linked H (L ++ [P]) ∧ Link H P x ∧ Link H x S ∧
      Linked H (S :: R) := by
    have h1 := (linked_append H P (x :: S :: R) L).mp hl
    exact ⟨h1.1, h1.2.1, h1.2.2.1, h1.2.2.2⟩
  have hd : P ≠ x ∧ P ≠ S ∧ x ≠ S ∧ (∀ a ∈ L, a ≠ P ∧ a ≠ x ∧ a ≠ S) ∧
      (∀ a ∈ R, a ≠ P ∧ a ≠ x ∧ a ≠ S) := by
    rw [List.nodup_append] at hnd
    obtain ⟨_, h2, h3⟩ := hnd
    simp only [List.nodup_cons, List.mem_cons, not_or] at h2
    refine ⟨h2.1.1, h2.1.2.1, h2.2.1.1, ?_, ?_⟩
    · intro a ha
      refine ⟨?_, ?_, ?_⟩
      · intro e; exact h3 ha (by simp [e])
      · intro e; exact h3 ha (by simp [e])
      · intro e; exact h3 ha (by simp [e])
    · intro a ha
      refine ⟨?_, ?_, ?_⟩
      · intro e; exact h2.1.2.2 (e ▸ ha)
      · intro e; exact h2.2.1.2 (e ▸ ha)
      · intro e; exact h2.2.2.1 (e ▸ ha)
  obtain ⟨hPx0, hPS, hxS0, hdL, hdR⟩ := hd
  obtain ⟨nP, hP, hnP⟩ := load_of_next_of hPx.1
  obtain ⟨nx, hx, hnx⟩ := load_of_next_of hxS.1
  obtain ⟨nS, hS, hnS⟩ := load_of_prev_of hxS.2
  have hpx : nx.prev = some P := by
    have := prev_of_eq hx
    rw [hPx.2] at this
    exact (Option.some.inj this).symm
  have hPlt := load_lt hP
  have hxlt := load_lt hx
  have hSlt := load_lt hS
  have e1 : load (H.set P (some { nP with next := some S })) (some x) = some nx := by
    rw [load_set, if_neg hPx0, hx]
  have e2 : load (H.set P (some { nP with next := some S })) (some S) = some nS := by
    rw [load_set, if_neg hPS, hS]
  have e3 : load ((H.set P (some { nP with next := some S })).set S
      (some { nS with prev := some P })) (some x) = some nx := by
    rw [load_set, if_neg (Ne.symm hxS0), e1]
  refine ⟨((H.set P (some { nP with next := some S })).set S
      (some { nS with prev := some P })).set x none, ?_, ?_, ?_, ?_, ?_⟩
  · unfold erase
    rw [hx]
    simp only [Option.some_bind]
    rw [hpx, hnx, set_next_eq hP]
    simp only [Option.some_bind]
    rw [e1]
    simp only [Option.some_bind]
    rw [hpx, set_prev_eq e2]
    simp only [Option.some_bind]
    rw [free_eq e3]
    simp only [Option.some_bind]
  · have hn : ∀ a, a ≠ x → a ≠ P → next_of (((H.set P (some { nP with next := some S })).set S
        (some { nS with prev := some P })).set x none) a = next_of H a := by
      intro a h1 h2
      unfold next_of
      rw [load_set, if_neg (Ne.symm h1), load_set]
      by_cases c : S = a
      · subst c
        rw [if_pos rfl, List.length_set, if_pos hSlt, hS]
        rfl
      · rw [if_neg c, load_set, if_neg (Ne.symm h2)]
    have hp : ∀ a, a ≠ x → a ≠ S → prev_of (((H.set P (some { nP with next := some S })).set S
        (some { nS with prev := some P })).set x none) a = prev_of H a := by
      intro a h1 h2
      unfold prev_of
      rw [load_set, if_neg (Ne.symm h1), load_set, if_neg (Ne.symm h2), load_set]
      by_cases c : P = a
      · subst c
        rw [if_pos rfl, if_pos hPlt, hP]
        rfl
      · rw [if_neg c]
    refine (linked_append _ P (S :: R) L).mpr ⟨?_, ⟨?_, ?_⟩, ?_⟩
    · refine linked_snoc_congr L P ?_ ?_ hL
      · intro a ha
        exact hn a (hdL a ha).2.1 (hdL a ha).1
      · intro b hb
        rcases List.mem_append.mp hb with hb | hb
        · exact hp b (hdL b hb).2.1 (hdL b hb).2.2
        · rw [List.mem_singleton.mp hb]
          exact hp P hPx0 hPS
    · unfold next_of
      rw [load_set, if_neg (Ne.symm hPx0), load_set, if_neg (Ne.symm hPS), load_set,
        if_pos rfl, if_pos hPlt]
      rfl
    · unfold prev_of
      rw [load_set, if_neg hxS0, load_set, if_pos rfl, List.length_set, if_pos hSlt]
      rfl
    · refine linked_cons_congr S R ?_ ?_ hSR
      · intro a ha
        rcases List.mem_cons.mp ha with ha | ha
        · rw [ha]
          exact hn S (Ne.symm hxS0) (Ne.symm hPS)
        · exact hn a (hdR a ha).2.1 (hdR a ha).1
      · intro b hb
        exact hp b (hdR b hb).2.1 (hdR b hb).2.2
  · rw [load_set, if_pos rfl, List.length_set, List.length_set, if_pos hxlt]
  · intro a ha
    unfold data_of
    rw [load_set, if_neg (Ne.symm ha), load_set]
    by_cases c : S = a
    · subst c
      rw [if_pos rfl, List.length_set, if_pos hSlt, hS]
      rfl
    · rw [if_neg c, load_set]
      by_cases c2 : P = a
      · subst c2
        rw [if_pos rfl, if_pos hPlt, hP]
        rfl
      · rw [if_neg c2]
  · intro a h1 h2 h3
    rw [load_set, if_neg (Ne.symm h2), load_set, if_neg (Ne.symm h3), load_set,
      if_neg (Ne.symm h1)]

/-! ### Well-formed lists -/

theorem exists_snoc {α : Type} (l : List α) (a : α) : ∃ L P, a :: l = L ++ [P] := by
  induction l generalizing a with
  | nil => exact ⟨[], a, rfl⟩
  | cons b l ih =>
    obtain ⟨L, P, e⟩ := ih b
    exact ⟨a :: L, P, by rw [e]; rfl⟩

theorem first_of_nil {T : Type} (t : Nat) : first_of ([] : List (Nat × T)) t = t := rfl

theorem first_of_cons {T : Type} (p : Nat × T) (r : List (Nat × T)) (t : Nat) :
    first_of (p :: r) t = p.1 := rfl

theorem map_fst_snoc {T : Type} (nodes : List (Nat × T)) (t : Nat) :
    ∃ R, nodes.map Prod.fst ++ [t] = first_of nodes t :: R := by
  cases nodes with
  | nil => exact ⟨[], rfl⟩
  | cons p r => exact ⟨r.map Prod.fst ++ [t], rfl⟩

theorem deref_of_data_of {T : Type} {H : Heap T} {a : Nat} {v : T}
    (h : data_of H a = some v) : deref H (some a) = some v := by
  obtain ⟨n, hn, hv⟩ := load_of_data_of h
  unfold deref
  rw [hn, Option.some_bind, hv]

theorem incr_of_next_of {T : Type} {H : Heap T} {a : Nat} {v : Option Nat}
    (h : next_of H a = some v) : incr H (some a) = some v := by
  obtain ⟨n, hn, hv⟩ := load_of_next_of h
  unfold incr
  simp only []
  rw [hn, Option.some_bind, hv]

/-- The node after a node of a well-formed list. -/
theorem Rep.next_of_node {T : Type} {H : Heap T} {l : list} {h t : Nat}
    {pre post : List (Nat × T)} {p : Nat × T} (hr : Rep H l h (pre ++ p :: post) t) :
    next_of H p.1 = some (some (first_of post t)) := by
  obtain ⟨R, hR⟩ := map_fst_snoc post t
  have hl := hr.2.2.2.2.2.1
  have e : h :: (List.map Prod.fst (pre ++ p :: post) ++ [t]) =
      (h :: List.map Prod.fst pre) ++ p.1 :: first_of post t :: R := by
    rw [← hR]
    simp only [List.map_append, List.map_cons, List.append_assoc, List.cons_append]
  rw [e] at hl
  exact ((linked_append H _ _ _).mp hl).2.1.1

/-- The node after the head node of a well-formed list. -/
theorem Rep.next_of_head {T : Type} {H : Heap T} {l : list} {h t : Nat}
    {nodes : List (Nat × T)} (hr : Rep H l h nodes t) :
    next_of H h = some (some (first_of nodes t)) := by
  obtain ⟨R, hR⟩ := map_fst_snoc nodes t
  have hl := hr.2.2.2.2.2.1
  rw [hR] at hl
  exact hl.1.1

theorem Rep.begin_eq {T : Type} {H : Heap T} {l : list} {h t : Nat}
    {nodes : List (Nat × T)} (hr : Rep H l h nodes t) :
    begin H l = some (some (first_of nodes t)) := by
  obtain ⟨n, hn, hv⟩ := load_of_next_of hr.next_of_head
  unfold begin
  rw [hr.1, hn, Option.some_bind, hv]

/-- The first node of the nodes after a node is not the tail node, and none
of the nodes before. -/
theorem Rep.first_ne_tail {T : Type} {H : Heap T} {l : list} {h t : Nat}
    {pre post : List (Nat × T)} {p : Nat × T} (hr : Rep H l h (pre ++ p :: post) t) :
    p.1 ≠ t := by
  have hn := (List.nodup_append.mp (List.nodup_cons.mp hr.2.2.2.2.1).2).2.2
  intro e
  exact hn (List.mem_map_of_mem _ (List.mem_append_right _ (List.mem_cons_self _ _)))
    (List.mem_singleton.mpr e)

/-- The function `erase` on a node of a well-formed list. -/
theorem erase_rep {T : Type} (H : Heap T) (l : list) (h t : Nat) (pre post : List (Nat × T))
    (p : Nat × T) (hr : Rep H l h (pre ++ p :: post) t) :
    ∃ H1 l1, erase H l (some p.1) = some (H1, l1, some (first_of post t)) ∧
      Rep H1 l1 h (pre ++ post) t ∧
      (∀ a, a ∉ h :: ((pre ++ p :: post).map Prod.fst ++ [t]) →
        load H1 (some a) = load H (some a)) := by
  obtain ⟨hh, ht, hlen, hb, hnd, hl, hdata⟩ := hr
  obtain ⟨R, hR⟩ := map_fst_snoc post t
  obtain ⟨L, P, hL⟩ := exists_snoc (pre.map Prod.fst) h
  have e : h :: (List.map Prod.fst (pre ++ p :: post) ++ [t]) =
      L ++ P :: p.1 :: first_of post t :: R := by
    rw [← hR]
    simp only [List.map_append, List.map_cons, List.append_assoc]
    rw [← List.cons_append, hL]
    simp only [List.append_assoc, List.cons_append, List.nil_append]
  have e2 : h :: (List.map Prod.fst (pre ++ post) ++ [t]) =
      L ++ P :: first_of post t :: R := by
    rw [← hR]
    simp only [List.map_append, List.append_assoc]
    rw [← List.cons_append, hL]
    simp only [List.append_assoc, List.cons_append, List.nil_append]
  rw [e] at hnd hl
  obtain ⟨H1, he, hl1, hx, hd1, hf1⟩ := erase_chain H l L R P p.1 (first_of post t) hnd hl
  have hsub : (L ++ P :: first_of post t :: R).Sublist
      (L ++ P :: p.1 :: first_of post t :: R) :=
    List.Sublist.append_left ((List.sublist_cons_self _ _).cons₂ _) _
  have hlen2 : (pre ++ p :: post).length = (pre ++ post).length + 1 := by
    simp only [List.length_append, List.length_cons]
    omega
  refine ⟨H1, _, he, ⟨hh, ht, ?_, ?_, ?_, ?_, ?_⟩, ?_⟩
  · show (l.m_len + 18446744073709551615) % 18446744073709551616 = (pre ++ post).length
    rw [hlen, hlen2]
    rw [hlen2] at hb
    omega
  · rw [hlen2] at hb
    omega
  · rw [e2]
    exact hnd.sublist hsub
  · rw [e2]
    exact hl1
  · intro q hq
    have hq2 : q ∈ pre ++ p :: post := by
      rcases List.mem_append.mp hq with hq | hq
      · exact List.mem_append_left _ hq
      · exact List.mem_append_right _ (List.mem_cons_of_mem _ hq)
    rw [hd1 q.1 ?_]
    · exact hdata q hq2
    · intro e3
      have hmem : q.1 ∈ L ++ P :: first_of post t :: R := by
        rw [← e2]
        exact List.mem_cons_of_mem _ (List.mem_append_left _ (List.mem_map_of_mem _ hq))
      rw [e3] at hmem
      have hnd2 : (L ++ [P] ++ p.1 :: first_of post t :: R).Nodup := by
        simpa only [List.append_assoc, List.cons_append, List.nil_append] using hnd
      rw [List.nodup_append] at hnd2
      obtain ⟨_, h2, h3⟩ := hnd2
      rcases List.mem_append.mp hmem with hm | hm
      · exact h3 (List.mem_append_left _ hm) (List.mem_cons_self _ _)
      · rcases List.mem_cons.mp hm with hm | hm
        · exact h3 (List.mem_append_right _ (List.mem_singleton.mpr hm))
            (List.mem_cons_self _ _)
        · exact (List.nodup_cons.mp h2).1 hm
  · intro a ha
    rw [e] at ha
    simp only [List.mem_append, List.mem_cons, not_or] at ha
    exact hf1 a ha.2.1 ha.2.2.1 ha.2.2.2.1

/-- The elements met from a node of a well-formed list to its end. -/
theorem walk_spec {T : Type} (H : Heap T) (l : list) (h t : Nat) :
    ∀ (rest : List (Nat × T)) (fuel : Nat) (done : List (Nat × T)),
      rest.length ≤ fuel → Rep H l h (done ++ rest) t →
      walk H l fuel (some (first_of rest t)) = some (rest.map Prod.snd) := by
  intro rest
  induction rest with
  | nil =>
    intro fuel done _ hr
    cases fuel with
    | zero =>
      simp only [walk, end_, first_of, hr.2.1]
      rw [if_neg (by simp)]
      rfl
    | succ f =>
      simp only [walk, end_, first_of, hr.2.1]
      rw [if_neg (by simp)]
      rfl
  | cons p rest ih =>
    intro fuel done hf hr
    cases fuel with
    | zero => simp at hf
    | succ f =>
      have hne : (some p.1 : Option Nat) ≠ end_ l := by
        unfold end_
        rw [hr.2.1]
        intro e
        exact hr.first_ne_tail (Option.some.inj e)
      have hr2 : Rep H l h ((done ++ [p]) ++ rest) t := by
        rw [List.append_assoc]
        exact hr
      simp only [walk, first_of]
      rw [if_pos hne, deref_of_data_of (hr.2.2.2.2.2.2 p (by simp)), Option.some_bind,
        incr_of_next_of hr.next_of_node, Option.some_bind,
        ih f (done ++ [p]) (by simpa using hf) hr2, Option.some_bind]
      rfl

/-- The elements of a well-formed list, read from `begin()` to `end()`. -/
theorem Rep.contents_eq {T : Type} {H : Heap T} {l : list} {h t : Nat}
    {nodes : List (Nat × T)} (hr : Rep H l h nodes t) :
    contents H l = some (nodes.map Prod.snd) := by
  unfold contents
  rw [hr.begin_eq, Option.some_bind]
  exact walk_spec H l h t nodes l.m_len [] (by rw [hr.2.2.1]) hr

/-! ### The function `unique` -/

/-- The loop of `unique` with `slow` on the node `s` and `fast` on the node
after it. -/
theorem unique_loop_spec {T : Type} [DecidableEq T] (h t : Nat) :
    ∀ (rest : List (Nat × T)) (fuel : Nat) (H : Heap T) (l : list) (done : List (Nat × T))
      (s : Nat × T), rest.length ≤ fuel → Rep H l h (done ++ s :: rest) t →
      ∃ H1 l1 kept, unique_loop fuel H l (some s.1) (some (first_of rest t)) = some (H1, l1) ∧
        Rep H1 l1 h (done ++ s :: kept) t ∧
        kept.map Prod.snd = unique_after s.2 (rest.map Prod.snd) ∧ kept.Sublist rest := by
  intro rest
  induction rest with
  | nil =>
    intro fuel H l done s _ hr
    refine ⟨H, l, [], ?_, hr, rfl, List.Sublist.refl _⟩
    cases fuel with
    | zero =>
      simp only [unique_loop, end_, first_of, hr.2.1]
      rw [if_neg (by simp)]
    | succ f =>
      simp only [unique_loop, end_, first_of, hr.2.1]
      rw [if_neg (by simp)]
  | cons p rest ih =>
    intro fuel H l done s hf hr
    cases fuel with
    | zero => simp at hf
    | succ f =>
      have hr2 : Rep H l h ((done ++ [s]) ++ p :: rest) t := by
        rw [List.append_assoc]
        exact hr
      have hne : (some p.1 : Option Nat) ≠ end_ l := by
        unfold end_
        rw [hr.2.1]
        intro e
        exact hr2.first_ne_tail (Option.some.inj e)
      have hlen : rest.length ≤ f := by simpa using hf
      simp only [unique_loop, first_of]
      rw [if_pos hne, deref_of_data_of (hr.2.2.2.2.2.2 s (by simp)), Option.some_bind,
        deref_of_data_of (hr.2.2.2.2.2.2 p (by simp)), Option.some_bind]
      by_cases c : s.2 = p.2
      · rw [if_pos c]
        obtain ⟨H1, l1, he, hr3, _⟩ := erase_rep H l h t (done ++ [s]) rest p hr2
        rw [he, Option.some_bind]
        have hr4 : Rep H1 l1 h (done ++ s :: rest) t := by
          rw [List.append_assoc] at hr3
          exact hr3
        obtain ⟨H2, l2, kept, hu, hr5, hk, hs⟩ := ih f H1 l1 done s hlen hr4
        refine ⟨H2, l2, kept, hu, hr5, ?_, hs.cons _⟩
        rw [hk]
        simp only [List.map_cons, unique_after]
        rw [if_pos c]
      · rw [if_neg c, incr_of_next_of hr2.next_of_node, Option.some_bind]
        obtain ⟨H2, l2, kept, hu, hr5, hk, hs⟩ := ih f H l (done ++ [s]) p hlen hr2
        refine ⟨H2, l2, p :: kept, hu, ?_, ?_, hs.cons₂ _⟩
        · rw [List.append_assoc] at hr5
          exact hr5
        · simp only [List.map_cons, unique_after]
          rw [if_neg c, hk]

/-- The function `unique` on a well-formed list. -/
theorem unique_spec {T : Type} [DecidableEq T] (H : Heap T) (l : list) (h t : Nat)
    (nodes : List (Nat × T)) (hr : Rep H l h nodes t) :
    ∃ H1 l1 nodes1, unique H l = some (H1, l1) ∧ Rep H1 l1 h nodes1 t ∧
      nodes1.map Prod.snd = unique_of (nodes.map Prod.snd) ∧ nodes1.Sublist nodes := by
  cases nodes with
  | nil =>
    refine ⟨H, l, [], ?_, hr, rfl, List.Sublist.refl _⟩
    unfold unique empty
    rw [hr.2.2.1]
    rfl
  | cons s rest =>
    have hr2 : Rep H l h ([] ++ s :: rest) t := hr
    obtain ⟨H1, l1, kept, hu, hr3, hk, hs⟩ :=
      unique_loop_spec h t rest l.m_len H l [] s (by rw [hr.2.2.1]; simp) hr2
    refine ⟨H1, l1, s :: kept, ?_, hr3, ?_, hs.cons₂ _⟩
    · unfold unique empty
      rw [hr.2.2.1]
      simp only [List.length_cons, Nat.add_one_ne_zero, decide_False, Bool.false_eq_true,
        if_false]
      rw [hr.begin_eq, Option.some_bind, Option.some_bind]
      simp only [first_of]
      rw [incr_of_next_of hr2.next_of_node, Option.some_bind]
      rw [hr.2.2.1] at hu
      exact hu
    · simp only [List.map_cons, unique_of]
      rw [hk]

/-- The loop of `unique` on nodes none of which holds the element of the node
before it: nothing changes. -/
theorem unique_loop_fixed {T : Type} [DecidableEq T] (h t : Nat) :
    ∀ (rest : List (Nat × T)) (fuel : Nat) (H : Heap T) (l : list) (done : List (Nat × T))
      (s : Nat × T), rest.length ≤ fuel → Rep H l h (done ++ s :: rest) t →
      List.Chain (fun a b => a ≠ b) s.2 (rest.map Prod.snd) →
      unique_loop fuel H l (some s.1) (some (first_of rest t)) = some (H, l) := by
  intro rest
  induction rest with
  | nil =>
    intro fuel H l done s _ hr _
    cases fuel with
    | zero =>
      simp only [unique_loop, end_, first_of, hr.2.1]
      rw [if_neg (by simp)]
    | succ f =>
      simp only [unique_loop, end_, first_of, hr.2.1]
      rw [if_neg (by simp)]
  | cons p rest ih =>
    intro fuel H l done s hf hr hc
    cases fuel with
    | zero => simp at hf
    | succ f =>
      have hr2 : Rep H l h ((done ++ [s]) ++ p :: rest) t := by
        rw [List.append_assoc]
        exact hr
      have hne : (some p.1 : Option Nat) ≠ end_ l := by
        unfold end_
        rw [hr.2.1]
        intro e
        exact hr2.first_ne_tail (Option.some.inj e)
      have hlen : rest.length ≤ f := by simpa using hf
      rw [List.map_cons, List.chain_cons] at hc
      simp only [unique_loop, first_of]
      rw [if_pos hne, deref_of_data_of (hr.2.2.2.2.2.2 s (by simp)), Option.some_bind,
        deref_of_data_of (hr.2.2.2.2.2.2 p (by simp)), Option.some_bind, if_neg hc.1,
        incr_of_next_of hr2.next_of_node, Option.some_bind]
      exact ih f H l (done ++ [s]) p hlen hr2 hc.2

/-- The function `unique` on a list without two adjacent equal elements:
nothing changes. -/
theorem unique_fixed {T : Type} [DecidableEq T] (H : Heap T) (l : list) (h t : Nat)
    (nodes : List (Nat × T)) (hr : Rep H l h nodes t)
    (hc : List.Chain' (fun a b => a ≠ b) (nodes.map Prod.snd)) :
    unique H l = some (H, l) := by
  cases nodes with
  | nil =>
    unfold unique empty
    rw [hr.2.2.1]
    rfl
  | cons s rest =>
    have hr2 : Rep H l h ([] ++ s :: rest) t := hr
    unfold unique empty
    rw [hr.2.2.1]
    simp only [List.length_cons, Nat.add_one_ne_zero, decide_False, Bool.false_eq_true,
      if_false]
    rw [hr.begin_eq, Option.some_bind, Option.some_bind]
    simp only [first_of]
    rw [incr_of_next_of hr2.next_of_node, Option.some_bind]
    exact unique_loop_fixed h t rest _ H l [] s (by simp) hr2 hc

end sc.list

/-! ## The doubly linked list: the elements `unique` keeps -/

namespace sc.list

theorem unique_after_chain {T : Type} [DecidableEq T] :
    ∀ (r : List T) (v : T), List.Chain (fun a b => a ≠ b) v (unique_after v r) := by
  intro r
  induction r with
  | nil => intro v; exact List.Chain.nil
  | cons w r ih =>
    intro v
    simp only [unique_after]
    by_cases c : v = w
    · rw [if_pos c]
      exact ih v
    · rw [if_neg c]
      exact List.Chain.cons c (ih w)

theorem unique_of_chain {T : Type} [DecidableEq T] (xs : List T) :
    List.Chain' (fun a b => a ≠ b) (unique_of xs) := by
  cases xs with
  | nil => exact List.chain'_nil
  | cons v r => exact unique_after_chain r v

theorem unique_after_sublist {T : Type} [DecidableEq T] :
    ∀ (r : List T) (v : T), (unique_after v r).Sublist r := by
  intro r
  induction r with
  | nil => intro v; exact List.Sublist.refl _
  | cons w r ih =>
    intro v
    simp only [unique_after]
    by_cases c : v = w
    · rw [if_pos c]
      exact (ih v).cons _
    · rw [if_neg c]
      exact (ih w).cons₂ _

theorem unique_of_sublist {T : Type} [DecidableEq T] (xs : List T) :
    (unique_of xs).Sublist xs := by
  cases xs with
  | nil => exact List.Sublist.refl _
  | cons v r => exact (unique_after_sublist r v).cons₂ _

theorem unique_after_congr {T : Type} [DecidableEq T] (r : List T) (v w : T) (h : v = w) :
    unique_after v r = unique_after w r := by
  rw [h]

/-- The runs of a list: what `unique_of` keeps are their first elements, the
first run starts with the first element, and no run is empty. -/
theorem runs_heads {T : Type} [DecidableEq T] :
    ∀ xs : List T, unique_of xs = (runs xs).filterMap List.head? ∧
      (runs xs).head?.bind List.head? = xs.head? ∧
      (∀ r ∈ runs xs, ∃ x k, r = List.replicate (k + 1) x) ∧
      (runs xs).flatten = xs ∧
      List.Chain' (fun r1 r2 : List T => r1.head? ≠ r2.head?) (runs xs) := by
  intro xs
  induction xs with
  | nil => exact ⟨rfl, rfl, fun r hr => absurd hr (List.not_mem_nil r), rfl, List.chain'_nil⟩
  | cons x xs ih =>
    obtain ⟨ih1, ih2, ih3, ih4, ih5⟩ := ih
    cases hrs : runs xs with
    | nil =>
      rw [hrs] at ih2 ih4
      have hxs : xs = [] := ih4.symm
      subst hxs
      have e : runs [x] = [[x]] := rfl
      rw [e]
      refine ⟨rfl, rfl, ?_, rfl, List.chain'_singleton _⟩
      intro r hr
      rw [List.mem_singleton.mp hr]
      exact ⟨x, 0, rfl⟩
    | cons r rs =>
      rw [hrs] at ih1 ih2 ih3 ih4 ih5
      obtain ⟨y, k, hy⟩ := ih3 r (List.mem_cons_self _ _)
      have hrh : r.head? = some y := by rw [hy]; rfl
      have hxh : xs.head? = some y := by
        rw [← ih2]
        simp only [List.head?_cons, Option.some_bind]
        exact hrh
      obtain ⟨xs1, hxs1⟩ : ∃ xs1, xs = y :: xs1 := by
        cases xs with
        | nil => cases hxh
        | cons w xs1 =>
          simp only [List.head?_cons, Option.some.injEq] at hxh
          exact ⟨xs1, by rw [hxh]⟩
      have hu : unique_after y xs1 = rs.filterMap List.head? := by
        rw [hxs1] at ih1
        simp only [unique_of, List.filterMap_cons, hrh, List.cons.injEq, true_and] at ih1
        exact ih1
      by_cases c : y = x
      · have e : runs (x :: xs) = (x :: r) :: rs := by
          simp only [runs, hrs, hrh, c, if_true]
        rw [e]
        refine ⟨?_, rfl, ?_, ?_, ?_⟩
        · rw [hxs1]
          simp only [unique_of, unique_after, List.filterMap_cons, List.head?_cons]
          rw [if_pos c.symm, ← hu, c]
        · intro r1 hr1
          rcases List.mem_cons.mp hr1 with hr1 | hr1
          · rw [hr1, hy, c]
            exact ⟨x, k + 1, rfl⟩
          · exact ih3 r1 (List.mem_cons_of_mem _ hr1)
        · rw [List.flatten_cons, List.cons_append, ← List.flatten_cons, ih4]
        · cases rs with
          | nil => exact List.chain'_singleton _
          | cons r2 rs2 =>
            rw [List.chain'_cons] at ih5 ⊢
            refine ⟨?_, ih5.2⟩
            rw [List.head?_cons, ← c, ← hrh]
            exact ih5.1
      · have e : runs (x :: xs) = [x] :: r :: rs := by
          simp only [runs, hrs, hrh, Option.some.injEq, c, if_false]
        rw [e]
        refine ⟨?_, rfl, ?_, ?_, ?_⟩
        · rw [hxs1]
          simp only [unique_of, unique_after, List.filterMap_cons, List.head?_cons, hrh]
          rw [if_neg (Ne.symm c), hu]
        · intro r1 hr1
          rcases List.mem_cons.mp hr1 with hr1 | hr1
          · rw [hr1]
            exact ⟨x, 0, rfl⟩
          · exact ih3 r1 hr1
        · rw [List.flatten_cons, ih4]
          rfl
        · rw [List.chain'_cons]
          refine ⟨?_, ih5⟩
          rw [hrh, List.head?_cons]
          intro e2
          exact c (Option.some.inj e2).symm

theorem length_unique_of {T : Type} [DecidableEq T] (xs : List T) :
    (unique_of xs).length = (runs xs).length := by
  obtain ⟨h1, _, h3, _, _⟩ := runs_heads xs
  rw [h1]
  generalize runs xs = rs at h3
  induction rs with
  | nil => rfl
  | cons r rs ih =>
    obtain ⟨x, k, hx⟩ := h3 r (List.mem_cons_self _ _)
    have hh : r.head? = some x := by rw [hx]; rfl
    rw [List.filterMap_cons, hh]
    simp only [List.length_cons]
    rw [ih (fun r1 hr1 => h3 r1 (List.mem_cons_of_mem _ hr1))]

/-- C37: on every well-formed list `unique()` returns and leaves a well-formed
list of nodes of the input, in the same order.  Its elements are the first
elements of the maximal runs of consecutive equal elements of the input (the
runs are not empty, each is made of one element repeated, they make up the
input, and two adjacent runs are made of different elements); no two adjacent
elements of the result are equal, the result is a subsequence of the input,
`size()` is the number of runs, and a second `unique()` changes neither the
heap nor the list. -/
theorem unique_result {T : Type} [DecidableEq T] (H : Heap T) (l : list) (h t : Nat)
    (nodes : List (Nat × T)) (hr : Rep H l h nodes t) :
    ∃ H1 l1 nodes1, unique H l = some (H1, l1) ∧ Rep H1 l1 h nodes1 t ∧
      nodes1.Sublist nodes ∧
      contents H l = some (nodes.map Prod.snd) ∧
      contents H1 l1 = some ((runs (nodes.map Prod.snd)).filterMap List.head?) ∧
      (∀ r ∈ runs (nodes.map Prod.snd), ∃ x k, r = List.replicate (k + 1) x) ∧
      (runs (nodes.map Prod.snd)).flatten = nodes.map Prod.snd ∧
      List.Chain' (fun r1 r2 : List T => r1.head? ≠ r2.head?) (runs (nodes.map Prod.snd)) ∧
      List.Chain' (fun a b => a ≠ b) (nodes1.map Prod.snd) ∧
      (nodes1.map Prod.snd).Sublist (nodes.map Prod.snd) ∧
      size l1 = (runs (nodes.map Prod.snd)).length ∧
      unique H1 l1 = some (H1, l1) := by
  obtain ⟨H1, l1, nodes1, hu, hr1, hd, hs⟩ := unique_spec H l h t nodes hr
  obtain ⟨h1, _, h3, h4, h5⟩ := runs_heads (nodes.map Prod.snd)
  have hc : List.Chain' (fun a b => a ≠ b) (nodes1.map Prod.snd) := by
    rw [hd]
    exact unique_of_chain _
  refine ⟨H1, l1, nodes1, hu, hr1, hs, hr.contents_eq, ?_, h3, h4, h5, hc, ?_, ?_,
    unique_fixed H1 l1 h t nodes1 hr1 hc⟩
  · rw [hr1.contents_eq, hd, h1]
  · rw [hd]
    exact unique_of_sublist _
  · unfold size
    rw [hr1.2.2.1, ← List.length_map nodes1 Prod.snd, hd, length_unique_of]

theorem unique_result_witness :
    ctor_ilist ([] : Heap Int) [1, 1, 2, 2, 2, 3, 1, 1] =
        some ([some ⟨0, some 2, none⟩, some ⟨0, none, some 9⟩, some ⟨1, some 3, some 0⟩,
          some ⟨1, some 4, some 2⟩, some ⟨2, some 5, some 3⟩, some ⟨2, some 6, some 4⟩,
          some ⟨2, some 7, some 5⟩, some ⟨3, some 8, some 6⟩, some ⟨1, some 9, some 7⟩,
          some ⟨1, some 1, some 8⟩], ⟨8, some 0, some 1⟩) ∧
      Rep ([some ⟨0, some 2, none⟩, some ⟨0, none, some 9⟩, some ⟨1, some 3, some 0⟩,
          some ⟨1, some 4, some 2⟩, some ⟨2, some 5, some 3⟩, some ⟨2, some 6, some 4⟩,
          some ⟨2, some 7, some 5⟩, some ⟨3, some 8, some 6⟩, some ⟨1, some 9, some 7⟩,
          some ⟨1, some 1, some 8⟩] : Heap Int) ⟨8, some 0, some 1⟩ 0
        [(2, 1), (3, 1), (4, 2), (5, 2), (6, 2), (7, 3), (8, 1), (9, 1)] 1 ∧
      ∃ H1 l1 nodes1, unique ([some ⟨0, some 2, none⟩, some ⟨0, none, some 9⟩,
          some ⟨1, some 3, some 0⟩, some ⟨1, some 4, some 2⟩, some ⟨2, some 5, some 3⟩,
          some ⟨2, some 6, some 4⟩, some ⟨2, some 7, some 5⟩, some ⟨3, some 8, some 6⟩,
          some ⟨1, some 9, some 7⟩, some ⟨1, some 1, some 8⟩] : Heap Int)
          ⟨8, some 0, some 1⟩ = some (H1, l1) ∧ Rep H1 l1 0 nodes1 1 ∧
        contents H1 l1 = some [1, 2, 3, 1] ∧ size l1 = 4 := by
  refine ⟨by decide, by decide, ?_⟩
  obtain ⟨H1, l1, nodes1, hu, hr1, _, _, hc, _, _, _, _, _, hsz, _⟩ :=
    unique_result _ _ 0 1 _ (show Rep ([some ⟨0, some 2, none⟩, some ⟨0, none, some 9⟩,
      some ⟨1, some 3, some 0⟩, some ⟨1, some 4, some 2⟩, some ⟨2, some 5, some 3⟩,
      some ⟨2, some 6, some 4⟩, some ⟨2, some 7, some 5⟩, some ⟨3, some 8, some 6⟩,
      some ⟨1, some 9, some 7⟩, some ⟨1, some 1, some 8⟩] : Heap Int) ⟨8, some 0, some 1⟩ 0
      [(2, 1), (3, 1), (4, 2), (5, 2), (6, 2), (7, 3), (8, 1), (9, 1)] 1 by decide)
  exact ⟨H1, l1, nodes1, hu, hr1, hc, hsz⟩

end sc.list

/-! ## The doubly linked list: `merge` -/

namespace sc.list

theorem next_of_set {T : Type} (H : Heap T) (a b : Nat) (m : Node T) :
    next_of (H.set a (some m)) b =
      if a = b then (if a < H.length then some m.next else none) else next_of H b := by
  unfold next_of
  rw [load_set]
  by_cases c1 : a = b
  · rw [if_pos c1, if_pos c1]
    by_cases c2 : a < H.length
    · rw [if_pos c2, if_pos c2]
      rfl
    · rw [if_neg c2, if_neg c2]
      rfl
  · rw [if_neg c1, if_neg c1]

theorem prev_of_set {T : Type} (H : Heap T) (a b : Nat) (m : Node T) :
    prev_of (H.set a (some m)) b =
      if a = b then (if a < H.length then some m.prev else none) else prev_of H b := by
  unfold prev_of
  rw [load_set]
  by_cases c1 : a = b
  · rw [if_pos c1, if_pos c1]
    by_cases c2 : a < H.length
    · rw [if_pos c2, if_pos c2]
      rfl
    · rw [if_neg c2, if_neg c2]
      rfl
  · rw [if_neg c1, if_neg c1]

theorem data_of_set {T : Type} (H : Heap T) (a b : Nat) (m : Node T) :
    data_of (H.set a (some m)) b =
      if a = b then (if a < H.length then some m.data else none) else data_of H b := by
  unfold data_of
  rw [load_set]
  by_cases c1 : a = b
  · rw [if_pos c1, if_pos c1]
    by_cases c2 : a < H.length
    · rw [if_pos c2, if_pos c2]
      rfl
    · rw [if_neg c2, if_neg c2]
      rfl
  · rw [if_neg c1, if_neg c1]

/-- The heap after `p->next = v`: the pointers and data it holds. -/
theorem set_next_effect {T : Type} {H : Heap T} {a : Nat} {n : Node T}
    (h : load H (some a) = some n) (v : Option Nat) :
    ∃ H1, set_next H (some a) v = some H1 ∧
      load H1 (some a) = some { n with next := v } ∧
      (∀ b, b ≠ a → load H1 (some b) = load H (some b)) ∧
      (∀ b, next_of H1 b = if b = a then some v else next_of H b) ∧
      (∀ b, prev_of H1 b = prev_of H b) ∧ (∀ b, data_of H1 b = data_of H b) := by
  have hlt := load_lt h
  refine ⟨_, set_next_eq h v, ?_, ?_, ?_, ?_, ?_⟩
  · rw [load_set, if_pos rfl, if_pos hlt]
  · intro b hb
    rw [load_set, if_neg (Ne.symm hb)]
  · intro b
    rw [next_of_set]
    by_cases c : a = b
    · rw [if_pos c, if_pos hlt, if_pos c.symm]
    · rw [if_neg c, if_neg (Ne.symm c)]
  · intro b
    rw [prev_of_set]
    by_cases c : a = b
    · rw [if_pos c, if_pos hlt, ← c, prev_of_eq h]
    · rw [if_neg c]
  · intro b
    rw [data_of_set]
    by_cases c : a = b
    · rw [if_pos c, if_pos hlt, ← c, data_of_eq h]
    · rw [if_neg c]

/-- The heap after `p->prev = v`: the pointers and data it holds. -/
theorem set_prev_effect {T : Type} {H : Heap T} {a : Nat} {n : Node T}
    (h : load H (some a) = some n) (v : Option Nat) :
    ∃ H1, set_prev H (some a) v = some H1 ∧
      load H1 (some a) = some { n with prev := v } ∧
      (∀ b, b ≠ a → load H1 (some b) = load H (some b)) ∧
      (∀ b, next_of H1 b = next_of H b) ∧
      (∀ b, prev_of H1 b = if b = a then some v else prev_of H b) ∧
      (∀ b, data_of H1 b = data_of H b) := by
  have hlt := load_lt h
  refine ⟨_, set_prev_eq h v, ?_, ?_, ?_, ?_, ?_⟩
  · rw [load_set, if_pos rfl, if_pos hlt]
  · intro b hb
    rw [load_set, if_neg (Ne.symm hb)]
  · intro b
    rw [next_of_set]
    by_cases c : a = b
    · rw [if_pos c, if_pos hlt, ← c, next_of_eq h]
    · rw [if_neg c]
  · intro b
    rw [prev_of_set]
    by_cases c : a = b
    · rw [if_pos c, if_pos hlt, if_pos c.symm]
    · rw [if_neg c, if_neg (Ne.symm c)]
  · intro b
    rw [data_of_set]
    by_cases c : a = b
    · rw [if_pos c, if_pos hlt, ← c, data_of_eq h]
    · rw [if_neg c]

/-- The statements of `merge` that move a node: the node `n2`, first of a
chain, is linked in between the nodes `P` and `n1` of another chain, and `it2`
goes to the node `m2` after it. -/
theorem merge_move_chain {T : Type} (H : Heap T) (L R1 R2 : List Nat) (P n1 n2 m2 : Nat)
    (hnd : ((L ++ P :: n1 :: R1) ++ n2 :: m2 :: R2).Nodup)
    (h1 : Linked H (L ++ P :: n1 :: R1)) (h2 : Linked H (n2 :: m2 :: R2)) :
    ∃ H4, merge_move H (some n1) (some n2) = some (H4, some m2) ∧
      Linked H4 (L ++ P :: n2 :: n1 :: R1) ∧ Linked H4 (m2 :: R2) ∧
      (∀ a, data_of H4 a = data_of H a) ∧
      (∀ a, a ≠ P → a ≠ n1 → a ≠ n2 → load H4 (some a) = load H (some a)) := by
  obtain ⟨hL, hPn, hR1⟩ : Linked H (L ++ [P]) ∧ Link H P n1 ∧ Linked H (n1 :: R1) := by
    have := (linked_append H P (n1 :: R1) L).mp h1
    exact ⟨this.1, this.2.1, this.2.2⟩
  obtain ⟨hnm, hR2⟩ : Link H n2 m2 ∧ Linked H (m2 :: R2) := h2
  have hd : P ≠ n1 ∧ P ≠ n2 ∧ n1 ≠ n2 ∧ m2 ≠ n2 ∧ m2 ≠ n1 ∧ m2 ≠ P ∧
      (∀ a ∈ L, a ≠ P ∧ a ≠ n1 ∧ a ≠ n2) ∧ (∀ a ∈ R1, a ≠ P ∧ a ≠ n1 ∧ a ≠ n2) ∧
      (∀ a ∈ R2, a ≠ P ∧ a ≠ n1 ∧ a ≠ n2) := by
    simp only [List.nodup_append, List.nodup_cons, List.mem_append, List.mem_cons, not_or,
      List.Disjoint] at hnd
    obtain ⟨⟨hLn, ⟨⟨hP1, hP2⟩, ⟨hn1, hR1n⟩⟩, hLd⟩, ⟨⟨hn2a, hn2b⟩, ⟨hm2, hR2n⟩⟩, hdis⟩ := hnd
    have c1 : P ≠ n2 := fun e => hdis (Or.inr (Or.inl rfl)) (Or.inl e)
    have c2 : n1 ≠ n2 := fun e => hdis (Or.inr (Or.inr (Or.inl rfl))) (Or.inl e)
    have c3 : m2 ≠ n1 := fun e => hdis (Or.inr (Or.inr (Or.inl rfl))) (Or.inr (Or.inl e.symm))
    have c4 : m2 ≠ P := fun e => hdis (Or.inr (Or.inl rfl)) (Or.inr (Or.inl e.symm))
    refine ⟨hP1, c1, c2, Ne.symm hn2a, c3, c4, ?_, ?_, ?_⟩
    · intro a ha
      refine ⟨fun e => hLd ha (Or.inl e), fun e => hLd ha (Or.inr (Or.inl e)),
        fun e => hdis (Or.inl ha) (Or.inl e)⟩
    · intro a ha
      refine ⟨fun e => hP2 (e ▸ ha), fun e => hn1 (e ▸ ha),
        fun e => hdis (Or.inr (Or.inr (Or.inr ha))) (Or.inl e)⟩
    · intro a ha
      refine ⟨fun e => hdis (Or.inr (Or.inl rfl)) (Or.inr (Or.inr (e ▸ ha))),
        fun e => hdis (Or.inr (Or.inr (Or.inl rfl))) (Or.inr (Or.inr (e ▸ ha))),
        fun e => hn2b (e ▸ ha)⟩
  obtain ⟨dPn1, dPn2, dn1n2, dm2n2, dm2n1, dm2P, dL, dR1, dR2⟩ := hd
  obtain ⟨NP, hP, _⟩ := load_of_next_of hPn.1
  obtain ⟨N1, hN1, hN1p⟩ := load_of_prev_of hPn.2
  obtain ⟨N2, hN2, hN2n⟩ := load_of_next_of hnm.1
  obtain ⟨M2, hM2, hM2p⟩ := load_of_prev_of hnm.2
  obtain ⟨H1, e1, _, f1, n1e, p1e, d1e⟩ := set_next_effect hP (some n2)
  have hN1a : load H1 (some n1) = some N1 := by rw [f1 n1 (Ne.symm dPn1), hN1]
  have hN2a : load H1 (some n2) = some N2 := by rw [f1 n2 (Ne.symm dPn2), hN2]
  obtain ⟨H2, e2, l2, f2, n2e, p2e, d2e⟩ := set_prev_effect hN2a (some P)
  have hN1b : load H2 (some n1) = some N1 := by rw [f2 n1 dn1n2, hN1a]
  obtain ⟨H3, e3, l3, f3, n3e, p3e, d3e⟩ := set_prev_effect hN1b (some n2)
  have hN2c : load H3 (some n2) = some { N2 with prev := some P } := by
    rw [f3 n2 (Ne.symm dn1n2), l2]
  have hM2c : load H3 (some m2) = some M2 := by
    rw [f3 m2 dm2n1, f2 m2 dm2n2, f1 m2 dm2P, hM2]
  obtain ⟨H4, e4, l4, f4, n4e, p4e, d4e⟩ := set_next_effect hN2c (some n1)
  have hnext : ∀ a, a ≠ P → a ≠ n2 → next_of H4 a = next_of H a := by
    intro a c1 c2
    rw [n4e, if_neg c2, n3e, n2e, n1e, if_neg c1]
  have hprev : ∀ a, a ≠ n1 → a ≠ n2 → prev_of H4 a = prev_of H a := by
    intro a c1 c2
    rw [p4e, p3e, if_neg c1, p2e, if_neg c2, p1e]
  refine ⟨H4, ?_, ?_, ?_, ?_, ?_⟩
  · unfold merge_move
    rw [hN1, Option.some_bind, hN1p, e1, Option.some_bind, hN1a, Option.some_bind, hN1p, e2,
      Option.some_bind, e3, Option.some_bind]
    have hi : incr H3 (some n2) = some (some m2) := by
      unfold incr
      simp only []
      rw [hN2c, Option.some_bind]
      exact congrArg some hN2n
    rw [hi, Option.some_bind, hM2c, Option.some_bind, hM2p, e4, Option.some_bind]
  · refine (linked_append _ P (n2 :: n1 :: R1) L).mpr ⟨?_, ⟨?_, ?_⟩, ⟨?_, ?_⟩, ?_⟩
    · refine linked_snoc_congr L P ?_ ?_ hL
      · intro a ha
        exact hnext a (dL a ha).1 (dL a ha).2.2
      · intro b hb
        rcases List.mem_append.mp hb with hb | hb
        · exact hprev b (dL b hb).2.1 (dL b hb).2.2
        · rw [List.mem_singleton.mp hb]
          exact hprev P dPn1 dPn2
    · rw [n4e, if_neg dPn2, n3e, n2e, n1e, if_pos rfl]
    · rw [p4e, p3e, if_neg (Ne.symm dn1n2), p2e, if_pos rfl]
    · rw [n4e, if_pos rfl]
    · rw [p4e, p3e, if_pos rfl]
    · refine linked_cons_congr n1 R1 ?_ ?_ hR1
      · intro a ha
        rcases List.mem_cons.mp ha with ha | ha
        · rw [ha]
          exact hnext n1 (Ne.symm dPn1) dn1n2
        · exact hnext a (dR1 a ha).1 (dR1 a ha).2.2
      · intro b hb
        exact hprev b (dR1 b hb).2.1 (dR1 b hb).2.2
  · refine linked_cons_congr m2 R2 ?_ ?_ hR2
    · intro a ha
      rcases List.mem_cons.mp ha with ha | ha
      · rw [ha]
        exact hnext m2 dm2P dm2n2
      · exact hnext a (dR2 a ha).1 (dR2 a ha).2.2
    · intro b hb
      exact hprev b (dR2 b hb).2.1 (dR2 b hb).2.2
  · intro a
    rw [d4e, d3e, d2e, d1e]
  · intro a c1 c2 c3
    rw [f4 a c3, f3 a c2, f2 a c3, f1 a c1]

/-- The two chains `merge` works on, before and after a node is moved. -/
theorem merge_chains_eq {T : Type} (h1 t1 t2 : Nat) (done restA restB : List (Nat × T))
    (b : Nat × T) :
    ∃ L P R1 R2,
      h1 :: (List.map Prod.fst (done ++ restA) ++ [t1]) = L ++ P :: first_of restA t1 :: R1 ∧
      List.map Prod.fst (b :: restB) ++ [t2] = b.1 :: first_of restB t2 :: R2 ∧
      h1 :: (List.map Prod.fst ((done ++ [b]) ++ restA) ++ [t1]) =
        L ++ P :: b.1 :: first_of restA t1 :: R1 ∧
      List.map Prod.fst restB ++ [t2] = first_of restB t2 :: R2 := by
  obtain ⟨L, P, hL⟩ := exists_snoc (done.map Prod.fst) h1
  obtain ⟨R1, hR1⟩ := map_fst_snoc restA t1
  obtain ⟨R2, hR2⟩ := map_fst_snoc restB t2
  refine ⟨L, P, R1, R2, ?_, ?_, ?_, hR2⟩
  · rw [← hR1]
    simp only [List.map_append, List.append_assoc]
    rw [← List.cons_append, hL]
    simp only [List.append_assoc, List.cons_append, List.nil_append]
  · rw [← hR2]
    rfl
  · rw [← hR1]
    simp only [List.map_append, List.map_cons, List.map_nil, List.append_assoc]
    rw [← List.cons_append, hL]
    simp only [List.append_assoc, List.cons_append, List.nil_append]

/-- The chains stay without repetition when a node goes from one to the
other. -/
theorem nodup_move {α : Type} (X Y Z : List α) (b : α) (h : ((X ++ Y) ++ b :: Z).Nodup) :
    ((X ++ b :: Y) ++ Z).Nodup := by
  refine (List.Perm.nodup_iff ?_).mp h
  have p1 : ((X ++ Y) ++ b :: Z).Perm (b :: ((X ++ Y) ++ Z)) := List.perm_middle
  have p2 : ((X ++ b :: Y) ++ Z).Perm (b :: ((X ++ Y) ++ Z)) := by
    rw [List.append_assoc, List.cons_append, List.append_assoc]
    exact List.perm_middle
  exact p1.trans p2.symm

/-- The second loop of `merge`, and the first one when it moves nodes only:
the nodes left of the other list go in before the node of `it1`. -/
theorem merge_rest_spec {T : Type} (other : list) (h1 t1 t2 : Nat)
    (ht2 : other.m_tail = some t2) :
    ∀ (restB : List (Nat × T)) (fuel : Nat) (H : Heap T) (done restA : List (Nat × T)),
      restB.length ≤ fuel →
      ((h1 :: (List.map Prod.fst (done ++ restA) ++ [t1])) ++
        (List.map Prod.fst restB ++ [t2])).Nodup →
      Linked H (h1 :: (List.map Prod.fst (done ++ restA) ++ [t1])) →
      Linked H (List.map Prod.fst restB ++ [t2]) →
      ∃ H1, merge_rest other fuel H (some (first_of restA t1)) (some (first_of restB t2)) =
          some H1 ∧
        Linked H1 (h1 :: (List.map Prod.fst (done ++ (restB ++ restA)) ++ [t1])) ∧
        (∀ a, data_of H1 a = data_of H a) ∧
        (∀ a, a ∉ h1 :: (List.map Prod.fst (done ++ restA) ++ [t1]) →
          a ∉ List.map Prod.fst restB → load H1 (some a) = load H (some a)) := by
  intro restB
  induction restB with
  | nil =>
    intro fuel H done restA _ _ hl1 _
    refine ⟨H, ?_, hl1, fun _ => rfl, fun _ _ _ => rfl⟩
    cases fuel with
    | zero =>
      simp only [merge_rest, end_, first_of, ht2]
      rw [if_neg (by simp)]
    | succ f =>
      simp only [merge_rest, end_, first_of, ht2]
      rw [if_neg (by simp)]
  | cons b restB ih =>
    intro fuel H done restA hf hnd hl1 hl2
    cases fuel with
    | zero => simp at hf
    | succ f =>
      obtain ⟨L, P, R1, R2, ec1, ec2, ec3, ec4⟩ := merge_chains_eq h1 t1 t2 done restA restB b
      have hne : (some b.1 : Option Nat) ≠ end_ other := by
        unfold end_
        rw [ht2]
        intro e
        have hnd2 := (List.nodup_append.mp hnd).2.1
        rw [List.map_cons, List.cons_append, List.nodup_cons] at hnd2
        exact hnd2.1 (by rw [Option.some.inj e]; simp)
      have hnd3 : ((L ++ P :: b.1 :: first_of restA t1 :: R1) ++
          first_of restB t2 :: R2).Nodup := by
        have := hnd
        rw [ec1, ec2] at this
        have e : L ++ P :: first_of restA t1 :: R1 = (L ++ [P]) ++ first_of restA t1 :: R1 := by
          simp only [List.append_assoc, List.cons_append, List.nil_append]
        have e2 : L ++ P :: b.1 :: first_of restA t1 :: R1 =
            (L ++ [P]) ++ b.1 :: first_of restA t1 :: R1 := by
          simp only [List.append_assoc, List.cons_append, List.nil_append]
        rw [e] at this
        rw [e2]
        exact nodup_move _ _ _ _ this
      rw [ec1, ec2] at hnd
      rw [ec1] at hl1
      rw [ec2] at hl2
      obtain ⟨H4, hm, hl3, hl4, hd4, hf4⟩ :=
        merge_move_chain H L R1 R2 P (first_of restA t1) b.1 (first_of restB t2) hnd hl1 hl2
      rw [← ec3] at hl3 hnd3
      rw [← ec4] at hl4 hnd3
      obtain ⟨H5, hm5, hl5, hd5, hf5⟩ :=
        ih f H4 (done ++ [b]) restA (by simpa using hf) hnd3 hl3 hl4
      refine ⟨H5, ?_, ?_, ?_, ?_⟩
      · simp only [merge_rest, first_of_cons]
        rw [if_pos hne, hm, Option.some_bind]
        exact hm5
      · simpa only [List.append_assoc, List.cons_append, List.nil_append] using hl5
      · intro a
        rw [hd5, hd4]
      · intro a ha1 ha2
        have hmem : a ∉ L ++ P :: first_of restA t1 :: R1 := by
          rw [← ec1]
          exact ha1
        have hb : a ≠ b.1 := by
          intro e
          exact ha2 (by rw [e]; simp)
        rw [hf5 a ?_ ?_, hf4 a ?_ ?_ hb]
        · intro e
          exact hmem (by rw [e]; simp)
        · intro e
          exact hmem (by rw [e]; simp)
        · rw [ec3]
          intro hin
          apply hmem
          simp only [List.mem_append, List.mem_cons] at hin ⊢
          tauto
        · intro hin
          exact ha2 (List.mem_map.mpr (by
            obtain ⟨q, hq, e⟩ := List.mem_map.mp hin
            exact ⟨q, List.mem_cons_of_mem _ hq, e⟩))

theorem linked_next_of_head {T : Type} {H : Heap T} {h t : Nat} {nodes : List (Nat × T)}
    (hl : Linked H (h :: (List.map Prod.fst nodes ++ [t]))) :
    next_of H h = some (some (first_of nodes t)) := by
  obtain ⟨R, hR⟩ := map_fst_snoc nodes t
  rw [hR] at hl
  exact hl.1.1

theorem linked_prev_of_tail {T : Type} {H : Heap T} {h t : Nat} {nodes : List (Nat × T)}
    (hl : Linked H (h :: (List.map Prod.fst nodes ++ [t]))) :
    ∃ P, prev_of H t = some (some P) := by
  obtain ⟨L, P, hL⟩ := exists_snoc (nodes.map Prod.fst) h
  rw [← List.cons_append, hL, List.append_assoc] at hl
  exact ⟨P, ((linked_append H P [t] L).mp hl).2.1.2⟩

theorem linked_next_of_node {T : Type} {H : Heap T} {h t : Nat}
    {pre post : List (Nat × T)} {p : Nat × T}
    (hl : Linked H (h :: (List.map Prod.fst (pre ++ p :: post) ++ [t]))) :
    next_of H p.1 = some (some (first_of post t)) := by
  obtain ⟨R, hR⟩ := map_fst_snoc post t
  have e : h :: (List.map Prod.fst (pre ++ p :: post) ++ [t]) =
      (h :: List.map Prod.fst pre) ++ p.1 :: first_of post t :: R := by
    rw [← hR]
    simp only [List.map_append, List.map_cons, List.append_assoc, List.cons_append]
  rw [e] at hl
  exact ((linked_append H _ _ _).mp hl).2.1.1

/-- The two loops of `merge`, one after the other: the nodes left of the two
lists are merged in before the tail node of this list. -/
theorem merge_loop_spec {T : Type} (lt : T → T → Bool) (this other : list) (h1 t1 t2 : Nat)
    (ht1 : this.m_tail = some t1) (ht2 : other.m_tail = some t2) (f2 : Nat) :
    ∀ (fuel : Nat) (restA restB : List (Nat × T)) (H : Heap T) (done : List (Nat × T)),
      restA.length + restB.length ≤ fuel → restB.length ≤ f2 →
      ((h1 :: (List.map Prod.fst (done ++ restA) ++ [t1])) ++
        (List.map Prod.fst restB ++ [t2])).Nodup →
      Linked H (h1 :: (List.map Prod.fst (done ++ restA) ++ [t1])) →
      Linked H (List.map Prod.fst restB ++ [t2]) →
      (∀ p ∈ restA ++ restB, data_of H p.1 = some p.2) →
      ∃ H1, (merge_loop lt this other fuel H (some (first_of restA t1))
            (some (first_of restB t2))).bind
          (fun s => merge_rest other f2 s.1 s.2.1 s.2.2) = some H1 ∧
        Linked H1 (h1 :: (List.map Prod.fst
          (done ++ List.merge restA restB (fun p q => !lt q.2 p.2)) ++ [t1])) ∧
        (∀ a, data_of H1 a = data_of H a) ∧
        (∀ a, a ∉ h1 :: (List.map Prod.fst (done ++ restA) ++ [t1]) →
          a ∉ List.map Prod.fst restB → load H1 (some a) = load H (some a)) := by
  have stop : ∀ (fuel : Nat) (restA restB : List (Nat × T)) (H : Heap T)
      (done : List (Nat × T)), restA = [] ∨ restB = [] → restB.length ≤ f2 →
      ((h1 :: (List.map Prod.fst (done ++ restA) ++ [t1])) ++
        (List.map Prod.fst restB ++ [t2])).Nodup →
      Linked H (h1 :: (List.map Prod.fst (done ++ restA) ++ [t1])) →
      Linked H (List.map Prod.fst restB ++ [t2]) →
      ∃ H1, (merge_loop lt this other fuel H (some (first_of restA t1))
            (some (first_of restB t2))).bind
          (fun s => merge_rest other f2 s.1 s.2.1 s.2.2) = some H1 ∧
        Linked H1 (h1 :: (List.map Prod.fst
          (done ++ List.merge restA restB (fun p q => !lt q.2 p.2)) ++ [t1])) ∧
        (∀ a, data_of H1 a = data_of H a) ∧
        (∀ a, a ∉ h1 :: (List.map Prod.fst (done ++ restA) ++ [t1]) →
          a ∉ List.map Prod.fst restB → load H1 (some a) = load H (some a)) := by
    intro fuel restA restB H done hor hf2 hnd hl1 hl2
    obtain ⟨H1, hm, hl3, hd, hf⟩ :=
      merge_rest_spec other h1 t1 t2 ht2 restB f2 H done restA hf2 hnd hl1 hl2
    have hcond : ¬ ((some (first_of restA t1) : Option Nat) ≠ end_ this ∧
        (some (first_of restB t2) : Option Nat) ≠ end_ other) := by
      unfold end_
      rw [ht1, ht2]
      rcases hor with e | e
      · rw [e, first_of_nil]
        simp
      · rw [e, first_of_nil]
        simp
    have hmerge : List.merge restA restB (fun p q => !lt q.2 p.2) = restB ++ restA := by
      rcases hor with e | e
      · rw [e, List.nil_merge, List.append_nil]
      · rw [e, List.merge_right, List.nil_append]
    refine ⟨H1, ?_, ?_, hd, hf⟩
    · cases fuel with
      | zero =>
        simp only [merge_loop]
        rw [if_neg hcond, Option.some_bind]
        exact hm
      | succ f =>
        simp only [merge_loop]
        rw [if_neg hcond, Option.some_bind]
        exact hm
    · rw [hmerge]
      exact hl3
  intro fuel
  induction fuel with
  | zero =>
    intro restA restB H done hf hf2 hnd hl1 hl2 _
    have hor : restA = [] ∨ restB = [] := by
      left
      exact List.length_eq_zero.mp (by omega)
    exact stop 0 restA restB H done hor hf2 hnd hl1 hl2
  | succ f ih =>
    intro restA restB H done hf hf2 hnd hl1 hl2 hdata
    cases restA with
    | nil => exact stop (f + 1) [] restB H done (Or.inl rfl) hf2 hnd hl1 hl2
    | cons a restA =>
      cases restB with
      | nil => exact stop (f + 1) (a :: restA) [] H done (Or.inr rfl) hf2 hnd hl1 hl2
      | cons b restB =>
        have hcond : (some a.1 : Option Nat) ≠ end_ this ∧
            (some b.1 : Option Nat) ≠ end_ other := by
          unfold end_
          rw [ht1, ht2]
          have hn1 := (List.nodup_append.mp hnd).1
          have hn2 := (List.nodup_append.mp hnd).2.1
          constructor
          · intro e
            have hn3 := (List.nodup_append.mp (List.nodup_cons.mp hn1).2).2.2
            exact hn3 (List.mem_map_of_mem _
              (List.mem_append_right _ (List.mem_cons_self _ _)))
              (List.mem_singleton.mpr (Option.some.inj e))
          · intro e
            rw [List.map_cons, List.cons_append, List.nodup_cons] at hn2
            exact hn2.1 (by rw [Option.some.inj e]; simp)
        simp only [merge_loop, first_of_cons]
        rw [if_pos hcond, deref_of_data_of (hdata b (by simp)), Option.some_bind,
          deref_of_data_of (hdata a (by simp)), Option.some_bind, List.cons_merge_cons]
        by_cases c : lt b.2 a.2 = true
        · rw [if_pos c]
          have c2 : ¬ ((!lt b.2 a.2) = true) := by simp [c]
          rw [if_neg c2]
          obtain ⟨L, P, R1, R2, ec1, ec2, ec3, ec4⟩ :=
            merge_chains_eq h1 t1 t2 done (a :: restA) restB b
          have hnd3 : ((L ++ P :: b.1 :: first_of (a :: restA) t1 :: R1) ++
              first_of restB t2 :: R2).Nodup := by
            have := hnd
            rw [ec1, ec2] at this
            have e : L ++ P :: first_of (a :: restA) t1 :: R1 =
                (L ++ [P]) ++ first_of (a :: restA) t1 :: R1 := by
              simp only [List.append_assoc, List.cons_append, List.nil_append]
            have e2 : L ++ P :: b.1 :: first_of (a :: restA) t1 :: R1 =
                (L ++ [P]) ++ b.1 :: first_of (a :: restA) t1 :: R1 := by
              simp only [List.append_assoc, List.cons_append, List.nil_append]
            rw [e] at this
            rw [e2]
            exact nodup_move _ _ _ _ this
          have ha1 : ∀ x, x ∉ h1 :: (List.map Prod.fst (done ++ a :: restA) ++ [t1]) →
              x ∉ L ++ P :: first_of (a :: restA) t1 :: R1 := by
            intro x hx
            rw [← ec1]
            exact hx
          rw [ec1, ec2] at hnd
          rw [ec1] at hl1
          rw [ec2] at hl2
          obtain ⟨H4, hm, hl3, hl4, hd4, hf4⟩ :=
            merge_move_chain H L R1 R2 P (first_of (a :: restA) t1) b.1 (first_of restB t2)
              hnd hl1 hl2
          rw [← ec3] at hl3 hnd3
          rw [← ec4] at hl4 hnd3
          rw [first_of_cons] at hm
          rw [hm, Option.some_bind]
          obtain ⟨H5, hm5, hl5, hd5, hf5⟩ :=
            ih (a :: restA) restB H4 (done ++ [b]) (by simp at hf ⊢; omega)
              (by simp at hf2; omega) hnd3 hl3 hl4 (by
                intro p hp
                rw [hd4]
                exact hdata p (by
                  simp only [List.mem_append, List.mem_cons] at hp ⊢
                  tauto))
          rw [first_of_cons] at hm5
          refine ⟨H5, hm5, ?_, ?_, ?_⟩
          · simpa only [List.append_assoc, List.cons_append, List.nil_append] using hl5
          · intro x
            rw [hd5, hd4]
          · intro x hx1 hx2
            have hmem := ha1 x hx1
            have hb : x ≠ b.1 := by
              intro e
              exact hx2 (by rw [e]; simp)
            rw [hf5 x ?_ ?_, hf4 x ?_ ?_ hb]
            · intro e
              exact hmem (by rw [e]; simp)
            · intro e
              exact hmem (by rw [e]; simp)
            · rw [ec3]
              intro hin
              apply hmem
              simp only [List.mem_append, List.mem_cons] at hin ⊢
              tauto
            · intro hin
              exact hx2 (List.mem_map.mpr (by
                obtain ⟨q, hq, e⟩ := List.mem_map.mp hin
                exact ⟨q, List.mem_cons_of_mem _ hq, e⟩))
        · rw [if_neg c]
          have c2 : (!lt b.2 a.2) = true := by simpa using c
          rw [if_pos c2]
          have hl1a : Linked H (h1 :: (List.map Prod.fst ((done ++ [a]) ++ restA) ++ [t1])) := by
            simpa only [List.append_assoc, List.cons_append, List.nil_append] using hl1
          have hnda : ((h1 :: (List.map Prod.fst ((done ++ [a]) ++ restA) ++ [t1])) ++
              (List.map Prod.fst (b :: restB) ++ [t2])).Nodup := by
            simpa only [List.append_assoc, List.cons_append, List.nil_append] using hnd
          rw [incr_of_next_of (linked_next_of_node hl1), Option.some_bind]
          obtain ⟨H5, hm5, hl5, hd5, hf5⟩ :=
            ih restA (b :: restB) H (done ++ [a]) (by simp at hf ⊢; omega) hf2 hnda hl1a hl2
              (by
                intro p hp
                exact hdata p (by
                  simp only [List.mem_append, List.mem_cons] at hp ⊢
                  tauto))
          rw [first_of_cons] at hm5
          refine ⟨H5, hm5, ?_, hd5, ?_⟩
          · simpa only [List.append_assoc, List.cons_append, List.nil_append] using hl5
          · intro x hx1 hx2
            refine hf5 x ?_ hx2
            simpa only [List.append_assoc, List.cons_append, List.nil_append] using hx1

theorem linked_tail {T : Type} {H : Heap T} {a : Nat} {c : List Nat}
    (h : Linked H (a :: c)) : Linked H c := by
  cases c with
  | nil => trivial
  | cons b c => exact h.2

/-- A chain in a heap in which its nodes are as before. -/
theorem linked_frame {T : Type} {H H1 : Heap T} (c : List Nat)
    (hf : ∀ a ∈ c, load H1 (some a) = load H (some a)) (h : Linked H c) : Linked H1 c := by
  refine linked_congr c ?_ ?_ h
  · intro a ha
    unfold next_of
    rw [hf a (List.mem_of_mem_dropLast ha)]
  · intro a ha
    unfold prev_of
    rw [hf a (List.mem_of_mem_tail ha)]

/-- A well-formed list in a heap in which its nodes are as before. -/
theorem Rep.frame {T : Type} {H H1 : Heap T} {l : list} {h t : Nat} {nodes : List (Nat × T)}
    (hr : Rep H l h nodes t)
    (hf : ∀ a ∈ h :: (nodes.map Prod.fst ++ [t]), load H1 (some a) = load H (some a)) :
    Rep H1 l h nodes t := by
  obtain ⟨hh, ht, hlen, hb, hnd, hl, hdata⟩ := hr
  refine ⟨hh, ht, hlen, hb, hnd, linked_frame _ hf hl, ?_⟩
  intro p hp
  unfold data_of
  rw [hf p.1 (List.mem_cons_of_mem _ (List.mem_append_left _ (List.mem_map_of_mem _ hp)))]
  exact hdata p hp

/-- The function `merge` on two well-formed lists that are different objects
and share no node: the nodes of the other list are merged into this list, and
the other list is left empty. -/
theorem merge_spec {T : Type} (lt : T → T → Bool) (H : Heap T) (this other : list)
    (h1 t1 h2 t2 : Nat) (A B : List (Nat × T)) (hr1 : Rep H this h1 A t1)
    (hr2 : Rep H other h2 B t2)
    (hdis : ((h1 :: (A.map Prod.fst ++ [t1])) ++ (h2 :: (B.map Prod.fst ++ [t2]))).Nodup)
    (hsz : A.length + B.length < 18446744073709551616) :
    ∃ H1 this1 other1, merge lt H this other = some (H1, this1, other1) ∧
      Rep H1 this1 h1 (List.merge A B (fun p q => !lt q.2 p.2)) t1 ∧
      Rep H1 other1 h2 [] t2 ∧
      (∀ a, a ∉ h1 :: (A.map Prod.fst ++ [t1]) → a ∉ h2 :: (B.map Prod.fst ++ [t2]) →
        load H1 (some a) = load H (some a)) := by
  obtain ⟨hh1, ht1, hlen1, hb1, hnd1, hl1, hdata1⟩ := hr1
  obtain ⟨hh2, ht2, hlen2, hb2, hnd2, hl2, hdata2⟩ := hr2
  have hdis2 := (List.nodup_append.mp hdis).2.2
  have hh12 : h1 ≠ h2 := by
    intro e
    exact hdis2 (List.mem_cons_self _ _) (by rw [e]; exact List.mem_cons_self _ _)
  have hh2t2 : h2 ≠ t2 := by
    intro e
    exact (List.nodup_cons.mp hnd2).1 (by rw [← e]; simp)
  have hh2c : h2 ∉ h1 :: (A.map Prod.fst ++ [t1]) :=
    fun hin => hdis2 hin (List.mem_cons_self _ _)
  have ht2c : t2 ∉ h1 :: (A.map Prod.fst ++ [t1]) :=
    fun hin => hdis2 hin (by simp)
  have hh2B : h2 ∉ B.map Prod.fst := by
    intro hin
    exact (List.nodup_cons.mp hnd2).1 (List.mem_append_left _ hin)
  have ht2B : t2 ∉ B.map Prod.fst := by
    intro hin
    exact (List.nodup_append.mp (List.nodup_cons.mp hnd2).2).2.2 hin (List.mem_singleton.mpr rfl)
  have hnd3 : ((h1 :: (List.map Prod.fst ([] ++ A) ++ [t1])) ++
      (List.map Prod.fst B ++ [t2])).Nodup := by
    rw [List.nil_append]
    exact hdis.sublist
      (List.Sublist.append (List.Sublist.refl _) (List.sublist_cons_self _ _))
  obtain ⟨H1, hm, hl3, hd3, hf3⟩ :=
    merge_loop_spec lt this other h1 t1 t2 ht1 ht2 B.length (A.length + B.length) A B H []
      (Nat.le_refl _) (Nat.le_refl _) hnd3 hl1 (linked_tail hl2) (by
        intro p hp
        rcases List.mem_append.mp hp with hp | hp
        · exact hdata1 p hp
        · exact hdata2 p hp)
  obtain ⟨s, hs1, hs2⟩ := Option.bind_eq_some.mp hm
  obtain ⟨Nh, hNh⟩ : ∃ n, load H (some h2) = some n := by
    obtain ⟨n, hn, _⟩ := load_of_next_of (linked_next_of_head hl2)
    exact ⟨n, hn⟩
  obtain ⟨Nt, hNt⟩ : ∃ n, load H (some t2) = some n := by
    obtain ⟨P, hP⟩ := linked_prev_of_tail hl2
    obtain ⟨n, hn, _⟩ := load_of_prev_of hP
    exact ⟨n, hn⟩
  have hNh1 : load H1 (some h2) = some Nh := by
    rw [hf3 h2 hh2c hh2B, hNh]
  have hNt1 : load H1 (some t2) = some Nt := by
    rw [hf3 t2 ht2c ht2B, hNt]
  obtain ⟨H2, e2, _, f2, n2e, p2e, d2e⟩ := set_next_effect hNh1 (some t2)
  have hNt2 : load H2 (some t2) = some Nt := by
    rw [f2 t2 (Ne.symm hh2t2), hNt1]
  obtain ⟨H3, e3, _, f3, n3e, p3e, d3e⟩ := set_prev_effect hNt2 (some h2)
  have hperm : (List.map Prod.fst (List.merge A B (fun p q => !lt q.2 p.2))).Perm
      (A.map Prod.fst ++ B.map Prod.fst) := by
    rw [← List.map_append]
    exact (List.merge_perm_append _).map _
  have hmemM : ∀ a, a ∈ h1 :: (List.map Prod.fst (List.merge A B (fun p q => !lt q.2 p.2)) ++
      [t1]) → a ∈ h1 :: (A.map Prod.fst ++ [t1]) ∨ a ∈ B.map Prod.fst := by
    intro a ha
    simp only [List.mem_cons, List.mem_append, hperm.mem_iff, List.mem_singleton] at ha ⊢
    tauto
  refine ⟨H3, { this with m_len := (this.m_len + size other) % 18446744073709551616 },
    { other with m_len := 0 }, ?_, ⟨hh1, ht1, ?_, ?_, ?_, ?_, ?_⟩,
    ⟨hh2, ht2, rfl, Nat.zero_lt_succ _, ?_, ?_, ?_⟩, ?_⟩
  · unfold merge
    rw [if_pos (by rw [hh1, hh2]; intro e; exact hh12 (Option.some.inj e))]
    have hb1e : begin H this = some (some (first_of A t1)) := by
      obtain ⟨n, hn, hv⟩ := load_of_next_of (linked_next_of_head hl1)
      unfold begin
      rw [hh1, hn, Option.some_bind, hv]
    have hb2e : begin H other = some (some (first_of B t2)) := by
      obtain ⟨n, hn, hv⟩ := load_of_next_of (linked_next_of_head hl2)
      unfold begin
      rw [hh2, hn, Option.some_bind, hv]
    rw [hb1e, Option.some_bind, hb2e, Option.some_bind, hlen1, hlen2, hs1, Option.some_bind,
      hs2, Option.some_bind, hh2, ht2, e2, Option.some_bind, e3, Option.some_bind]
  · show (this.m_len + size other) % 18446744073709551616 = _
    unfold size
    rw [List.length_merge, hlen1, hlen2]
    omega
  · rw [List.length_merge]
    exact hsz
  · have hsub : (h1 :: ((A.map Prod.fst ++ B.map Prod.fst) ++ [t1])).Nodup := by
      have h5 : (h1 :: ((A.map Prod.fst ++ B.map Prod.fst) ++ [t1])).Perm
          ((h1 :: (A.map Prod.fst ++ [t1])) ++ B.map Prod.fst) := by
        refine List.Perm.cons _ ?_
        show ((A.map Prod.fst ++ B.map Prod.fst) ++ [t1]).Perm
          ((A.map Prod.fst ++ [t1]) ++ B.map Prod.fst)
        simp only [List.append_assoc]
        exact List.Perm.append_left _ List.perm_append_comm
      refine (List.Perm.nodup_iff h5).mpr ?_
      exact hdis.sublist (List.Sublist.append (List.Sublist.refl _)
        ((List.sublist_append_left _ _).cons _))
    refine (List.Perm.nodup_iff ?_).mpr hsub
    exact List.Perm.cons _ (List.Perm.append_right _ hperm)
  · refine linked_frame _ ?_ hl3
    intro a ha
    have hne1 : a ≠ h2 := by
      intro e
      rcases hmemM a ha with h5 | h5
      · exact hh2c (e ▸ h5)
      · exact hh2B (e ▸ h5)
    have hne2 : a ≠ t2 := by
      intro e
      rcases hmemM a ha with h5 | h5
      · exact ht2c (e ▸ h5)
      · exact ht2B (e ▸ h5)
    rw [f3 a hne2, f2 a hne1]
  · intro p hp
    rw [d3e, d2e, hd3]
    rcases List.mem_merge.mp hp with hp | hp
    · exact hdata1 p hp
    · exact hdata2 p hp
  · simp only [List.map_nil, List.nil_append, List.nodup_cons, List.mem_singleton,
      List.not_mem_nil, not_false_eq_true, List.nodup_nil, and_true]
    exact hh2t2
  · refine ⟨⟨?_, ?_⟩, trivial⟩
    · rw [n3e, n2e, if_pos rfl]
    · rw [p3e, if_pos rfl]
  · intro p hp
    exact absurd hp (List.not_mem_nil p)
  · intro a ha1 ha2
    have hne1 : a ≠ h2 := fun e => ha2 (by rw [e]; exact List.mem_cons_self _ _)
    have hne2 : a ≠ t2 := fun e => ha2 (by rw [e]; simp)
    rw [f3 a hne2, f2 a hne1]
    refine hf3 a ?_ ?_
    · rw [List.nil_append]
      exact ha1
    · intro hin
      exact ha2 (List.mem_cons_of_mem _ (List.mem_append_left _ hin))

end sc.list

/-! ## The doubly linked list: `sort` -/

namespace sc.list

/-- The call `std::advance(it, k)` from a node of a chain. -/
theorem advance_spec {T : Type} (H : Heap T) (h t : Nat) :
    ∀ (k : Nat) (pre rest : List (Nat × T)),
      Linked H (h :: (List.map Prod.fst (pre ++ rest) ++ [t])) → k ≤ rest.length →
      advance H k (some (first_of rest t)) = some (some (first_of (rest.drop k) t)) := by
  intro k
  induction k with
  | zero =>
    intro pre rest _ _
    rfl
  | succ k ih =>
    intro pre rest hl hk
    cases rest with
    | nil => simp at hk
    | cons p rest =>
      have hl2 : Linked H (h :: (List.map Prod.fst ((pre ++ [p]) ++ rest) ++ [t])) := by
        simpa only [List.append_assoc, List.cons_append, List.nil_append] using hl
      simp only [advance, first_of_cons, List.drop_succ_cons]
      rw [incr_of_next_of (linked_next_of_node hl), Option.some_bind]
      exact ih (pre ++ [p]) rest hl2 (by simpa using hk)

theorem load_ge {T : Type} (H : Heap T) (a : Nat) (h : H.length ≤ a) :
    load H (some a) = none := by
  cases hl : load H (some a) with
  | none => rfl
  | some n =>
    have := load_lt hl
    omega

/-- The default constructor: two new nodes linked to each other. -/
theorem ctor_spec {T : Type} [Inhabited T] (H : Heap T) :
    ∃ Hc, ctor H = some (Hc, ⟨0, some H.length, some (H.length + 1)⟩) ∧
      Rep Hc ⟨0, some H.length, some (H.length + 1)⟩ H.length [] (H.length + 1) ∧
      (∀ a, a ≠ H.length → a ≠ H.length + 1 → load Hc (some a) = load H (some a)) := by
  have e0 : (alloc H (⟨default, none, none⟩ : Node T)).2 = some H.length := rfl
  have e1 : (alloc (alloc H (⟨default, none, none⟩ : Node T)).1
      (⟨default, none, none⟩ : Node T)).2 = some (H.length + 1) := by
    unfold alloc
    simp only [List.length_append, List.length_singleton]
  have hA : ∀ a, load (alloc (alloc H (⟨default, none, none⟩ : Node T)).1
      (⟨default, none, none⟩ : Node T)).1 (some a) =
      if a = H.length + 1 then some ⟨default, none, none⟩
      else if a = H.length then some ⟨default, none, none⟩ else load H (some a) := by
    intro a
    rw [load_alloc, load_alloc]
    have : (alloc H (⟨default, none, none⟩ : Node T)).1.length = H.length + 1 := by
      unfold alloc
      simp only [List.length_append, List.length_singleton]
    rw [this]
  have hh : load (alloc (alloc H (⟨default, none, none⟩ : Node T)).1
      (⟨default, none, none⟩ : Node T)).1 (some H.length) = some ⟨default, none, none⟩ := by
    rw [hA, if_neg (by omega), if_pos rfl]
  obtain ⟨H1, e2, l2, f2, n2e, p2e, d2e⟩ := set_next_effect hh (some (H.length + 1))
  have ht : load H1 (some (H.length + 1)) = some ⟨default, none, none⟩ := by
    rw [f2 _ (by omega), hA, if_pos rfl]
  obtain ⟨H2, e3, l3, f3, n3e, p3e, d3e⟩ := set_prev_effect ht (some H.length)
  refine ⟨H2, ?_, ⟨rfl, rfl, rfl, Nat.zero_lt_succ _, ?_, ⟨⟨?_, ?_⟩, trivial⟩, ?_⟩, ?_⟩
  · unfold ctor
    rw [e0, e1, e2, Option.some_bind, e3, Option.some_bind]
  · simp only [List.map_nil, List.nil_append, List.nodup_cons, List.mem_singleton,
      List.not_mem_nil, not_false_eq_true, List.nodup_nil, and_true]
    omega
  · rw [n3e, n2e, if_pos rfl]
  · rw [p3e, if_pos rfl]
  · intro p hp
    exact absurd hp (List.not_mem_nil p)
  · intro a h1 h2
    rw [f3 a h2, f2 a h1, hA, if_neg h2, if_neg h1]

/-- The destructor of an empty list: its two nodes are deleted. -/
theorem dtor_spec {T : Type} (H : Heap T) (r : list) (rh rt : Nat) (hr : Rep H r rh [] rt) :
    ∃ H1, dtor H r = some H1 ∧ load H1 (some rh) = none ∧ load H1 (some rt) = none ∧
      (∀ a, a ≠ rh → a ≠ rt → load H1 (some a) = load H (some a)) := by
  obtain ⟨hh, ht, hlen, _, hnd, hl, _⟩ := hr
  have hne : rh ≠ rt := by
    intro e
    exact (List.nodup_cons.mp hnd).1 (by rw [e]; simp)
  have hb : begin H r = some (some rt) := by
    obtain ⟨n, hn, hv⟩ := load_of_next_of hl.1.1
    unfold begin
    rw [hh, hn, Option.some_bind, hv]
  obtain ⟨Nh, hNh, _⟩ := load_of_next_of hl.1.1
  obtain ⟨Nt, hNt, _⟩ := load_of_prev_of hl.1.2
  have hlth := load_lt hNh
  have hltt := load_lt hNt
  have hNt1 : load (H.set rh none) (some rt) = some Nt := by
    rw [load_set, if_neg hne, hNt]
  refine ⟨(H.set rh none).set rt none, ?_, ?_, ?_, ?_⟩
  · unfold dtor clear erase_range
    rw [hb, Option.some_bind]
    have hlen0 : r.m_len = 0 := hlen
    have he : erase_range_loop r.m_len H r (some rt) (end_ r) = some (H, r) := by
      rw [hlen0]
      simp only [erase_range_loop, end_, ht]
      rw [if_neg (by simp)]
    rw [he]
    simp only [Option.some_bind]
    rw [hh, ht, free_eq hNh, Option.some_bind, free_eq hNt1]
  · rw [load_set, if_neg (Ne.symm hne), load_set, if_pos rfl, if_pos hlth]
  · rw [load_set, if_pos rfl, List.length_set, if_pos hltt]
  · intro a h1 h2
    rw [load_set, if_neg (Ne.symm h2), load_set, if_neg (Ne.symm h1)]

/-- The statements of `sort` that cut a list in two: the nodes `A2` from
`it_half` on go to the empty list `right`, the nodes `A1` before stay. -/
theorem sort_split_spec {T : Type} (Hc : Heap T) (l right : list) (h t rh rt : Nat)
    (A1 A2 : List (Nat × T)) (q : Nat × T)
    (hr : Rep Hc l h (A1 ++ q :: A2) t) (hrr : Rep Hc right rh [] rt)
    (hdis : ((h :: (List.map Prod.fst (A1 ++ q :: A2) ++ [t])) ++ [rh, rt]).Nodup) :
    ∃ H6, sort_split Hc l right (some q.1) A1.length =
        some (H6, { l with m_len := A1.length },
          { right with m_len := size l - A1.length }) ∧
      Rep H6 { l with m_len := A1.length } h A1 t ∧
      Rep H6 { right with m_len := size l - A1.length } rh (q :: A2) rt ∧
      ((h :: (List.map Prod.fst A1 ++ [t])) ++
        (rh :: (List.map Prod.fst (q :: A2) ++ [rt]))).Nodup ∧
      (∀ a, a ∉ h :: (List.map Prod.fst (A1 ++ q :: A2) ++ [t]) → a ≠ rh → a ≠ rt →
        load H6 (some a) = load Hc (some a)) := by
  obtain ⟨hh, ht, hlen, hb, hnd, hl, hdata⟩ := hr
  obtain ⟨hrh, hrt, _, _, _, hlr, _⟩ := hrr
  obtain ⟨L1, P1, hC1⟩ := exists_snoc (A1.map Prod.fst) h
  obtain ⟨L2, P2, hC2⟩ := exists_snoc (A2.map Prod.fst) q.1
  have hchain : h :: (List.map Prod.fst (A1 ++ q :: A2) ++ [t]) =
      (L1 ++ [P1]) ++ ((q.1 :: A2.map Prod.fst) ++ [t]) := by
    rw [← hC1]
    simp only [List.map_append, List.map_cons, List.append_assoc, List.cons_append]
  have hmemchain : ∀ a, a ∈ h :: (List.map Prod.fst (A1 ++ q :: A2) ++ [t]) ↔
      a ∈ L1 ++ [P1] ∨ a ∈ q.1 :: A2.map Prod.fst ∨ a = t := by
    intro a
    rw [hchain]
    simp only [List.mem_append, List.mem_singleton]
  rw [hchain] at hdis hl
  have ha := List.nodup_append.mp hdis
  have hb2 := List.nodup_append.mp ha.1
  have hc := List.nodup_append.mp hb2.2.1
  have n1 : (L1 ++ [P1]).Nodup := hb2.1
  have n2 : (q.1 :: A2.map Prod.fst).Nodup := hc.1
  have d12 : ∀ a, a ∈ L1 ++ [P1] → a ∈ q.1 :: A2.map Prod.fst → False :=
    fun a h1 h2 => hb2.2.2 h1 (List.mem_append_left _ h2)
  have dt1 : t ∉ L1 ++ [P1] :=
    fun hin => hb2.2.2 hin (List.mem_append_right _ (List.mem_singleton_self t))
  have dt2 : t ∉ q.1 :: A2.map Prod.fst := fun hin => hc.2.2 hin (List.mem_singleton_self t)
  have drh1 : rh ∉ L1 ++ [P1] :=
    fun hin => ha.2.2 (List.mem_append_left _ hin) (List.mem_cons_self _ _)
  have drh2 : rh ∉ q.1 :: A2.map Prod.fst :=
    fun hin => ha.2.2 (List.mem_append_right _ (List.mem_append_left _ hin))
      (List.mem_cons_self _ _)
  have drht : rh ≠ t := fun e => ha.2.2
    (List.mem_append_right _ (List.mem_append_right _ (List.mem_singleton_self t)))
    (by rw [← e]; exact List.mem_cons_self _ _)
  have drt1 : rt ∉ L1 ++ [P1] :=
    fun hin => ha.2.2 (List.mem_append_left _ hin) (by simp)
  have drt2 : rt ∉ q.1 :: A2.map Prod.fst :=
    fun hin => ha.2.2 (List.mem_append_right _ (List.mem_append_left _ hin)) (by simp)
  have drtt : rt ≠ t := fun e => ha.2.2
    (List.mem_append_right _ (List.mem_append_right _ (List.mem_singleton_self t)))
    (by rw [← e]; simp)
  have drhrt : rh ≠ rt := by
    intro e
    exact (List.nodup_cons.mp ha.2.1).1 (by rw [e]; simp)
  have hP1C : P1 ∈ L1 ++ [P1] := by simp
  have hP2C : P2 ∈ q.1 :: A2.map Prod.fst := by rw [hC2]; simp
  have hxC : q.1 ∈ q.1 :: A2.map Prod.fst := List.mem_cons_self _ _
  have hP1L : P1 ∉ L1 := by
    intro hin
    exact (List.nodup_append.mp n1).2.2 hin (List.mem_singleton_self _)
  have hP2L : P2 ∉ L2 := by
    intro hin
    rw [hC2] at n2
    exact (List.nodup_append.mp n2).2.2 hin (List.mem_singleton_self _)
  have hxR : q.1 ∉ A2.map Prod.fst := (List.nodup_cons.mp n2).1
  -- the links of the chain
  have hL1 : Linked Hc (L1 ++ [P1]) := by
    have := (linked_append Hc P1 (q.1 :: (A2.map Prod.fst ++ [t])) L1).mp (by
      simpa only [List.append_assoc, List.cons_append, List.nil_append] using hl)
    exact this.1
  have hP1x : Link Hc P1 q.1 := by
    have := (linked_append Hc P1 (q.1 :: (A2.map Prod.fst ++ [t])) L1).mp (by
      simpa only [List.append_assoc, List.cons_append, List.nil_append] using hl)
    exact this.2.1
  have hxt : Linked Hc (L2 ++ P2 :: [t]) := by
    have := (linked_append Hc P1 (q.1 :: (A2.map Prod.fst ++ [t])) L1).mp (by
      simpa only [List.append_assoc, List.cons_append, List.nil_append] using hl)
    have h3 := this.2.2
    rw [← List.cons_append, hC2, List.append_assoc] at h3
    exact h3
  have hL2 : Linked Hc (L2 ++ [P2]) := ((linked_append Hc P2 [t] L2).mp hxt).1
  have hP2t : Link Hc P2 t := ((linked_append Hc P2 [t] L2).mp hxt).2.1
  have hrhrt : Link Hc rh rt := hlr.1
  -- the statements, one by one
  obtain ⟨Nt, hNt, hNtp⟩ := load_of_prev_of hP2t.2
  obtain ⟨Nrt, hNrt, _⟩ := load_of_prev_of hrhrt.2
  obtain ⟨H1, e1, _, f1, n1e, p1e, d1e⟩ := set_prev_effect hNrt (some P2)
  have hNt1 : load H1 (some t) = some Nt := by rw [f1 t (Ne.symm drtt), hNt]
  have hP2live : next_of H1 P2 = some (some t) := by rw [n1e]; exact hP2t.1
  obtain ⟨NP2, hNP2, _⟩ := load_of_next_of hP2live
  obtain ⟨H2, e2, _, f2, n2e, p2e, d2e⟩ := set_next_effect hNP2 (some rt)
  have hxne_rt : q.1 ≠ rt := fun e => drt2 (e ▸ hxC)
  have hxne_t : q.1 ≠ t := fun e => dt2 (e ▸ hxC)
  have hxprev2 : prev_of H2 q.1 = some (some P1) := by
    rw [p2e, p1e, if_neg hxne_rt]
    exact hP1x.2
  obtain ⟨Nx, hNx, hNxp⟩ := load_of_prev_of hxprev2
  have htprev2 : prev_of H2 t = some (some P2) := by
    rw [p2e, p1e, if_neg (Ne.symm drtt)]
    exact hP2t.2
  obtain ⟨Nt2, hNt2, _⟩ := load_of_prev_of htprev2
  obtain ⟨H3, e3, _, f3, n3e, p3e, d3e⟩ := set_prev_effect hNt2 (some P1)
  have hxprev3 : prev_of H3 q.1 = some (some P1) := by
    rw [p3e, if_neg hxne_t]
    exact hxprev2
  obtain ⟨Nx3, hNx3, hNx3p⟩ := load_of_prev_of hxprev3
  have hP1neP2 : P1 ≠ P2 := fun e => d12 P1 hP1C (e ▸ hP2C)
  have hP1next3 : next_of H3 P1 = some (some q.1) := by
    rw [n3e, n2e, if_neg hP1neP2, n1e]
    exact hP1x.1
  obtain ⟨NP1, hNP1, _⟩ := load_of_next_of hP1next3
  obtain ⟨H4, e4, _, f4, n4e, p4e, d4e⟩ := set_next_effect hNP1 (some t)
  have hrhneP1 : rh ≠ P1 := fun e => drh1 (e ▸ hP1C)
  have hrhneP2 : rh ≠ P2 := fun e => drh2 (e ▸ hP2C)
  have hrhnext4 : next_of H4 rh = some (some rt) := by
    rw [n4e, if_neg hrhneP1, n3e, n2e, if_neg hrhneP2, n1e]
    exact hrhrt.1
  obtain ⟨Nrh, hNrh, _⟩ := load_of_next_of hrhnext4
  obtain ⟨H5, e5, _, f5, n5e, p5e, d5e⟩ := set_next_effect hNrh (some q.1)
  have hxprev5 : prev_of H5 q.1 = some (some P1) := by
    rw [p5e, p4e]
    exact hxprev3
  obtain ⟨Nx5, hNx5, _⟩ := load_of_prev_of hxprev5
  obtain ⟨H6, e6, _, f6, n6e, p6e, d6e⟩ := set_prev_effect hNx5 (some rh)
  have hnext : ∀ a, next_of H6 a = if a = rh then some (some q.1) else
      if a = P1 then some (some t) else if a = P2 then some (some rt) else next_of Hc a := by
    intro a
    rw [n6e, n5e, n4e, n3e, n2e, n1e]
  have hprev : ∀ a, prev_of H6 a = if a = q.1 then some (some rh) else
      if a = t then some (some P1) else if a = rt then some (some P2) else prev_of Hc a := by
    intro a
    rw [p6e, p5e, p4e, p3e, p2e, p1e]
  have hdat : ∀ a, data_of H6 a = data_of Hc a := by
    intro a
    rw [d6e, d5e, d4e, d3e, d2e, d1e]
  have hlenA : (A1 ++ q :: A2).length = A1.length + (q :: A2).length := List.length_append _ _
  refine ⟨H6, ?_, ⟨hh, ht, rfl, ?_, ?_, ?_, ?_⟩, ⟨hrh, hrt, ?_, ?_, ?_, ?_, ?_⟩, ?_, ?_⟩
  · unfold sort_split
    rw [ht, hrt, hrh, hNt, Option.some_bind, hNtp, e1, Option.some_bind, hNt1,
      Option.some_bind, hNtp, e2, Option.some_bind, hNx, Option.some_bind, hNxp, e3,
      Option.some_bind, hNx3, Option.some_bind, hNx3p, e4, Option.some_bind, e5,
      Option.some_bind, e6, Option.some_bind]
  · rw [hlenA] at hb
    omega
  · rw [← List.cons_append, hC1]
    exact ha.1.sublist (List.Sublist.append (List.Sublist.refl _)
      (List.sublist_append_right _ _))
  · rw [← List.cons_append, hC1, List.append_assoc]
    refine (linked_append H6 P1 [t] L1).mpr ⟨?_, ⟨?_, ?_⟩, trivial⟩
    · refine linked_snoc_congr L1 P1 ?_ ?_ hL1
      · intro a ha1
        have hm : a ∈ L1 ++ [P1] := List.mem_append_left _ ha1
        have c1 : a ≠ rh := fun e => drh1 (e ▸ hm)
        have c2 : a ≠ P1 := fun e => hP1L (e ▸ ha1)
        have c3 : a ≠ P2 := fun e => d12 a hm (e ▸ hP2C)
        rw [hnext, if_neg c1, if_neg c2, if_neg c3]
      · intro b hb1
        have c1 : b ≠ q.1 := fun e => d12 b hb1 (e ▸ hxC)
        have c2 : b ≠ t := fun e => dt1 (e ▸ hb1)
        have c3 : b ≠ rt := fun e => drt1 (e ▸ hb1)
        rw [hprev, if_neg c1, if_neg c2, if_neg c3]
    · rw [hnext, if_neg (Ne.symm hrhneP1), if_pos rfl]
    · rw [hprev, if_neg (Ne.symm hxne_t), if_pos rfl]
  · intro p hp
    rw [hdat]
    exact hdata p (List.mem_append_left _ hp)
  · show size l - A1.length = (q :: A2).length
    unfold size
    rw [hlen, hlenA]
    omega
  · rw [hlenA] at hb
    omega
  · have hsub : (rh :: (q.1 :: A2.map Prod.fst ++ [rt])).Perm
        ((q.1 :: A2.map Prod.fst) ++ [rh, rt]) := by
      have : (rh :: (q.1 :: A2.map Prod.fst ++ [rt])).Perm
          ((q.1 :: A2.map Prod.fst) ++ rh :: [rt]) := List.perm_middle.symm
      exact this
    rw [List.map_cons]
    refine (List.Perm.nodup_iff hsub).mpr ?_
    exact hdis.sublist (List.Sublist.append
      ((List.sublist_append_left _ _).trans (List.sublist_append_right _ _))
      (List.Sublist.refl _))
  · rw [List.map_cons]
    refine ⟨⟨?_, ?_⟩, ?_⟩
    · rw [hnext, if_pos rfl]
    · rw [hprev, if_pos rfl]
    · show Linked H6 ((q.1 :: A2.map Prod.fst) ++ [rt])
      rw [hC2, List.append_assoc]
      refine (linked_append H6 P2 [rt] L2).mpr ⟨?_, ⟨?_, ?_⟩, trivial⟩
      · refine linked_congr _ ?_ ?_ hL2
        · intro a ha1
          rw [List.dropLast_concat] at ha1
          have hm : a ∈ q.1 :: A2.map Prod.fst := by
            rw [hC2]
            exact List.mem_append_left _ ha1
          have c1 : a ≠ rh := fun e => drh2 (e ▸ hm)
          have c2 : a ≠ P1 := fun e => d12 a (e ▸ hP1C) hm
          have c3 : a ≠ P2 := fun e => hP2L (e ▸ ha1)
          rw [hnext, if_neg c1, if_neg c2, if_neg c3]
        · intro b hb1
          rw [← hC2, List.tail_cons] at hb1
          have hm : b ∈ q.1 :: A2.map Prod.fst := List.mem_cons_of_mem _ hb1
          have c1 : b ≠ q.1 := fun e => hxR (e ▸ hb1)
          have c2 : b ≠ t := fun e => dt2 (e ▸ hm)
          have c3 : b ≠ rt := fun e => drt2 (e ▸ hm)
          rw [hprev, if_neg c1, if_neg c2, if_neg c3]
      · rw [hnext, if_neg (Ne.symm hrhneP2), if_neg (Ne.symm hP1neP2), if_pos rfl]
      · rw [hprev, if_neg (Ne.symm hxne_rt), if_neg drtt, if_pos rfl]
  · intro p hp
    rw [hdat]
    exact hdata p (List.mem_append_right _ hp)
  · refine (List.Perm.nodup_iff ?_).mpr hdis
    rw [← List.cons_append, hC1, List.map_cons]
    rw [List.perm_iff_count]
    intro a
    simp only [List.count_append, List.count_cons, List.count_nil]
    omega
  · intro a ha1 ha2 ha3
    have hmem := (hmemchain a).not.mp ha1
    simp only [not_or] at hmem
    rw [f6 a (fun e => hmem.2.1 (e ▸ hxC)), f5 a ha2, f4 a (fun e => hmem.1 (e ▸ hP1C)),
      f3 a hmem.2.2, f2 a (fun e => hmem.2.1 (e ▸ hP2C)), f1 a ha3]

/-- The merge that takes from the second list only what is less than the
next element of the first keeps two sorted lists sorted. -/
theorem sortedBy_merge_le {T : Type} (lt : T → T → Bool) (hc : sa.StrictWeakOrder lt) :
    ∀ l r : List T, sa.SortedBy lt l → sa.SortedBy lt r →
      sa.SortedBy lt (l.merge r (fun x y => !lt y x)) := by
  intro l
  induction l with
  | nil =>
    intro r _ hr
    rw [List.nil_merge]
    exact hr
  | cons a l ihl =>
    intro r
    induction r with
    | nil =>
      intro hl _
      rw [List.merge_right]
      exact hl
    | cons b r ihr =>
      intro hl hr
      have hl2 := List.pairwise_cons.mp hl
      have hr2 := List.pairwise_cons.mp hr
      rw [List.cons_merge_cons]
      by_cases hba : lt b a = true
      · have c : ¬ ((!lt b a) = true) := by simp [hba]
        rw [if_neg c]
        refine List.pairwise_cons.mpr ⟨?_, ihr hl hr2.2⟩
        intro x hx
        rcases List.mem_merge.mp hx with hx | hx
        · rcases List.mem_cons.mp hx with rfl | hx
          · exact hc.asymm b x hba
          · exact hc.neg_trans x a b (hl2.1 x hx) (hc.asymm b a hba)
        · exact hr2.1 x hx
      · have hba2 : lt b a = false := by simpa using hba
        have c : (!lt b a) = true := by simp [hba2]
        rw [if_pos c]
        refine List.pairwise_cons.mpr ⟨?_, ihl (b :: r) hl2.2 hr⟩
        intro x hx
        rcases List.mem_merge.mp hx with hx | hx
        · exact hl2.1 x hx
        · rcases List.mem_cons.mp hx with rfl | hx
          · exact hba2
          · exact hc.neg_trans x b a (hr2.1 x hx) hba2

/-- Every node of a chain of two or more nodes is alive. -/
theorem linked_live {T : Type} {H : Heap T} :
    ∀ c : List Nat, Linked H c → 2 ≤ c.length → ∀ a ∈ c, a < H.length := by
  intro c
  induction c with
  | nil => intro _ h2; simp at h2
  | cons x c ih =>
    cases c with
    | nil => intro _ h2; simp at h2
    | cons y c =>
      intro hl _ a ha
      rcases List.mem_cons.mp ha with e | ha
      · obtain ⟨n, hn, _⟩ := load_of_next_of hl.1.1
        rw [e]
        exact load_lt hn
      · cases c with
        | nil =>
          rw [List.mem_singleton.mp ha]
          obtain ⟨n, hn, _⟩ := load_of_prev_of hl.1.2
          exact load_lt hn
        | cons z c => exact ih hl.2 (by simp) a ha

theorem Rep.lt_length {T : Type} {H : Heap T} {l : list} {h t : Nat}
    {nodes : List (Nat × T)} (hr : Rep H l h nodes t) :
    ∀ a ∈ h :: (nodes.map Prod.fst ++ [t]), a < H.length :=
  linked_live _ hr.2.2.2.2.2.1 (by simp)

theorem mem_chain {T : Type} (h t a : Nat) (nodes : List (Nat × T)) :
    a ∈ h :: (nodes.map Prod.fst ++ [t]) ↔ a = h ∨ a ∈ nodes.map Prod.fst ∨ a = t := by
  simp only [List.mem_cons, List.mem_append, List.mem_singleton, List.not_mem_nil, or_false]

/-- The recursion of `sort` on a well-formed list: it returns within as many
levels as the list has nodes, the list is made of the same nodes in sorted
order, and the nodes outside the list are as before. -/
theorem sort_rec_spec {T : Type} [Inhabited T] (lt : T → T → Bool)
    (hc : sa.StrictWeakOrder lt) (fuel : Nat) :
    ∀ (H : Heap T) (l : list) (h t : Nat) (A : List (Nat × T)), Rep H l h A t →
      A.length ≤ fuel →
      ∃ H1 l1 A1, sort_rec lt fuel H l = some (H1, l1) ∧ Rep H1 l1 h A1 t ∧ A1.Perm A ∧
        sa.SortedBy lt (A1.map Prod.snd) ∧
        (∀ a, a ∉ h :: (A.map Prod.fst ++ [t]) → load H1 (some a) = load H (some a)) := by
  induction fuel with
  | zero =>
    intro H l h t A hr hf
    refine ⟨H, l, A, ?_, hr, List.Perm.refl _, ?_, fun _ _ => rfl⟩
    · have hlt : ¬ (size l ≥ 2) := by
        unfold size
        rw [hr.2.2.1]
        omega
      simp only [sort_rec]
      rw [if_neg hlt]
    · exact sa.sortedBy_of_length_le lt _ (by rw [List.length_map]; omega)
  | succ f ih =>
    intro H l h t A hr hf
    by_cases hn : A.length < 2
    · refine ⟨H, l, A, ?_, hr, List.Perm.refl _, ?_, fun _ _ => rfl⟩
      · have hlt : ¬ (size l ≥ 2) := by
          unfold size
          rw [hr.2.2.1]
          omega
        simp only [sort_rec]
        rw [if_neg hlt]
      · exact sa.sortedBy_of_length_le lt _ (by rw [List.length_map]; omega)
    · obtain ⟨m, hm⟩ : ∃ m, m = A.length / 2 := ⟨_, rfl⟩
      have hm1 : 1 ≤ m := by omega
      have hm2 : m < A.length := by omega
      obtain ⟨A1, hA1⟩ : ∃ A1, A1 = A.take m := ⟨_, rfl⟩
      obtain ⟨q, A2, hA2⟩ : ∃ q A2, A.drop m = q :: A2 := by
        cases hd : A.drop m with
        | nil =>
          have := congrArg List.length hd
          rw [List.length_drop] at this
          simp at this
          omega
        | cons q A2 => exact ⟨q, A2, rfl⟩
      have hA : A = A1 ++ q :: A2 := by
        rw [hA1, ← hA2, List.take_append_drop]
      have hA1len : A1.length = m := by
        rw [hA1, List.length_take]
        omega
      have hA2len : (q :: A2).length = A.length - m := by
        rw [← hA2, List.length_drop]
      have hszl : size l = A.length := hr.2.2.1
      -- the middle of the list
      have hadv : advance H (size l / 2) (some (first_of A t)) = some (some q.1) := by
        have hl0 : Linked H (h :: (List.map Prod.fst ([] ++ A) ++ [t])) := hr.2.2.2.2.2.1
        rw [hszl, ← hm, advance_spec H h t m [] A hl0 (by omega), hA2, first_of_cons]
      -- the list `right`
      obtain ⟨Hc, hctor, hrc, hfc⟩ := ctor_spec H
      have hlive := hr.lt_length
      have hrh : H.length ∉ h :: (A.map Prod.fst ++ [t]) := by
        intro hin
        have := hlive _ hin
        omega
      have hrt : H.length + 1 ∉ h :: (A.map Prod.fst ++ [t]) := by
        intro hin
        have := hlive _ hin
        omega
      have hr0 : Rep Hc l h A t := by
        refine hr.frame ?_
        intro a ha
        exact hfc a (fun e => hrh (e ▸ ha)) (fun e => hrt (e ▸ ha))
      have hdis0 : ((h :: (List.map Prod.fst A ++ [t])) ++ [H.length, H.length + 1]).Nodup := by
        refine List.nodup_append.mpr ⟨hr.2.2.2.2.1, ?_, ?_⟩
        · simp
        · intro a ha hb
          simp only [List.mem_cons, List.mem_singleton, List.not_mem_nil, or_false] at hb
          rcases hb with e | e
          · exact hrh (e ▸ ha)
          · exact hrt (e ▸ ha)
      rw [hA] at hr0 hdis0
      obtain ⟨H6, hsplit, hr6, hrr6, hnd6, hf6⟩ :=
        sort_split_spec Hc l ⟨0, some H.length, some (H.length + 1)⟩ h t H.length
          (H.length + 1) A1 A2 q hr0 hrc hdis0
      -- the two halves
      obtain ⟨H7, l7, B1, hs7, hr7, hp7, hso7, hf7⟩ :=
        ih H6 _ h t A1 hr6 (by omega)
      have hdisj : ∀ a, a ∈ h :: (A1.map Prod.fst ++ [t]) →
          a ∈ H.length :: (List.map Prod.fst (q :: A2) ++ [H.length + 1]) → False :=
        fun a h1 h2 => (List.nodup_append.mp hnd6).2.2 h1 h2
      have hrr7 : Rep H7 { (⟨0, some H.length, some (H.length + 1)⟩ : list) with
          m_len := size l - A1.length } H.length (q :: A2) (H.length + 1) := by
        refine hrr6.frame ?_
        intro a ha
        exact hf7 a (fun hin => hdisj a hin ha)
      obtain ⟨H8, r8, B2, hs8, hr8, hp8, hso8, hf8⟩ :=
        ih H7 _ H.length (H.length + 1) (q :: A2) hrr7 (by omega)
      have hmemB1 : ∀ a, a ∈ h :: (B1.map Prod.fst ++ [t]) ↔
          a ∈ h :: (A1.map Prod.fst ++ [t]) := by
        intro a
        rw [mem_chain, mem_chain, (hp7.map Prod.fst).mem_iff]
      have hmemB2 : ∀ a, a ∈ H.length :: (B2.map Prod.fst ++ [H.length + 1]) ↔
          a ∈ H.length :: (List.map Prod.fst (q :: A2) ++ [H.length + 1]) := by
        intro a
        rw [mem_chain, mem_chain, (hp8.map Prod.fst).mem_iff]
      have hr7b : Rep H8 l7 h B1 t := by
        refine hr7.frame ?_
        intro a ha
        exact hf8 a (fun hin => hdisj a ((hmemB1 a).mp ha) hin)
      have hnd8 : ((h :: (B1.map Prod.fst ++ [t])) ++
          (H.length :: (B2.map Prod.fst ++ [H.length + 1]))).Nodup := by
        refine (List.Perm.nodup_iff ?_).mpr hnd6
        exact List.Perm.append (List.Perm.cons _ (List.Perm.append_right _ (hp7.map _)))
          (List.Perm.cons _ (List.Perm.append_right _ (hp8.map _)))
      have hlenB : B1.length + B2.length = A.length := by
        rw [hp7.length_eq, hp8.length_eq, hA1len, hA2len]
        omega
      obtain ⟨H9, l9, r9, hmg, hr9, hrr9, hf9⟩ :=
        merge_spec lt H8 l7 r8 h t H.length (H.length + 1) B1 B2 hr7b hr8 hnd8 (by
          rw [hlenB]
          exact hr.2.2.2.1)
      obtain ⟨H10, hdt, hx1, hx2, hf10⟩ := dtor_spec H9 r9 H.length (H.length + 1) hrr9
      have hpermM : (List.merge B1 B2 (fun p q => !lt q.2 p.2)).Perm A := by
        refine (List.merge_perm_append _).trans ?_
        rw [hA]
        exact List.Perm.append hp7 hp8
      have hmemM : ∀ a, a ∈ h :: (List.map Prod.fst (List.merge B1 B2
          (fun p q => !lt q.2 p.2)) ++ [t]) ↔ a ∈ h :: (A.map Prod.fst ++ [t]) := by
        intro a
        rw [mem_chain, mem_chain, (hpermM.map Prod.fst).mem_iff]
      have hmemA : ∀ a, a ∉ h :: (A.map Prod.fst ++ [t]) →
          a ∉ h :: (A1.map Prod.fst ++ [t]) ∧ a ∉ List.map Prod.fst (q :: A2) := by
        intro a ha
        rw [hA] at ha
        simp only [List.mem_cons, List.mem_append, List.mem_singleton, List.map_append,
          List.map_cons, not_or] at ha ⊢
        tauto
      refine ⟨H10, l9, List.merge B1 B2 (fun p q => !lt q.2 p.2), ?_, ?_, hpermM, ?_, ?_⟩
      · simp only [sort_rec]
        have hge : size l ≥ 2 := by rw [hszl]; omega
        rw [if_pos hge, hr.begin_eq, Option.some_bind, hadv,
          Option.some_bind, hctor, Option.some_bind]
        have e : size l / 2 = A1.length := by rw [hszl, hA1len, hm]
        rw [e, hsplit, Option.some_bind, hs7, Option.some_bind, hs8, Option.some_bind, hmg,
          Option.some_bind, hdt, Option.some_bind]
      · refine hr9.frame ?_
        intro a ha
        have ha2 := (hmemM a).mp ha
        exact hf10 a (fun e => hrh (e ▸ ha2)) (fun e => hrt (e ▸ ha2))
      · have e : List.map Prod.snd (List.merge B1 B2 (fun p q => !lt q.2 p.2)) =
            List.merge (B1.map Prod.snd) (B2.map Prod.snd) (fun x y => !lt y x) :=
          List.map_merge (fun _ _ _ _ => rfl)
        rw [e]
        exact sortedBy_merge_le lt hc _ _ hso7 hso8
      · intro a ha
        obtain ⟨ha1, ha2⟩ := hmemA a ha
        by_cases c1 : a = H.length
        · rw [c1, hx1, load_ge H _ (Nat.le_refl _)]
        · by_cases c2 : a = H.length + 1
          · rw [c2, hx2, load_ge H _ (by omega)]
          · have hn2 : a ∉ H.length :: (List.map Prod.fst (q :: A2) ++ [H.length + 1]) := by
              rw [mem_chain]
              tauto
            rw [hf10 a c1 c2, hf9 a (fun hin => ha1 ((hmemB1 a).mp hin))
              (fun hin => hn2 ((hmemB2 a).mp hin)), hf8 a hn2, hf7 a ha1,
              hf6 a (by rw [← hA]; exact ha) c1 c2, hfc a c1 c2]

/-- C36: for an operator `<` that is a strict weak ordering and every
well-formed list, alone in the heap or not, `sort()` returns and leaves a
well-formed list of the same size whose elements are a permutation of the
previous ones in non-decreasing order (no element is less than one before it,
so no adjacent pair has next < previous).  For every second well-formed list
`b` that is a different object and shares no node with the first, both in
non-decreasing order, `a.merge(b)` returns and leaves `a` well-formed and in
non-decreasing order, holding a permutation of the elements of both, with size
`a.size() + b.size()`, and leaves `b` empty.  The sizes are `size_t` values:
the nodes of the two lists are fewer than `2^64`. -/
theorem sort_result {T : Type} [Inhabited T] (lt : T → T → Bool)
    (hc : sa.StrictWeakOrder lt) (H : Heap T) (a : list) (h1 t1 : Nat)
    (A : List (Nat × T)) (hra : Rep H a h1 A t1) :
    (∃ H1 a1 A1, sort lt H a = some (H1, a1) ∧ Rep H1 a1 h1 A1 t1 ∧ size a1 = size a ∧
      contents H a = some (A.map Prod.snd) ∧ contents H1 a1 = some (A1.map Prod.snd) ∧
      (A1.map Prod.snd).Perm (A.map Prod.snd) ∧ sa.SortedBy lt (A1.map Prod.snd) ∧
      (∀ i x y, (A1.map Prod.snd)[i]? = some x → (A1.map Prod.snd)[i + 1]? = some y →
        lt y x = false)) ∧
    (∀ (b : list) (h2 t2 : Nat) (B : List (Nat × T)), Rep H b h2 B t2 →
      ((h1 :: (A.map Prod.fst ++ [t1])) ++ (h2 :: (B.map Prod.fst ++ [t2]))).Nodup →
      A.length + B.length < 18446744073709551616 →
      sa.SortedBy lt (A.map Prod.snd) → sa.SortedBy lt (B.map Prod.snd) →
      ∃ H1 a1 b1 M, merge lt H a b = some (H1, a1, b1) ∧ Rep H1 a1 h1 M t1 ∧
        Rep H1 b1 h2 [] t2 ∧ contents H1 a1 = some (M.map Prod.snd) ∧
        (M.map Prod.snd).Perm (A.map Prod.snd ++ B.map Prod.snd) ∧
        sa.SortedBy lt (M.map Prod.snd) ∧
        (∀ i x y, (M.map Prod.snd)[i]? = some x → (M.map Prod.snd)[i + 1]? = some y →
          lt y x = false) ∧
        size a1 = size a + size b ∧ contents H1 b1 = some [] ∧ size b1 = 0 ∧
        empty b1 = true) := by
  constructor
  · obtain ⟨H1, a1, A1, hs, hr1, hp, hso, _⟩ :=
      sort_rec_spec lt hc a.m_len H a h1 t1 A hra (by rw [hra.2.2.1])
    refine ⟨H1, a1, A1, hs, hr1, ?_, hra.contents_eq, hr1.contents_eq, hp.map _, hso,
      fun i x y hx hy => hso.adjacent i x y hx hy⟩
    unfold size
    rw [hr1.2.2.1, hra.2.2.1, hp.length_eq]
  · intro b h2 t2 B hrb hdis hsz hsa hsb
    obtain ⟨H1, a1, b1, hm, hr1, hr2, _⟩ :=
      merge_spec lt H a b h1 t1 h2 t2 A B hra hrb hdis hsz
    have e : List.map Prod.snd (List.merge A B (fun p q => !lt q.2 p.2)) =
        List.merge (A.map Prod.snd) (B.map Prod.snd) (fun x y => !lt y x) :=
      List.map_merge (fun _ _ _ _ => rfl)
    have hso : sa.SortedBy lt (List.map Prod.snd (List.merge A B (fun p q => !lt q.2 p.2))) := by
      rw [e]
      exact sortedBy_merge_le lt hc _ _ hsa hsb
    refine ⟨H1, a1, b1, _, hm, hr1, hr2, hr1.contents_eq, ?_, hso,
      fun i x y hx hy => hso.adjacent i x y hx hy, ?_, hr2.contents_eq, hr2.2.2.1, ?_⟩
    · rw [← List.map_append]
      exact (List.merge_perm_append _).map _
    · unfold size
      rw [hr1.2.2.1, hra.2.2.1, hrb.2.2.1, List.length_merge]
    · unfold empty
      rw [hr2.2.2.1]
      rfl

theorem sort_result_witness :
    ctor_ilist ([] : Heap Int) [3, 1, 2] = some (one_list, ⟨3, some 0, some 1⟩) ∧
    Rep one_list ⟨3, some 0, some 1⟩ 0 [(2, 3), (3, 1), (4, 2)] 1 ∧
    (∃ H1 a1, sort sa.less one_list ⟨3, some 0, some 1⟩ = some (H1, a1) ∧ size a1 = 3) ∧
    ((sort sa.less one_list ⟨3, some 0, some 1⟩).bind fun r => contents r.1 r.2) =
      some [1, 2, 3] ∧
    ((ctor_ilist ([] : Heap Int) [1, 4]).bind fun s =>
        (ctor_ilist s.1 [2, 5]).bind fun s2 => some (s2.1, s.2, s2.2)) =
      some (two_lists, ⟨2, some 0, some 1⟩, ⟨2, some 4, some 5⟩) ∧
    Rep two_lists ⟨2, some 0, some 1⟩ 0 [(2, 1), (3, 4)] 1 ∧
    Rep two_lists ⟨2, some 4, some 5⟩ 4 [(6, 2), (7, 5)] 5 ∧
    (∃ H1 a1 b1, merge sa.less two_lists ⟨2, some 0, some 1⟩ ⟨2, some 4, some 5⟩ =
      some (H1, a1, b1) ∧ size a1 = 4 ∧ size b1 = 0) := by
  refine ⟨by decide, by decide, ?_, by decide, by decide, by decide, by decide, ?_⟩
  · obtain ⟨H1, a1, A1, hs, _, hsz, _⟩ :=
      (sort_result sa.less sa.less_strictWeakOrder one_list ⟨3, some 0, some 1⟩ 0 1
        [(2, 3), (3, 1), (4, 2)] (by decide)).1
    exact ⟨H1, a1, hs, hsz⟩
  · obtain ⟨H1, a1, b1, M, hm, _, _, _, _, _, _, hsz, _, hsz2, _⟩ :=
      (sort_result sa.less sa.less_strictWeakOrder two_lists ⟨2, some 0, some 1⟩ 0 1
        [(2, 1), (3, 4)] (by decide)).2 ⟨2, some 4, some 5⟩ 4 5 [(6, 2), (7, 5)]
        (by decide) (by decide) (by decide) (by decide) (by decide)
    exact ⟨H1, a1, b1, hm, hsz, hsz2⟩

end sc.list
